import Mathlib

/-!
Corpus curation pipeline of mdsmith: a shallow embedding.

Sources: `internal/corpus/dedup.go` (this part) and `internal/corpus/clone.go` (the part
on source resolution further down).

Modelling conventions.

* A Go slice is a `List`; `append(out, x)` is `out ++ [x]`; a `for _, x := range xs`
  loop is a structurally recursive function over the remaining elements that
  threads the loop state.
* A Go `map[string]bool` that is only read with `m[k]` is a total function
  `String → Bool` (an absent key reads `false`); a write is `Function.update`.
  A `map[string]struct{}` is a `Finset String`.
* Go `int` values are `Int` (no length or counter in this file can overflow).
* `float64` values are rationals `ℚ`. In `dedup.go` every float64 operation,
  conversion and comparison takes the nearest float64 of its operands and of its
  result (`float64Round`, section "float64 arithmetic"); `math.Floor` and
  `math.Ceil` are exact. The lint rule further down only stores and compares
  float64 settings. NaN, the infinities and the exponent range are outside the
  model.
* `sort.Slice` with the less function `a.RecordID < b.RecordID` is a sort by
  `RecordID`; the model sorts stably. Go leaves the relative order of records
  with equal `RecordID` unspecified, so statements about that order assume
  pairwise distinct `RecordID`s.
-/

namespace Corpus

/-- Category of a record: a string drawn from the taxonomy `AllCategories()`. -/
abbrev Category := String

/-- Modelled from the spec: the record type `collectedRecord`, whose declaration is
not part of the available source. The fields are the ones `dedup.go` reads. -/
structure collectedRecord where
  RecordID : String
  ContentSHA256 : String
  tokenSet : Finset String
  Category : Category
  IsReadme : Bool
deriving DecidableEq

/-- Modelled from the spec: `BalanceRange`, the fractional share bounds of a category;
its declaration is not part of the available source. -/
structure BalanceRange where
  Min : ℚ
  Max : ℚ
deriving DecidableEq

/-! ## Exact deduplication -/

/-- Loop of `dropExactDuplicates`: state `seen`, `out`, `dropped`. -/
def dropExactDuplicatesLoop :
    List collectedRecord → (String → Bool) → List collectedRecord → Int →
      List collectedRecord × Int
  | [], _, out, dropped => (out, dropped)
  | record :: rest, seen, out, dropped =>
    if seen record.ContentSHA256 then
      dropExactDuplicatesLoop rest seen out (dropped + 1)
    else
      dropExactDuplicatesLoop rest (Function.update seen record.ContentSHA256 true)
        (out ++ [record]) dropped

/-- Embedding of `dropExactDuplicates`. -/
def dropExactDuplicates (records : List collectedRecord) : List collectedRecord × Int :=
  dropExactDuplicatesLoop records (fun _ => false) [] 0

/-! ## float64 arithmetic

A `float64` is represented by a rational number. A rational that enters a float64
operation or a float64 comparison is first rounded to the nearest float64 by
`float64Round`: a rational that is a float64 is left as it is, a decimal such as `0.28`
becomes the float64 that a Go literal or a parsed setting of that value denotes, and the
exact result of an operation becomes the float64 result of that operation. The exponent
range is not represented (no overflow, no subnormal numbers), nor are NaN and the
infinities; the conversions `int(x)` are taken on values below `2^63`. -/

/-- Rounding of a non-negative rational to the nearest integer, ties to even. -/
def roundHalfEven (q : ℚ) : Nat :=
  let f := (Int.floor q).toNat
  let r := q - (f : ℚ)
  if r < 1 / 2 then f
  else if r > 1 / 2 then f + 1
  else if f % 2 = 0 then f else f + 1

/-- The float64 nearest to a rational: 53 significant bits, round to nearest, ties to
even (the rounding of IEEE 754 binary64 arithmetic and of the conversion `float64(n)`). -/
def float64Round (q : ℚ) : ℚ :=
  if q = 0 then 0
  else
    let e : ℤ := Int.log 2 |q| - 52
    let m : ℚ := (roundHalfEven (|q| / (2 : ℚ) ^ e) : ℚ) * (2 : ℚ) ^ e
    if q < 0 then -m else m

/-! ## Near-duplicate removal -/

/-- Embedding of `jaccard`: the quotient of the two counts. The float64 that the Go
function returns is the rounding of this quotient, taken where the value is used. -/
def jaccard (a b : Finset String) : ℚ :=
  if a.card = 0 ∨ b.card = 0 then 0
  else
    let intersection : Int := ((a.filter (fun token => token ∈ b)).card : Int)
    let union : Int := (a.card : Int) + (b.card : Int) - intersection
    if union = 0 then 0
    else (intersection : ℚ) / (union : ℚ)

/-- Embedding of `nearDuplicateOfAny`: `score >= threshold` compares two float64s. -/
def nearDuplicateOfAny (candidate : collectedRecord) :
    List collectedRecord → ℚ → Bool
  | [], _ => false
  | current :: kept, threshold =>
    let score := float64Round (jaccard candidate.tokenSet current.tokenSet)
    if score ≥ float64Round threshold then true
    else nearDuplicateOfAny candidate kept threshold

/-- Loop of `dropNearDuplicates`: state `out`, `dropped`. -/
def dropNearDuplicatesLoop (threshold : ℚ) :
    List collectedRecord → List collectedRecord → Int → List collectedRecord × Int
  | [], out, dropped => (out, dropped)
  | candidate :: rest, out, dropped =>
    if nearDuplicateOfAny candidate out threshold then
      dropNearDuplicatesLoop threshold rest out (dropped + 1)
    else
      dropNearDuplicatesLoop threshold rest (out ++ [candidate]) dropped

/-- Embedding of `dropNearDuplicates`. -/
def dropNearDuplicates (records : List collectedRecord) (threshold : ℚ) :
    List collectedRecord × Int :=
  dropNearDuplicatesLoop threshold records [] 0

/-! ## Readme cap -/

/-- The call `sort.Slice(xs, func(i, j) bool { return xs[i].RecordID < xs[j].RecordID })`. -/
def sortByRecordID (xs : List collectedRecord) : List collectedRecord :=
  xs.insertionSort (fun a b => a.RecordID ≤ b.RecordID)

/-- Partition loop of `capReadmes`: state `readmes`, `nonReadmes`. -/
def partitionReadmes :
    List collectedRecord → List collectedRecord → List collectedRecord →
      List collectedRecord × List collectedRecord
  | [], readmes, nonReadmes => (readmes, nonReadmes)
  | record :: rest, readmes, nonReadmes =>
    if record.IsReadme then partitionReadmes rest (readmes ++ [record]) nonReadmes
    else partitionReadmes rest readmes (nonReadmes ++ [record])

/-- The cap computed in `capReadmes` from `maxShare` and `len(nonReadmes)`:
`int(math.Floor((maxShare * float64(n)) / (1 - maxShare)))`, raised to 1 if smaller. The
product, the difference and the quotient are float64 operations. -/
def maxReadmeCount (maxShare : ℚ) (nonReadmeCount : Int) : Int :=
  let share : ℚ := float64Round maxShare
  let product : ℚ := float64Round (share * float64Round (nonReadmeCount : ℚ))
  let rest : ℚ := float64Round (1 - share)
  let maxReadmes : Int := Int.floor (float64Round (product / rest))
  if maxReadmes < 1 then 1 else maxReadmes

/-- Embedding of `capReadmes`. The guards `maxShare <= 0` and `maxShare >= 1` compare
`maxShare` itself, which is the comparison of the code for every float64. -/
def capReadmes (records : List collectedRecord) (maxShare : ℚ) :
    List collectedRecord × Int :=
  if maxShare ≤ 0 ∨ records.length = 0 then (records, 0)
  else if maxShare ≥ 1 then (records, 0)
  else
    let parts := partitionReadmes records [] []
    let readmes := parts.1
    let nonReadmes := parts.2
    if nonReadmes.length = 0 then ([], (readmes.length : Int))
    else
      let maxReadmes := maxReadmeCount maxShare (nonReadmes.length : Int)
      if (readmes.length : Int) ≤ maxReadmes then (records, 0)
      else
        let readmes := sortByRecordID readmes
        let keptReadmes := readmes.take maxReadmes.toNat
        let dropped : Int := (readmes.length : Int) - (keptReadmes.length : Int)
        let combined := sortByRecordID (nonReadmes ++ keptReadmes)
        (combined, dropped)

/-! ## Category balance -/

/-- Modelled from the spec: a `map[Category]BalanceRange`, as an association list with
one entry per configured category; `ranges[c]` is `List.lookup`. -/
abbrev Ranges := List (Category × BalanceRange)

/-- Embedding of `filterKeptRecords`. -/
def filterKeptRecords : List collectedRecord → (String → Bool) → List collectedRecord
  | [], _ => []
  | record :: rest, keptByID =>
    if keptByID record.RecordID then record :: filterKeptRecords rest keptByID
    else filterKeptRecords rest keptByID

/-- Embedding of `groupRecordsByCategory`; a missing key of the Go map reads as the
empty slice. -/
def groupRecordsByCategory (records : List collectedRecord) :
    Category → List collectedRecord :=
  records.foldl
    (fun groups record =>
      Function.update groups record.Category (groups record.Category ++ [record]))
    (fun _ => [])

/-- Innermost loop of `applyBalancePass`, over `group[maxCount:]`:
state `keptByID`, `droppedThisPass`. -/
def dropOverflow :
    List collectedRecord → (String → Bool) → Int → (String → Bool) × Int
  | [], keptByID, droppedThisPass => (keptByID, droppedThisPass)
  | overflow :: rest, keptByID, droppedThisPass =>
    if keptByID overflow.RecordID then
      dropOverflow rest (Function.update keptByID overflow.RecordID false)
        (droppedThisPass + 1)
    else dropOverflow rest keptByID droppedThisPass

/-- The per-category ceiling of `applyBalancePass`:
`int(math.Ceil(rng.Max * float64(total)))`, raised to 1 if smaller. The product is a
float64 operation. -/
def maxCountFor (rngMax : ℚ) (total : Int) : Int :=
  let maxCount : Int :=
    Int.ceil (float64Round (float64Round rngMax * float64Round (total : ℚ)))
  if maxCount < 1 then 1 else maxCount

/-- Category loop of `applyBalancePass`: state `keptByID`, `droppedThisPass`. -/
def applyBalancePassLoop (ranges : Ranges) (groups : Category → List collectedRecord)
    (total : Int) : List Category → (String → Bool) → Int → (String → Bool) × Int
  | [], keptByID, droppedThisPass => (keptByID, droppedThisPass)
  | category :: rest, keptByID, droppedThisPass =>
    match ranges.lookup category with
    | none => applyBalancePassLoop ranges groups total rest keptByID droppedThisPass
    | some rng =>
      if rng.Max ≤ 0 then
        applyBalancePassLoop ranges groups total rest keptByID droppedThisPass
      else
        let group := groups category
        if group.length = 0 then
          applyBalancePassLoop ranges groups total rest keptByID droppedThisPass
        else
          let maxCount := maxCountFor rng.Max total
          if (group.length : Int) ≤ maxCount then
            applyBalancePassLoop ranges groups total rest keptByID droppedThisPass
          else
            let group := sortByRecordID group
            let st := dropOverflow (group.drop maxCount.toNat) keptByID droppedThisPass
            applyBalancePassLoop ranges groups total rest st.1 st.2

/-- Embedding of `applyBalancePass`. The taxonomy `AllCategories()` is declared outside
the available source and is the parameter `allCategories`. The Go function updates
`keptByID` in place; here the updated map is returned with the count. -/
def applyBalancePass (allCategories : List Category) (ranges : Ranges)
    (keptByID : String → Bool) (groups : Category → List collectedRecord) (total : Int) :
    (String → Bool) × Int :=
  applyBalancePassLoop ranges groups total allCategories keptByID 0

/-- The `fmt` verb `%.4f` applied to the float64 `q`: fixed notation with four decimals,
the exact value of `q` rounded to the nearest, ties to even. -/
def formatFixed4 (q : ℚ) : String :=
  let scaled := roundHalfEven (|q| * 10000)
  let frac := toString (scaled % 10000)
  (if q < 0 then "-" else "") ++ toString (scaled / 10000) ++ "." ++
    String.mk (List.replicate (4 - frac.length) '0') ++ frac

/-- Count of the records of one category: `counts[category]` in `checkBalanceViolations`. -/
def countCategory (records : List collectedRecord) (category : Category) : Int :=
  records.foldl (fun n record => if record.Category = category then n + 1 else n) 0

/-- Loop of `checkBalanceViolations` over the configured ranges: state `violations`.
`share` is the float64 quotient `float64(counts[category]) / total` with
`total := float64(len(records))`. -/
def checkBalanceViolationsLoop (records : List collectedRecord) :
    List (Category × BalanceRange) → List String → List String
  | [], violations => violations
  | (category, rng) :: rest, violations =>
    let total : ℚ := float64Round (records.length : ℚ)
    let share : ℚ := float64Round (float64Round (countCategory records category : ℚ) / total)
    if share < float64Round rng.Min ∨ share > float64Round rng.Max then
      checkBalanceViolationsLoop records rest
        (violations ++ [category ++ " share " ++ formatFixed4 share ++ " outside [" ++
          formatFixed4 (float64Round rng.Min) ++ ", " ++
          formatFixed4 (float64Round rng.Max) ++ "]"])
    else checkBalanceViolationsLoop records rest violations

/-- Embedding of `checkBalanceViolations`; `sort.Strings` is a sort by `≤` on strings. -/
def checkBalanceViolations (records : List collectedRecord) (ranges : Ranges) :
    List String :=
  if ranges.length = 0 then []
  else if records.length = 0 then
    ["no records remain after balancing for configured balance ranges"]
  else
    (checkBalanceViolationsLoop records ranges []).insertionSort (fun a b => a ≤ b)

/-- Initialisation loop of `applyBalance`: `keptByID[record.RecordID] = true`. -/
def markAllKept : List collectedRecord → (String → Bool) → (String → Bool)
  | [], keptByID => keptByID
  | record :: rest, keptByID =>
    markAllKept rest (Function.update keptByID record.RecordID true)

/-- The unbounded `for` loop of `applyBalance`, run for at most `fuel` passes:
state `keptByID`, `dropped`. `none` means the passes were used up. -/
def applyBalanceLoop (allCategories : List Category) (records : List collectedRecord)
    (ranges : Ranges) : Nat → (String → Bool) → Int → Option ((String → Bool) × Int)
  | 0, _, _ => none
  | fuel + 1, keptByID, dropped =>
    let filtered := filterKeptRecords records keptByID
    let total : Int := (filtered.length : Int)
    if total = 0 then some (keptByID, dropped)
    else
      let groups := groupRecordsByCategory filtered
      let st := applyBalancePass allCategories ranges keptByID groups total
      let droppedThisPass := st.2
      if droppedThisPass = 0 then some (st.1, dropped + droppedThisPass)
      else applyBalanceLoop allCategories records ranges fuel st.1 (dropped + droppedThisPass)

/-- Embedding of `applyBalance`, with `len(records) + 1` passes of fuel for its loop
(`applyBalance_returns` shows that this is always enough). -/
def applyBalance (allCategories : List Category) (records : List collectedRecord)
    (ranges : Ranges) : Option (List collectedRecord × Int × List String) :=
  if ranges.length = 0 ∨ records.length = 0 then some (records, 0, [])
  else
    match applyBalanceLoop allCategories records ranges (records.length + 1)
        (markAllKept records (fun _ => false)) 0 with
    | none => none
    | some st =>
      let filtered := filterKeptRecords records st.1
      some (filtered, st.2, checkBalanceViolations filtered ranges)

/-! ## Specifications and proof devices -/


/-- Specification of exact deduplication, following the wording of the claim: the
records whose `ContentSHA256` does not occur at an earlier input position, in input
order. -/
def firstOccurrences (records : List collectedRecord) : List collectedRecord :=
  (records.enum.filter (fun p =>
    decide (p.2.ContentSHA256 ∉ (records.take p.1).map (fun r => r.ContentSHA256)))).map
    Prod.snd

/-- Proof device: the records of `rest` whose hash is neither in `pre` nor earlier in
`rest`. -/
def keepNew : List String → List collectedRecord → List collectedRecord
  | _, [] => []
  | pre, r :: rest =>
    if r.ContentSHA256 ∈ pre then keepNew (pre ++ [r.ContentSHA256]) rest
    else r :: keepNew (pre ++ [r.ContentSHA256]) rest

/-- Concrete record with the given identifier and token set (other fields fixed). -/
def tokenRecord (id : String) (tokens : Finset String) : collectedRecord :=
  { RecordID := id, ContentSHA256 := id, tokenSet := tokens, Category := "docs",
    IsReadme := false }

/-- Concrete record with the given identifier, category and readme flag. -/
def plainRecord (id : String) (category : Category) (readme : Bool) : collectedRecord :=
  { RecordID := id, ContentSHA256 := id, tokenSet := ∅, Category := category,
    IsReadme := readme }

/-- Three "docs" records and one "code" record. -/
def balanceRecords : List collectedRecord :=
  [plainRecord "r1" "docs" false, plainRecord "r2" "docs" false,
    plainRecord "r3" "docs" false, plainRecord "r4" "code" false]

/-- The ranges `{docs: {Min 0, Max 0.5}}`. -/
def balanceRanges : Ranges := [("docs", { Min := 0, Max := 1 / 2 })]

/-- Fraction of readme records in a list of records (the readme share). -/
def readmeShare (records : List collectedRecord) : ℚ :=
  ((records.filter (fun r => r.IsReadme)).length : ℚ) / (records.length : ℚ)

/-- One non-readme record followed by one readme record. -/
def oneOfEach : List collectedRecord :=
  [plainRecord "a" "docs" false, plainRecord "b" "docs" true]

/-- Ten non-readme and five readme records with pairwise distinct identifiers; the
readme records are not in identifier order. -/
def tenAndFive : List collectedRecord :=
  [plainRecord "r4" "docs" true, plainRecord "n0" "docs" false,
    plainRecord "n1" "docs" false, plainRecord "r2" "docs" true,
    plainRecord "n2" "docs" false, plainRecord "n3" "docs" false,
    plainRecord "r5" "docs" true, plainRecord "n4" "docs" false,
    plainRecord "n5" "docs" false, plainRecord "r1" "docs" true,
    plainRecord "n6" "docs" false, plainRecord "n7" "docs" false,
    plainRecord "r3" "docs" true, plainRecord "n8" "docs" false,
    plainRecord "n9" "docs" false]

/-- Four non-readme and three readme records with pairwise distinct identifiers. -/
def fourAndThree : List collectedRecord :=
  [plainRecord "n0" "docs" false, plainRecord "r1" "docs" true,
    plainRecord "n1" "docs" false, plainRecord "r2" "docs" true,
    plainRecord "n2" "docs" false, plainRecord "r3" "docs" true,
    plainRecord "n3" "docs" false]

/-- Eleven non-readme and eight readme records with pairwise distinct identifiers. -/
def elevenAndEight : List collectedRecord :=
  [plainRecord "n00" "docs" false, plainRecord "r1" "docs" true,
    plainRecord "n01" "docs" false, plainRecord "r2" "docs" true,
    plainRecord "n02" "docs" false, plainRecord "r3" "docs" true,
    plainRecord "n03" "docs" false, plainRecord "r4" "docs" true,
    plainRecord "n04" "docs" false, plainRecord "r5" "docs" true,
    plainRecord "n05" "docs" false, plainRecord "r6" "docs" true,
    plainRecord "n06" "docs" false, plainRecord "r7" "docs" true,
    plainRecord "n07" "docs" false, plainRecord "r8" "docs" true,
    plainRecord "n08" "docs" false, plainRecord "n09" "docs" false,
    plainRecord "n10" "docs" false]

/-- One "docs" record and two "code" records. -/
def oneDocTwoCode : List collectedRecord :=
  [plainRecord "a" "docs" false, plainRecord "b" "code" false, plainRecord "c" "code" false]

/-- The ranges `{docs: {Min 0, Max m}}` with `m` the float64 nearest to 1/3. -/
def thirdRanges : Ranges := [("docs", { Min := 0, Max := float64Round (1 / 3) })]

/-- Proof device: the records that one visit of `category` in `applyBalancePass` hands to
its innermost loop (the empty list when the visit `continue`s). -/
def overflowOf (ranges : Ranges) (groups : Category → List collectedRecord) (total : Int)
    (category : Category) : List collectedRecord :=
  match ranges.lookup category with
  | none => []
  | some rng =>
    if rng.Max ≤ 0 then []
    else if (groups category).length = 0 then []
    else if ((groups category).length : Int) ≤ maxCountFor rng.Max total then []
    else (sortByRecordID (groups category)).drop (maxCountFor rng.Max total).toNat

/-- The ranges `{docs: {Min 0.9, Max 0.5}}`: `balanceRanges` with another `Min`. -/
def balanceRangesOtherMin : Ranges := [("docs", { Min := 9 / 10, Max := 1 / 2 })]

/-- Share of a category among the kept records: `count_c(kept) / len(kept)`. -/
def categoryShare (kept : List collectedRecord) (category : Category) : ℚ :=
  ((kept.filter (fun r => decide (r.Category = category))).length : ℚ) / (kept.length : ℚ)

/-- Share of a category among the kept records as a float64: the float64 quotient of the
two counts. -/
def float64Share (kept : List collectedRecord) (category : Category) : ℚ :=
  float64Round
    (float64Round ((kept.filter (fun r => decide (r.Category = category))).length : ℚ) /
      float64Round (kept.length : ℚ))

/-- The violation text of the spec:
`"<category> share <share:.4f> outside [<min:.4f>, <max:.4f>]"`, the three numbers being
float64s. -/
def violationMessage (category : Category) (share : ℚ) (rng : BalanceRange) : String :=
  category ++ " share " ++ formatFixed4 share ++ " outside [" ++
    formatFixed4 (float64Round rng.Min) ++ ", " ++ formatFixed4 (float64Round rng.Max) ++ "]"

/-- Specification of the violation report: one message for each configured category whose
float64 share is below `Min` or above `Max`, taken in the given order of the configured
entries. -/
def expectedViolations (kept : List collectedRecord) (entries : List (Category × BalanceRange)) :
    List String :=
  (entries.filter (fun p =>
    decide (float64Share kept p.1 < float64Round p.2.Min ∨
      float64Share kept p.1 > float64Round p.2.Max))).map
    (fun p => violationMessage p.1 (float64Share kept p.1) p.2)

/-! ## Source resolution: Go library functions

Source: `internal/corpus/clone.go`. The functions of the Go standard library that it
calls are modelled here. A Go `string` is a Lean `String`, a sequence of Unicode code
points; Go's `len` and slicing count bytes, which is the same on ASCII text. File paths
follow the Unix rules of `path/filepath` (separator `/`, no volume names). -/

/-- The predicate `unicode.IsSpace`: the white space of `strings.TrimSpace`. -/
def unicodeIsSpace (c : Char) : Bool :=
  let n := c.toNat
  n = 9 || n = 10 || n = 11 || n = 12 || n = 13 || n = 32 || n = 133 || n = 160 ||
    n = 5760 || (8192 ≤ n && n ≤ 8202) || n = 8232 || n = 8233 || n = 8239 || n = 8287 ||
    n = 12288

/-- The function `strings.TrimSpace`. -/
def stringsTrimSpace (s : String) : String :=
  String.mk ((s.data.dropWhile unicodeIsSpace).rdropWhile unicodeIsSpace)

/-- The function `strings.HasPrefix`. -/
def stringsStartsWith (s p : String) : Bool :=
  p.data.isPrefixOf s.data

/-- The function `strings.HasSuffix`. -/
def stringsEndsWith (s p : String) : Bool :=
  p.data.isSuffixOf s.data

/-- The function `strings.TrimRight(s, cutset)`. -/
def stringsTrimRight (s cutset : String) : String :=
  String.mk (s.data.rdropWhile (fun c => cutset.data.contains c))

/-- The function `strings.TrimLeft(s, cutset)`. -/
def stringsTrimLeft (s cutset : String) : String :=
  String.mk (s.data.dropWhile (fun c => cutset.data.contains c))

/-- Whether `sub` occurs in `l` as a block of consecutive elements. -/
def hasBlock (sub : List Char) : List Char → Bool
  | [] => sub.isEmpty
  | c :: cs => sub.isPrefixOf (c :: cs) || hasBlock sub cs

/-- The function `strings.Contains`. -/
def stringsContains (s sub : String) : Bool :=
  hasBlock sub.data s.data

/-- The function `filepath.IsAbs` on Unix. -/
def filepathIsAbs (path : String) : Bool :=
  stringsStartsWith path "/"

/-- The elements of a path between its separators `/`. -/
def splitSlash : List Char → List (List Char)
  | [] => [[]]
  | c :: cs =>
    if c = '/' then [] :: splitSlash cs
    else
      match splitSlash cs with
      | [] => [[c]]
      | e :: es => (c :: e) :: es

/-- Element loop of `filepath.Clean`: `out` holds the elements written so far. Empty and
`.` elements are skipped; `..` removes the last written element unless there is none or
it is itself `..`, in which case it is kept on an unrooted path and discarded on a
rooted one. -/
def cleanElements (rooted : Bool) : List (List Char) → List (List Char) → List (List Char)
  | [], out => out
  | e :: rest, out =>
    if e = [] ∨ e = ['.'] then cleanElements rooted rest out
    else if e = ['.', '.'] then
      if out ≠ [] ∧ out.getLast? ≠ some ['.', '.'] then cleanElements rooted rest out.dropLast
      else if rooted then cleanElements rooted rest out
      else cleanElements rooted rest (out ++ [e])
    else cleanElements rooted rest (out ++ [e])

/-- The function `filepath.Clean` on Unix. -/
def filepathClean (path : String) : String :=
  let rooted := stringsStartsWith path "/"
  let out := cleanElements rooted (splitSlash path.data) []
  let body := List.intercalate ['/'] out
  if rooted then String.mk ('/' :: body)
  else if body = [] then "."
  else String.mk body

/-- The function `filepath.Join` on Unix: the elements from the first non-empty one on,
joined with `/` and cleaned; the empty string when every element is empty. -/
def filepathJoin (elem : List String) : String :=
  match elem.dropWhile (fun e => e = "") with
  | [] => ""
  | rest => filepathClean (String.mk (List.intercalate ['/'] (rest.map (fun e => e.data))))

/-- The function `filepath.FromSlash` on Unix, where the separator is `/`. -/
def filepathFromSlash (path : String) : String := path

/-- The table `hextable` of `encoding/hex`. -/
def hextable : List Char := "0123456789abcdef".data

/-- The function `hex.EncodeToString`: two digits of `hextable` per byte, high nibble
first. -/
def hexEncodeToString (bytes : List (Fin 256)) : String :=
  String.mk (bytes.flatMap (fun v =>
    [hextable.getD (v.val / 16) '0', hextable.getD (v.val % 16) '0']))

/-- Functions of the Go standard library that are taken as parameters: `strings.ToLower`
and `sha256.Sum256` (applied to the bytes of a string, with its 32 bytes of result). -/
structure GoLibrary where
  toLower : String → String
  sum256 : String → Fin 32 → Fin 256

/-! ## Source resolution: `clone.go`

Effects are made explicit. Every call that reaches outside the program (`os.Stat`,
`os.MkdirAll`, `GitRunner.Run`, the progress callback) is recorded as an `Event`; a
function that performs effects takes the trace of the events so far and returns the
extended trace. The outside world is an `Env`: it answers each call from the trace that
precedes it, so its answers may depend on everything that happened before. -/

/-- Modelled from the spec: `SourceConfig`, whose declaration is not part of the available
source. -/
structure SourceConfig where
  Name : String
  Root : String
  Repository : String
  CommitSHA : String
deriving DecidableEq

/-- Outcome of `os.Stat`: success, an error for which `os.IsNotExist` holds, or another
error with its text. -/
inductive StatResult where
  | ok
  | notExist
  | failed (err : String)
deriving DecidableEq

/-- Outcome of `GitRunner.Run`: the output, the error text if any, and the number of
heartbeat ticks that elapsed while the call was running. -/
structure GitOutcome where
  out : String
  err : Option String
  ticks : Nat
deriving DecidableEq

/-- An observable effect of the resolver. -/
inductive Event where
  | stat (path : String)
  | mkdirAll (path : String)
  | git (args : List String)
  | progress (message : String)
deriving DecidableEq

/-- The world outside the resolver: the file system and the `GitRunner`. -/
structure Env where
  stat : List Event → String → StatResult
  mkdirAll : List Event → String → Option String
  git : List Event → List String → GitOutcome

/-- The error returned by `classifyGitError`, by the `fmt.Errorf` call that builds it;
`original` is the runner's error returned unmodified. -/
inductive GitError where
  | repositoryNotFound (remote : String)
  | commitNotFound (commitSHA : String)
  | network (remote : String)
  | original (err : String)
deriving DecidableEq

/-- The errors of the resolver, one constructor per `fmt.Errorf` / `errors.New` call of
`clone.go`, carrying the values formatted into the message. -/
inductive ResolveError where
  | rootRequired (name : String)
  | localRootNotExist (name root : String)
  | localRootStat (name err : String)
  | repositoryRequired (name : String)
  | commitRequired (name : String)
  | cacheDirRequired
  | repository (name err : String)
  | createCacheDir (cacheDir err : String)
  | statCachedRepo (name err : String)
  | clone (name : String) (err : GitError)
  | checkCachedCommit (name err : String)
  | fetch (name commitSHA : String) (err : GitError)
  | checkout (name commitSHA err : String)
  | rootNotFoundInCommit (name root commitSHA : String)
  | statRepoRoot (name err : String)
deriving DecidableEq

/-- Embedding of `cacheKey`. -/
def cacheKey (lib : GoLibrary) (remote : String) : String :=
  let sum := lib.sum256 (lib.toLower (stringsTrimSpace remote))
  hexEncodeToString ((List.ofFn sum).take 8)

/-- Embedding of `normalizeRepository`. -/
def normalizeRepository (repository : String) : Except String String :=
  let repo := stringsTrimSpace repository
  if repo = "" then Except.error "repository is required"
  else if stringsStartsWith repo "git@" then Except.ok repo
  else if stringsStartsWith repo "ssh://" then Except.ok repo
  else if stringsStartsWith repo "http://" ∨ stringsStartsWith repo "https://" then
    let trimmed := stringsTrimRight repo "/"
    if stringsEndsWith trimmed ".git" then Except.ok trimmed
    else Except.ok (trimmed ++ ".git")
  else if stringsStartsWith repo "github.com/" then
    Except.ok ("https://" ++ stringsTrimRight repo "/" ++ ".git")
  else if stringsContains repo "/" ∧ ¬ filepathIsAbs repo ∧ ¬ stringsStartsWith repo "." then
    Except.ok ("https://github.com/" ++
      stringsTrimLeft (stringsTrimRight repo "/") "/" ++ ".git")
  else Except.ok repo

/-- Embedding of `classifyGitError`; `err` is the text `err.Error()`. -/
def classifyGitError (lib : GoLibrary) (err remote commitSHA : String) : GitError :=
  let text := lib.toLower err
  if stringsContains text "repository not found" ∨
      stringsContains text "could not read from remote repository" then
    GitError.repositoryNotFound remote
  else if stringsContains text "couldn't find remote ref" ∨
      stringsContains text "not our ref" then
    GitError.commitNotFound commitSHA
  else if stringsContains text "failed to connect" ∨ stringsContains text "timed out" ∨
      stringsContains text "could not resolve host" then
    GitError.network remote
  else GitError.original err

/-- Embedding of `shortCommit`. -/
def shortCommit (commitSHA : String) : String :=
  if commitSHA.length < 8 then commitSHA else String.mk (commitSHA.data.take 8)

/-- Embedding of `reportSourceProgress`; `message` is the formatted text and `progress`
tells whether the callback is non-nil. -/
def reportSourceProgress (progress : Bool) (message : String) (t : List Event) : List Event :=
  if progress then t ++ [Event.progress message] else t

/-- Embedding of `runGitWithHeartbeat`. The heartbeat goroutine reports `heartbeatMsg`
once per tick while the call is running; the ticks are the ones the world reports for
the call. -/
def runGitWithHeartbeat (env : Env) (args : List String) (progress : Bool)
    (startMsg heartbeatMsg : String) (t : List Event) :
    (String × Option String) × List Event :=
  let t1 := if progress ∧ startMsg ≠ "" then t ++ [Event.progress startMsg] else t
  let r := env.git t1 args
  if ¬ progress ∨ heartbeatMsg = "" then ((r.out, r.err), t1 ++ [Event.git args])
  else
    ((r.out, r.err),
      t1 ++ [Event.git args] ++ List.replicate r.ticks (Event.progress heartbeatMsg))

/-- Embedding of `validateLocalRoot`. -/
def validateLocalRoot (env : Env) (sourceName root : String) (t : List Event) :
    Except ResolveError String × List Event :=
  match env.stat t root with
  | StatResult.notExist =>
    (Except.error (ResolveError.localRootNotExist sourceName root), t ++ [Event.stat root])
  | StatResult.failed err =>
    (Except.error (ResolveError.localRootStat sourceName err), t ++ [Event.stat root])
  | StatResult.ok => (Except.ok (filepathClean root), t ++ [Event.stat root])

/-- Embedding of `validateRemoteSourceInputs`: the error, or `none` for `nil`. -/
def validateRemoteSourceInputs (src : SourceConfig) (cacheDir : String) :
    Option ResolveError :=
  if stringsTrimSpace src.Repository = "" then some (ResolveError.repositoryRequired src.Name)
  else if stringsTrimSpace src.CommitSHA = "" then some (ResolveError.commitRequired src.Name)
  else if stringsTrimSpace cacheDir = "" then some ResolveError.cacheDirRequired
  else none

/-- Embedding of `ensureRepoCached`. -/
def ensureRepoCached (lib : GoLibrary) (env : Env) (src : SourceConfig)
    (remote repoDir : String) (progress : Bool) (t : List Event) :
    Option ResolveError × List Event :=
  match env.stat t (filepathJoin [repoDir, ".git"]) with
  | StatResult.failed err =>
    (some (ResolveError.statCachedRepo src.Name err),
      t ++ [Event.stat (filepathJoin [repoDir, ".git"])])
  | StatResult.notExist =>
    let r := runGitWithHeartbeat env ["clone", "--no-checkout", remote, repoDir] progress
      ("source " ++ src.Name ++ ": cache miss, cloning repository")
      ("source " ++ src.Name ++ ": still cloning repository")
      (t ++ [Event.stat (filepathJoin [repoDir, ".git"])])
    match r.1.2 with
    | some runErr =>
      (some (ResolveError.clone src.Name (classifyGitError lib runErr remote src.CommitSHA)),
        r.2)
    | none => (none, r.2)
  | StatResult.ok =>
    (none, reportSourceProgress progress
      ("source " ++ src.Name ++ ": cache hit for repository")
      (t ++ [Event.stat (filepathJoin [repoDir, ".git"])]))

/-- Embedding of `cachedCommitExists`. -/
def cachedCommitExists (env : Env) (repoDir commitSHA : String) (t : List Event) :
    (Bool × Option String) × List Event :=
  let args := ["-C", repoDir, "cat-file", "-e", commitSHA ++ "^\x7bcommit\x7d"]
  match (env.git t args).err with
  | none => ((true, none), t ++ [Event.git args])
  | some err =>
    if stringsContains err "Not a valid object name" ∨ stringsContains err "invalid object" then
      ((false, none), t ++ [Event.git args])
    else if stringsContains err "unknown revision" then
      ((false, none), t ++ [Event.git args])
    else ((false, none), t ++ [Event.git args])

/-- Embedding of `ensurePinnedCommit`. -/
def ensurePinnedCommit (lib : GoLibrary) (env : Env) (src : SourceConfig)
    (repoDir remote : String) (progress : Bool) (t : List Event) :
    Option ResolveError × List Event :=
  let probe := cachedCommitExists env repoDir src.CommitSHA t
  match probe.1.2 with
  | some err => (some (ResolveError.checkCachedCommit src.Name err), probe.2)
  | none =>
    if probe.1.1 then
      (none, reportSourceProgress progress
        ("source " ++ src.Name ++ ": pinned commit " ++ shortCommit src.CommitSHA ++
          " already cached") probe.2)
    else
      let r := runGitWithHeartbeat env
        ["-C", repoDir, "fetch", "--depth", "1", "origin", src.CommitSHA] progress
        ("source " ++ src.Name ++ ": fetching pinned commit " ++ shortCommit src.CommitSHA)
        ("source " ++ src.Name ++ ": still fetching pinned commit " ++
          shortCommit src.CommitSHA)
        probe.2
      match r.1.2 with
      | some runErr =>
        (some (ResolveError.fetch src.Name src.CommitSHA
          (classifyGitError lib runErr remote src.CommitSHA)), r.2)
      | none => (none, r.2)

/-- Embedding of `checkoutPinnedCommit`. -/
def checkoutPinnedCommit (env : Env) (src : SourceConfig) (repoDir : String)
    (progress : Bool) (t : List Event) : Option ResolveError × List Event :=
  let r := runGitWithHeartbeat env
    ["-C", repoDir, "checkout", "--detach", "--force", src.CommitSHA] progress
    ("source " ++ src.Name ++ ": checking out commit " ++ shortCommit src.CommitSHA)
    ("source " ++ src.Name ++ ": still checking out commit " ++ shortCommit src.CommitSHA)
    t
  match r.1.2 with
  | some err => (some (ResolveError.checkout src.Name src.CommitSHA err), r.2)
  | none => (none, r.2)

/-- Embedding of `validateRepoRoot`. -/
def validateRepoRoot (env : Env) (src : SourceConfig) (root resolvedRoot : String)
    (t : List Event) : Except ResolveError String × List Event :=
  match env.stat t resolvedRoot with
  | StatResult.notExist =>
    (Except.error (ResolveError.rootNotFoundInCommit src.Name root src.CommitSHA),
      t ++ [Event.stat resolvedRoot])
  | StatResult.failed err =>
    (Except.error (ResolveError.statRepoRoot src.Name err), t ++ [Event.stat resolvedRoot])
  | StatResult.ok => (Except.ok (filepathClean resolvedRoot), t ++ [Event.stat resolvedRoot])

/-- Embedding of `resolveRemoteSource`. -/
def resolveRemoteSource (lib : GoLibrary) (env : Env) (src : SourceConfig)
    (root cacheDir : String) (progress : Bool) (t : List Event) :
    Except ResolveError String × List Event :=
  match validateRemoteSourceInputs src cacheDir with
  | some err => (Except.error err, t)
  | none =>
    match normalizeRepository src.Repository with
    | Except.error err => (Except.error (ResolveError.repository src.Name err), t)
    | Except.ok remote =>
      match env.mkdirAll t cacheDir with
      | some err =>
        (Except.error (ResolveError.createCacheDir cacheDir err),
          t ++ [Event.mkdirAll cacheDir])
      | none =>
        let repoDir := filepathJoin [cacheDir, cacheKey lib remote]
        let t1 := reportSourceProgress progress
          ("source " ++ src.Name ++ ": resolving repository in cache " ++ repoDir)
          (t ++ [Event.mkdirAll cacheDir])
        let cached := ensureRepoCached lib env src remote repoDir progress t1
        match cached.1 with
        | some err => (Except.error err, cached.2)
        | none =>
          let pinned := ensurePinnedCommit lib env src repoDir remote progress cached.2
          match pinned.1 with
          | some err => (Except.error err, pinned.2)
          | none =>
            let checkedOut := checkoutPinnedCommit env src repoDir progress pinned.2
            match checkedOut.1 with
            | some err => (Except.error err, checkedOut.2)
            | none =>
              let resolvedRoot := filepathJoin [repoDir, filepathFromSlash root]
              validateRepoRoot env src root resolvedRoot
                (reportSourceProgress progress
                  ("source " ++ src.Name ++ ": validating root " ++ resolvedRoot)
                  checkedOut.2)

/-- Embedding of `resolveSourceWithRunnerAndProgress`; the runner is the `git` of `env`,
`progress` tells whether the callback is non-nil, and `t` is the trace before the
call. -/
def resolveSourceWithRunnerAndProgress (lib : GoLibrary) (env : Env) (src : SourceConfig)
    (cacheDir : String) (progress : Bool) (t : List Event) :
    Except ResolveError String × List Event :=
  let root := stringsTrimSpace src.Root
  if root = "" then (Except.error (ResolveError.rootRequired src.Name), t)
  else if filepathIsAbs root then
    validateLocalRoot env src.Name root
      (reportSourceProgress progress
        ("source " ++ src.Name ++ ": using local override root " ++ root) t)
  else resolveRemoteSource lib env src root cacheDir progress t

/-- Embedding of `resolveSourceWithRunner`. -/
def resolveSourceWithRunner (lib : GoLibrary) (env : Env) (src : SourceConfig)
    (cacheDir : String) (t : List Event) : Except ResolveError String × List Event :=
  resolveSourceWithRunnerAndProgress lib env src cacheDir false t

/-- Embedding of `ResolveSource`; the default runner is the `git` of `env`. -/
def ResolveSource (lib : GoLibrary) (env : Env) (src : SourceConfig) (cacheDir : String)
    (t : List Event) : Except ResolveError String × List Event :=
  resolveSourceWithRunner lib env src cacheDir t

/-- Specification of `normalizeRepository` on a trimmed, non-blank repository string:
the case table of the spec, tried in order. -/
def normalizeTable (r : String) : String :=
  if stringsStartsWith r "git@" ∨ stringsStartsWith r "ssh://" then r
  else if stringsStartsWith r "http://" ∨ stringsStartsWith r "https://" then
    if stringsEndsWith (stringsTrimRight r "/") ".git" then stringsTrimRight r "/"
    else stringsTrimRight r "/" ++ ".git"
  else if stringsStartsWith r "github.com/" then
    "https://" ++ stringsTrimRight r "/" ++ ".git"
  else if stringsContains r "/" ∧ ¬ filepathIsAbs r ∧ ¬ stringsStartsWith r "." then
    "https://github.com/" ++ stringsTrimRight r "/" ++ ".git"
  else r

/-- Value of a lowercase hexadecimal digit. -/
def hexValue (c : Char) : Option Nat :=
  if 48 ≤ c.toNat ∧ c.toNat ≤ 57 then some (c.toNat - 48)
  else if 97 ≤ c.toNat ∧ c.toNat ≤ 102 then some (c.toNat - 87)
  else none

/-- Specification of lowercase hexadecimal text: the bytes that a text of digit pairs
denotes, high digit first; `none` if the text is not of that form. -/
def decodeHex : List Char → Option (List Nat)
  | [] => some []
  | [_] => none
  | h :: l :: rest =>
    match hexValue h, hexValue l, decodeHex rest with
    | some hv, some lv, some bytes => some ((16 * hv + lv) :: bytes)
    | _, _, _ => none

/-- A concrete library for examples: ASCII lower-casing and a constant digest. -/
def exampleLibrary : GoLibrary :=
  { toLower := fun s => String.mk (s.data.map Char.toLower), sum256 := fun _ _ => 0 }

/-- The seven spellings of the GitHub repository `owner/repo` named by the spec. -/
def githubSpellings (owner repo : String) : List String :=
  [owner ++ "/" ++ repo, owner ++ "/" ++ repo ++ "/",
    "github.com/" ++ owner ++ "/" ++ repo, "github.com/" ++ owner ++ "/" ++ repo ++ "/",
    "https://github.com/" ++ owner ++ "/" ++ repo,
    "https://github.com/" ++ owner ++ "/" ++ repo ++ "/",
    "https://github.com/" ++ owner ++ "/" ++ repo ++ ".git"]

/-- Modelled from the spec: the errors that the spec's taxonomy calls `ConfigError`, a
required input that is blank (`Root`, `Repository`, `CommitSHA`, `cacheDir`). -/
def ResolveError.isConfigError : ResolveError → Bool
  | ResolveError.rootRequired _ => true
  | ResolveError.repositoryRequired _ => true
  | ResolveError.commitRequired _ => true
  | ResolveError.cacheDirRequired => true
  | ResolveError.repository _ _ => true
  | _ => false

/-- Whether a result of the resolver is a configuration error. -/
def isConfigErrorResult : Except ResolveError String → Bool
  | Except.error e => e.isConfigError
  | Except.ok _ => false

/-- A world in which every path exists and every call succeeds at once. -/
def exampleEnv : Env :=
  { stat := fun _ _ => StatResult.ok, mkdirAll := fun _ _ => none,
    git := fun _ _ => { out := "", err := none, ticks := 0 } }

/-- A source with an absolute root and no repository or commit. -/
def localSource : SourceConfig :=
  { Name := "docs", Root := "/srv/docs", Repository := "", CommitSHA := "" }

/-! ## Text statistics (`internal/mdtext/mdtext.go`) -/

/-- Loop of `CountSentences` over `runes`, from the current rune on: state `count`. -/
def countSentencesLoop : List Char → Int → Int
  | [], count => count
  | r :: rest, count =>
    if r = '.' ∨ r = '!' ∨ r = '?' then
      match rest with
      | [] => countSentencesLoop rest (count + 1)
      | next :: _ =>
        if unicodeIsSpace next then countSentencesLoop rest (count + 1)
        else countSentencesLoop rest count
    else countSentencesLoop rest count

/-- Embedding of `CountSentences`. -/
def CountSentences (text : String) : Int :=
  if stringsTrimSpace text = "" then 0
  else
    let count := countSentencesLoop text.data 0
    if count = 0 then 1 else count

/-! ## Diagnostics and the runner (`internal/lint/diagnostic.go`, `internal/engine/runner.go`) -/

/-- Embedding of `lint.Diagnostic`; `Severity` is a string type. -/
structure Diagnostic where
  File : String
  Line : Int
  Column : Int
  RuleID : String
  RuleName : String
  Severity : String
  Message : String
deriving DecidableEq

/-- The less function of `sortDiagnostics`: the closure passed to `sort.Slice`, on the
two elements it compares. -/
def diagnosticLess (di dj : Diagnostic) : Bool :=
  if di.File ≠ dj.File then decide (di.File < dj.File)
  else if di.Line ≠ dj.Line then decide (di.Line < dj.Line)
  else decide (di.Column < dj.Column)

/-- Embedding of `sortDiagnostics`: a sort by `diagnosticLess` (the model sorts stably;
`sort.Slice` leaves the order of elements that compare equal unspecified). The Go
function sorts in place; here the sorted slice is returned. -/
def sortDiagnostics (diags : List Diagnostic) : List Diagnostic :=
  diags.insertionSort (fun a b => diagnosticLess b a = false)

/-- Embedding of `engine.Result`; the errors are kept as texts. -/
structure Result where
  Diagnostics : List Diagnostic
  Errors : List String
deriving DecidableEq

/-- The collaborators of the runner that are declared outside the available source,
taken as parameters: `config.IsIgnored` on the configured patterns, `os.ReadFile`,
`lint.NewFileFromSource` with the runner's `StripFrontMatter`, and
`config.Effective` followed by `CheckRules` on the runner's rules. `File` is the type
`lint.File`. -/
structure RunnerDeps (File : Type) where
  isIgnored : String → Bool
  readFile : String → Except String (List (Fin 256))
  newFileFromSource : String → List (Fin 256) → Except String File
  checkRules : File → String → List Diagnostic × List String

/-- Loop of `Runner.Run` over `paths`: state `res`. -/
def runLoop {File : Type} (deps : RunnerDeps File) : List String → Result → Result
  | [], res => res
  | path :: rest, res =>
    if deps.isIgnored path then runLoop deps rest res
    else
      match deps.readFile path with
      | Except.error err =>
        runLoop deps rest { res with Errors := res.Errors ++ ["reading " ++ path ++ ": " ++ err] }
      | Except.ok source =>
        match deps.newFileFromSource path source with
        | Except.error err =>
          runLoop deps rest
            { res with Errors := res.Errors ++ ["parsing " ++ path ++ ": " ++ err] }
        | Except.ok f =>
          let checked := deps.checkRules f path
          runLoop deps rest
            { Diagnostics := res.Diagnostics ++ checked.1, Errors := res.Errors ++ checked.2 }

/-- Embedding of `Runner.Run`. -/
def Run {File : Type} (deps : RunnerDeps File) (paths : List String) : Result :=
  let res := runLoop deps paths { Diagnostics := [], Errors := [] }
  { res with Diagnostics := sortDiagnostics res.Diagnostics }

/-- Embedding of `Runner.RunSource`. -/
def RunSource {File : Type} (deps : RunnerDeps File) (path : String)
    (source : List (Fin 256)) : Result :=
  match deps.newFileFromSource path source with
  | Except.error err => { Diagnostics := [], Errors := ["parsing " ++ path ++ ": " ++ err] }
  | Except.ok f =>
    let checked := deps.checkRules f path
    { Diagnostics := sortDiagnostics ([] ++ checked.1), Errors := [] ++ checked.2 }

/-- The order of the claim: lexicographic `≤` on `(File, Line, Column)`. -/
def diagnosticLE (a b : Diagnostic) : Prop :=
  a.File < b.File ∨ (a.File = b.File ∧ (a.Line < b.Line ∨ (a.Line = b.Line ∧ a.Column ≤ b.Column)))

/-! ## Files and the whitespace rules (`internal/lint/file.go`,
`internal/rules/nohardtabs/rule.go`, `internal/rules/notrailingspaces/rule.go`)

A `[]byte` and a `string` holding bytes are lists of bytes `Fin 256`; the conversions
between the two are the identity. -/

/-- The function `bytes.Split(s, sep)` for a separator `sep` of one byte. -/
def bytesSplit (sep : Fin 256) : List (Fin 256) → List (List (Fin 256))
  | [] => [[]]
  | b :: bs =>
    if b = sep then [] :: bytesSplit sep bs
    else
      match bytesSplit sep bs with
      | [] => [[b]]
      | l :: ls => (b :: l) :: ls

/-- The function `strings.Join(elems, sep)`. -/
def stringsJoin (sep : List (Fin 256)) : List (List (Fin 256)) → List (Fin 256)
  | [] => []
  | [l] => l
  | l :: l2 :: ls => l ++ sep ++ stringsJoin sep (l2 :: ls)

/-- The function `strings.ReplaceAll(s, old, new)` for an `old` of one byte. -/
def stringsReplaceAllByte (s : List (Fin 256)) (old : Fin 256) (new : List (Fin 256)) :
    List (Fin 256) :=
  s.flatMap (fun b => if b = old then new else [b])

/-- The function `bytes.TrimRight(s, cutset)` for a cutset of ASCII bytes. -/
def bytesTrimRight (s : List (Fin 256)) (cutset : List (Fin 256)) : List (Fin 256) :=
  s.rdropWhile (fun b => cutset.contains b)

/-- The function `bytes.IndexByte`: the index of the first `c` in `s`, or `-1`. -/
def bytesIndexByte (s : List (Fin 256)) (c : Fin 256) : Int :=
  if c ∈ s then (s.indexOf c : Int) else -1

/-- Embedding of `lint.File`. The parse tree `AST` (built by the goldmark parser) and the
file system `FS` are outside the model. -/
structure File where
  Path : String
  Source : List (Fin 256)
  Lines : List (List (Fin 256))
  FrontMatter : List (Fin 256)
  LineOffset : Int
deriving DecidableEq

/-- Embedding of `NewFile`; its error result is always `nil`. -/
def NewFile (path : String) (source : List (Fin 256)) : File :=
  { Path := path, Source := source, Lines := bytesSplit 10 source, FrontMatter := [],
    LineOffset := 0 }

/-- Loop of `nohardtabs` `Rule.Check` over `f.Lines`, from line index `i` on: state
`diags`. -/
def nohardtabsCheckLoop (path : String) :
    List (List (Fin 256)) → Int → List Diagnostic → List Diagnostic
  | [], _, diags => diags
  | line :: rest, i, diags =>
    let idx := bytesIndexByte line 9
    if idx ≥ 0 then
      nohardtabsCheckLoop path rest (i + 1)
        (diags ++
          [{ File := path, Line := i + 1, Column := idx + 1, RuleID := "TM007",
             RuleName := "no-hard-tabs", Severity := "warning",
             Message := "hard tab character" }])
    else nohardtabsCheckLoop path rest (i + 1) diags

/-- Embedding of `nohardtabs` `Rule.Check`. -/
def nohardtabsCheck (f : File) : List Diagnostic :=
  nohardtabsCheckLoop f.Path f.Lines 0 []

/-- Loop of `nohardtabs` `Rule.Fix`: state `result`. -/
def nohardtabsFixLoop : List (List (Fin 256)) → List (List (Fin 256)) → List (List (Fin 256))
  | [], result => result
  | line :: rest, result =>
    nohardtabsFixLoop rest (result ++ [stringsReplaceAllByte line 9 [32, 32, 32, 32]])

/-- Embedding of `nohardtabs` `Rule.Fix`. -/
def nohardtabsFix (f : File) : List (Fin 256) :=
  stringsJoin [10] (nohardtabsFixLoop f.Lines [])

/-- Loop of `notrailingspaces` `Rule.Check` over `f.Lines`, from line index `i` on: state
`diags`. -/
def notrailingspacesCheckLoop (path : String) :
    List (List (Fin 256)) → Int → List Diagnostic → List Diagnostic
  | [], _, diags => diags
  | line :: rest, i, diags =>
    let trimmed := bytesTrimRight line [32, 9]
    if trimmed.length < line.length then
      notrailingspacesCheckLoop path rest (i + 1)
        (diags ++
          [{ File := path, Line := i + 1, Column := (trimmed.length : Int) + 1,
             RuleID := "TM006", RuleName := "no-trailing-spaces", Severity := "warning",
             Message := "trailing whitespace" }])
    else notrailingspacesCheckLoop path rest (i + 1) diags

/-- Embedding of `notrailingspaces` `Rule.Check`. -/
def notrailingspacesCheck (f : File) : List Diagnostic :=
  notrailingspacesCheckLoop f.Path f.Lines 0 []

/-- Loop of `notrailingspaces` `Rule.Fix`: state `result`. -/
def notrailingspacesFixLoop :
    List (List (Fin 256)) → List (List (Fin 256)) → List (List (Fin 256))
  | [], result => result
  | line :: rest, result =>
    notrailingspacesFixLoop rest (result ++ [bytesTrimRight line [32, 9]])

/-- Embedding of `notrailingspaces` `Rule.Fix`. -/
def notrailingspacesFix (f : File) : List (Fin 256) :=
  stringsJoin [10] (notrailingspacesFixLoop f.Lines [])

/-- The git invocations recorded in `events`, each with the error text the runner
returned for it (`none` for success): the runner is asked with the trace that precedes
the invocation, `pre` being the trace before `events`. -/
def gitLog (env : Env) : List Event → List Event → List (List String × Option String)
  | _, [] => []
  | pre, Event.git args :: rest =>
    (args, (env.git pre args).err) :: gitLog env (pre ++ [Event.git args]) rest
  | pre, e :: rest => gitLog env (pre ++ [e]) rest

/-- The git invocations of a whole trace with their outcomes. -/
def gitLogOf (env : Env) (trace : List Event) : List (List String × Option String) :=
  gitLog env [] trace

/-- The arguments of the clone invocation of `ensureRepoCached`. -/
def cloneArgs (remote repoDir : String) : List String :=
  ["clone", "--no-checkout", remote, repoDir]

/-- The arguments of the probe of `cachedCommitExists`. -/
def probeArgs (repoDir commitSHA : String) : List String :=
  ["-C", repoDir, "cat-file", "-e", commitSHA ++ "^\x7bcommit\x7d"]

/-- The arguments of the fetch invocation of `ensurePinnedCommit`. -/
def fetchArgs (repoDir commitSHA : String) : List String :=
  ["-C", repoDir, "fetch", "--depth", "1", "origin", commitSHA]

/-- The arguments of the checkout invocation of `checkoutPinnedCommit`. -/
def checkoutArgs (repoDir commitSHA : String) : List String :=
  ["-C", repoDir, "checkout", "--detach", "--force", commitSHA]

/-- A world in which every path exists and every git call fails with the same text. -/
def failingGitEnv : Env :=
  { stat := fun _ _ => StatResult.ok, mkdirAll := fun _ _ => none,
    git := fun _ _ => { out := "", err := some "disk I/O error", ticks := 0 } }

/-- A source pinned to a commit of a GitHub repository, with a relative root. -/
def remoteSource : SourceConfig :=
  { Name := "docs", Root := "sub/dir", Repository := "acme/widgets", CommitSHA := "0123abcd" }

/-- The git invocations recorded in `trace` after its first part `t`, each with the error
it returned. -/
def gitLogSince (env : Env) (t trace : List Event) : List (List String × Option String) :=
  (gitLogOf env trace).drop (gitLogOf env t).length

/-- The subcommand of a git invocation: its first argument, after the option `-C dir` when
the arguments start with it. -/
def gitSubcommand : List String → Option String
  | "-C" :: _ :: rest => rest.head?
  | args => args.head?

/-- A world in which the cache directory can be created, every stat fails with an error
other than "does not exist", and every git call succeeds. -/
def statFailEnv : Env :=
  { stat := fun _ _ => StatResult.failed "permission denied", mkdirAll := fun _ _ => none,
    git := fun _ _ => { out := "", err := none, ticks := 0 } }

/-- A world with an empty cache: no `.git` directory exists, every other path does, the
commit-existence probe fails and every other git call succeeds. -/
def coldCacheEnv : Env :=
  { stat := fun _ path => if stringsEndsWith path ".git" then StatResult.notExist
      else StatResult.ok,
    mkdirAll := fun _ _ => none,
    git := fun _ args =>
      if gitSubcommand args = some "cat-file" then
        { out := "", err := some "fatal: Not a valid object name", ticks := 0 }
      else { out := "", err := none, ticks := 0 } }

/-- A world with an empty cache in which the clone fails. -/
def cloneFailEnv : Env :=
  { stat := fun _ _ => StatResult.notExist, mkdirAll := fun _ _ => none,
    git := fun _ _ =>
      { out := "", err := some "fatal: repository not found", ticks := 0 } }

/-- A world with an empty cache in which every git call succeeds and no path exists, not
even the root of the source after the checkout. -/
def missingRootEnv : Env :=
  { stat := fun _ _ => StatResult.notExist, mkdirAll := fun _ _ => none,
    git := fun _ _ => { out := "", err := none, ticks := 0 } }

/-- Specification of the selection made by near-duplicate filtering: `flags` marks the
kept input positions; every position that is not kept has a kept earlier position whose
similarity with it reaches the threshold, and every kept position is below the threshold
against every kept earlier position. The similarity is the float64 quotient that
`jaccard` returns and the comparison is the one of float64s. -/
def justifiedSelection (threshold : ℚ) (records : List collectedRecord)
    (flags : List Bool) : Prop :=
  flags.length = records.length ∧
  (∀ (i : Nat) (c : collectedRecord), records[i]? = some c → flags[i]? = some false →
    ∃ (j : Nat) (k : collectedRecord), j < i ∧ records[j]? = some k ∧ flags[j]? = some true ∧
      float64Round threshold ≤ float64Round (jaccard c.tokenSet k.tokenSet)) ∧
  (∀ (i : Nat) (c : collectedRecord), records[i]? = some c → flags[i]? = some true →
    ∀ (j : Nat) (k : collectedRecord), j < i → records[j]? = some k → flags[j]? = some true →
      float64Round (jaccard c.tokenSet k.tokenSet) < float64Round threshold)

/-- The records at the positions marked by `flags`, in input order. -/
def selectFlagged (records : List collectedRecord) (flags : List Bool) :
    List collectedRecord :=
  ((records.zip flags).filter (fun p => p.2)).map Prod.fst

/-- Four "docs" records, in identifier order. -/
def fourDocs : List collectedRecord :=
  [plainRecord "r1" "docs" false, plainRecord "r2" "docs" false,
    plainRecord "r3" "docs" false, plainRecord "r4" "docs" false]

/-- A source whose relative root climbs out of the repository with a `..` element. -/
def escapeSource : SourceConfig :=
  { Name := "docs", Root := "../escape", Repository := "acme/widgets",
    CommitSHA := "0123abcd" }

/-! ## Table rows (`internal/rules/tablereadability/rule.go`) -/

/-- Loop of `splitRow` over the bytes of `row` from the current index on: state `cells`,
`current`. The flag `skip` is set when the previous iteration advanced the index by one
more (`i++` before `continue`), so that the current byte is passed over. The raw string
literal written for an escaped pipe has three bytes: two backslashes and the pipe. -/
def splitRowLoop : List Char → Bool → List String → List Char → List String
  | [], _, cells, current => cells ++ [stringsTrimSpace (String.mk current)]
  | c :: rest, skip, cells, current =>
    if skip then splitRowLoop rest false cells current
    else if c = '\\' ∧ rest.head? = some '|' then
      splitRowLoop rest true cells (current ++ ['\\', '\\', '|'])
    else if c = '|' then
      splitRowLoop rest false (cells ++ [stringsTrimSpace (String.mk current)]) []
    else splitRowLoop rest false cells (current ++ [c])

/-- Embedding of `splitRow`. The bytes tested by the function are ASCII, so the row is
read character by character. -/
def splitRow (row : String) : List String :=
  let row := (stringsTrimSpace row).data
  let row := if row.head? = some '|' then row.drop 1 else row
  let row := if row.getLast? = some '|' then row.dropLast else row
  splitRowLoop row false [] []

/-! ## Paragraph conciseness (`internal/rules/paragraphconciseness/rule.go`) -/

/-- A value of a settings map (`any`), by its dynamic type; `other` stands for every type
that `toFloat` does not accept. -/
inductive SettingValue where
  | float64 (n : ℚ)
  | int (n : Int)
  | int64 (n : Int)
  | other
deriving DecidableEq

/-- The numeric fields of the `Rule` of paragraph conciseness; the word lists, which only
feed the scoring model, are left out. -/
structure Rule where
  MaxVerbosity : ℚ
  MinWords : Int
  MinContentRate : ℚ
deriving DecidableEq

/-- The constant `defaultMaxVerbosity`. -/
def defaultMaxVerbosity : ℚ := 30

/-- The constant `defaultMinWords`. -/
def defaultMinWords : Int := 20

/-- The constant `defaultMinContentRate`. -/
def defaultMinContentRate : ℚ := 45 / 100

/-- Embedding of `defaultRule`. -/
def defaultRule : Rule :=
  { MaxVerbosity := defaultMaxVerbosity, MinWords := defaultMinWords,
    MinContentRate := defaultMinContentRate }

/-- Embedding of `toFloat`. -/
def toFloat : SettingValue → Option ℚ
  | SettingValue.float64 n => some n
  | SettingValue.int n => some (n : ℚ)
  | SettingValue.int64 n => some (n : ℚ)
  | SettingValue.other => none

/-- Embedding of `Rule.maxVerbosity`. -/
def Rule.maxVerbosity (r : Rule) : ℚ :=
  if r.MaxVerbosity = 0 then defaultMaxVerbosity else r.MaxVerbosity

/-- Embedding of `Rule.minWords`. -/
def Rule.minWords (r : Rule) : Int :=
  if r.MinWords = 0 then defaultMinWords else r.MinWords

/-- Embedding of `Rule.applyMaxVerbosity`; the updated rule is returned. -/
def Rule.applyMaxVerbosity (r : Rule) (v : SettingValue) : Except String Rule :=
  match toFloat v with
  | none => Except.error "paragraph-conciseness: max-verbosity must be a number"
  | some n =>
    if n < 0 ∨ n > 100 then
      Except.error "paragraph-conciseness: max-verbosity must be between 0 and 100"
    else Except.ok { r with MaxVerbosity := n }

/-- Embedding of `Rule.ApplySettings` over the entries of the settings map, in the order in
which the map is ranged over. The case `max-verbosity` of its switch is embedded; the
other cases are the parameter `others`. -/
def Rule.ApplySettings (others : Rule → String → SettingValue → Except String Rule) :
    Rule → List (String × SettingValue) → Except String Rule
  | r, [] => Except.ok r
  | r, (k, v) :: rest =>
    match (if k = "max-verbosity" then r.applyMaxVerbosity v else others r k v) with
    | Except.error err => Except.error err
    | Except.ok r2 => Rule.ApplySettings others r2 rest

/-- Whether `Rule.checkParagraph` returns a diagnostic. The paragraph enters through the
values the function computes from it: `isTable(para, f)`, `mdtext.CountWords(text)` and
the `Verbosity` of `state.model.score(text)`. -/
def Rule.checkParagraph (r : Rule) (isTable : Bool) (words : Int) (verbosity : ℚ) : Bool :=
  if isTable then false
  else if words < r.minWords then false
  else if verbosity ≤ r.maxVerbosity then false
  else true

/-! ## Theorems -/

/-! ### float64 rounding -/

theorem roundHalfEven_cases (x : ℚ) (hx : 0 ≤ x) :
    ∃ f : Nat, (f : ℚ) ≤ x ∧ x < (f : ℚ) + 1 ∧
      ((roundHalfEven x = f ∧ x - (f : ℚ) ≤ 1 / 2 ∧ (x - (f : ℚ) = 1 / 2 → f % 2 = 0)) ∨
       (roundHalfEven x = f + 1 ∧ 1 / 2 ≤ x - (f : ℚ) ∧ (x - (f : ℚ) = 1 / 2 → f % 2 ≠ 0))) := by
  have hfl : 0 ≤ Int.floor x := Int.floor_nonneg.mpr hx
  refine ⟨(Int.floor x).toNat, ?_, ?_, ?_⟩
  · have : (((Int.floor x).toNat : Int) : ℚ) = ((Int.floor x : Int) : ℚ) := by
      rw [Int.toNat_of_nonneg hfl]
    have h2 : (((Int.floor x).toNat : ℕ) : ℚ) = ((Int.floor x : Int) : ℚ) := by
      rw [← this]; norm_cast
    rw [h2]; exact Int.floor_le x
  · have h2 : (((Int.floor x).toNat : ℕ) : ℚ) = ((Int.floor x : Int) : ℚ) := by
      have : (((Int.floor x).toNat : Int) : ℚ) = ((Int.floor x : Int) : ℚ) := by
        rw [Int.toNat_of_nonneg hfl]
      rw [← this]; norm_cast
    rw [h2]; exact Int.lt_floor_add_one x
  · unfold roundHalfEven
    simp only
    by_cases h1 : x - (((Int.floor x).toNat : ℕ) : ℚ) < 1 / 2
    · left
      rw [if_pos h1]
      exact ⟨rfl, le_of_lt h1, fun h => absurd h (ne_of_lt h1)⟩
    · rw [if_neg h1]
      by_cases h2 : x - (((Int.floor x).toNat : ℕ) : ℚ) > 1 / 2
      · right
        rw [if_pos h2]
        exact ⟨rfl, le_of_lt h2, fun h => absurd h (ne_of_gt h2)⟩
      · rw [if_neg h2]
        by_cases h3 : (Int.floor x).toNat % 2 = 0
        · left
          rw [if_pos h3]
          exact ⟨rfl, not_lt.mp h2, fun _ => h3⟩
        · right
          rw [if_neg h3]
          exact ⟨rfl, not_lt.mp h1, fun _ => h3⟩

theorem roundHalfEven_natCast (n : Nat) : roundHalfEven (n : ℚ) = n := by
  obtain ⟨f, h1, h2, h⟩ := roundHalfEven_cases (n : ℚ) (Nat.cast_nonneg n)
  have hfn : f = n := by
    have a : f ≤ n := by exact_mod_cast h1
    have b : n < f + 1 := by exact_mod_cast h2
    omega
  subst hfn
  rcases h with ⟨h, _, _⟩ | ⟨_, h, _⟩
  · exact h
  · norm_num at h

theorem roundHalfEven_le (x : ℚ) (hx : 0 ≤ x) (n : Nat) (h : x ≤ (n : ℚ)) :
    roundHalfEven x ≤ n := by
  obtain ⟨f, h1, h2, hc⟩ := roundHalfEven_cases x hx
  have hfn : f ≤ n := by exact_mod_cast le_trans h1 h
  rcases hc with ⟨hr, _, _⟩ | ⟨hr, hh, _⟩
  · omega
  · rw [hr]
    by_contra hcon
    have : f = n := by omega
    subst this
    linarith

theorem le_roundHalfEven (x : ℚ) (hx : 0 ≤ x) (n : Nat) (h : (n : ℚ) ≤ x) :
    n ≤ roundHalfEven x := by
  obtain ⟨f, h1, h2, hc⟩ := roundHalfEven_cases x hx
  have hfn : n < f + 1 := by exact_mod_cast lt_of_le_of_lt h h2
  rcases hc with ⟨hr, _, _⟩ | ⟨hr, _, _⟩ <;> omega

theorem roundHalfEven_mono (x y : ℚ) (hx : 0 ≤ x) (h : x ≤ y) :
    roundHalfEven x ≤ roundHalfEven y := by
  obtain ⟨f, h1, h2, hc⟩ := roundHalfEven_cases x hx
  obtain ⟨g, g1, g2, gc⟩ := roundHalfEven_cases y (le_trans hx h)
  have hfg : f < g + 1 := by exact_mod_cast lt_of_le_of_lt (le_trans h1 h) g2
  rcases hc with ⟨hr, _, _⟩ | ⟨hr, hh, he⟩
  · rcases gc with ⟨gr, _, _⟩ | ⟨gr, _, _⟩ <;> omega
  · rcases gc with ⟨gr, gh, ge⟩ | ⟨gr, _, _⟩
    · by_contra hcon
      have hfg2 : f = g := by omega
      subst hfg2
      have e1 : x - (f : ℚ) = 1 / 2 := by linarith
      have e2 : y - (f : ℚ) = 1 / 2 := by linarith
      exact he e1 (ge e2)
    · omega

theorem roundHalfEven_error (x : ℚ) (hx : 0 ≤ x) :
    |(roundHalfEven x : ℚ) - x| ≤ 1 / 2 := by
  obtain ⟨f, h1, h2, hc⟩ := roundHalfEven_cases x hx
  rw [abs_le]
  rcases hc with ⟨hr, hh, _⟩ | ⟨hr, hh, _⟩
  · rw [hr]; constructor <;> linarith
  · rw [hr]; push_cast; constructor <;> linarith

theorem float64Round_zero : float64Round 0 = 0 := by
  unfold float64Round
  simp

theorem float64Round_neg (q : ℚ) : float64Round (-q) = -float64Round q := by
  unfold float64Round
  by_cases h0 : q = 0
  · subst h0; simp
  · have hn : -q ≠ 0 := neg_ne_zero.mpr h0
    rw [if_neg hn, if_neg h0]
    simp only [abs_neg]
    rcases lt_or_gt_of_ne h0 with h | h
    · have h2 : ¬ (-q < 0) := by linarith
      rw [if_neg h2, if_pos h, neg_neg]
    · have h2 : -q < 0 := by linarith
      have h3 : ¬ (q < 0) := by linarith
      rw [if_pos h2, if_neg h3]

theorem float64Round_of_pos (q : ℚ) (h : 0 < q) :
    float64Round q =
      (roundHalfEven (q / (2 : ℚ) ^ (Int.log 2 q - 52)) : ℚ) * (2 : ℚ) ^ (Int.log 2 q - 52) := by
  unfold float64Round
  rw [if_neg (ne_of_gt h)]
  simp only [abs_of_pos h]
  rw [if_neg (not_lt.mpr (le_of_lt h))]

theorem log_two_eq (q : ℚ) (e : ℤ) (h1 : (2 : ℚ) ^ e ≤ q) (h2 : q < (2 : ℚ) ^ (e + 1)) :
    Int.log 2 q = e := by
  have hq : 0 < q := lt_of_lt_of_le (by positivity) h1
  have hb : 1 < 2 := by norm_num
  have a : e ≤ Int.log 2 q :=
    (Int.zpow_le_iff_le_log hb hq).mp (by exact_mod_cast h1)
  have b : Int.log 2 q < e + 1 :=
    (Int.lt_zpow_iff_log_lt hb hq).mp (by exact_mod_cast h2)
  omega

theorem float64Round_of_bounds (q : ℚ) (e : ℤ) (h1 : (2 : ℚ) ^ e ≤ q)
    (h2 : q < (2 : ℚ) ^ (e + 1)) :
    float64Round q = (roundHalfEven (q / (2 : ℚ) ^ (e - 52)) : ℚ) * (2 : ℚ) ^ (e - 52) := by
  have hq : 0 < q := lt_of_lt_of_le (by positivity) h1
  rw [float64Round_of_pos q hq, log_two_eq q e h1 h2]

theorem log_two_bounds (q : ℚ) (hq : 0 < q) :
    (2 : ℚ) ^ (Int.log 2 q) ≤ q ∧ q < (2 : ℚ) ^ (Int.log 2 q + 1) := by
  have hb : 1 < 2 := by norm_num
  constructor
  · have := Int.zpow_log_le_self hb hq
    exact_mod_cast this
  · have := Int.lt_zpow_succ_log_self hb q
    exact_mod_cast this

theorem scaled_bounds (q : ℚ) (hq : 0 < q) :
    (2 : ℚ) ^ (52 : ℕ) ≤ q / (2 : ℚ) ^ (Int.log 2 q - 52) ∧
      q / (2 : ℚ) ^ (Int.log 2 q - 52) < (2 : ℚ) ^ (53 : ℕ) := by
  obtain ⟨h1, h2⟩ := log_two_bounds q hq
  have hp : (0 : ℚ) < (2 : ℚ) ^ (Int.log 2 q - 52) := by positivity
  have e1 : (2 : ℚ) ^ (Int.log 2 q) = (2 : ℚ) ^ (52 : ℕ) * (2 : ℚ) ^ (Int.log 2 q - 52) := by
    rw [← zpow_natCast, ← zpow_add₀ (by norm_num)]
    congr 1; push_cast; ring
  have e2 : (2 : ℚ) ^ (Int.log 2 q + 1) =
      (2 : ℚ) ^ (53 : ℕ) * (2 : ℚ) ^ (Int.log 2 q - 52) := by
    rw [← zpow_natCast, ← zpow_add₀ (by norm_num)]
    congr 1; push_cast; ring
  constructor
  · rw [le_div_iff₀ hp, ← e1]; exact h1
  · rw [div_lt_iff₀ hp, ← e2]; exact h2

theorem float64Round_pos_bounds (q : ℚ) (hq : 0 < q) :
    (2 : ℚ) ^ (Int.log 2 q) ≤ float64Round q ∧
      float64Round q ≤ (2 : ℚ) ^ (Int.log 2 q + 1) := by
  obtain ⟨h1, h2⟩ := scaled_bounds q hq
  have hp : (0 : ℚ) < (2 : ℚ) ^ (Int.log 2 q - 52) := by positivity
  have hs : 0 ≤ q / (2 : ℚ) ^ (Int.log 2 q - 52) := le_of_lt (div_pos hq hp)
  have a := le_roundHalfEven _ hs (2 ^ 52) (by push_cast; exact h1)
  have b := roundHalfEven_le _ hs (2 ^ 53) (by push_cast; exact le_of_lt h2)
  have a2 : (2 : ℚ) ^ (52 : ℕ) ≤ (roundHalfEven (q / (2 : ℚ) ^ (Int.log 2 q - 52)) : ℚ) := by
    have : ((2 ^ 52 : ℕ) : ℚ) ≤ (roundHalfEven (q / (2 : ℚ) ^ (Int.log 2 q - 52)) : ℚ) :=
      Nat.cast_le.mpr a
    rwa [Nat.cast_pow, Nat.cast_ofNat] at this
  have b2 : (roundHalfEven (q / (2 : ℚ) ^ (Int.log 2 q - 52)) : ℚ) ≤ (2 : ℚ) ^ (53 : ℕ) := by
    have : (roundHalfEven (q / (2 : ℚ) ^ (Int.log 2 q - 52)) : ℚ) ≤ ((2 ^ 53 : ℕ) : ℚ) :=
      Nat.cast_le.mpr b
    rwa [Nat.cast_pow, Nat.cast_ofNat] at this
  have e1 : (2 : ℚ) ^ (Int.log 2 q) = (2 : ℚ) ^ (52 : ℕ) * (2 : ℚ) ^ (Int.log 2 q - 52) := by
    rw [← zpow_natCast, ← zpow_add₀ (by norm_num)]
    congr 1; push_cast; ring
  have e2 : (2 : ℚ) ^ (Int.log 2 q + 1) =
      (2 : ℚ) ^ (53 : ℕ) * (2 : ℚ) ^ (Int.log 2 q - 52) := by
    rw [← zpow_natCast, ← zpow_add₀ (by norm_num)]
    congr 1; push_cast; ring
  rw [float64Round_of_pos q hq]
  constructor
  · rw [e1]
    exact mul_le_mul_of_nonneg_right a2 (le_of_lt hp)
  · rw [e2]
    exact mul_le_mul_of_nonneg_right b2 (le_of_lt hp)

theorem float64Round_pos (q : ℚ) (hq : 0 < q) : 0 < float64Round q :=
  lt_of_lt_of_le (by positivity) (float64Round_pos_bounds q hq).1

theorem float64Round_mono_pos (x y : ℚ) (hx : 0 < x) (h : x ≤ y) :
    float64Round x ≤ float64Round y := by
  have hy : 0 < y := lt_of_lt_of_le hx h
  have hl : Int.log 2 x ≤ Int.log 2 y := Int.log_mono_right hx h
  rcases lt_or_eq_of_le hl with hlt | heq
  · refine le_trans (float64Round_pos_bounds x hx).2 (le_trans ?_ (float64Round_pos_bounds y hy).1)
    exact zpow_le_zpow_right₀ (by norm_num) (by omega)
  · rw [float64Round_of_pos x hx, float64Round_of_pos y hy, heq]
    have hp : (0 : ℚ) < (2 : ℚ) ^ (Int.log 2 y - 52) := by positivity
    apply mul_le_mul_of_nonneg_right _ (le_of_lt hp)
    have := roundHalfEven_mono (x / (2 : ℚ) ^ (Int.log 2 y - 52))
      (y / (2 : ℚ) ^ (Int.log 2 y - 52)) (le_of_lt (div_pos hx hp))
      (div_le_div_of_nonneg_right h (le_of_lt hp))
    exact_mod_cast this

theorem float64Round_nonpos (q : ℚ) (hq : q ≤ 0) : float64Round q ≤ 0 := by
  rcases eq_or_lt_of_le hq with h | h
  · rw [h, float64Round_zero]
  · have := float64Round_pos (-q) (by linarith)
    rw [float64Round_neg] at this
    linarith

theorem float64Round_mono (x y : ℚ) (h : x ≤ y) : float64Round x ≤ float64Round y := by
  rcases lt_trichotomy 0 x with hx | hx | hx
  · exact float64Round_mono_pos x y hx h
  · rw [← hx, float64Round_zero]
    rcases eq_or_lt_of_le (hx ▸ h : (0 : ℚ) ≤ y) with hy | hy
    · rw [← hy, float64Round_zero]
    · exact le_of_lt (float64Round_pos y hy)
  · rcases lt_or_le y 0 with hy | hy
    · have := float64Round_mono_pos (-y) (-x) (by linarith) (by linarith)
      rw [float64Round_neg, float64Round_neg] at this
      linarith
    · have a := float64Round_nonpos x (le_of_lt hx)
      rcases eq_or_lt_of_le hy with hy0 | hy0
      · rw [← hy0, float64Round_zero]; exact a
      · exact le_trans a (le_of_lt (float64Round_pos y hy0))

theorem float64Round_nonpos_iff (q : ℚ) : float64Round q ≤ 0 ↔ q ≤ 0 := by
  constructor
  · intro h
    by_contra hq
    have := float64Round_pos q (not_le.mp hq)
    linarith
  · exact float64Round_nonpos q

theorem float64Round_natCast (n : Nat) (h : n < 2 ^ 53) : float64Round (n : ℚ) = (n : ℚ) := by
  rcases Nat.eq_zero_or_pos n with h0 | h0
  · subst h0; simpa using float64Round_zero
  have hq : (0 : ℚ) < (n : ℚ) := by exact_mod_cast h0
  obtain ⟨h1, h2⟩ := log_two_bounds (n : ℚ) hq
  have hL : Int.log 2 (n : ℚ) < 53 := by
    by_contra hcon
    have h53 : (2 : ℚ) ^ (53 : ℤ) ≤ (2 : ℚ) ^ (Int.log 2 (n : ℚ)) :=
      zpow_le_zpow_right₀ (by norm_num) (by omega)
    have hn : ((n : ℕ) : ℚ) < (2 : ℚ) ^ (53 : ℤ) := by
      have : ((n : ℕ) : ℚ) < ((2 ^ 53 : ℕ) : ℚ) := Nat.cast_lt.mpr h
      rw [Nat.cast_pow, Nat.cast_ofNat] at this
      exact_mod_cast this
    linarith
  obtain ⟨k, hk⟩ : ∃ k : ℕ, Int.log 2 (n : ℚ) - 52 = -(k : ℤ) :=
    ⟨(52 - Int.log 2 (n : ℚ)).toNat, by omega⟩
  rw [float64Round_of_pos _ hq, hk]
  have hs : (n : ℚ) / (2 : ℚ) ^ (-(k : ℤ)) = ((n * 2 ^ k : ℕ) : ℚ) := by
    rw [zpow_neg, zpow_natCast, div_inv_eq_mul]
    push_cast; ring
  rw [hs, roundHalfEven_natCast, zpow_neg, zpow_natCast]
  push_cast
  field_simp

theorem float64Round_le_natCast (x : ℚ) (n : Nat) (h : n < 2 ^ 53) (hx : x ≤ (n : ℚ)) :
    float64Round x ≤ (n : ℚ) := by
  have := float64Round_mono x (n : ℚ) hx
  rwa [float64Round_natCast n h] at this

theorem natCast_le_float64Round (x : ℚ) (n : Nat) (h : n < 2 ^ 53) (hx : (n : ℚ) ≤ x) :
    (n : ℚ) ≤ float64Round x := by
  have := float64Round_mono (n : ℚ) x hx
  rwa [float64Round_natCast n h] at this

theorem float64Round_error (q : ℚ) (hq : 0 < q) :
    |float64Round q - q| ≤ q / (2 : ℚ) ^ (53 : ℕ) := by
  obtain ⟨h1, _⟩ := scaled_bounds q hq
  have hp : (0 : ℚ) < (2 : ℚ) ^ (Int.log 2 q - 52) := by positivity
  have hs : 0 ≤ q / (2 : ℚ) ^ (Int.log 2 q - 52) := le_of_lt (div_pos hq hp)
  have herr := roundHalfEven_error _ hs
  rw [float64Round_of_pos q hq]
  have e : (roundHalfEven (q / (2 : ℚ) ^ (Int.log 2 q - 52)) : ℚ) * (2 : ℚ) ^ (Int.log 2 q - 52)
      - q = ((roundHalfEven (q / (2 : ℚ) ^ (Int.log 2 q - 52)) : ℚ)
        - q / (2 : ℚ) ^ (Int.log 2 q - 52)) * (2 : ℚ) ^ (Int.log 2 q - 52) := by
    field_simp
  rw [e, abs_mul, abs_of_pos hp]
  have h3 : q / (2 : ℚ) ^ (53 : ℕ) =
      (q / (2 : ℚ) ^ (Int.log 2 q - 52) / (2 : ℚ) ^ (53 : ℕ)) * (2 : ℚ) ^ (Int.log 2 q - 52) := by
    field_simp
    ring
  rw [h3]
  apply mul_le_mul_of_nonneg_right _ (le_of_lt hp)
  refine le_trans herr ?_
  rw [le_div_iff₀ (by positivity)]
  calc (1 / 2 : ℚ) * (2 : ℚ) ^ (53 : ℕ) = (2 : ℚ) ^ (52 : ℕ) := by norm_num
    _ ≤ _ := h1

theorem float64Round_one : float64Round 1 = 1 := by
  simpa using float64Round_natCast 1 (by norm_num)

theorem roundHalfEven_of_near (x : ℚ) (n : Nat) (hx : 0 ≤ x) (h1 : (n : ℚ) - 1 / 2 < x)
    (h2 : x < (n : ℚ) + 1 / 2) : roundHalfEven x = n := by
  obtain ⟨f, a, b, hc⟩ := roundHalfEven_cases x hx
  rcases hc with ⟨hr, hh, _⟩ | ⟨hr, hh, _⟩
  · rw [hr]
    have c1 : (f : ℚ) < (n : ℚ) + 1 := by linarith
    have c2 : (n : ℚ) < (f : ℚ) + 1 := by linarith
    have d1 : f < n + 1 := by exact_mod_cast c1
    have d2 : n < f + 1 := by exact_mod_cast c2
    omega
  · rw [hr]
    have c1 : (f : ℚ) + 1 < (n : ℚ) + 1 := by linarith
    have c2 : (n : ℚ) < (f : ℚ) + 1 + 1 := by linarith
    have d1 : f + 1 < n + 1 := by exact_mod_cast c1
    have d2 : n < f + 1 + 1 := by exact_mod_cast c2
    omega

theorem roundHalfEven_of_tie (x : ℚ) (n : Nat) (h : x = (n : ℚ) + 1 / 2) :
    roundHalfEven x = if n % 2 = 0 then n else n + 1 := by
  have hx : 0 ≤ x := by rw [h]; positivity
  obtain ⟨f, a, b, hc⟩ := roundHalfEven_cases x hx
  have hfn : f = n := by
    have c1 : (f : ℚ) < (n : ℚ) + 1 := by linarith
    have c2 : (n : ℚ) < (f : ℚ) + 1 := by linarith
    have d1 : f < n + 1 := by exact_mod_cast c1
    have d2 : n < f + 1 := by exact_mod_cast c2
    omega
  subst hfn
  have hr : x - (f : ℚ) = 1 / 2 := by linarith
  rcases hc with ⟨hv, _, he⟩ | ⟨hv, _, he⟩
  · rw [hv, if_pos (he hr)]
  · rw [hv, if_neg (he hr)]

theorem float64Round_eval (q : ℚ) (e : ℤ) (n : Nat) (h1 : (2 : ℚ) ^ e ≤ q)
    (h2 : q < (2 : ℚ) ^ (e + 1)) (h3 : roundHalfEven (q / (2 : ℚ) ^ (e - 52)) = n) :
    float64Round q = (n : ℚ) * (2 : ℚ) ^ (e - 52) := by
  rw [float64Round_of_bounds q e h1 h2, h3]

/-- A rational with at most 53 significant bits is a float64. -/
theorem float64Round_of_exact (q : ℚ) (e : ℤ) (n : Nat) (h1 : (2 : ℚ) ^ e ≤ q)
    (h2 : q < (2 : ℚ) ^ (e + 1)) (h3 : q / (2 : ℚ) ^ (e - 52) = (n : ℚ)) :
    float64Round q = q := by
  rw [float64Round_eval q e n h1 h2 (by rw [h3, roundHalfEven_natCast]), ← h3]
  have hp : (2 : ℚ) ^ (e - 52) ≠ 0 := by positivity
  field_simp

theorem float64Round_half : float64Round (1 / 2) = 1 / 2 :=
  float64Round_of_exact (1 / 2) (-1) (2 ^ 52) (by norm_num) (by norm_num) (by norm_num)

theorem float64Round_intCast_small (n : Nat) (h : n < 2 ^ 53) :
    float64Round (((n : Int)) : ℚ) = (n : ℚ) := by
  rw [Int.cast_natCast, float64Round_natCast n h]

theorem float64Round_le_mul (q : ℚ) (hq : 0 < q) :
    float64Round q ≤ q * (1 + 1 / (2 : ℚ) ^ (53 : ℕ)) := by
  have h := (abs_le.1 (float64Round_error q hq)).2
  have e : q * (1 + 1 / (2 : ℚ) ^ (53 : ℕ)) = q + q / (2 : ℚ) ^ (53 : ℕ) := by ring
  rw [e]
  linarith

theorem mul_le_float64Round (q : ℚ) (hq : 0 < q) :
    q * (1 - 1 / (2 : ℚ) ^ (53 : ℕ)) ≤ float64Round q := by
  have h := (abs_le.1 (float64Round_error q hq)).1
  have e : q * (1 - 1 / (2 : ℚ) ^ (53 : ℕ)) = q - q / (2 : ℚ) ^ (53 : ℕ) := by ring
  rw [e]
  linarith

theorem float64Round_pos_iff (q : ℚ) : 0 < float64Round q ↔ 0 < q := by
  rw [← not_le, ← not_le, float64Round_nonpos_iff]

theorem float64Round_nonneg (q : ℚ) (hq : 0 ≤ q) : 0 ≤ float64Round q := by
  have := float64Round_mono 0 q hq
  rwa [float64Round_zero] at this


/-! ### Exact deduplication -/

theorem dropExactDuplicatesLoop_fst (rest : List collectedRecord) :
    ∀ (pre : List String) (seen : String → Bool) (out : List collectedRecord) (d : Int),
      (∀ h, seen h = true ↔ h ∈ pre) →
      (dropExactDuplicatesLoop rest seen out d).1 = out ++ keepNew pre rest := by
  induction rest with
  | nil => intro pre seen out d _; simp [dropExactDuplicatesLoop, keepNew]
  | cons r rest ih =>
    intro pre seen out d hseen
    by_cases hr : seen r.ContentSHA256 = true
    · have hmem : r.ContentSHA256 ∈ pre := (hseen _).1 hr
      have hseen2 : ∀ h, seen h = true ↔ h ∈ pre ++ [r.ContentSHA256] := by
        intro h
        simp only [List.mem_append, List.mem_singleton]
        constructor
        · intro hh; exact Or.inl ((hseen h).1 hh)
        · rintro (hh | hh)
          · exact (hseen h).2 hh
          · rw [hh]; exact hr
      simp only [dropExactDuplicatesLoop, hr, if_true, keepNew, hmem]
      exact ih _ seen out (d + 1) hseen2
    · have hmem : r.ContentSHA256 ∉ pre := fun h => hr ((hseen _).2 h)
      have hseen2 : ∀ h, Function.update seen r.ContentSHA256 true h = true ↔
          h ∈ pre ++ [r.ContentSHA256] := by
        intro h
        simp only [List.mem_append, List.mem_singleton]
        by_cases hh : h = r.ContentSHA256
        · subst hh; simp
        · simp [Function.update_noteq hh, hseen h, hh]
      have hr2 : seen r.ContentSHA256 = false := by simpa using hr
      simp only [dropExactDuplicatesLoop, hr2, keepNew, hmem, if_false, Bool.false_eq_true]
      rw [ih _ _ (out ++ [r]) d hseen2]
      simp

theorem keepNew_eq_filter_enum (rest : List collectedRecord) :
    ∀ pre : List collectedRecord,
      ((rest.enumFrom pre.length).filter (fun p =>
        decide (p.2.ContentSHA256 ∉
          ((pre ++ rest).take p.1).map (fun r => r.ContentSHA256)))).map Prod.snd
        = keepNew (pre.map (fun r => r.ContentSHA256)) rest := by
  induction rest with
  | nil => intro pre; simp [keepNew]
  | cons r rest ih =>
    intro pre
    have h := ih (pre ++ [r])
    simp only [List.length_append, List.length_singleton, List.append_assoc,
      List.singleton_append, List.map_append, List.map_cons, List.map_nil] at h
    simp only [List.enumFrom_cons, List.filter_cons, List.take_left', keepNew]
    by_cases hm : r.ContentSHA256 ∈ pre.map (fun r => r.ContentSHA256)
    · simp only [hm, not_true_eq_false, decide_False, if_true]
      simpa using h
    · simp only [hm, not_false_eq_true, decide_True, if_true, if_false, List.map_cons]
      rw [h]

theorem firstOccurrences_eq_keepNew (records : List collectedRecord) :
    firstOccurrences records = keepNew [] records := by
  have h := keepNew_eq_filter_enum records []
  simpa [firstOccurrences, List.enum] using h

theorem keepNew_sublist (rest : List collectedRecord) :
    ∀ pre, List.Sublist (keepNew pre rest) rest := by
  induction rest with
  | nil => intro pre; simp [keepNew]
  | cons r rest ih =>
    intro pre
    by_cases hm : r.ContentSHA256 ∈ pre
    · simp only [keepNew, hm, if_true]; exact (ih _).cons _
    · simp only [keepNew, hm, if_false]; exact (ih _).cons₂ _

theorem keepNew_hashes (rest : List collectedRecord) :
    ∀ pre : List String,
      ((keepNew pre rest).map (fun r => r.ContentSHA256)).Nodup ∧
      (∀ h ∈ (keepNew pre rest).map (fun r => r.ContentSHA256), h ∉ pre) ∧
      (∀ h ∈ rest.map (fun r => r.ContentSHA256),
        h ∈ pre ∨ h ∈ (keepNew pre rest).map (fun r => r.ContentSHA256)) := by
  induction rest with
  | nil => intro pre; simp [keepNew]
  | cons r rest ih =>
    intro pre
    obtain ⟨h1, h2, h3⟩ := ih (pre ++ [r.ContentSHA256])
    by_cases hm : r.ContentSHA256 ∈ pre
    · simp only [keepNew, hm, if_true]
      refine ⟨h1, ?_, ?_⟩
      · intro h hh hp
        exact h2 h hh (List.mem_append_left _ hp)
      · intro h hh
        simp only [List.map_cons, List.mem_cons] at hh
        rcases hh with hh | hh
        · left; rw [hh]; exact hm
        · rcases h3 h hh with h4 | h4
          · simp only [List.mem_append, List.mem_singleton] at h4
            rcases h4 with h4 | h4
            · exact Or.inl h4
            · left; rw [h4]; exact hm
          · exact Or.inr h4
    · simp only [keepNew, hm, if_false, List.map_cons, List.nodup_cons, List.mem_cons]
      refine ⟨⟨?_, h1⟩, ?_, ?_⟩
      · intro hh
        exact h2 _ hh (by simp)
      · intro h hh hp
        rcases hh with hh | hh
        · rw [hh] at hp; exact hm hp
        · exact h2 h hh (List.mem_append_left _ hp)
      · intro h hh
        rcases hh with hh | hh
        · exact Or.inr (Or.inl hh)
        · rcases h3 h hh with h4 | h4
          · simp only [List.mem_append, List.mem_singleton] at h4
            rcases h4 with h4 | h4
            · exact Or.inl h4
            · exact Or.inr (Or.inl h4)
          · exact Or.inr (Or.inr h4)

/-- C1: `dropExactDuplicates` keeps exactly the records whose `ContentSHA256` does not
occur at an earlier input position; every hash of the input occurs exactly once among
the kept records, and the kept records are a subsequence of the input (input order). -/
theorem dropExactDuplicates_keeps_first_occurrences (records : List collectedRecord) :
    (dropExactDuplicates records).1 = firstOccurrences records ∧
    (∀ h ∈ records.map (fun r => r.ContentSHA256),
      ((dropExactDuplicates records).1.map (fun r => r.ContentSHA256)).count h = 1) ∧
    List.Sublist (dropExactDuplicates records).1 records := by
  have hk : (dropExactDuplicates records).1 = keepNew [] records := by
    have := dropExactDuplicatesLoop_fst records [] (fun _ => false) [] 0 (by simp)
    simpa [dropExactDuplicates] using this
  obtain ⟨h1, _, h3⟩ := keepNew_hashes records []
  refine ⟨by rw [hk, firstOccurrences_eq_keepNew], ?_, by rw [hk]; exact keepNew_sublist _ _⟩
  intro h hh
  rw [hk]
  apply List.count_eq_one_of_mem h1
  rcases h3 h hh with h4 | h4
  · simp at h4
  · exact h4

/-! ### Jaccard similarity -/

theorem jaccard_eq (A B : Finset String) :
    jaccard A B =
      if A = ∅ ∨ B = ∅ then 0 else ((A ∩ B).card : ℚ) / ((A ∪ B).card : ℚ) := by
  unfold jaccard
  simp only [Finset.card_eq_zero]
  by_cases h : A = ∅ ∨ B = ∅
  · simp [h]
  · rw [if_neg h, if_neg h]
    have hinter : A.filter (fun token => token ∈ B) = A ∩ B := Finset.filter_mem_eq_inter
    have hcard : ((A ∪ B).card : Int) =
        (A.card : Int) + (B.card : Int) - ((A ∩ B).card : Int) := by
      have := Finset.card_union_add_card_inter A B
      omega
    have hA : A.Nonempty := Finset.nonempty_iff_ne_empty.2 (fun e => h (Or.inl e))
    have hne : ((A ∪ B).card : Int) ≠ 0 := by
      have : 0 < (A ∪ B).card := Finset.card_pos.2 (hA.mono Finset.subset_union_left)
      omega
    simp only [hinter, ← hcard, hne, if_false]
    push_cast
    rfl

theorem jaccard_comm (A B : Finset String) : jaccard A B = jaccard B A := by
  rw [jaccard_eq, jaccard_eq, Finset.inter_comm, Finset.union_comm]
  by_cases h : A = ∅ ∨ B = ∅
  · rw [if_pos h, if_pos (Or.symm h)]
  · rw [if_neg h, if_neg (fun h2 => h (Or.symm h2))]

theorem jaccard_nonneg (A B : Finset String) : 0 ≤ jaccard A B := by
  rw [jaccard_eq]
  split_ifs
  · exact le_refl _
  · positivity

theorem jaccard_le_one (A B : Finset String) : jaccard A B ≤ 1 := by
  rw [jaccard_eq]
  split_ifs
  · exact zero_le_one
  · apply div_le_one_of_le₀
    · exact_mod_cast Finset.card_le_card (Finset.inter_subset_union)
    · positivity

theorem jaccard_eq_one_iff (A B : Finset String) :
    jaccard A B = 1 ↔ A = B ∧ A.Nonempty := by
  rw [jaccard_eq]
  constructor
  · intro h
    by_cases he : A = ∅ ∨ B = ∅
    · rw [if_pos he] at h; exact absurd h (by norm_num)
    · rw [if_neg he] at h
      have hA : A.Nonempty := Finset.nonempty_iff_ne_empty.2 (fun e => he (Or.inl e))
      have hpos : 0 < (A ∪ B).card := Finset.card_pos.2 (hA.mono Finset.subset_union_left)
      have hq : ((A ∪ B).card : ℚ) ≠ 0 := by exact_mod_cast hpos.ne'
      rw [div_eq_one_iff_eq hq] at h
      have hc : (A ∩ B).card = (A ∪ B).card := by exact_mod_cast h
      have hsub : A ∩ B = A ∪ B :=
        Finset.eq_of_subset_of_card_le Finset.inter_subset_union (le_of_eq hc.symm)
      refine ⟨?_, hA⟩
      apply Finset.Subset.antisymm
      · intro x hx
        have : x ∈ A ∩ B := by rw [hsub]; exact Finset.mem_union_left _ hx
        exact (Finset.mem_inter.1 this).2
      · intro x hx
        have : x ∈ A ∩ B := by rw [hsub]; exact Finset.mem_union_right _ hx
        exact (Finset.mem_inter.1 this).1
  · rintro ⟨rfl, hA⟩
    have hne : A ≠ ∅ := Finset.nonempty_iff_ne_empty.1 hA
    have hq : (A.card : ℚ) ≠ 0 := by exact_mod_cast (Finset.card_pos.2 hA).ne'
    simp [hne, hq]

/-- C7: `jaccard A B` is `|A ∩ B| / |A ∪ B|` when both sets are non-empty and `0` when
either is empty; it is symmetric, lies in `[0, 1]`, and equals `1` exactly when `A = B`
and `A` is non-empty. -/
theorem jaccard_is_intersection_over_union (A B : Finset String) :
    jaccard A B =
      (if A = ∅ ∨ B = ∅ then 0 else ((A ∩ B).card : ℚ) / ((A ∪ B).card : ℚ)) ∧
    jaccard A B = jaccard B A ∧
    0 ≤ jaccard A B ∧ jaccard A B ≤ 1 ∧
    (jaccard A B = 1 ↔ A = B ∧ A.Nonempty) :=
  ⟨jaccard_eq A B, jaccard_comm A B, jaccard_nonneg A B, jaccard_le_one A B,
    jaccard_eq_one_iff A B⟩

/-! ### Near-duplicate removal -/

theorem nearDuplicateOfAny_eq_false_iff (c : collectedRecord) (t : ℚ) :
    ∀ kept : List collectedRecord,
      nearDuplicateOfAny c kept t = false ↔
        ∀ k ∈ kept, float64Round (jaccard c.tokenSet k.tokenSet) < float64Round t := by
  intro kept
  induction kept with
  | nil => simp [nearDuplicateOfAny]
  | cons k kept ih =>
    simp only [nearDuplicateOfAny, List.mem_cons, forall_eq_or_imp]
    by_cases h : float64Round (jaccard c.tokenSet k.tokenSet) ≥ float64Round t
    · simp only [h, if_true]
      constructor
      · intro hf; exact absurd hf (by simp)
      · rintro ⟨h1, _⟩; exact absurd h (not_le.2 h1)
    · rw [if_neg h, ih]
      exact ⟨fun h2 => ⟨not_le.1 h, h2⟩, fun h2 => h2.2⟩

theorem nearDuplicateOfAny_eq_true_iff (c : collectedRecord) (t : ℚ)
    (kept : List collectedRecord) :
    nearDuplicateOfAny c kept t = true ↔
      ∃ k ∈ kept, float64Round t ≤ float64Round (jaccard c.tokenSet k.tokenSet) := by
  rw [← Bool.not_eq_false, nearDuplicateOfAny_eq_false_iff]
  push_neg
  rfl

theorem nearDuplicateOfAny_false_lt (c : collectedRecord) (t : ℚ)
    (kept : List collectedRecord) (h : nearDuplicateOfAny c kept t = false)
    (k : collectedRecord) (hk : k ∈ kept) : jaccard c.tokenSet k.tokenSet < t := by
  have hlt := (nearDuplicateOfAny_eq_false_iff c t kept).1 h k hk
  by_contra hcon
  exact absurd (float64Round_mono _ _ (not_lt.1 hcon)) (not_le.2 hlt)

theorem dropNearDuplicatesLoop_head (t : ℚ) (rest : List collectedRecord) :
    ∀ (x : collectedRecord) (out : List collectedRecord) (d : Int),
      (dropNearDuplicatesLoop t rest (x :: out) d).1.head? = some x := by
  induction rest with
  | nil => intro x out d; simp [dropNearDuplicatesLoop]
  | cons c rest ih =>
    intro x out d
    simp only [dropNearDuplicatesLoop]
    split_ifs
    · exact ih x out _
    · exact ih x (out ++ [c]) d

/-- C3: for a non-empty input and any threshold, the first kept record of
`dropNearDuplicates` is the first input record. -/
theorem dropNearDuplicates_keeps_first (r : collectedRecord) (rs : List collectedRecord)
    (threshold : ℚ) :
    (dropNearDuplicates (r :: rs) threshold).1.head? = some r := by
  simp only [dropNearDuplicates, dropNearDuplicatesLoop, nearDuplicateOfAny,
    List.nil_append, Bool.false_eq_true, if_false]
  exact dropNearDuplicatesLoop_head threshold rs r [] 0

theorem dropNearDuplicates_pair (a b : collectedRecord) (t : ℚ) :
    dropNearDuplicates [a, b] t =
      if float64Round t ≤ float64Round (jaccard b.tokenSet a.tokenSet) then ([a], 1)
      else ([a, b], 0) := by
  simp only [dropNearDuplicates, dropNearDuplicatesLoop, nearDuplicateOfAny,
    List.nil_append, Bool.false_eq_true, if_false, ge_iff_le]
  split_ifs <;> simp_all

/-- C4, as stated, fails: two records with identical but empty token sets have
similarity 0, and at threshold 1/2 the second one is kept. -/
theorem dropNearDuplicates_identical_empty_kept :
    (tokenRecord "a" ∅).tokenSet = (tokenRecord "b" ∅).tokenSet ∧
    dropNearDuplicates [tokenRecord "a" ∅, tokenRecord "b" ∅] (1 / 2) =
      ([tokenRecord "a" ∅, tokenRecord "b" ∅], 0) := by
  refine ⟨rfl, ?_⟩
  rw [dropNearDuplicates_pair]
  have h : jaccard (tokenRecord "b" ∅).tokenSet (tokenRecord "a" ∅).tokenSet = 0 := by
    simp [jaccard_eq, tokenRecord]
  rw [h, float64Round_zero, float64Round_half]
  norm_num

/-- C4 (amended): for `0 < threshold ≤ 1` and two records with identical non-empty
token sets, `dropNearDuplicates [a, b] threshold` drops `b`: it returns `([a], 1)`. -/
theorem dropNearDuplicates_identical_nonempty (a b : collectedRecord) (threshold : ℚ)
    (_hpos : 0 < threshold) (hle : threshold ≤ 1) (hsame : a.tokenSet = b.tokenSet)
    (hne : a.tokenSet.Nonempty) :
    dropNearDuplicates [a, b] threshold = ([a], 1) := by
  rw [dropNearDuplicates_pair]
  have h : jaccard b.tokenSet a.tokenSet = 1 :=
    (jaccard_eq_one_iff _ _).2 ⟨hsame.symm, hsame ▸ hne⟩
  rw [h, float64Round_one, if_pos]
  simpa using float64Round_le_natCast threshold 1 (by norm_num) (by simpa using hle)

theorem dropNearDuplicates_identical_nonempty_witness :
    (0 : ℚ) < 1 / 2 ∧ (1 / 2 : ℚ) ≤ 1 ∧
    (tokenRecord "a" {"x", "y"}).tokenSet = (tokenRecord "b" {"x", "y"}).tokenSet ∧
    (tokenRecord "a" {"x", "y"}).tokenSet.Nonempty ∧
    dropNearDuplicates [tokenRecord "a" {"x", "y"}, tokenRecord "b" {"x", "y"}] (1 / 2) =
      ([tokenRecord "a" {"x", "y"}], 1) :=
  ⟨by norm_num, by norm_num, rfl, ⟨"x", by simp [tokenRecord]⟩,
    dropNearDuplicates_identical_nonempty _ _ _ (by norm_num) (by norm_num) rfl
      ⟨"x", by simp [tokenRecord]⟩⟩

theorem jaccard_disjoint (A B : Finset String) (h : Disjoint A B) : jaccard A B = 0 := by
  rw [jaccard_eq]
  split_ifs
  · rfl
  · rw [Finset.disjoint_iff_inter_eq_empty.1 h]; simp

/-- C5: for two records whose token sets are non-empty and disjoint,
`dropNearDuplicates [a, b] threshold` drops `b` (returns `([a], 1)`) if and only if
`threshold ≤ 0`; otherwise it keeps both. -/
theorem dropNearDuplicates_disjoint (a b : collectedRecord) (threshold : ℚ)
    (_ha : a.tokenSet.Nonempty) (_hb : b.tokenSet.Nonempty)
    (hdisj : Disjoint a.tokenSet b.tokenSet) :
    (dropNearDuplicates [a, b] threshold = ([a], 1) ↔ threshold ≤ 0) ∧
    (dropNearDuplicates [a, b] threshold = ([a, b], 0) ↔ 0 < threshold) := by
  rw [dropNearDuplicates_pair, jaccard_disjoint _ _ hdisj.symm, float64Round_zero]
  simp only [float64Round_nonpos_iff]
  by_cases h : threshold ≤ 0
  · simp [h]
  · have h2 : 0 < threshold := not_le.1 h
    simp [h, h2]

theorem dropNearDuplicates_disjoint_witness :
    (tokenRecord "a" {"x"}).tokenSet.Nonempty ∧ (tokenRecord "b" {"y"}).tokenSet.Nonempty ∧
    Disjoint (tokenRecord "a" {"x"}).tokenSet (tokenRecord "b" {"y"}).tokenSet ∧
    (dropNearDuplicates [tokenRecord "a" {"x"}, tokenRecord "b" {"y"}] (1 / 2) =
        ([tokenRecord "a" {"x"}], 1) ↔ (1 / 2 : ℚ) ≤ 0) ∧
    (dropNearDuplicates [tokenRecord "a" {"x"}, tokenRecord "b" {"y"}] (1 / 2) =
        ([tokenRecord "a" {"x"}, tokenRecord "b" {"y"}], 0) ↔ (0 : ℚ) < 1 / 2) :=
  ⟨⟨"x", by simp [tokenRecord]⟩, ⟨"y", by simp [tokenRecord]⟩, by simp [tokenRecord],
    dropNearDuplicates_disjoint _ _ _ ⟨"x", by simp [tokenRecord]⟩
      ⟨"y", by simp [tokenRecord]⟩ (by simp [tokenRecord])⟩

theorem dropNearDuplicatesLoop_pairwise (t : ℚ) (rest : List collectedRecord) :
    ∀ (out : List collectedRecord) (d : Int),
      out.Pairwise (fun x y => jaccard x.tokenSet y.tokenSet < t) →
      (dropNearDuplicatesLoop t rest out d).1.Pairwise
        (fun x y => jaccard x.tokenSet y.tokenSet < t) := by
  induction rest with
  | nil => intro out d h; simpa [dropNearDuplicatesLoop] using h
  | cons c rest ih =>
    intro out d h
    simp only [dropNearDuplicatesLoop]
    by_cases hc : nearDuplicateOfAny c out t = true
    · rw [if_pos hc]; exact ih out _ h
    · rw [if_neg hc]
      apply ih
      have hlt := nearDuplicateOfAny_false_lt c t out (by simpa using hc)
      rw [List.pairwise_append]
      refine ⟨h, List.pairwise_singleton _ _, ?_⟩
      intro x hx y hy
      rw [List.mem_singleton] at hy
      subst hy
      rw [jaccard_comm]
      exact hlt x hx

/-- C6: the records kept by `dropNearDuplicates` contain no near-duplicate pair: any two
kept records at distinct positions have Jaccard similarity strictly below the
threshold. -/
theorem dropNearDuplicates_no_near_duplicate_pair (records : List collectedRecord)
    (threshold : ℚ) (i j : Nat) (x y : collectedRecord)
    (hi : (dropNearDuplicates records threshold).1[i]? = some x)
    (hj : (dropNearDuplicates records threshold).1[j]? = some y) (hij : i ≠ j) :
    jaccard x.tokenSet y.tokenSet < threshold := by
  have hp := dropNearDuplicatesLoop_pairwise threshold records [] 0 List.Pairwise.nil
  rw [List.pairwise_iff_getElem] at hp
  obtain ⟨hi1, hi2⟩ := List.getElem?_eq_some.1 hi
  obtain ⟨hj1, hj2⟩ := List.getElem?_eq_some.1 hj
  rcases Nat.lt_or_gt_of_ne hij with h | h
  · have := hp i j hi1 hj1 h
    rw [← hi2, ← hj2]; exact this
  · have := hp j i hj1 hi1 h
    rw [← hi2, ← hj2, jaccard_comm]; exact this

theorem dropNearDuplicates_no_near_duplicate_pair_witness :
    (dropNearDuplicates [tokenRecord "a" {"x"}, tokenRecord "b" {"y"}] (1 / 2)).1[0]? =
        some (tokenRecord "a" {"x"}) ∧
    (dropNearDuplicates [tokenRecord "a" {"x"}, tokenRecord "b" {"y"}] (1 / 2)).1[1]? =
        some (tokenRecord "b" {"y"}) ∧
    (0 : Nat) ≠ 1 ∧
    jaccard (tokenRecord "a" {"x"}).tokenSet (tokenRecord "b" {"y"}).tokenSet < 1 / 2 := by
  have hres : dropNearDuplicates [tokenRecord "a" {"x"}, tokenRecord "b" {"y"}] (1 / 2) =
      ([tokenRecord "a" {"x"}, tokenRecord "b" {"y"}], 0) := by
    rw [dropNearDuplicates_pair, jaccard_disjoint _ _ (by simp [tokenRecord]),
      float64Round_zero, float64Round_half]
    norm_num
  have h0 : (dropNearDuplicates [tokenRecord "a" {"x"}, tokenRecord "b" {"y"}]
      (1 / 2)).1[0]? = some (tokenRecord "a" {"x"}) := by rw [hres]; rfl
  have h1 : (dropNearDuplicates [tokenRecord "a" {"x"}, tokenRecord "b" {"y"}]
      (1 / 2)).1[1]? = some (tokenRecord "b" {"y"}) := by rw [hres]; rfl
  exact ⟨h0, h1, by decide,
    dropNearDuplicates_no_near_duplicate_pair _ _ 0 1 _ _ h0 h1 (by decide)⟩

/-! ### Drop counts -/

theorem dropExactDuplicatesLoop_count (rest : List collectedRecord) :
    ∀ (seen : String → Bool) (out : List collectedRecord) (d : Int),
      (dropExactDuplicatesLoop rest seen out d).2 +
          ((dropExactDuplicatesLoop rest seen out d).1.length : Int) =
        d + (out.length : Int) + (rest.length : Int) := by
  induction rest with
  | nil => intro seen out d; simp [dropExactDuplicatesLoop]
  | cons r rest ih =>
    intro seen out d
    simp only [dropExactDuplicatesLoop]
    split_ifs
    · rw [ih]; simp only [List.length_cons]; push_cast; ring
    · rw [ih]; simp only [List.length_cons, List.length_append, List.length_nil]
      push_cast; ring

theorem dropNearDuplicatesLoop_count (t : ℚ) (rest : List collectedRecord) :
    ∀ (out : List collectedRecord) (d : Int),
      (dropNearDuplicatesLoop t rest out d).2 +
          ((dropNearDuplicatesLoop t rest out d).1.length : Int) =
        d + (out.length : Int) + (rest.length : Int) := by
  induction rest with
  | nil => intro out d; simp [dropNearDuplicatesLoop]
  | cons r rest ih =>
    intro out d
    simp only [dropNearDuplicatesLoop]
    split_ifs
    · rw [ih]; simp only [List.length_cons]; push_cast; ring
    · rw [ih]; simp only [List.length_cons, List.length_append, List.length_nil]
      push_cast; ring

theorem partitionReadmes_eq (records : List collectedRecord) :
    ∀ readmes nonReadmes : List collectedRecord,
      partitionReadmes records readmes nonReadmes =
        (readmes ++ records.filter (fun r => r.IsReadme),
          nonReadmes ++ records.filter (fun r => !r.IsReadme)) := by
  induction records with
  | nil => intro a b; simp [partitionReadmes]
  | cons r rest ih =>
    intro a b
    simp only [partitionReadmes]
    by_cases h : r.IsReadme = true
    · simp [h, ih]
    · simp [h, ih]

theorem partitionReadmes_length (records : List collectedRecord) :
    ((partitionReadmes records [] []).1.length : Int) +
        ((partitionReadmes records [] []).2.length : Int) = (records.length : Int) := by
  rw [partitionReadmes_eq]
  simp only [List.nil_append]
  induction records with
  | nil => simp
  | cons r rest ih =>
    by_cases h : r.IsReadme = true
    · simp only [List.filter_cons, h, if_true, Bool.not_true, Bool.false_eq_true, if_false,
        List.length_cons]
      push_cast; omega
    · simp only [Bool.not_eq_true] at h
      simp only [List.filter_cons, h, Bool.false_eq_true, if_false, Bool.not_false, if_true,
        List.length_cons]
      push_cast; omega

theorem sortByRecordID_perm (xs : List collectedRecord) : (sortByRecordID xs).Perm xs :=
  List.perm_insertionSort _ xs

theorem sortByRecordID_length (xs : List collectedRecord) :
    (sortByRecordID xs).length = xs.length :=
  (sortByRecordID_perm xs).length_eq

theorem maxReadmeCount_pos (maxShare : ℚ) (n : Int) : 1 ≤ maxReadmeCount maxShare n := by
  unfold maxReadmeCount
  simp only
  split_ifs with h
  · exact le_refl _
  · exact not_lt.1 h

theorem capReadmes_count (records : List collectedRecord) (maxShare : ℚ) :
    (capReadmes records maxShare).2 =
      (records.length : Int) - ((capReadmes records maxShare).1.length : Int) := by
  have hlen := partitionReadmes_length records
  unfold capReadmes
  simp only
  split_ifs with h1 h2 h3 h4
  · simp
  · simp
  · simp only [List.length_nil]
    have : ((partitionReadmes records [] []).2.length : Int) = 0 := by exact_mod_cast h3
    omega
  · simp
  · simp only [sortByRecordID_length, List.length_append, List.length_take]
    have hpos := maxReadmeCount_pos maxShare ((partitionReadmes records [] []).2.length : Int)
    push_cast
    omega

/-! ### Category balance: loop invariants -/

theorem filterKeptRecords_eq_filter (records : List collectedRecord)
    (keptByID : String → Bool) :
    filterKeptRecords records keptByID = records.filter (fun r => keptByID r.RecordID) := by
  induction records with
  | nil => rfl
  | cons r rest ih =>
    simp only [filterKeptRecords, List.filter_cons, ih]

theorem groupRecordsByCategory_foldl (records : List collectedRecord) :
    ∀ (groups : Category → List collectedRecord) (c : Category),
      records.foldl
          (fun (groups : Category → List collectedRecord) (record : collectedRecord) =>
            Function.update groups record.Category (groups record.Category ++ [record]))
          groups c =
        groups c ++ records.filter (fun r => decide (r.Category = c)) := by
  induction records with
  | nil => intro groups c; simp
  | cons r rest ih =>
    intro groups c
    rw [List.foldl_cons, ih]
    by_cases h : r.Category = c
    · subst h; simp
    · have h2 : c ≠ r.Category := fun e => h e.symm
      simp [Function.update_noteq h2, h]

theorem groupRecordsByCategory_eq (records : List collectedRecord) (c : Category) :
    groupRecordsByCategory records c = records.filter (fun r => decide (r.Category = c)) := by
  unfold groupRecordsByCategory
  rw [groupRecordsByCategory_foldl]
  rfl

/-- Invariants of the innermost loop: a property of `(keptByID, droppedThisPass)` that
every single drop preserves holds after the loop. -/
theorem dropOverflow_induction (P : (String → Bool) → Int → Prop)
    (ov : List collectedRecord)
    (hstep : ∀ o ∈ ov, ∀ k d, P k d → k o.RecordID = true →
      P (Function.update k o.RecordID false) (d + 1)) :
    ∀ k d, P k d → P (dropOverflow ov k d).1 (dropOverflow ov k d).2 := by
  induction ov with
  | nil => intro k d h; exact h
  | cons o rest ih =>
    intro k d h
    have ih2 := ih (fun o2 ho2 => hstep o2 (List.mem_cons_of_mem _ ho2))
    simp only [dropOverflow]
    by_cases hk : k o.RecordID = true
    · rw [if_pos hk]
      exact ih2 _ _ (hstep o (List.mem_cons_self _ _) k d h hk)
    · rw [if_neg hk]
      exact ih2 _ _ h

/-- Invariants of one pass: a property preserved by dropping any member of any group
holds after the category loop. -/
theorem applyBalancePassLoop_induction (P : (String → Bool) → Int → Prop)
    (ranges : Ranges) (groups : Category → List collectedRecord) (total : Int)
    (hstep : ∀ c, ∀ o ∈ groups c, ∀ k d, P k d → k o.RecordID = true →
      P (Function.update k o.RecordID false) (d + 1)) :
    ∀ (cats : List Category) k d, P k d →
      P (applyBalancePassLoop ranges groups total cats k d).1
        (applyBalancePassLoop ranges groups total cats k d).2 := by
  intro cats
  induction cats with
  | nil => intro k d h; exact h
  | cons c rest ih =>
    intro k d h
    simp only [applyBalancePassLoop]
    split
    · exact ih k d h
    · split_ifs
      · exact ih k d h
      · exact ih k d h
      · exact ih k d h
      · apply ih
        apply dropOverflow_induction P _ _ k d h
        intro o ho
        apply hstep c o
        exact (sortByRecordID_perm _).subset (List.mem_of_mem_drop ho)

theorem filter_update_lt (records : List collectedRecord) (k : String → Bool)
    (o : collectedRecord) (ho : o ∈ records) (hk : k o.RecordID = true) :
    (filterKeptRecords records (Function.update k o.RecordID false)).length <
      (filterKeptRecords records k).length := by
  rw [filterKeptRecords_eq_filter, filterKeptRecords_eq_filter]
  induction records with
  | nil => simp at ho
  | cons r rest ih =>
    have hmono : ∀ l : List collectedRecord,
        (l.filter (fun r => Function.update k o.RecordID false r.RecordID)).length ≤
          (l.filter (fun r => k r.RecordID)).length := by
      intro l
      induction l with
      | nil => simp
      | cons x l ihl =>
        simp only [List.filter_cons]
        by_cases hx : x.RecordID = o.RecordID
        · rw [hx]; simp only [Function.update_same, Bool.false_eq_true, if_false, hk, if_true,
            List.length_cons]
          omega
        · rw [Function.update_noteq hx]
          split_ifs
          · simp only [List.length_cons]; omega
          · exact ihl
    simp only [List.filter_cons]
    by_cases hx : r.RecordID = o.RecordID
    · rw [hx]; simp only [Function.update_same, Bool.false_eq_true, if_false, hk, if_true,
        List.length_cons]
      have := hmono rest
      omega
    · have hor : o ∈ rest := by
        rcases List.mem_cons.1 ho with h | h
        · exact absurd (by rw [h]) hx
        · exact h
      rw [Function.update_noteq hx]
      split_ifs
      · simp only [List.length_cons]; have := ih hor; omega
      · exact ih hor

theorem filter_update_of_not_mem (records : List collectedRecord) (k : String → Bool)
    (id : String) (hid : id ∉ records.map (fun r => r.RecordID)) :
    filterKeptRecords records (Function.update k id false) = filterKeptRecords records k := by
  rw [filterKeptRecords_eq_filter, filterKeptRecords_eq_filter]
  apply List.filter_congr
  intro x hx
  have : x.RecordID ≠ id := fun e => hid (e ▸ List.mem_map_of_mem _ hx)
  rw [Function.update_noteq this]

theorem filter_update_length_nodup (records : List collectedRecord) (k : String → Bool)
    (o : collectedRecord) (hnd : (records.map (fun r => r.RecordID)).Nodup)
    (ho : o ∈ records) (hk : k o.RecordID = true) :
    ((filterKeptRecords records (Function.update k o.RecordID false)).length : Int) + 1 =
      ((filterKeptRecords records k).length : Int) := by
  induction records with
  | nil => simp at ho
  | cons r rest ih =>
    simp only [List.map_cons, List.nodup_cons] at hnd
    simp only [filterKeptRecords]
    by_cases hx : r.RecordID = o.RecordID
    · rw [hx]; simp only [Function.update_same, Bool.false_eq_true, if_false, hk, if_true,
        List.length_cons]
      rw [filter_update_of_not_mem rest k _ (hx ▸ hnd.1)]
      push_cast; ring
    · have hor : o ∈ rest := by
        rcases List.mem_cons.1 ho with h | h
        · exact absurd (by rw [h]) hx
        · exact h
      rw [Function.update_noteq hx]
      split_ifs
      · simp only [List.length_cons]; have := ih hnd.2 hor; push_cast; omega
      · exact ih hnd.2 hor

theorem mem_records_of_mem_group (records : List collectedRecord) (k : String → Bool)
    (c : Category) (o : collectedRecord)
    (ho : o ∈ groupRecordsByCategory (filterKeptRecords records k) c) : o ∈ records := by
  rw [groupRecordsByCategory_eq, filterKeptRecords_eq_filter] at ho
  exact List.mem_of_mem_filter (List.mem_of_mem_filter ho)

/-- One pass never re-keeps a record, and a pass that reports a drop shrinks the kept
subset. -/
theorem applyBalancePass_shrinks (allCategories : List Category)
    (records : List collectedRecord) (ranges : Ranges) (k : String → Bool) (total : Int) :
    0 ≤ (applyBalancePass allCategories ranges k
        (groupRecordsByCategory (filterKeptRecords records k)) total).2 ∧
    ((applyBalancePass allCategories ranges k
        (groupRecordsByCategory (filterKeptRecords records k)) total).2 ≠ 0 →
      (filterKeptRecords records (applyBalancePass allCategories ranges k
        (groupRecordsByCategory (filterKeptRecords records k)) total).1).length <
        (filterKeptRecords records k).length) := by
  have h := applyBalancePassLoop_induction
    (fun k2 d => 0 ≤ d ∧
      (filterKeptRecords records k2).length ≤ (filterKeptRecords records k).length ∧
      (d ≠ 0 → (filterKeptRecords records k2).length < (filterKeptRecords records k).length))
    ranges (groupRecordsByCategory (filterKeptRecords records k)) total
    (by
      intro c o ho k2 d hP hk
      have hlt := filter_update_lt records k2 o (mem_records_of_mem_group records k c o ho) hk
      refine ⟨by omega, by omega, fun _ => by omega⟩)
    allCategories k 0 ⟨le_refl _, le_refl _, fun h => absurd rfl h⟩
  exact ⟨h.1, h.2.2⟩

/-- With pairwise distinct `RecordID`s, the count reported by one pass is the number of
records it removes from the kept subset. -/
theorem applyBalancePass_count (allCategories : List Category)
    (records : List collectedRecord) (ranges : Ranges) (k : String → Bool) (total : Int)
    (hnd : (records.map (fun r => r.RecordID)).Nodup) :
    (applyBalancePass allCategories ranges k
        (groupRecordsByCategory (filterKeptRecords records k)) total).2 +
      ((filterKeptRecords records (applyBalancePass allCategories ranges k
        (groupRecordsByCategory (filterKeptRecords records k)) total).1).length : Int) =
      ((filterKeptRecords records k).length : Int) := by
  have h := applyBalancePassLoop_induction
    (fun k2 d => d + ((filterKeptRecords records k2).length : Int) =
      ((filterKeptRecords records k).length : Int))
    ranges (groupRecordsByCategory (filterKeptRecords records k)) total
    (by
      intro c o ho k2 d hP hk
      have := filter_update_length_nodup records k2 o hnd
        (mem_records_of_mem_group records k c o ho) hk
      omega)
    allCategories k 0 (by simp)
  exact h

/-- The pass loop of `applyBalance` returns whenever the fuel exceeds the number of
currently kept records. -/
theorem applyBalanceLoop_returns (allCategories : List Category)
    (records : List collectedRecord) (ranges : Ranges) :
    ∀ (fuel : Nat) (k : String → Bool) (d : Int),
      (filterKeptRecords records k).length < fuel →
      ∃ st, applyBalanceLoop allCategories records ranges fuel k d = some st := by
  intro fuel
  induction fuel with
  | zero => intro k d h; omega
  | succ fuel ih =>
    intro k d h
    simp only [applyBalanceLoop]
    split_ifs with h1 h2
    · exact ⟨_, rfl⟩
    · exact ⟨_, rfl⟩
    · apply ih
      have := (applyBalancePass_shrinks allCategories records ranges k
        ((filterKeptRecords records k).length : Int)).2 h2
      omega

theorem applyBalanceLoop_count (allCategories : List Category)
    (records : List collectedRecord) (ranges : Ranges)
    (hnd : (records.map (fun r => r.RecordID)).Nodup) :
    ∀ (fuel : Nat) (k : String → Bool) (d : Int) (st : (String → Bool) × Int),
      applyBalanceLoop allCategories records ranges fuel k d = some st →
      st.2 + ((filterKeptRecords records st.1).length : Int) =
        d + ((filterKeptRecords records k).length : Int) := by
  intro fuel
  induction fuel with
  | zero => intro k d st h; simp [applyBalanceLoop] at h
  | succ fuel ih =>
    intro k d st h
    have hc := applyBalancePass_count allCategories records ranges k
      ((filterKeptRecords records k).length : Int) hnd
    simp only [applyBalanceLoop] at h
    split_ifs at h with h1 h2
    · cases h; rfl
    · cases h; simp only; omega
    · have := ih _ _ _ h
      omega

theorem markAllKept_apply (records : List collectedRecord) :
    ∀ (k : String → Bool) (id : String),
      markAllKept records k id =
        if id ∈ records.map (fun r => r.RecordID) then true else k id := by
  induction records with
  | nil => intro k id; simp [markAllKept]
  | cons r rest ih =>
    intro k id
    simp only [markAllKept, ih, List.map_cons, List.mem_cons]
    by_cases h1 : id ∈ rest.map (fun r => r.RecordID)
    · simp [h1]
    · by_cases h2 : id = r.RecordID
      · subst h2; simp
      · simp [h1, h2, Function.update_noteq h2]

theorem filterKeptRecords_markAllKept (records : List collectedRecord) :
    filterKeptRecords records (markAllKept records (fun _ => false)) = records := by
  rw [filterKeptRecords_eq_filter]
  apply List.filter_eq_self.2
  intro r hr
  rw [markAllKept_apply, if_pos (List.mem_map_of_mem _ hr)]

/-- The loop of `applyBalance` terminates within the `len(records) + 1` passes of fuel:
`applyBalance` returns a result for every input. -/
theorem applyBalance_returns (allCategories : List Category)
    (records : List collectedRecord) (ranges : Ranges) :
    ∃ res, applyBalance allCategories records ranges = some res := by
  unfold applyBalance
  split_ifs
  · exact ⟨_, rfl⟩
  · obtain ⟨st, hst⟩ := applyBalanceLoop_returns allCategories records ranges
      (records.length + 1) (markAllKept records (fun _ => false)) 0
      (by rw [filterKeptRecords_markAllKept]; omega)
    rw [hst]
    exact ⟨_, rfl⟩

theorem applyBalance_count (allCategories : List Category)
    (records : List collectedRecord) (ranges : Ranges)
    (hnd : (records.map (fun r => r.RecordID)).Nodup)
    (res : List collectedRecord × Int × List String)
    (hres : applyBalance allCategories records ranges = some res) :
    res.2.1 = (records.length : Int) - (res.1.length : Int) := by
  unfold applyBalance at hres
  split_ifs at hres
  · cases hres; simp
  · split at hres
    · cases hres
    · rename_i st hst
      cases hres
      have := applyBalanceLoop_count allCategories records ranges hnd _ _ _ _ hst
      rw [filterKeptRecords_markAllKept] at this
      simp only
      omega

/-- C2: the reported drop count is exact. `dropExactDuplicates`, `dropNearDuplicates` and
`capReadmes` return `dropped = len(input) - len(kept)` for every input; `applyBalance`
returns a result, and `dropped = len(records) - len(kept)` whenever the `RecordID`s of
the input are pairwise distinct. -/
theorem drop_counts_are_exact (records : List collectedRecord) (threshold maxShare : ℚ)
    (allCategories : List Category) (ranges : Ranges) :
    (dropExactDuplicates records).2 =
      (records.length : Int) - ((dropExactDuplicates records).1.length : Int) ∧
    (dropNearDuplicates records threshold).2 =
      (records.length : Int) - ((dropNearDuplicates records threshold).1.length : Int) ∧
    (capReadmes records maxShare).2 =
      (records.length : Int) - ((capReadmes records maxShare).1.length : Int) ∧
    ((records.map (fun r => r.RecordID)).Nodup →
      ∃ res, applyBalance allCategories records ranges = some res ∧
        res.2.1 = (records.length : Int) - (res.1.length : Int)) := by
  refine ⟨?_, ?_, capReadmes_count records maxShare, ?_⟩
  · have := dropExactDuplicatesLoop_count records (fun _ => false) [] 0
    simp only [dropExactDuplicates]
    simp only [List.length_nil] at this
    omega
  · have := dropNearDuplicatesLoop_count threshold records [] 0
    simp only [dropNearDuplicates]
    simp only [List.length_nil] at this
    omega
  · intro hnd
    obtain ⟨res, hres⟩ := applyBalance_returns allCategories records ranges
    exact ⟨res, hres, applyBalance_count allCategories records ranges hnd res hres⟩

theorem drop_counts_are_exact_witness :
    (balanceRecords.map (fun r => r.RecordID)).Nodup ∧
    ∃ res, applyBalance ["docs", "code"] balanceRecords balanceRanges = some res ∧
      res.2.1 = (balanceRecords.length : Int) - (res.1.length : Int) :=
  ⟨by decide,
    (drop_counts_are_exact balanceRecords (1 / 2) (1 / 5) ["docs", "code"]
      balanceRanges).2.2.2 (by decide)⟩

/-! ### Readme cap -/

theorem capReadmes_unfold (records : List collectedRecord) (maxShare : ℚ)
    (h0 : 0 < maxShare) (h1 : maxShare < 1) (hne : records ≠ []) :
    capReadmes records maxShare =
      if (records.filter (fun r => !r.IsReadme)).length = 0 then
        ([], ((records.filter (fun r => r.IsReadme)).length : Int))
      else if ((records.filter (fun r => r.IsReadme)).length : Int) ≤
          maxReadmeCount maxShare ((records.filter (fun r => !r.IsReadme)).length : Int) then
        (records, 0)
      else
        (sortByRecordID (records.filter (fun r => !r.IsReadme) ++
            (sortByRecordID (records.filter (fun r => r.IsReadme))).take
              (maxReadmeCount maxShare
                ((records.filter (fun r => !r.IsReadme)).length : Int)).toNat),
          ((records.filter (fun r => r.IsReadme)).length : Int) -
            (maxReadmeCount maxShare
              ((records.filter (fun r => !r.IsReadme)).length : Int))) := by
  have hlen : ¬ records.length = 0 := fun h => hne (List.length_eq_zero.1 h)
  unfold capReadmes
  rw [if_neg (by rintro (h | h); exact absurd h0 (not_lt.2 h); exact hlen h),
    if_neg (not_le.2 h1)]
  simp only [partitionReadmes_eq, List.nil_append]
  split_ifs with h3 h4
  · rfl
  · rfl
  · have hpos := maxReadmeCount_pos maxShare
      ((records.filter (fun r => !r.IsReadme)).length : Int)
    simp only [sortByRecordID_length, List.length_take, Prod.mk.injEq, true_and]
    push_cast
    omega

/-- C10: for `0 < maxShare < 1` and a non-empty input in which every record is a readme,
`capReadmes` returns an empty kept list and `dropped = len(input)`. -/
theorem capReadmes_all_readmes (records : List collectedRecord) (maxShare : ℚ)
    (h0 : 0 < maxShare) (h1 : maxShare < 1) (hne : records ≠ [])
    (hall : ∀ r ∈ records, r.IsReadme = true) :
    capReadmes records maxShare = ([], (records.length : Int)) := by
  have hnon : records.filter (fun r => !r.IsReadme) = [] := by
    apply List.filter_eq_nil_iff.2
    intro r hr
    simp [hall r hr]
  have hrd : records.filter (fun r => r.IsReadme) = records :=
    List.filter_eq_self.2 hall
  rw [capReadmes_unfold records maxShare h0 h1 hne, hnon, hrd]
  simp

theorem capReadmes_all_readmes_witness :
    (0 : ℚ) < 1 / 5 ∧ (1 / 5 : ℚ) < 1 ∧
    [plainRecord "a" "docs" true, plainRecord "b" "docs" true] ≠ [] ∧
    (∀ r ∈ [plainRecord "a" "docs" true, plainRecord "b" "docs" true], r.IsReadme = true) ∧
    capReadmes [plainRecord "a" "docs" true, plainRecord "b" "docs" true] (1 / 5) =
      ([], (([plainRecord "a" "docs" true, plainRecord "b" "docs" true].length : Nat) : Int)) :=
  ⟨by norm_num, by norm_num, by simp, by simp [plainRecord],
    capReadmes_all_readmes _ _ (by norm_num) (by norm_num) (by simp)
      (by simp [plainRecord])⟩

theorem filter_readme_length_add (l : List collectedRecord) :
    (l.filter (fun r => r.IsReadme)).length + (l.filter (fun r => !r.IsReadme)).length =
      l.length := by
  induction l with
  | nil => rfl
  | cons r rest ih =>
    by_cases h : r.IsReadme = true
    · simp only [List.filter_cons, h, if_true, Bool.not_true, Bool.false_eq_true, if_false,
        List.length_cons]
      omega
    · simp only [Bool.not_eq_true] at h
      simp only [List.filter_cons, h, Bool.false_eq_true, if_false, Bool.not_false, if_true,
        List.length_cons]
      omega

theorem sorted_append_counts (A T : List collectedRecord)
    (hA : ∀ x ∈ A, x.IsReadme = false) (hT : ∀ x ∈ T, x.IsReadme = true) :
    ((sortByRecordID (A ++ T)).filter (fun r => !r.IsReadme)).length = A.length ∧
    ((sortByRecordID (A ++ T)).filter (fun r => r.IsReadme)).length = T.length := by
  have a1 : A.filter (fun r => !r.IsReadme) = A :=
    List.filter_eq_self.2 (fun x hx => by simp [hA x hx])
  have a2 : A.filter (fun r => r.IsReadme) = [] :=
    List.filter_eq_nil_iff.2 (fun x hx => by simp [hA x hx])
  have t1 : T.filter (fun r => !r.IsReadme) = [] :=
    List.filter_eq_nil_iff.2 (fun x hx => by simp [hT x hx])
  have t2 : T.filter (fun r => r.IsReadme) = T := List.filter_eq_self.2 hT
  constructor
  · rw [((sortByRecordID_perm _).filter _).length_eq, List.filter_append, a1, t1]
    simp
  · rw [((sortByRecordID_perm _).filter _).length_eq, List.filter_append, a2, t2]
    simp

/-- What `capReadmes` keeps, by readme flag: all non-readme records, and at most
`maxReadmeCount` readme records. -/
theorem capReadmes_kept_counts (records : List collectedRecord) (maxShare : ℚ)
    (h0 : 0 < maxShare) (h1 : maxShare < 1)
    (hnon : (records.filter (fun r => !r.IsReadme)).length ≠ 0) :
    ((capReadmes records maxShare).1.filter (fun r => !r.IsReadme)).length =
      (records.filter (fun r => !r.IsReadme)).length ∧
    ((((capReadmes records maxShare).1.filter (fun r => r.IsReadme)).length : Nat) : Int) ≤
      maxReadmeCount maxShare ((records.filter (fun r => !r.IsReadme)).length : Int) := by
  have hne : records ≠ [] := by
    rintro rfl
    simp at hnon
  rw [capReadmes_unfold records maxShare h0 h1 hne, if_neg hnon]
  split_ifs with h
  · exact ⟨rfl, h⟩
  · have hpos := maxReadmeCount_pos maxShare
      ((records.filter (fun r => !r.IsReadme)).length : Int)
    have htake : ∀ x ∈ (sortByRecordID (records.filter (fun r => r.IsReadme))).take
        (maxReadmeCount maxShare
          ((records.filter (fun r => !r.IsReadme)).length : Int)).toNat,
        x.IsReadme = true := by
      intro x hx
      have := (sortByRecordID_perm _).subset (List.mem_of_mem_take hx)
      exact (List.mem_filter.1 this).2
    have hA : ∀ x ∈ records.filter (fun r => !r.IsReadme), x.IsReadme = false := by
      intro x hx
      simpa using (List.mem_filter.1 hx).2
    obtain ⟨e1, e2⟩ := sorted_append_counts _ _ hA htake
    refine ⟨e1, ?_⟩
    rw [e2]
    simp only [List.length_take, sortByRecordID_length]
    omega

theorem maxReadmeCount_eq_max (maxShare : ℚ) (n : Int) :
    maxReadmeCount maxShare n =
      max 1 (Int.floor (float64Round
        (float64Round (float64Round maxShare * float64Round (n : ℚ)) /
          float64Round (1 - float64Round maxShare)))) := by
  unfold maxReadmeCount
  simp only
  split_ifs with h
  · exact (max_eq_left (le_of_lt h)).symm
  · exact (max_eq_right (not_lt.1 h)).symm

theorem maxReadmeCount_eval (maxShare : ℚ) (n : Int) (share count product rest quotient : ℚ)
    (c : Int) (h1 : float64Round maxShare = share) (h2 : float64Round (n : ℚ) = count)
    (h3 : float64Round (share * count) = product) (h4 : float64Round (1 - share) = rest)
    (h5 : float64Round (product / rest) = quotient) (h6 : Int.floor quotient = c) :
    maxReadmeCount maxShare n = max 1 c := by
  rw [maxReadmeCount_eq_max, h1, h2, h3, h4, h5, h6]

theorem maxReadmeCount_fifth_one : maxReadmeCount (1 / 5) 1 = 1 := by
  have h1 : float64Round (1 / 5) = 3602879701896397 / 18014398509481984 := by
    refine (float64Round_eval _ (-3) 7205759403792794 ?_ ?_ ?_).trans ?_
    · norm_num
    · norm_num
    · exact roundHalfEven_of_near _ _ (by norm_num) (by norm_num) (by norm_num)
    · norm_num
  have h2 : float64Round (((1 : Int)) : ℚ) = 1 := by
    simpa using float64Round_natCast 1 (by norm_num)
  have h3 : float64Round (3602879701896397 / 18014398509481984 * 1) =
      3602879701896397 / 18014398509481984 := by
    refine (float64Round_eval _ (-3) 7205759403792794 ?_ ?_ ?_).trans ?_
    · norm_num
    · norm_num
    · exact roundHalfEven_of_near _ _ (by norm_num) (by norm_num) (by norm_num)
    · norm_num
  have h4 : float64Round (1 - 3602879701896397 / 18014398509481984) =
      3602879701896397 / 4503599627370496 := by
    refine (float64Round_eval _ (-1) 7205759403792794 ?_ ?_ ?_).trans ?_
    · norm_num
    · norm_num
    · refine (roundHalfEven_of_tie _ 7205759403792793 ?_).trans ?_ <;> norm_num
    · norm_num
  have h5 : float64Round (3602879701896397 / 18014398509481984 / (3602879701896397 / 4503599627370496)) =
      1 / 4 := by
    refine (float64Round_eval _ (-2) 4503599627370496 ?_ ?_ ?_).trans ?_
    · norm_num
    · norm_num
    · exact roundHalfEven_of_near _ _ (by norm_num) (by norm_num) (by norm_num)
    · norm_num
  have h6 : Int.floor (1 / 4 : ℚ) = 0 := by
    rw [Int.floor_eq_iff]; norm_num
  rw [maxReadmeCount_eval _ _ _ _ _ _ _ _ h1 h2 h3 h4 h5 h6]
  norm_num

theorem maxReadmeCount_fifth_ten : maxReadmeCount (1 / 5) 10 = 2 := by
  have h1 : float64Round (1 / 5) = 3602879701896397 / 18014398509481984 := by
    refine (float64Round_eval _ (-3) 7205759403792794 ?_ ?_ ?_).trans ?_
    · norm_num
    · norm_num
    · exact roundHalfEven_of_near _ _ (by norm_num) (by norm_num) (by norm_num)
    · norm_num
  have h2 : float64Round (((10 : Int)) : ℚ) = 10 := by
    simpa using float64Round_natCast 10 (by norm_num)
  have h3 : float64Round (3602879701896397 / 18014398509481984 * 10) = 2 := by
    refine (float64Round_eval _ 1 4503599627370496 ?_ ?_ ?_).trans ?_
    · norm_num
    · norm_num
    · exact roundHalfEven_of_near _ _ (by norm_num) (by norm_num) (by norm_num)
    · norm_num
  have h4 : float64Round (1 - 3602879701896397 / 18014398509481984) =
      3602879701896397 / 4503599627370496 := by
    refine (float64Round_eval _ (-1) 7205759403792794 ?_ ?_ ?_).trans ?_
    · norm_num
    · norm_num
    · refine (roundHalfEven_of_tie _ 7205759403792793 ?_).trans ?_ <;> norm_num
    · norm_num
  have h5 : float64Round (2 / (3602879701896397 / 4503599627370496)) = 5 / 2 := by
    refine (float64Round_eval _ 1 5629499534213120 ?_ ?_ ?_).trans ?_
    · norm_num
    · norm_num
    · exact roundHalfEven_of_near _ _ (by norm_num) (by norm_num) (by norm_num)
    · norm_num
  have h6 : Int.floor (5 / 2 : ℚ) = 2 := by
    rw [Int.floor_eq_iff]; norm_num
  rw [maxReadmeCount_eval _ _ _ _ _ _ _ _ h1 h2 h3 h4 h5 h6]
  norm_num

theorem float64Round_three_sevenths :
    float64Round (3 / 7) = 7720456504063707 / 18014398509481984 := by
  refine (float64Round_eval _ (-2) 7720456504063707 ?_ ?_ ?_).trans ?_
  · norm_num
  · norm_num
  · exact roundHalfEven_of_near _ _ (by norm_num) (by norm_num) (by norm_num)
  · norm_num

theorem maxReadmeCount_three_sevenths_four : maxReadmeCount (float64Round (3 / 7)) 4 = 3 := by
  rw [float64Round_three_sevenths]
  have h1 : float64Round (7720456504063707 / 18014398509481984) =
      7720456504063707 / 18014398509481984 := by
    refine (float64Round_eval _ (-2) 7720456504063707 ?_ ?_ ?_).trans ?_
    · norm_num
    · norm_num
    · exact roundHalfEven_of_near _ _ (by norm_num) (by norm_num) (by norm_num)
    · norm_num
  have h2 : float64Round (((4 : Int)) : ℚ) = 4 := by
    simpa using float64Round_natCast 4 (by norm_num)
  have h3 : float64Round (7720456504063707 / 18014398509481984 * 4) =
      7720456504063707 / 4503599627370496 := by
    refine (float64Round_eval _ 0 7720456504063707 ?_ ?_ ?_).trans ?_
    · norm_num
    · norm_num
    · exact roundHalfEven_of_near _ _ (by norm_num) (by norm_num) (by norm_num)
    · norm_num
  have h4 : float64Round (1 - 7720456504063707 / 18014398509481984) =
      2573485501354569 / 4503599627370496 := by
    refine (float64Round_eval _ (-1) 5146971002709138 ?_ ?_ ?_).trans ?_
    · norm_num
    · norm_num
    · refine (roundHalfEven_of_tie _ 5146971002709138 ?_).trans ?_ <;> norm_num
    · norm_num
  have h5 : float64Round (7720456504063707 / 4503599627370496 / (2573485501354569 / 4503599627370496)) =
      3 := by
    refine (float64Round_eval _ 1 6755399441055744 ?_ ?_ ?_).trans ?_
    · norm_num
    · norm_num
    · exact roundHalfEven_of_near _ _ (by norm_num) (by norm_num) (by norm_num)
    · norm_num
  have h6 : Int.floor (3 : ℚ) = 3 := by
    rw [Int.floor_eq_iff]; norm_num
  rw [maxReadmeCount_eval _ _ _ _ _ _ _ _ h1 h2 h3 h4 h5 h6]
  norm_num

theorem maxReadmeCount_seven_eighteenths : maxReadmeCount (7 / 18) 11 = 6 := by
  have h1 : float64Round (7 / 18) = 7005599420354105 / 18014398509481984 := by
    refine (float64Round_eval _ (-2) 7005599420354105 ?_ ?_ ?_).trans ?_
    · norm_num
    · norm_num
    · exact roundHalfEven_of_near _ _ (by norm_num) (by norm_num) (by norm_num)
    · norm_num
  have h2 : float64Round (((11 : Int)) : ℚ) = 11 := by
    simpa using float64Round_natCast 11 (by norm_num)
  have h3 : float64Round (7005599420354105 / 18014398509481984 * 11) =
      4816349601493447 / 1125899906842624 := by
    refine (float64Round_eval _ 2 4816349601493447 ?_ ?_ ?_).trans ?_
    · norm_num
    · norm_num
    · exact roundHalfEven_of_near _ _ (by norm_num) (by norm_num) (by norm_num)
    · norm_num
  have h4 : float64Round (1 - 7005599420354105 / 18014398509481984) =
      1376099886140985 / 2251799813685248 := by
    refine (float64Round_eval _ (-1) 5504399544563940 ?_ ?_ ?_).trans ?_
    · norm_num
    · norm_num
    · refine (roundHalfEven_of_tie _ 5504399544563939 ?_).trans ?_ <;> norm_num
    · norm_num
  have h5 : float64Round (4816349601493447 / 1125899906842624 / (1376099886140985 / 2251799813685248)) =
      7881299347898367 / 1125899906842624 := by
    refine (float64Round_eval _ 2 7881299347898367 ?_ ?_ ?_).trans ?_
    · norm_num
    · norm_num
    · exact roundHalfEven_of_near _ _ (by norm_num) (by norm_num) (by norm_num)
    · norm_num
  have h6 : Int.floor (7881299347898367 / 1125899906842624 : ℚ) = 6 := by
    rw [Int.floor_eq_iff]; norm_num
  rw [maxReadmeCount_eval _ _ _ _ _ _ _ _ h1 h2 h3 h4 h5 h6]
  norm_num

theorem float64Round_seven_eighteenths :
    float64Round (7 / 18) = 7005599420354105 / 18014398509481984 := by
  refine (float64Round_eval _ (-2) 7005599420354105 ?_ ?_ ?_).trans ?_
  · norm_num
  · norm_num
  · exact roundHalfEven_of_near _ _ (by norm_num) (by norm_num) (by norm_num)
  · norm_num

/-- Rounding analysis of the cap of `capReadmes`: when the floor of the float64 quotient is
at least 1, it exceeds the exact quotient taken at the float64 `maxShare` by a factor of
at most `(1 + u)^3 / (1 - u)` with `u = 2^-53`. -/
theorem float64_quotient_bound (m : ℚ) (n : Nat)
    (hF : 1 ≤ Int.floor (float64Round
      (float64Round (float64Round m * float64Round (n : ℚ)) /
        float64Round (1 - float64Round m)))) :
    0 < float64Round m ∧ float64Round m < 1 ∧
    ((Int.floor (float64Round
      (float64Round (float64Round m * float64Round (n : ℚ)) /
        float64Round (1 - float64Round m))) : Int) : ℚ) *
        ((1 - float64Round m) * (1 - 1 / (2 : ℚ) ^ (53 : ℕ))) ≤
      float64Round m * (n : ℚ) * (1 + 1 / (2 : ℚ) ^ (53 : ℕ)) ^ 3 := by
  generalize hs : float64Round m = s at hF ⊢
  generalize hc : float64Round (n : ℚ) = c at hF ⊢
  generalize ha : float64Round (s * c) = a at hF ⊢
  generalize hb : float64Round (1 - s) = b at hF ⊢
  generalize hq : float64Round (a / b) = qf at hF ⊢
  have hqf1 : (1 : ℚ) ≤ qf := by
    have := Int.le_floor.1 hF
    simpa using this
  have hfloor : ((Int.floor qf : Int) : ℚ) ≤ qf := Int.floor_le qf
  have hquot : 0 < a / b := by
    rw [← float64Round_pos_iff, hq]; linarith
  have hc0 : 0 ≤ c := by rw [← hc]; exact float64Round_nonneg _ (Nat.cast_nonneg n)
  have hn0 : (0 : ℚ) < (n : ℚ) := by
    rcases Nat.eq_zero_or_pos n with h | h
    · exfalso
      subst h
      simp only [Nat.cast_zero, float64Round_zero] at hc
      subst hc
      simp only [mul_zero, float64Round_zero] at ha
      subst ha
      simp at hquot
    · exact_mod_cast h
  have hcpos : 0 < c := by rw [← hc]; exact float64Round_pos _ hn0
  -- signs
  have hab : (0 < a ∧ 0 < b) ∨ (a < 0 ∧ b < 0) := div_pos_iff.1 hquot
  have hsc : 0 < s * c := by
    rcases hab with ⟨h, _⟩ | ⟨h, hbn⟩
    · rw [← float64Round_pos_iff, ha]; exact h
    · exfalso
      have h1s : 1 - s < 0 := by
        by_contra hcon
        have := float64Round_nonneg (1 - s) (not_lt.1 hcon)
        rw [hb] at this
        linarith
      have hs0 : 0 ≤ s * c := by
        have : 0 < s := by linarith
        positivity
      have := float64Round_nonneg (s * c) hs0
      rw [ha] at this
      linarith
  have hspos : 0 < s := by
    by_contra hcon
    have : s * c ≤ 0 := mul_nonpos_of_nonpos_of_nonneg (not_lt.1 hcon) hc0
    linarith
  have hapos : 0 < a := by rw [← ha]; exact float64Round_pos _ hsc
  have hbpos : 0 < b := by
    rcases hab with ⟨_, h⟩ | ⟨h, _⟩
    · exact h
    · linarith
  have h1s : 0 < 1 - s := by rw [← float64Round_pos_iff, hb]; exact hbpos
  refine ⟨hspos, by linarith, ?_⟩
  -- the four roundings
  have e1 : c ≤ (n : ℚ) * (1 + 1 / (2 : ℚ) ^ (53 : ℕ)) := by
    rw [← hc]; exact float64Round_le_mul _ hn0
  have e2 : a ≤ s * c * (1 + 1 / (2 : ℚ) ^ (53 : ℕ)) := by
    rw [← ha]; exact float64Round_le_mul _ hsc
  have e3 : (1 - s) * (1 - 1 / (2 : ℚ) ^ (53 : ℕ)) ≤ b := by
    rw [← hb]; exact mul_le_float64Round _ h1s
  have e4 : qf ≤ a / b * (1 + 1 / (2 : ℚ) ^ (53 : ℕ)) := by
    rw [← hq]; exact float64Round_le_mul _ hquot
  have hu : (0 : ℚ) < 1 - 1 / (2 : ℚ) ^ (53 : ℕ) := by norm_num
  have hu2 : (0 : ℚ) < 1 + 1 / (2 : ℚ) ^ (53 : ℕ) := by norm_num
  have hfl0 : (0 : ℚ) ≤ ((Int.floor qf : Int) : ℚ) := by
    have : (0 : Int) ≤ Int.floor qf := by omega
    exact_mod_cast this
  calc ((Int.floor qf : Int) : ℚ) * ((1 - s) * (1 - 1 / (2 : ℚ) ^ (53 : ℕ)))
      ≤ qf * b := mul_le_mul hfloor e3 (le_of_lt (mul_pos h1s hu)) (by linarith)
    _ ≤ a / b * (1 + 1 / (2 : ℚ) ^ (53 : ℕ)) * b :=
        mul_le_mul_of_nonneg_right e4 (le_of_lt hbpos)
    _ = a * (1 + 1 / (2 : ℚ) ^ (53 : ℕ)) := by
        have hb0 : b ≠ 0 := ne_of_gt hbpos
        field_simp
        ring
    _ ≤ s * c * (1 + 1 / (2 : ℚ) ^ (53 : ℕ)) * (1 + 1 / (2 : ℚ) ^ (53 : ℕ)) :=
        mul_le_mul_of_nonneg_right e2 (le_of_lt hu2)
    _ ≤ s * ((n : ℚ) * (1 + 1 / (2 : ℚ) ^ (53 : ℕ))) * (1 + 1 / (2 : ℚ) ^ (53 : ℕ)) *
          (1 + 1 / (2 : ℚ) ^ (53 : ℕ)) := by
        apply mul_le_mul_of_nonneg_right _ (le_of_lt hu2)
        apply mul_le_mul_of_nonneg_right _ (le_of_lt hu2)
        exact mul_le_mul_of_nonneg_left e1 (le_of_lt hspos)
    _ = s * (n : ℚ) * (1 + 1 / (2 : ℚ) ^ (53 : ℕ)) ^ 3 := by ring

theorem share_le_of_le_bound (m : ℚ) (n R : Nat) (hm0 : 0 < m)
    (hR : (R : ℚ) * ((1 - m) * (1 - 1 / (2 : ℚ) ^ (53 : ℕ))) ≤
      m * (n : ℚ) * (1 + 1 / (2 : ℚ) ^ (53 : ℕ)) ^ 3) (hn : 0 < n) :
    (R : ℚ) / ((n : ℚ) + (R : ℚ)) ≤ m * (1 + 1 / (2 : ℚ) ^ (50 : ℕ)) := by
  have hnq : (0 : ℚ) < (n : ℚ) := by exact_mod_cast hn
  have hRq : (0 : ℚ) ≤ (R : ℚ) := Nat.cast_nonneg R
  have hu : (0 : ℚ) < 1 - 1 / (2 : ℚ) ^ (53 : ℕ) := by norm_num
  have hkey : (1 + 1 / (2 : ℚ) ^ (53 : ℕ)) ^ 3 ≤
      (1 + 1 / (2 : ℚ) ^ (50 : ℕ)) * (1 - 1 / (2 : ℚ) ^ (53 : ℕ)) := by norm_num
  have h2 : (R : ℚ) * (1 - m) * (1 - 1 / (2 : ℚ) ^ (53 : ℕ)) ≤
      m * (n : ℚ) * (1 + 1 / (2 : ℚ) ^ (50 : ℕ)) * (1 - 1 / (2 : ℚ) ^ (53 : ℕ)) := by
    calc (R : ℚ) * (1 - m) * (1 - 1 / (2 : ℚ) ^ (53 : ℕ))
        = (R : ℚ) * ((1 - m) * (1 - 1 / (2 : ℚ) ^ (53 : ℕ))) := by ring
      _ ≤ m * (n : ℚ) * (1 + 1 / (2 : ℚ) ^ (53 : ℕ)) ^ 3 := hR
      _ ≤ m * (n : ℚ) * ((1 + 1 / (2 : ℚ) ^ (50 : ℕ)) * (1 - 1 / (2 : ℚ) ^ (53 : ℕ))) :=
          mul_le_mul_of_nonneg_left hkey (by positivity)
      _ = _ := by ring
  have h3 : (R : ℚ) * (1 - m) ≤ m * (n : ℚ) * (1 + 1 / (2 : ℚ) ^ (50 : ℕ)) :=
    le_of_mul_le_mul_right h2 hu
  rw [div_le_iff₀ (by linarith)]
  have h4 : (R : ℚ) * m ≤ (R : ℚ) * m * (1 + 1 / (2 : ℚ) ^ (50 : ℕ)) := by
    have : (0 : ℚ) ≤ (R : ℚ) * m := by positivity
    have h5 : (1 : ℚ) ≤ 1 + 1 / (2 : ℚ) ^ (50 : ℕ) := by norm_num
    calc (R : ℚ) * m = (R : ℚ) * m * 1 := by ring
      _ ≤ _ := mul_le_mul_of_nonneg_left h5 this
  nlinarith

/-- C9 (amended): for `0 < maxShare < 1` and an input with `n ≥ 1` non-readme records,
`capReadmes` keeps at most `max(1, floor(q))` readme records, `q` being the float64 value
of `(maxShare * float64(n)) / (1 - maxShare)`; the readme share of the result is at most
`maxShare * (1 + 2^-50)` whenever `floor(q)` is at least 1, and at most
`max(maxShare * (1 + 2^-50), 1/(n+1))` in every case (`maxShare` being a float64). -/
theorem capReadmes_share_bound (records : List collectedRecord) (maxShare : ℚ)
    (h0 : 0 < maxShare) (h1 : maxShare < 1)
    (hnon : ∃ r ∈ records, r.IsReadme = false) :
    ((((capReadmes records maxShare).1.filter (fun r => r.IsReadme)).length : Nat) : Int) ≤
      max 1 (Int.floor (float64Round
        (float64Round (float64Round maxShare *
            float64Round (((records.filter (fun r => !r.IsReadme)).length : Int) : ℚ)) /
          float64Round (1 - float64Round maxShare)))) ∧
    (1 ≤ Int.floor (float64Round
        (float64Round (float64Round maxShare *
            float64Round (((records.filter (fun r => !r.IsReadme)).length : Int) : ℚ)) /
          float64Round (1 - float64Round maxShare))) →
      readmeShare (capReadmes records maxShare).1 ≤
        float64Round maxShare * (1 + 1 / (2 : ℚ) ^ (50 : ℕ))) ∧
    readmeShare (capReadmes records maxShare).1 ≤
      max (float64Round maxShare * (1 + 1 / (2 : ℚ) ^ (50 : ℕ)))
        (1 / (((records.filter (fun r => !r.IsReadme)).length : ℚ) + 1)) := by
  obtain ⟨r0, hr0, hr0f⟩ := hnon
  have hn0 : (records.filter (fun r => !r.IsReadme)).length ≠ 0 := by
    intro h
    have : r0 ∈ records.filter (fun r => !r.IsReadme) :=
      List.mem_filter.2 ⟨hr0, by simp [hr0f]⟩
    rw [List.length_eq_zero.1 h] at this
    simp at this
  obtain ⟨hN, hR⟩ := capReadmes_kept_counts records maxShare h0 h1 hn0
  have hlen := filter_readme_length_add (capReadmes records maxShare).1
  generalize (capReadmes records maxShare).1 = kept at hN hR hlen ⊢
  generalize hn : (records.filter (fun r => !r.IsReadme)).length = n at hN hR hn0 ⊢
  generalize hRR : (kept.filter (fun r => r.IsReadme)).length = R at hR hlen ⊢
  have hshare : readmeShare kept = (R : ℚ) / ((n : ℚ) + (R : ℚ)) := by
    unfold readmeShare
    rw [hRR, ← hlen, hN]
    push_cast
    ring
  have hnpos : 0 < n := Nat.pos_of_ne_zero hn0
  rw [maxReadmeCount_eq_max] at hR
  rw [Int.cast_natCast] at hR ⊢
  have hfloor : 1 ≤ Int.floor (float64Round
        (float64Round (float64Round maxShare * float64Round (n : ℚ)) /
          float64Round (1 - float64Round maxShare))) →
      (R : ℚ) / ((n : ℚ) + (R : ℚ)) ≤ float64Round maxShare * (1 + 1 / (2 : ℚ) ^ (50 : ℕ)) := by
    intro hF
    obtain ⟨hm0, hm1, hb⟩ := float64_quotient_bound maxShare n hF
    rw [max_eq_right hF] at hR
    apply share_le_of_le_bound (float64Round maxShare) n R hm0 _ hnpos
    refine le_trans (mul_le_mul_of_nonneg_right ?_ ?_) hb
    · exact_mod_cast hR
    · exact mul_nonneg (by linarith) (by norm_num)
  refine ⟨hR, ?_, ?_⟩
  · intro hF
    rw [hshare]
    exact hfloor hF
  · rw [hshare]
    by_cases hF : 1 ≤ Int.floor (float64Round
        (float64Round (float64Round maxShare * float64Round (n : ℚ)) /
          float64Round (1 - float64Round maxShare)))
    · exact le_trans (hfloor hF) (le_max_left _ _)
    · apply le_trans _ (le_max_right _ _)
      rw [max_eq_left (by omega)] at hR
      have hR1 : R ≤ 1 := by omega
      have hnq : (0 : ℚ) < (n : ℚ) := by exact_mod_cast hnpos
      interval_cases R
      · simp
        positivity
      · simp

/-- C9, as stated, fails in two ways. With `maxShare = 0.2`, one non-readme and one readme
record the cap is raised to 1, nothing is dropped, and the readme share of the result is
1/2. With `maxShare` the float64 nearest to 3/7, four non-readme and three readme records
the float64 quotient is 3 (the exact quotient is below 3), nothing is dropped, and the
readme share 3/7 is above `maxShare`. -/
theorem capReadmes_share_exceeds_maxShare :
    ((0 : ℚ) < 1 / 5 ∧ (1 / 5 : ℚ) < 1 ∧ (∃ r ∈ oneOfEach, r.IsReadme = false) ∧
      capReadmes oneOfEach (1 / 5) = (oneOfEach, 0) ∧
      ¬ readmeShare (capReadmes oneOfEach (1 / 5)).1 ≤ 1 / 5) ∧
    ((0 : ℚ) < float64Round (3 / 7) ∧ float64Round (3 / 7) < 1 ∧
      float64Round (float64Round (3 / 7)) = float64Round (3 / 7) ∧
      (∃ r ∈ fourAndThree, r.IsReadme = false) ∧
      maxReadmeCount (float64Round (3 / 7)) 4 = 3 ∧
      Int.floor (float64Round (3 / 7) * 4 / (1 - float64Round (3 / 7))) = 2 ∧
      capReadmes fourAndThree (float64Round (3 / 7)) = (fourAndThree, 0) ∧
      ¬ readmeShare (capReadmes fourAndThree (float64Round (3 / 7))).1 ≤
        float64Round (3 / 7)) := by
  constructor
  · have hres : capReadmes oneOfEach (1 / 5) = (oneOfEach, 0) := by
      have hN : oneOfEach.filter (fun r => !r.IsReadme) = [plainRecord "a" "docs" false] := rfl
      have hR : oneOfEach.filter (fun r => r.IsReadme) = [plainRecord "b" "docs" true] := rfl
      rw [capReadmes_unfold _ _ (by norm_num) (by norm_num) (by simp [oneOfEach]), hN, hR]
      simp only [List.length_singleton, Nat.cast_one, maxReadmeCount_fifth_one]
      norm_num
    refine ⟨by norm_num, by norm_num,
      ⟨plainRecord "a" "docs" false, by simp [oneOfEach], rfl⟩, hres, ?_⟩
    rw [hres]
    simp only [readmeShare, oneOfEach, plainRecord, List.filter_cons, List.filter_nil]
    norm_num
  · have hcap := maxReadmeCount_three_sevenths_four
    have hm := float64Round_three_sevenths
    have hres : capReadmes fourAndThree (float64Round (3 / 7)) = (fourAndThree, 0) := by
      have hN : (fourAndThree.filter (fun r => !r.IsReadme)).length = 4 := rfl
      have hR : (fourAndThree.filter (fun r => r.IsReadme)).length = 3 := rfl
      rw [capReadmes_unfold _ _ (by rw [hm]; norm_num) (by rw [hm]; norm_num)
        (by simp [fourAndThree]), hN, hR]
      simp only [Nat.cast_ofNat, hcap]
      norm_num
    refine ⟨by rw [hm]; norm_num, by rw [hm]; norm_num, ?_,
      ⟨plainRecord "n0" "docs" false, by simp [fourAndThree], rfl⟩, hcap, ?_, hres, ?_⟩
    · rw [hm]
      refine (float64Round_eval _ (-2) 7720456504063707 ?_ ?_ ?_).trans ?_
      · norm_num
      · norm_num
      · exact roundHalfEven_of_near _ _ (by norm_num) (by norm_num) (by norm_num)
      · norm_num
    · rw [hm, Int.floor_eq_iff]
      norm_num
    · rw [hres, hm]
      simp only [readmeShare, fourAndThree, plainRecord, List.filter_cons, List.filter_nil]
      norm_num

theorem capReadmes_share_bound_witness :
    (0 : ℚ) < 1 / 2 ∧ (1 / 2 : ℚ) < 1 ∧ (∃ r ∈ oneOfEach, r.IsReadme = false) ∧
    (((((capReadmes oneOfEach (1 / 2)).1.filter (fun r => r.IsReadme)).length : Nat) : Int) ≤
      max 1 (Int.floor (float64Round
        (float64Round (float64Round (1 / 2) *
            float64Round (((oneOfEach.filter (fun r => !r.IsReadme)).length : Int) : ℚ)) /
          float64Round (1 - float64Round (1 / 2))))) ∧
    (1 ≤ Int.floor (float64Round
        (float64Round (float64Round (1 / 2) *
            float64Round (((oneOfEach.filter (fun r => !r.IsReadme)).length : Int) : ℚ)) /
          float64Round (1 - float64Round (1 / 2)))) →
      readmeShare (capReadmes oneOfEach (1 / 2)).1 ≤
        float64Round (1 / 2) * (1 + 1 / (2 : ℚ) ^ (50 : ℕ))) ∧
    readmeShare (capReadmes oneOfEach (1 / 2)).1 ≤
      max (float64Round (1 / 2) * (1 + 1 / (2 : ℚ) ^ (50 : ℕ)))
        (1 / (((oneOfEach.filter (fun r => !r.IsReadme)).length : ℚ) + 1))) :=
  ⟨by norm_num, by norm_num, ⟨plainRecord "a" "docs" false, by simp [oneOfEach], rfl⟩,
    capReadmes_share_bound oneOfEach (1 / 2) (by norm_num) (by norm_num)
      ⟨plainRecord "a" "docs" false, by simp [oneOfEach], rfl⟩⟩

theorem sortByRecordID_sorted (xs : List collectedRecord) :
    (sortByRecordID xs).Pairwise (fun a b => a.RecordID ≤ b.RecordID) := by
  haveI : IsTotal collectedRecord (fun a b => a.RecordID ≤ b.RecordID) :=
    ⟨fun a b => le_total a.RecordID b.RecordID⟩
  haveI : IsTrans collectedRecord (fun a b => a.RecordID ≤ b.RecordID) :=
    ⟨fun _ _ _ h1 h2 => le_trans h1 h2⟩
  exact List.sorted_insertionSort (fun a b : collectedRecord => a.RecordID ≤ b.RecordID) xs

theorem sortByRecordID_strict (xs : List collectedRecord)
    (hnd : (xs.map (fun r => r.RecordID)).Nodup) :
    ((sortByRecordID xs).map (fun r => r.RecordID)).Pairwise (fun a b => a < b) := by
  rw [List.pairwise_map]
  have h1 := sortByRecordID_sorted xs
  have h2 : (sortByRecordID xs).Pairwise (fun a b => a.RecordID ≠ b.RecordID) := by
    have : ((sortByRecordID xs).map (fun r => r.RecordID)).Nodup :=
      ((sortByRecordID_perm xs).map _).nodup_iff.2 hnd
    rw [List.Nodup, List.pairwise_map] at this
    exact this
  exact (h1.and h2).imp (fun h => lt_of_le_of_ne h.1 h.2)

/-- In a list strictly ascending by `RecordID`, the first `c` elements are the
elements with fewer than `c` smaller identifiers in the list. -/
theorem mem_take_of_strict (L : List collectedRecord) :
    (L.map (fun r => r.RecordID)).Pairwise (fun a b => a < b) →
    ∀ (c : Nat) (x : collectedRecord),
      x ∈ L.take c ↔
        x ∈ L ∧ (L.filter (fun y => decide (y.RecordID < x.RecordID))).length < c := by
  induction L with
  | nil => intro _ c x; simp
  | cons a L ih =>
    intro hs c x
    rw [List.map_cons, List.pairwise_cons] at hs
    obtain ⟨ha, hs2⟩ := hs
    have halt : ∀ y ∈ L, a.RecordID < y.RecordID :=
      fun y hy => ha _ (List.mem_map_of_mem _ hy)
    cases c with
    | zero => simp
    | succ c =>
      rw [List.take_succ_cons, List.mem_cons, List.mem_cons, ih hs2 c x]
      constructor
      · rintro (h | ⟨h1, h2⟩)
        · subst h
          refine ⟨Or.inl rfl, ?_⟩
          have : (x :: L).filter (fun y => decide (y.RecordID < x.RecordID)) = [] := by
            apply List.filter_eq_nil_iff.2
            intro y hy
            rcases List.mem_cons.1 hy with h | h
            · subst h; simp
            · simpa using le_of_lt (halt y h)
          rw [this]; simp
        · refine ⟨Or.inr h1, ?_⟩
          rw [List.filter_cons, if_pos (by simpa using halt x h1), List.length_cons]
          omega
      · rintro ⟨h1 | h1, h2⟩
        · exact Or.inl h1
        · right
          refine ⟨h1, ?_⟩
          rw [List.filter_cons, if_pos (by simpa using halt x h1), List.length_cons] at h2
          omega

/-- C8, as stated, fails: with `maxShare = 7/18` (as a float64), eleven non-readme and
eight readme records, `floor(maxShare * n / (1 - maxShare))` is 7, for `maxShare` read as
the fraction and as the float64 alike, and 8 exceeds it; the float64 quotient of the code
is below 7, so `capReadmes` keeps six readme records and reports two dropped, not seven
and one. -/
theorem capReadmes_cap_below_formula :
    ((0 : ℚ) < 7 / 18 ∧ (7 / 18 : ℚ) < 1) ∧
    (elevenAndEight.map (fun r => r.RecordID)).Nodup ∧
    (elevenAndEight.filter (fun r => !r.IsReadme)).length = 11 ∧
    (elevenAndEight.filter (fun r => r.IsReadme)).length = 8 ∧
    max 1 (Int.floor ((7 / 18 : ℚ) * 11 / (1 - 7 / 18))) = 7 ∧
    max 1 (Int.floor (float64Round (7 / 18) * 11 / (1 - float64Round (7 / 18)))) = 7 ∧
    (capReadmes elevenAndEight (7 / 18)).2 = 2 ∧
    (capReadmes elevenAndEight (7 / 18)).1.length = 17 ∧
    capReadmes elevenAndEight (float64Round (7 / 18)) = capReadmes elevenAndEight (7 / 18) := by
  have hN : (elevenAndEight.filter (fun r => !r.IsReadme)).length = 11 := rfl
  have hR : (elevenAndEight.filter (fun r => r.IsReadme)).length = 8 := rfl
  have hm := float64Round_seven_eighteenths
  have hcap := maxReadmeCount_seven_eighteenths
  have hcap2 : maxReadmeCount (float64Round (7 / 18)) 11 = 6 := by
    rw [maxReadmeCount_eq_max] at hcap ⊢
    have hidem : float64Round (float64Round (7 / 18)) = float64Round (7 / 18) := by
      rw [hm]
      refine (float64Round_eval _ (-2) 7005599420354105 ?_ ?_ ?_).trans ?_
      · norm_num
      · norm_num
      · exact roundHalfEven_of_near _ _ (by norm_num) (by norm_num) (by norm_num)
      · norm_num
    rw [hidem]
    exact hcap
  have hres : ∀ m : ℚ, 0 < m → m < 1 → maxReadmeCount m 11 = 6 →
      capReadmes elevenAndEight m =
        (sortByRecordID (elevenAndEight.filter (fun r => !r.IsReadme) ++
          (sortByRecordID (elevenAndEight.filter (fun r => r.IsReadme))).take 6), 2) := by
    intro m h0 h1 hc
    rw [capReadmes_unfold _ _ h0 h1 (by simp [elevenAndEight]), hN, hR]
    simp only [Nat.cast_ofNat, hc]
    norm_num
    rfl
  have h1 := hres (7 / 18) (by norm_num) (by norm_num) hcap
  have h2 := hres (float64Round (7 / 18)) (by rw [hm]; norm_num) (by rw [hm]; norm_num) hcap2
  refine ⟨⟨by norm_num, by norm_num⟩, by decide, hN, hR, ?_, ?_, ?_, ?_, ?_⟩
  · have : Int.floor ((7 / 18 : ℚ) * 11 / (1 - 7 / 18)) = 7 := by
      rw [Int.floor_eq_iff]; norm_num
    rw [this]; norm_num
  · have : Int.floor (float64Round (7 / 18) * 11 / (1 - float64Round (7 / 18))) = 7 := by
      rw [hm, Int.floor_eq_iff]; norm_num
    rw [this]; norm_num
  · rw [h1]
  · rw [h1]
    simp only [sortByRecordID_length, List.length_append, List.length_take, hN, hR]
    norm_num
  · rw [h1, h2]

/-- C8 (amended): for `0 < maxShare < 1` and an input with pairwise distinct `RecordID`s,
`n ≥ 1` non-readme records and more readme records than `cap = max(1, floor(q))`, `q`
being the float64 value of `(maxShare * float64(n)) / (1 - maxShare)`, `capReadmes`
reports `dropped = r - cap` and returns a list in ascending `RecordID` order, of length
`n + cap`, whose members are exactly the non-readme records of the input and the readme
records with fewer than `cap` readme records of smaller `RecordID`. -/
theorem capReadmes_keeps_smallest_readmes (records : List collectedRecord) (maxShare : ℚ)
    (h0 : 0 < maxShare) (h1 : maxShare < 1)
    (hnd : (records.map (fun r => r.RecordID)).Nodup)
    (hn : 1 ≤ (records.filter (fun r => !r.IsReadme)).length)
    (hr : maxReadmeCount maxShare ((records.filter (fun r => !r.IsReadme)).length : Int) <
      ((records.filter (fun r => r.IsReadme)).length : Int)) :
    maxReadmeCount maxShare ((records.filter (fun r => !r.IsReadme)).length : Int) =
      max 1 (Int.floor (float64Round
        (float64Round (float64Round maxShare *
            float64Round (((records.filter (fun r => !r.IsReadme)).length : Int) : ℚ)) /
          float64Round (1 - float64Round maxShare)))) ∧
    (capReadmes records maxShare).2 =
      ((records.filter (fun r => r.IsReadme)).length : Int) -
        maxReadmeCount maxShare ((records.filter (fun r => !r.IsReadme)).length : Int) ∧
    ((capReadmes records maxShare).1.map (fun r => r.RecordID)).Pairwise (fun a b => a < b) ∧
    ((capReadmes records maxShare).1.length : Int) =
      ((records.filter (fun r => !r.IsReadme)).length : Int) +
        maxReadmeCount maxShare ((records.filter (fun r => !r.IsReadme)).length : Int) ∧
    (∀ x, x ∈ (capReadmes records maxShare).1 ↔
      x ∈ records ∧ (x.IsReadme = false ∨
        ((records.filter (fun y => y.IsReadme && decide (y.RecordID < x.RecordID))).length :
          Int) < maxReadmeCount maxShare
            ((records.filter (fun r => !r.IsReadme)).length : Int))) := by
  have hne : records ≠ [] := by
    rintro rfl
    simp at hn
  have hpos := maxReadmeCount_pos maxShare
    ((records.filter (fun r => !r.IsReadme)).length : Int)
  refine ⟨maxReadmeCount_eq_max _ _, ?_⟩
  rw [capReadmes_unfold records maxShare h0 h1 hne, if_neg (by omega), if_neg (not_le.2 hr)]
  generalize hcap : maxReadmeCount maxShare
    ((records.filter (fun r => !r.IsReadme)).length : Int) = cap at hr hpos ⊢
  have hinj : ∀ x ∈ records, ∀ y ∈ records, x.RecordID = y.RecordID → x = y :=
    fun x hx y hy h => List.inj_on_of_nodup_map hnd hx hy h
  have hRnd : ((records.filter (fun r => r.IsReadme)).map (fun r => r.RecordID)).Nodup :=
    (List.filter_sublist _).map _ |>.nodup hnd
  have hstrict := sortByRecordID_strict _ hRnd
  have hmemT : ∀ x, x ∈ (sortByRecordID (records.filter (fun r => r.IsReadme))).take cap.toNat ↔
      (x ∈ records ∧ x.IsReadme = true) ∧
        ((records.filter (fun y => y.IsReadme && decide (y.RecordID < x.RecordID))).length :
          Int) < cap := by
    intro x
    rw [mem_take_of_strict _ hstrict, (sortByRecordID_perm _).mem_iff, List.mem_filter,
      ((sortByRecordID_perm _).filter _).length_eq, List.filter_filter]
    have e : (fun a : collectedRecord => (decide (a.RecordID < x.RecordID) && a.IsReadme)) =
        (fun y => y.IsReadme && decide (y.RecordID < x.RecordID)) := by
      funext a; exact Bool.and_comm _ _
    rw [e]
    constructor
    · rintro ⟨h, h2⟩; exact ⟨h, by omega⟩
    · rintro ⟨h, h2⟩; exact ⟨h, by omega⟩
  have hTsub : List.Sublist
      ((sortByRecordID (records.filter (fun r => r.IsReadme))).take cap.toNat)
      (sortByRecordID (records.filter (fun r => r.IsReadme))) := List.take_sublist _ _
  have hcomb : ((records.filter (fun r => !r.IsReadme) ++
      (sortByRecordID (records.filter (fun r => r.IsReadme))).take cap.toNat).map
        (fun r => r.RecordID)).Nodup := by
    rw [List.map_append, List.nodup_append]
    refine ⟨(List.filter_sublist _).map _ |>.nodup hnd, ?_, ?_⟩
    · exact (hTsub.map _).nodup (((sortByRecordID_perm _).map _).nodup_iff.2 hRnd)
    · intro id hA hT
      obtain ⟨x, hx, rfl⟩ := List.mem_map.1 hA
      obtain ⟨y, hy, hxy⟩ := List.mem_map.1 hT
      have hx2 := List.mem_filter.1 hx
      have hy2 := (hmemT y).1 hy
      have := hinj y hy2.1.1 x hx2.1 hxy
      subst this
      simp [hy2.1.2] at hx2
  refine ⟨rfl, sortByRecordID_strict _ hcomb, ?_, ?_⟩
  · simp only [sortByRecordID_length, List.length_append, List.length_take]
    push_cast
    omega
  · intro x
    simp only
    rw [(sortByRecordID_perm _).mem_iff, List.mem_append, hmemT, List.mem_filter]
    constructor
    · rintro (⟨h, h2⟩ | ⟨⟨h, _⟩, h2⟩)
      · exact ⟨h, Or.inl (by simpa using h2)⟩
      · exact ⟨h, Or.inr h2⟩
    · rintro ⟨h, h2 | h2⟩
      · exact Or.inl ⟨h, by simp [h2]⟩
      · by_cases hx : x.IsReadme = true
        · exact Or.inr ⟨⟨h, hx⟩, h2⟩
        · exact Or.inl ⟨h, by simpa using hx⟩

theorem capReadmes_keeps_smallest_readmes_witness :
    (0 : ℚ) < 1 / 5 ∧ (1 / 5 : ℚ) < 1 ∧
    (tenAndFive.map (fun r => r.RecordID)).Nodup ∧
    (tenAndFive.filter (fun r => !r.IsReadme)).length = 10 ∧
    (tenAndFive.filter (fun r => r.IsReadme)).length = 5 ∧
    maxReadmeCount (1 / 5) 10 = 2 ∧
    (capReadmes tenAndFive (1 / 5)).2 = 3 ∧
    ((capReadmes tenAndFive (1 / 5)).1.length : Int) = 12 ∧
    (plainRecord "r1" "docs" true ∈ (capReadmes tenAndFive (1 / 5)).1 ∧
      plainRecord "r2" "docs" true ∈ (capReadmes tenAndFive (1 / 5)).1 ∧
      plainRecord "r3" "docs" true ∉ (capReadmes tenAndFive (1 / 5)).1) := by
  have hN : (tenAndFive.filter (fun r => !r.IsReadme)).length = 10 := rfl
  have hR : (tenAndFive.filter (fun r => r.IsReadme)).length = 5 := rfl
  have hcap : maxReadmeCount (1 / 5) 10 = 2 := maxReadmeCount_fifth_ten
  have hnd : (tenAndFive.map (fun r => r.RecordID)).Nodup := by decide
  have h := capReadmes_keeps_smallest_readmes tenAndFive (1 / 5) (by norm_num) (by norm_num)
    hnd (by rw [hN]; norm_num) (by rw [hN, hR]; norm_num [hcap])
  rw [hN, hR] at h
  simp only [Nat.cast_ofNat, hcap] at h
  obtain ⟨_, h2, _, h4, h5⟩ := h
  refine ⟨by norm_num, by norm_num, hnd, hN, hR, hcap, by rw [h2]; norm_num,
    by rw [h4]; norm_num, ?_, ?_, ?_⟩
  · rw [h5]
    exact ⟨by simp [tenAndFive], Or.inr (by
      have : (tenAndFive.filter (fun y => y.IsReadme &&
          decide (y.RecordID < (plainRecord "r1" "docs" true).RecordID))).length = 0 := by
        simp only [String.lt_iff_toList_lt]
        decide
      rw [this]; norm_num)⟩
  · rw [h5]
    exact ⟨by simp [tenAndFive], Or.inr (by
      have : (tenAndFive.filter (fun y => y.IsReadme &&
          decide (y.RecordID < (plainRecord "r2" "docs" true).RecordID))).length = 1 := by
        simp only [String.lt_iff_toList_lt]
        decide
      rw [this]; norm_num)⟩
  · rw [h5]
    rintro ⟨_, h | h⟩
    · simp [plainRecord] at h
    · have : (tenAndFive.filter (fun y => y.IsReadme &&
          decide (y.RecordID < (plainRecord "r3" "docs" true).RecordID))).length = 2 := by
        simp only [String.lt_iff_toList_lt]
        decide
      rw [this] at h
      norm_num at h

/-! ### Category balance: what one pass does -/

theorem dropOverflow_append (a b : List collectedRecord) :
    ∀ (k : String → Bool) (d : Int),
      dropOverflow (a ++ b) k d = dropOverflow b (dropOverflow a k d).1 (dropOverflow a k d).2 := by
  induction a with
  | nil => intro k d; rfl
  | cons o rest ih =>
    intro k d
    simp only [List.cons_append, dropOverflow]
    split_ifs
    · exact ih _ _
    · exact ih _ _

theorem applyBalancePassLoop_eq_dropOverflow (ranges : Ranges)
    (groups : Category → List collectedRecord) (total : Int) (cats : List Category) :
    ∀ (k : String → Bool) (d : Int),
      applyBalancePassLoop ranges groups total cats k d =
        dropOverflow (cats.flatMap (overflowOf ranges groups total)) k d := by
  induction cats with
  | nil => intro k d; rfl
  | cons c rest ih =>
    intro k d
    rw [List.flatMap_cons, dropOverflow_append]
    simp only [applyBalancePassLoop, overflowOf]
    split
    · simpa [dropOverflow] using ih k d
    · split_ifs
      · simpa [dropOverflow] using ih k d
      · simpa [dropOverflow] using ih k d
      · simpa [dropOverflow] using ih k d
      · exact ih _ _

theorem dropOverflow_fst (ov : List collectedRecord) :
    ∀ (k : String → Bool) (d : Int) (id : String),
      (dropOverflow ov k d).1 id =
        (k id && !decide (id ∈ ov.map (fun r => r.RecordID))) := by
  induction ov with
  | nil => intro k d id; simp [dropOverflow]
  | cons o rest ih =>
    intro k d id
    simp only [dropOverflow]
    by_cases hk : k o.RecordID = true
    · rw [if_pos hk, ih]
      by_cases hid : id = o.RecordID
      · subst hid; simp
      · simp [Function.update_noteq hid, hid]
    · rw [if_neg hk, ih]
      by_cases hid : id = o.RecordID
      · subst hid
        simp only [Bool.not_eq_true] at hk
        simp [hk]
      · simp [hid]

theorem dropOverflow_snd_le (ov : List collectedRecord) :
    ∀ (k : String → Bool) (d : Int), d ≤ (dropOverflow ov k d).2 := by
  induction ov with
  | nil => intro k d; exact le_refl _
  | cons o rest ih =>
    intro k d
    simp only [dropOverflow]
    split_ifs
    · have := ih (Function.update k o.RecordID false) (d + 1); omega
    · exact ih k d

theorem dropOverflow_snd_lt (ov : List collectedRecord) :
    ∀ (k : String → Bool) (d : Int), (∃ o ∈ ov, k o.RecordID = true) →
      d < (dropOverflow ov k d).2 := by
  induction ov with
  | nil => intro k d h; obtain ⟨o, ho, _⟩ := h; simp at ho
  | cons o rest ih =>
    intro k d h
    simp only [dropOverflow]
    by_cases hk : k o.RecordID = true
    · rw [if_pos hk]
      have := dropOverflow_snd_le rest (Function.update k o.RecordID false) (d + 1)
      omega
    · rw [if_neg hk]
      apply ih
      obtain ⟨o2, ho2, hk2⟩ := h
      rcases List.mem_cons.1 ho2 with h2 | h2
      · subst h2; exact absurd hk2 hk
      · exact ⟨o2, h2, hk2⟩

theorem overflowOf_subset (ranges : Ranges) (groups : Category → List collectedRecord)
    (total : Int) (c : Category) (o : collectedRecord)
    (ho : o ∈ overflowOf ranges groups total c) : o ∈ groups c := by
  unfold overflowOf at ho
  split at ho
  · simp at ho
  · split_ifs at ho
    · simp at ho
    · simp at ho
    · simp at ho
    · exact (sortByRecordID_perm _).subset (List.mem_of_mem_drop ho)

theorem maxCountFor_pos (rngMax : ℚ) (total : Int) : 1 ≤ maxCountFor rngMax total := by
  unfold maxCountFor
  simp only
  split_ifs with h
  · exact le_refl _
  · exact not_lt.1 h

theorem maxCountFor_eq_max (rngMax : ℚ) (total : Int) :
    maxCountFor rngMax total =
      max 1 (Int.ceil (float64Round (float64Round rngMax * float64Round (total : ℚ)))) := by
  unfold maxCountFor
  simp only
  split_ifs with h
  · exact (max_eq_left (le_of_lt h)).symm
  · exact (max_eq_right (not_lt.1 h)).symm

/-- The ceiling of the float64 product is not above the ceiling of the exact product. -/
theorem maxCountFor_le_ceil (rngMax : ℚ) (total count : Nat) (hmax : 0 < rngMax)
    (htotal : total < 2 ^ 53) (hcount : count ≤ total)
    (h : (count : Int) ≤ maxCountFor rngMax (total : Int)) :
    (count : Int) ≤ max 1 (Int.ceil (float64Round rngMax * (total : ℚ))) := by
  rw [maxCountFor_eq_max, Int.cast_natCast, float64Round_natCast total htotal] at h
  have hm : 0 < float64Round rngMax := float64Round_pos rngMax hmax
  have hx : 0 ≤ float64Round rngMax * (total : ℚ) := by positivity
  have hk : 0 ≤ Int.ceil (float64Round rngMax * (total : ℚ)) := Int.ceil_nonneg hx
  by_cases hbig : Int.ceil (float64Round rngMax * (total : ℚ)) < 2 ^ 53
  · obtain ⟨k, hk2⟩ : ∃ k : ℕ, Int.ceil (float64Round rngMax * (total : ℚ)) = (k : Int) :=
      ⟨_, (Int.toNat_of_nonneg hk).symm⟩
    have hk3 : k < 2 ^ 53 := by
      rw [hk2] at hbig
      exact_mod_cast hbig
    have hle : float64Round rngMax * (total : ℚ) ≤ (k : ℚ) := by
      have := Int.le_ceil (float64Round rngMax * (total : ℚ))
      rw [hk2] at this
      exact_mod_cast this
    have hfl := float64Round_le_natCast _ k hk3 hle
    have hc : Int.ceil (float64Round (float64Round rngMax * (total : ℚ))) ≤ (k : Int) :=
      Int.ceil_le.2 (by exact_mod_cast hfl)
    rw [hk2]
    exact le_trans h (max_le_max (le_refl _) hc)
  · apply le_trans _ (le_max_right _ _)
    have h1 : (count : Int) ≤ (total : Int) := by exact_mod_cast hcount
    have h2 : (total : Int) < 2 ^ 53 := by exact_mod_cast htotal
    omega

theorem maxCountFor_eval (rngMax : ℚ) (total : Int) (limit count product : ℚ) (c : Int)
    (h1 : float64Round rngMax = limit) (h2 : float64Round (total : ℚ) = count)
    (h3 : float64Round (limit * count) = product) (h4 : Int.ceil product = c) :
    maxCountFor rngMax total = max 1 c := by
  rw [maxCountFor_eq_max, h1, h2, h3, h4]

/-- A visit hands over no record exactly when the group is within its ceiling. -/
theorem overflowOf_eq_nil (ranges : Ranges) (groups : Category → List collectedRecord)
    (total : Int) (c : Category) (rng : BalanceRange) (hl : ranges.lookup c = some rng)
    (hmax : 0 < rng.Max) (h : overflowOf ranges groups total c = []) :
    ((groups c).length : Int) ≤ maxCountFor rng.Max total := by
  have hpos := maxCountFor_pos rng.Max total
  unfold overflowOf at h
  rw [hl] at h
  simp only [if_neg (not_le.2 hmax)] at h
  split_ifs at h with h1 h2
  · rw [h1]; push_cast; omega
  · exact h2
  · have := congrArg List.length h
    simp only [List.length_drop, sortByRecordID_length, List.length_nil] at this
    omega

theorem kept_of_mem_group (records : List collectedRecord) (k : String → Bool)
    (c : Category) (o : collectedRecord)
    (ho : o ∈ groupRecordsByCategory (filterKeptRecords records k) c) :
    k o.RecordID = true := by
  rw [groupRecordsByCategory_eq, filterKeptRecords_eq_filter] at ho
  exact (List.mem_filter.1 (List.mem_of_mem_filter ho)).2

/-- A pass that reports no drop leaves `keptByID` unchanged and found every visited
group within its ceiling. -/
theorem applyBalancePass_of_zero (allCategories : List Category)
    (records : List collectedRecord) (ranges : Ranges) (k : String → Bool) (total : Int)
    (h0 : (applyBalancePass allCategories ranges k
        (groupRecordsByCategory (filterKeptRecords records k)) total).2 = 0) :
    (applyBalancePass allCategories ranges k
        (groupRecordsByCategory (filterKeptRecords records k)) total).1 = k ∧
    ∀ c ∈ allCategories,
      overflowOf ranges (groupRecordsByCategory (filterKeptRecords records k)) total c = [] := by
  unfold applyBalancePass at h0 ⊢
  rw [applyBalancePassLoop_eq_dropOverflow] at h0 ⊢
  have hnil : allCategories.flatMap
      (overflowOf ranges (groupRecordsByCategory (filterKeptRecords records k)) total) = [] := by
    by_contra hne
    obtain ⟨o, ho⟩ := List.exists_mem_of_ne_nil _ hne
    obtain ⟨c, _, hoc⟩ := List.mem_flatMap.1 ho
    have hk := kept_of_mem_group records k c o (overflowOf_subset _ _ _ _ _ hoc)
    have := dropOverflow_snd_lt _ k 0 ⟨o, ho, hk⟩
    omega
  rw [hnil]
  refine ⟨rfl, ?_⟩
  intro c hc
  apply List.eq_nil_iff_forall_not_mem.2
  intro o ho
  have : o ∈ allCategories.flatMap
      (overflowOf ranges (groupRecordsByCategory (filterKeptRecords records k)) total) :=
    List.mem_flatMap.2 ⟨c, hc, ho⟩
  rw [hnil] at this
  simp at this

/-- State at loop exit: no record is kept, or every visited group of the kept records is
within its ceiling for the final total. -/
theorem applyBalanceLoop_final (allCategories : List Category)
    (records : List collectedRecord) (ranges : Ranges) :
    ∀ (fuel : Nat) (k : String → Bool) (d : Int) (st : (String → Bool) × Int),
      applyBalanceLoop allCategories records ranges fuel k d = some st →
      filterKeptRecords records st.1 = [] ∨
      ∀ c ∈ allCategories,
        overflowOf ranges (groupRecordsByCategory (filterKeptRecords records st.1))
          ((filterKeptRecords records st.1).length : Int) c = [] := by
  intro fuel
  induction fuel with
  | zero => intro k d st h; simp [applyBalanceLoop] at h
  | succ fuel ih =>
    intro k d st h
    simp only [applyBalanceLoop] at h
    split_ifs at h with h1 h2
    · cases h
      left
      apply List.length_eq_zero.1
      exact_mod_cast h1
    · cases h
      obtain ⟨e1, e2⟩ := applyBalancePass_of_zero allCategories records ranges k _ h2
      right
      simp only
      rw [e1]
      exact e2
    · exact ih _ _ _ h

theorem countCategory_foldl (records : List collectedRecord) (c : Category) :
    ∀ n : Int,
      records.foldl (fun (n : Int) (record : collectedRecord) =>
        if record.Category = c then n + 1 else n) n =
        n + ((records.filter (fun r => decide (r.Category = c))).length : Int) := by
  induction records with
  | nil => intro n; simp
  | cons r rest ih =>
    intro n
    rw [List.foldl_cons, ih]
    by_cases h : r.Category = c
    · simp [h]; ring
    · simp [h]

theorem countCategory_eq (records : List collectedRecord) (c : Category) :
    countCategory records c =
      ((records.filter (fun r => decide (r.Category = c))).length : Int) := by
  unfold countCategory
  rw [countCategory_foldl]
  simp

/-- C11: `applyBalance` returns, and at return every category of `AllCategories()` with a
configured range whose `Max` is positive has at most `max(1, ceil(Max * len(kept)))`
records among the kept ones, `Max` being the float64 of the range: the ceiling holds
against the final total. The code compares with the ceiling of the float64 product, which
is never above the ceiling of the exact product: rounding is monotone and the integers
below `2^53` are float64s. The input has fewer than `2^53` records, as every slice of
records has; pairwise distinct `RecordID`s are not needed. -/
theorem applyBalance_cap_holds_at_return (allCategories : List Category)
    (records : List collectedRecord) (ranges : Ranges) (hsize : records.length < 2 ^ 53) :
    ∃ res, applyBalance allCategories records ranges = some res ∧
      ∀ c ∈ allCategories, ∀ rng, ranges.lookup c = some rng → 0 < rng.Max →
        countCategory res.1 c ≤
          max 1 (Int.ceil (float64Round rng.Max * ((res.1.length : Int) : ℚ))) := by
  obtain ⟨res, hres⟩ := applyBalance_returns allCategories records ranges
  refine ⟨res, hres, ?_⟩
  intro c hc rng hl hmax
  have hkept : res.1.length ≤ records.length := by
    unfold applyBalance at hres
    split_ifs at hres with h1
    · cases hres
      exact le_refl _
    · split at hres
      · cases hres
      · cases hres
        simp only
        rw [filterKeptRecords_eq_filter]
        exact List.length_filter_le _ _
  rw [countCategory_eq, Int.cast_natCast]
  apply maxCountFor_le_ceil rng.Max res.1.length _ hmax (lt_of_le_of_lt hkept hsize)
    (List.length_filter_le _ _)
  unfold applyBalance at hres
  split_ifs at hres with h1
  · cases hres
    rcases h1 with h1 | h1
    · rw [List.length_eq_zero.1 h1] at hl
      simp at hl
    · rw [List.length_eq_zero.1 h1]
      simp only [List.filter_nil, List.length_nil]
      exact le_trans (by norm_num) (maxCountFor_pos _ _)
  · split at hres
    · cases hres
    · rename_i st hst
      cases hres
      simp only
      rcases applyBalanceLoop_final allCategories records ranges _ _ _ _ hst with h | h
      · rw [h]
        simp only [List.filter_nil, List.length_nil]
        exact le_trans (by norm_num) (maxCountFor_pos _ _)
      · have := overflowOf_eq_nil _ _ _ c rng hl hmax (h c hc)
        rw [groupRecordsByCategory_eq] at this
        exact this

theorem applyBalance_cap_holds_at_return_witness :
    balanceRecords.length < 2 ^ 53 ∧
    ∃ res, applyBalance ["docs", "code"] balanceRecords balanceRanges = some res ∧
      ∀ c ∈ ["docs", "code"], ∀ rng, balanceRanges.lookup c = some rng → 0 < rng.Max →
        countCategory res.1 c ≤
          max 1 (Int.ceil (float64Round rng.Max * ((res.1.length : Int) : ℚ))) :=
  ⟨by decide, applyBalance_cap_holds_at_return ["docs", "code"] balanceRecords balanceRanges
    (by decide)⟩

/-! ### Filtering stages only remove records -/

theorem dropNearDuplicatesLoop_sublist (t : ℚ) (rest : List collectedRecord) :
    ∀ (out : List collectedRecord) (d : Int),
      ∃ l, (dropNearDuplicatesLoop t rest out d).1 = out ++ l ∧ List.Sublist l rest := by
  induction rest with
  | nil => intro out d; exact ⟨[], by simp [dropNearDuplicatesLoop], List.Sublist.slnil⟩
  | cons c rest ih =>
    intro out d
    simp only [dropNearDuplicatesLoop]
    split_ifs
    · obtain ⟨l, h1, h2⟩ := ih out (d + 1)
      exact ⟨l, h1, h2.cons _⟩
    · obtain ⟨l, h1, h2⟩ := ih (out ++ [c]) d
      exact ⟨c :: l, by rw [h1]; simp, h2.cons₂ _⟩

theorem capReadmes_subperm (records : List collectedRecord) (maxShare : ℚ) :
    (capReadmes records maxShare).1.Subperm records := by
  unfold capReadmes
  simp only [partitionReadmes_eq, List.nil_append]
  split_ifs
  · exact List.Subperm.refl _
  · exact List.Subperm.refl _
  · exact List.nil_subperm
  · exact List.Subperm.refl _
  · simp only
    apply (sortByRecordID_perm _).subperm.trans
    have h1 : ((sortByRecordID (records.filter (fun r => r.IsReadme))).take
        (maxReadmeCount maxShare
          ((records.filter (fun r => !r.IsReadme)).length : Int)).toNat).Subperm
        (records.filter (fun r => r.IsReadme)) :=
      (List.take_sublist _ _).subperm.trans (sortByRecordID_perm _).subperm
    have h2 : (records.filter (fun r => !r.IsReadme) ++
        records.filter (fun r => r.IsReadme)).Perm records :=
      List.perm_append_comm.trans (List.filter_append_perm (fun r => r.IsReadme) records)
    exact ((List.subperm_append_left _).2 h1).trans h2.subperm

theorem applyBalance_sublist (allCategories : List Category)
    (records : List collectedRecord) (ranges : Ranges)
    (res : List collectedRecord × Int × List String)
    (hres : applyBalance allCategories records ranges = some res) :
    List.Sublist res.1 records := by
  unfold applyBalance at hres
  split_ifs at hres
  · cases hres; exact List.Sublist.refl _
  · split at hres
    · cases hres
    · cases hres
      simp only
      rw [filterKeptRecords_eq_filter]
      exact List.filter_sublist _

/-- C15: every filtering stage only removes records. The lists returned by
`dropExactDuplicates`, `dropNearDuplicates` and `applyBalance` (which always returns) are
subsequences of the input, so input order is preserved; the list returned by `capReadmes`
is a sub-multiset of its input. The records themselves are values and are returned as
they were received. -/
theorem stages_only_remove_records (records : List collectedRecord) (threshold maxShare : ℚ)
    (allCategories : List Category) (ranges : Ranges) :
    List.Sublist (dropExactDuplicates records).1 records ∧
    List.Sublist (dropNearDuplicates records threshold).1 records ∧
    (capReadmes records maxShare).1.Subperm records ∧
    (∃ res, applyBalance allCategories records ranges = some res ∧
      List.Sublist res.1 records) ∧
    (dropExactDuplicates records).1.Subperm records ∧
    (dropNearDuplicates records threshold).1.Subperm records ∧
    (∃ res, applyBalance allCategories records ranges = some res ∧
      res.1.Subperm records) := by
  have hE : List.Sublist (dropExactDuplicates records).1 records := by
    have := dropExactDuplicatesLoop_fst records [] (fun _ => false) [] 0 (by simp)
    simp only [dropExactDuplicates, this, List.nil_append]
    exact keepNew_sublist _ _
  have hN : List.Sublist (dropNearDuplicates records threshold).1 records := by
    obtain ⟨l, h1, h2⟩ := dropNearDuplicatesLoop_sublist threshold records [] 0
    simp only [dropNearDuplicates, h1, List.nil_append]
    exact h2
  obtain ⟨res, hres⟩ := applyBalance_returns allCategories records ranges
  have hB := applyBalance_sublist allCategories records ranges res hres
  exact ⟨hE, hN, capReadmes_subperm records maxShare, ⟨res, hres, hB⟩, hE.subperm,
    hN.subperm, ⟨res, hres, hB.subperm⟩⟩

/-! ### `Min` does not drive the balancing -/

theorem overflowOf_congr (ranges1 ranges2 : Ranges)
    (h : ∀ c, (ranges1.lookup c).map (fun r => r.Max) = (ranges2.lookup c).map (fun r => r.Max))
    (groups : Category → List collectedRecord) (total : Int) (c : Category) :
    overflowOf ranges1 groups total c = overflowOf ranges2 groups total c := by
  have hc := h c
  unfold overflowOf
  cases h1 : ranges1.lookup c with
  | none =>
    cases h2 : ranges2.lookup c with
    | none => rfl
    | some r2 => rw [h1, h2] at hc; simp at hc
  | some r1 =>
    cases h2 : ranges2.lookup c with
    | none => rw [h1, h2] at hc; simp at hc
    | some r2 =>
      rw [h1, h2] at hc
      simp only [Option.map_some', Option.some.injEq] at hc
      simp only [hc]

theorem applyBalancePass_congr (ranges1 ranges2 : Ranges)
    (h : ∀ c, (ranges1.lookup c).map (fun r => r.Max) = (ranges2.lookup c).map (fun r => r.Max))
    (allCategories : List Category) (k : String → Bool)
    (groups : Category → List collectedRecord) (total : Int) :
    applyBalancePass allCategories ranges1 k groups total =
      applyBalancePass allCategories ranges2 k groups total := by
  unfold applyBalancePass
  rw [applyBalancePassLoop_eq_dropOverflow, applyBalancePassLoop_eq_dropOverflow]
  congr 1
  apply List.flatMap_congr
  intro c _
  exact overflowOf_congr ranges1 ranges2 h groups total c

theorem applyBalanceLoop_congr (ranges1 ranges2 : Ranges)
    (h : ∀ c, (ranges1.lookup c).map (fun r => r.Max) = (ranges2.lookup c).map (fun r => r.Max))
    (allCategories : List Category) (records : List collectedRecord) :
    ∀ (fuel : Nat) (k : String → Bool) (d : Int),
      applyBalanceLoop allCategories records ranges1 fuel k d =
        applyBalanceLoop allCategories records ranges2 fuel k d := by
  intro fuel
  induction fuel with
  | zero => intro k d; rfl
  | succ fuel ih =>
    intro k d
    simp only [applyBalanceLoop, applyBalancePass_congr ranges1 ranges2 h, ih]

theorem ranges_length_congr (ranges1 ranges2 : Ranges)
    (h : ∀ c, (ranges1.lookup c).map (fun r => r.Max) = (ranges2.lookup c).map (fun r => r.Max)) :
    ranges1.length = 0 → ranges2.length = 0 := by
  intro h1
  rw [List.length_eq_zero] at h1 ⊢
  subst h1
  cases ranges2 with
  | nil => rfl
  | cons p rest =>
    have := h p.1
    simp [List.lookup] at this

/-- C14: `BalanceRange.Min` never influences what is kept. For two range maps with the
same categories and the same `Max` per category, `applyBalance` returns the same kept
list and the same dropped count. -/
theorem applyBalance_ignores_min (allCategories : List Category)
    (records : List collectedRecord) (ranges1 ranges2 : Ranges)
    (h : ∀ c, (ranges1.lookup c).map (fun r => r.Max) =
      (ranges2.lookup c).map (fun r => r.Max)) :
    ∃ res1 res2, applyBalance allCategories records ranges1 = some res1 ∧
      applyBalance allCategories records ranges2 = some res2 ∧
      res1.1 = res2.1 ∧ res1.2.1 = res2.2.1 := by
  obtain ⟨res1, h1⟩ := applyBalance_returns allCategories records ranges1
  obtain ⟨res2, h2⟩ := applyBalance_returns allCategories records ranges2
  refine ⟨res1, res2, h1, h2, ?_⟩
  have hlen : ranges1.length = 0 ↔ ranges2.length = 0 :=
    ⟨ranges_length_congr ranges1 ranges2 h,
      ranges_length_congr ranges2 ranges1 (fun c => (h c).symm)⟩
  unfold applyBalance at h1 h2
  rw [applyBalanceLoop_congr ranges1 ranges2 h] at h1
  by_cases hc : ranges2.length = 0 ∨ records.length = 0
  · have hc1 : ranges1.length = 0 ∨ records.length = 0 := hc.imp hlen.2 id
    rw [if_pos hc1] at h1
    rw [if_pos hc] at h2
    cases h1; cases h2
    exact ⟨rfl, rfl⟩
  · have hc1 : ¬ (ranges1.length = 0 ∨ records.length = 0) := fun x => hc (x.imp hlen.1 id)
    rw [if_neg hc1] at h1
    rw [if_neg hc] at h2
    split at h1
    · cases h1
    · rename_i st hst
      rw [hst] at h2
      cases h1; cases h2
      exact ⟨rfl, rfl⟩

theorem applyBalance_ignores_min_witness :
    (∀ c, (balanceRanges.lookup c).map (fun r => r.Max) =
      (balanceRangesOtherMin.lookup c).map (fun r => r.Max)) ∧
    ∃ res1 res2, applyBalance ["docs", "code"] balanceRecords balanceRanges = some res1 ∧
      applyBalance ["docs", "code"] balanceRecords balanceRangesOtherMin = some res2 ∧
      res1.1 = res2.1 ∧ res1.2.1 = res2.2.1 := by
  have h : ∀ c, (balanceRanges.lookup c).map (fun r => r.Max) =
      (balanceRangesOtherMin.lookup c).map (fun r => r.Max) := by
    intro c
    simp only [balanceRanges, balanceRangesOtherMin, List.lookup]
    split <;> rfl
  exact ⟨h, applyBalance_ignores_min ["docs", "code"] balanceRecords balanceRanges
    balanceRangesOtherMin h⟩

/-! ### Violation report -/

theorem categoryShare_eq (kept : List collectedRecord) (c : Category) :
    (countCategory kept c : ℚ) / (kept.length : ℚ) = categoryShare kept c := by
  rw [countCategory_eq]
  unfold categoryShare
  push_cast
  rfl

theorem float64Share_eq (kept : List collectedRecord) (c : Category) :
    float64Round (float64Round (countCategory kept c : ℚ) / float64Round (kept.length : ℚ)) =
      float64Share kept c := by
  rw [countCategory_eq]
  unfold float64Share
  push_cast
  rfl

theorem checkBalanceViolationsLoop_eq (kept : List collectedRecord) :
    ∀ (entries : List (Category × BalanceRange)) (violations : List String),
      checkBalanceViolationsLoop kept entries violations =
        violations ++ expectedViolations kept entries := by
  intro entries
  induction entries with
  | nil => intro v; simp [checkBalanceViolationsLoop, expectedViolations]
  | cons p rest ih =>
    intro v
    obtain ⟨c, rng⟩ := p
    simp only [checkBalanceViolationsLoop, float64Share_eq]
    by_cases h : float64Share kept c < float64Round rng.Min ∨
        float64Share kept c > float64Round rng.Max
    · rw [if_pos h, ih]
      simp [expectedViolations, List.filter_cons, h, violationMessage]
    · rw [if_neg h, ih]
      simp [expectedViolations, List.filter_cons, h]

theorem expectedViolations_perm (kept : List collectedRecord)
    (e1 e2 : List (Category × BalanceRange)) (h : e1.Perm e2) :
    (expectedViolations kept e1).Perm (expectedViolations kept e2) :=
  (h.filter _).map _

theorem sortStrings_eq_of_perm (l1 l2 : List String) (h : l1.Perm l2) :
    l1.insertionSort (fun a b => a ≤ b) = l2.insertionSort (fun a b => a ≤ b) := by
  apply List.eq_of_perm_of_sorted (r := fun a b : String => a ≤ b)
  · exact ((List.perm_insertionSort _ l1).trans h).trans (List.perm_insertionSort _ l2).symm
  · exact List.sorted_insertionSort _ l1
  · exact List.sorted_insertionSort _ l2

/-- C12 (amended): for non-empty ranges, when `applyBalance` returns a non-empty kept list
the violations are exactly the lexicographically sorted list of the messages
`"<category> share <share:.4f> outside [<min:.4f>, <max:.4f>]"` of the configured entries
whose share, the float64 quotient `float64(count_c(kept)) / float64(len(kept))`, is below
`Min` or above `Max`: one message per such entry and none for any other, whatever the
order in which the entries are visited; the three numbers of a message are float64s. -/
theorem applyBalance_violations (allCategories : List Category)
    (records : List collectedRecord) (ranges : Ranges)
    (res : List collectedRecord × Int × List String) (hranges : ranges ≠ [])
    (hres : applyBalance allCategories records ranges = some res) (hkept : res.1 ≠ []) :
    res.2.2 = (expectedViolations res.1 ranges).insertionSort (fun a b => a ≤ b) ∧
    res.2.2.Sorted (fun a b => a ≤ b) ∧
    res.2.2.Perm (expectedViolations res.1 ranges) ∧
    ∀ order : List (Category × BalanceRange), order.Perm ranges →
      res.2.2 = (expectedViolations res.1 order).insertionSort (fun a b => a ≤ b) := by
  have hl : ¬ ranges.length = 0 := fun h => hranges (List.length_eq_zero.1 h)
  have hmain : res.2.2 =
      (expectedViolations res.1 ranges).insertionSort (fun a b => a ≤ b) := by
    unfold applyBalance at hres
    split_ifs at hres with h1
    · cases hres
      rcases h1 with h1 | h1
      · exact absurd h1 hl
      · exact absurd (List.length_eq_zero.1 h1) hkept
    · split at hres
      · cases hres
      · cases hres
        simp only at hkept ⊢
        unfold checkBalanceViolations
        rw [if_neg hl, if_neg (fun h => hkept (List.length_eq_zero.1 h)),
          checkBalanceViolationsLoop_eq, List.nil_append]
  refine ⟨hmain, ?_, ?_, ?_⟩
  · rw [hmain]; exact List.sorted_insertionSort _ _
  · rw [hmain]; exact List.perm_insertionSort _ _
  · intro order ho
    rw [hmain]
    exact sortStrings_eq_of_perm _ _ (expectedViolations_perm _ _ _ ho.symm)

/-! ### The worked example: three "docs" records and one "code" record -/

theorem maxCountFor_half_four : maxCountFor (1 / 2) 4 = 2 := by
  have h := maxCountFor_eq_max (1 / 2) ((4 : ℕ) : Int)
  rw [float64Round_half, float64Round_intCast_small 4 (by norm_num)] at h
  have e : (1 / 2 : ℚ) * ((4 : ℕ) : ℚ) = ((2 : ℕ) : ℚ) := by norm_num
  rw [e, float64Round_natCast 2 (by norm_num)] at h
  simpa using h

theorem maxCountFor_half_three : maxCountFor (1 / 2) 3 = 2 := by
  have h := maxCountFor_eq_max (1 / 2) ((3 : ℕ) : Int)
  rw [float64Round_half, float64Round_intCast_small 3 (by norm_num)] at h
  have e : float64Round ((1 / 2 : ℚ) * ((3 : ℕ) : ℚ)) = 3 / 2 := by
    have e2 : (1 / 2 : ℚ) * ((3 : ℕ) : ℚ) = 3 / 2 := by norm_num
    rw [e2]
    exact float64Round_of_exact (3 / 2) 0 (3 * 2 ^ 51) (by norm_num) (by norm_num)
      (by norm_num)
  rw [e] at h
  have hc : Int.ceil (3 / 2 : ℚ) = 2 := by
    rw [Int.ceil_eq_iff]; norm_num
  rw [hc] at h
  simpa using h

theorem roundHalfEven_of_floor (q : ℚ) (f : Nat) (hf : Int.floor q = (f : Int)) :
    roundHalfEven q =
      if q - (f : ℚ) < 1 / 2 then f
      else if q - (f : ℚ) > 1 / 2 then f + 1
      else if f % 2 = 0 then f else f + 1 := by
  unfold roundHalfEven
  simp only [hf, Int.toNat_ofNat]

theorem formatFixed4_of_scaled (q : ℚ) (n : Nat) (hq : 0 ≤ q)
    (h : roundHalfEven (|q| * 10000) = n) :
    formatFixed4 q = toString (n / 10000) ++ "." ++
      String.mk (List.replicate (4 - (toString (n % 10000)).length) '0') ++
      toString (n % 10000) := by
  unfold formatFixed4
  simp only [h, if_neg (not_lt.2 hq)]
  rfl

theorem float64Round_two_thirds :
    float64Round (2 / 3) = 6004799503160661 / 9007199254740992 := by
  refine (float64Round_eval _ (-1) 6004799503160661 ?_ ?_ ?_).trans ?_
  · norm_num
  · norm_num
  · exact roundHalfEven_of_near _ _ (by norm_num) (by norm_num) (by norm_num)
  · norm_num

theorem formatFixed4_two_thirds : formatFixed4 (float64Round (2 / 3)) = "0.6667" := by
  rw [float64Round_two_thirds]
  have h : roundHalfEven (|(6004799503160661 / 9007199254740992 : ℚ)| * 10000) = 6667 := by
    rw [roundHalfEven_of_floor _ 6666 (by rw [Int.floor_eq_iff]; norm_num [abs_of_pos])]
    norm_num [abs_of_pos]
  rw [formatFixed4_of_scaled _ 6667 (by norm_num) h]
  decide

theorem formatFixed4_zero : formatFixed4 0 = "0.0000" := by
  have h : roundHalfEven (|(0 : ℚ)| * 10000) = 0 := by
    rw [roundHalfEven_of_floor _ 0 (by rw [Int.floor_eq_iff]; norm_num)]
    norm_num
  rw [formatFixed4_of_scaled _ 0 (le_refl _) h]
  decide

theorem formatFixed4_half : formatFixed4 (1 / 2) = "0.5000" := by
  have h : roundHalfEven (|(1 / 2 : ℚ)| * 10000) = 5000 := by
    rw [roundHalfEven_of_floor _ 5000 (by rw [Int.floor_eq_iff]; norm_num [abs_of_pos])]
    norm_num [abs_of_pos]
  rw [formatFixed4_of_scaled _ 5000 (by norm_num) h]
  decide

theorem overflowOf_balanceRanges (groups : Category → List collectedRecord) (total : Int)
    (c : Category) :
    overflowOf balanceRanges groups total c =
      if c = "docs" then
        if ((groups "docs").length : Int) ≤ maxCountFor (1 / 2) total then []
        else (sortByRecordID (groups "docs")).drop (maxCountFor (1 / 2) total).toNat
      else [] := by
  have hpos := maxCountFor_pos (1 / 2) total
  unfold overflowOf
  by_cases hc : c = "docs"
  · subst hc
    simp only [balanceRanges, List.lookup, beq_self_eq_true, if_true]
    rw [if_neg (by norm_num)]
    by_cases h0 : (groups "docs").length = 0
    · rw [if_pos h0, if_pos (by rw [h0]; push_cast; omega)]
    · rw [if_neg h0]
  · have hb : (c == "docs") = false := by simpa using hc
    simp only [balanceRanges, List.lookup, hb, if_neg hc]

theorem dropOverflow_all_same (top : collectedRecord) (ov : List collectedRecord) :
    (∀ o ∈ ov, o = top) → ∀ (k : String → Bool) (d : Int),
      dropOverflow ov k d =
        if ov = [] then (k, d)
        else if k top.RecordID = true then (Function.update k top.RecordID false, d + 1)
        else (k, d) := by
  induction ov with
  | nil => intro _ k d; simp [dropOverflow]
  | cons o rest ih =>
    intro hall k d
    have ho : o = top := hall o (List.mem_cons_self _ _)
    subst ho
    have ih2 := ih (fun x hx => hall x (List.mem_cons_of_mem _ hx))
    simp only [dropOverflow, if_neg (List.cons_ne_nil _ _)]
    by_cases hk : k o.RecordID = true
    · rw [if_pos hk, if_pos hk, ih2]
      simp
    · rw [if_neg hk, if_neg hk, ih2]
      simp [hk]

/-- First pass of the example: the "docs" group has three members against a ceiling of
two, so the member with the highest `RecordID` is dropped. -/
theorem applyBalancePass_example_first (allCategories : List Category)
    (hdocs : "docs" ∈ allCategories) (groups : Category → List collectedRecord)
    (a b top : collectedRecord) (hs : sortByRecordID (groups "docs") = [a, b, top])
    (k : String → Bool) (hk : k top.RecordID = true) :
    applyBalancePass allCategories balanceRanges k groups 4 =
      (Function.update k top.RecordID false, 1) := by
  have hlen : (groups "docs").length = 3 := by
    rw [← sortByRecordID_length, hs]; rfl
  have hov : ∀ c, overflowOf balanceRanges groups 4 c = if c = "docs" then [top] else [] := by
    intro c
    rw [overflowOf_balanceRanges, maxCountFor_half_four, hlen, hs]
    simp
  unfold applyBalancePass
  rw [applyBalancePassLoop_eq_dropOverflow,
    dropOverflow_all_same top _ (by
      intro o ho
      obtain ⟨c, _, hoc⟩ := List.mem_flatMap.1 ho
      rw [hov] at hoc
      split_ifs at hoc
      · simpa using hoc
      · simp at hoc)]
  have hne : allCategories.flatMap (overflowOf balanceRanges groups 4) ≠ [] := by
    apply List.ne_nil_of_mem (a := top)
    exact List.mem_flatMap.2 ⟨"docs", hdocs, by rw [hov]; simp⟩
  rw [if_neg hne, if_pos hk]
  simp

/-- Second pass of the example: two "docs" members against a ceiling of two. -/
theorem applyBalancePass_example_second (allCategories : List Category)
    (groups : Category → List collectedRecord) (hlen : (groups "docs").length = 2)
    (k : String → Bool) :
    applyBalancePass allCategories balanceRanges k groups 3 = (k, 0) := by
  unfold applyBalancePass
  rw [applyBalancePassLoop_eq_dropOverflow]
  have : allCategories.flatMap (overflowOf balanceRanges groups 3) = [] := by
    apply List.eq_nil_iff_forall_not_mem.2
    intro o ho
    obtain ⟨c, _, hoc⟩ := List.mem_flatMap.1 ho
    rw [overflowOf_balanceRanges, maxCountFor_half_three, hlen] at hoc
    simp at hoc
  rw [this]
  rfl

theorem applyBalanceLoop_succ (allCategories : List Category)
    (records : List collectedRecord) (ranges : Ranges) (fuel : Nat) (k : String → Bool)
    (d : Int) :
    applyBalanceLoop allCategories records ranges (fuel + 1) k d =
      if ((filterKeptRecords records k).length : Int) = 0 then some (k, d)
      else if (applyBalancePass allCategories ranges k
          (groupRecordsByCategory (filterKeptRecords records k))
          ((filterKeptRecords records k).length : Int)).2 = 0 then
        some ((applyBalancePass allCategories ranges k
          (groupRecordsByCategory (filterKeptRecords records k))
          ((filterKeptRecords records k).length : Int)).1,
          d + (applyBalancePass allCategories ranges k
            (groupRecordsByCategory (filterKeptRecords records k))
            ((filterKeptRecords records k).length : Int)).2)
      else applyBalanceLoop allCategories records ranges fuel
        (applyBalancePass allCategories ranges k
          (groupRecordsByCategory (filterKeptRecords records k))
          ((filterKeptRecords records k).length : Int)).1
        (d + (applyBalancePass allCategories ranges k
          (groupRecordsByCategory (filterKeptRecords records k))
          ((filterKeptRecords records k).length : Int)).2) := rfl

theorem violations_example (kept : List collectedRecord) (h3 : kept.length = 3)
    (h2 : (kept.filter (fun r => decide (r.Category = "docs"))).length = 2) :
    checkBalanceViolations kept balanceRanges =
      ["docs share 0.6667 outside [0.0000, 0.5000]"] := by
  have hshare : float64Share kept "docs" = float64Round (2 / 3) := by
    unfold float64Share
    rw [h2, h3, float64Round_natCast 2 (by norm_num), float64Round_natCast 3 (by norm_num)]
    norm_num
  unfold checkBalanceViolations
  rw [if_neg (by simp [balanceRanges]), if_neg (by rw [h3]; norm_num),
    checkBalanceViolationsLoop_eq, List.nil_append]
  have he : expectedViolations kept balanceRanges =
      [violationMessage "docs" (float64Round (2 / 3)) { Min := 0, Max := 1 / 2 }] := by
    unfold expectedViolations
    simp only [balanceRanges, List.filter_cons, List.filter_nil, hshare]
    rw [if_pos (by
      rw [float64Round_two_thirds, float64Round_zero, float64Round_half]
      simp
      norm_num)]
    simp only [List.map_cons, List.map_nil, hshare]
  rw [he]
  simp only [List.insertionSort, List.orderedInsert, violationMessage, formatFixed4_two_thirds,
    float64Round_zero, float64Round_half, formatFixed4_zero, formatFixed4_half]
  decide

theorem length_filter_ne (l : List collectedRecord) (hnd : l.Nodup) (x : collectedRecord)
    (hx : x ∈ l) : (l.filter (fun y => decide (y ≠ x))).length = l.length - 1 := by
  have : l.filter (fun y => decide (y ≠ x)) = l.filter (fun y => y != x) := by
    apply List.filter_congr
    intro y _
    by_cases h : y = x <;> simp [h]
  rw [this, ← hnd.erase_eq_filter x, List.length_erase_of_mem hx]

/-- C13: with "docs" in `AllCategories()`, ranges `{docs: {Min 0, Max 0.5}}` and an input
of three "docs" records and one "code" record with pairwise distinct `RecordID`s,
`applyBalance` drops exactly the "docs" record with the highest `RecordID`, returns
`dropped = 1` with the other three records in input order, and returns
`violations = ["docs share 0.6667 outside [0.0000, 0.5000]"]`. -/
theorem applyBalance_three_docs_one_code (allCategories : List Category)
    (hdocs : "docs" ∈ allCategories) (records : List collectedRecord)
    (hnd : (records.map (fun r => r.RecordID)).Nodup) (hlen : records.length = 4)
    (hd : (records.filter (fun r => decide (r.Category = "docs"))).length = 3)
    (_hc : (records.filter (fun r => decide (r.Category = "code"))).length = 1) :
    ∃ top, top ∈ records ∧ top.Category = "docs" ∧
      (∀ x ∈ records, x.Category = "docs" → x.RecordID ≤ top.RecordID) ∧
      applyBalance allCategories records balanceRanges =
        some (records.filter (fun x => decide (x ≠ top)), 1,
          ["docs share 0.6667 outside [0.0000, 0.5000]"]) := by
  have hs3 : (sortByRecordID (records.filter (fun r => decide (r.Category = "docs")))).length
      = 3 := by rw [sortByRecordID_length, hd]
  obtain ⟨a, b, top, hs⟩ := List.length_eq_three.1 hs3
  have hperm := sortByRecordID_perm (records.filter (fun r => decide (r.Category = "docs")))
  have htop : top ∈ records.filter (fun r => decide (r.Category = "docs")) :=
    hperm.subset (by rw [hs]; simp)
  have htopr : top ∈ records := List.mem_of_mem_filter htop
  have htopc : top.Category = "docs" := by simpa using (List.mem_filter.1 htop).2
  have hsorted := sortByRecordID_sorted (records.filter (fun r => decide (r.Category = "docs")))
  rw [hs] at hsorted
  simp only [List.pairwise_cons, List.mem_cons, List.mem_singleton, forall_eq_or_imp,
    forall_eq] at hsorted
  have hmax : ∀ x ∈ records, x.Category = "docs" → x.RecordID ≤ top.RecordID := by
    intro x hx hxc
    have : x ∈ sortByRecordID (records.filter (fun r => decide (r.Category = "docs"))) :=
      hperm.symm.subset (List.mem_filter.2 ⟨hx, by simpa using hxc⟩)
    rw [hs] at this
    simp only [List.mem_cons, List.mem_singleton, List.not_mem_nil, or_false] at this
    rcases this with h | h | h
    · rw [h]; exact hsorted.1.2.1
    · rw [h]; exact hsorted.2.1.1
    · rw [h]
  refine ⟨top, htopr, htopc, hmax, ?_⟩
  have hrnd : records.Nodup := List.Nodup.of_map _ hnd
  have hinj : ∀ x ∈ records, x.RecordID = top.RecordID → x = top :=
    fun x hx h => List.inj_on_of_nodup_map hnd hx htopr h
  have hk0 : markAllKept records (fun _ => false) top.RecordID = true := by
    rw [markAllKept_apply, if_pos (List.mem_map_of_mem _ htopr)]
  have hf1 : filterKeptRecords records
      (Function.update (markAllKept records (fun _ => false)) top.RecordID false) =
      records.filter (fun x => decide (x ≠ top)) := by
    rw [filterKeptRecords_eq_filter]
    apply List.filter_congr
    intro x hx
    by_cases hxt : x = top
    · subst hxt; simp
    · have : x.RecordID ≠ top.RecordID := fun h => hxt (hinj x hx h)
      rw [Function.update_noteq this, markAllKept_apply, if_pos (List.mem_map_of_mem _ hx)]
      simp [hxt]
  have hlen1 : (records.filter (fun x => decide (x ≠ top))).length = 3 := by
    rw [length_filter_ne _ hrnd top htopr, hlen]
  have hdocs1 : ((records.filter (fun x => decide (x ≠ top))).filter
      (fun r => decide (r.Category = "docs"))).length = 2 := by
    have hgnd : (records.filter (fun r => decide (r.Category = "docs"))).Nodup :=
      hrnd.filter _
    have : (records.filter (fun x => decide (x ≠ top))).filter
        (fun r => decide (r.Category = "docs")) =
        (records.filter (fun r => decide (r.Category = "docs"))).filter
          (fun x => decide (x ≠ top)) := by
      rw [List.filter_filter, List.filter_filter]
      apply List.filter_congr
      intro x _
      exact Bool.and_comm _ _
    rw [this, length_filter_ne _ hgnd top htop, hd]
  unfold applyBalance
  rw [if_neg (by rw [hlen]; simp [balanceRanges]), hlen]
  have hloop : applyBalanceLoop allCategories records balanceRanges (4 + 1)
      (markAllKept records (fun _ => false)) 0 =
      some (Function.update (markAllKept records (fun _ => false)) top.RecordID false, 1) := by
    rw [applyBalanceLoop_succ, filterKeptRecords_markAllKept, hlen]
    simp only [Nat.cast_ofNat]
    rw [applyBalancePass_example_first allCategories hdocs _ a b top
        (by rw [groupRecordsByCategory_eq]; exact hs) _ hk0]
    rw [if_neg (by norm_num), if_neg (by norm_num)]
    rw [applyBalanceLoop_succ, hf1, hlen1]
    simp only [Nat.cast_ofNat]
    rw [applyBalancePass_example_second allCategories _
        (by rw [groupRecordsByCategory_eq]; exact hdocs1)]
    rw [if_neg (by norm_num), if_pos rfl]
    norm_num
  rw [hloop]
  simp only [hf1, violations_example _ hlen1 hdocs1]

theorem applyBalance_three_docs_one_code_witness :
    "docs" ∈ ["docs", "code"] ∧ (balanceRecords.map (fun r => r.RecordID)).Nodup ∧
    balanceRecords.length = 4 ∧
    (balanceRecords.filter (fun r => decide (r.Category = "docs"))).length = 3 ∧
    (balanceRecords.filter (fun r => decide (r.Category = "code"))).length = 1 ∧
    ∃ top, top ∈ balanceRecords ∧ top.Category = "docs" ∧
      (∀ x ∈ balanceRecords, x.Category = "docs" → x.RecordID ≤ top.RecordID) ∧
      applyBalance ["docs", "code"] balanceRecords balanceRanges =
        some (balanceRecords.filter (fun x => decide (x ≠ top)), 1,
          ["docs share 0.6667 outside [0.0000, 0.5000]"]) :=
  ⟨by decide, by decide, rfl, by decide, by decide,
    applyBalance_three_docs_one_code ["docs", "code"] (by decide) balanceRecords (by decide)
      rfl (by decide) (by decide)⟩

theorem applyBalance_single_record :
    applyBalance ["code"] [plainRecord "r1" "docs" false] balanceRanges =
      some ([plainRecord "r1" "docs" false], 0,
        checkBalanceViolations [plainRecord "r1" "docs" false] balanceRanges) := by
  have hpass : ∀ (k : String → Bool) (g : Category → List collectedRecord) (t : Int),
      applyBalancePass ["code"] balanceRanges k g t = (k, 0) := by
    intro k g t
    unfold applyBalancePass
    rw [applyBalancePassLoop_eq_dropOverflow]
    simp [overflowOf_balanceRanges, dropOverflow]
  unfold applyBalance
  rw [if_neg (by simp [balanceRanges])]
  simp only [List.length_singleton]
  rw [applyBalanceLoop_succ, hpass, filterKeptRecords_markAllKept]
  simp [filterKeptRecords_markAllKept]

theorem applyBalance_violations_witness :
    balanceRanges ≠ [] ∧
    applyBalance ["code"] [plainRecord "r1" "docs" false] balanceRanges =
      some ([plainRecord "r1" "docs" false], 0,
        checkBalanceViolations [plainRecord "r1" "docs" false] balanceRanges) ∧
    [plainRecord "r1" "docs" false] ≠ [] ∧
    (checkBalanceViolations [plainRecord "r1" "docs" false] balanceRanges =
      (expectedViolations [plainRecord "r1" "docs" false] balanceRanges).insertionSort
        (fun a b => a ≤ b) ∧
    (checkBalanceViolations [plainRecord "r1" "docs" false] balanceRanges).Sorted
      (fun a b => a ≤ b) ∧
    (checkBalanceViolations [plainRecord "r1" "docs" false] balanceRanges).Perm
      (expectedViolations [plainRecord "r1" "docs" false] balanceRanges) ∧
    ∀ order : List (Category × BalanceRange), order.Perm balanceRanges →
      checkBalanceViolations [plainRecord "r1" "docs" false] balanceRanges =
        (expectedViolations [plainRecord "r1" "docs" false] order).insertionSort
          (fun a b => a ≤ b)) :=
  ⟨by simp [balanceRanges], applyBalance_single_record, by simp,
    applyBalance_violations ["code"] [plainRecord "r1" "docs" false] balanceRanges _
      (by simp [balanceRanges]) applyBalance_single_record (by simp)⟩

theorem float64Round_third : float64Round (1 / 3) = 6004799503160661 / 18014398509481984 := by
  refine (float64Round_eval _ (-2) 6004799503160661 ?_ ?_ ?_).trans ?_
  · norm_num
  · norm_num
  · exact roundHalfEven_of_near _ _ (by norm_num) (by norm_num) (by norm_num)
  · norm_num

theorem float64Round_third_idem :
    float64Round (float64Round (1 / 3)) = float64Round (1 / 3) := by
  rw [float64Round_third]
  refine (float64Round_eval _ (-2) 6004799503160661 ?_ ?_ ?_).trans ?_
  · norm_num
  · norm_num
  · exact roundHalfEven_of_near _ _ (by norm_num) (by norm_num) (by norm_num)
  · norm_num

theorem maxCountFor_third_three : maxCountFor (float64Round (1 / 3)) 3 = 1 := by
  have h1 := float64Round_third_idem
  have h2 : float64Round (((3 : Int)) : ℚ) = 3 := by
    simpa using float64Round_natCast 3 (by norm_num)
  have h3 : float64Round (float64Round (1 / 3) * 3) = 1 := by
    rw [float64Round_third]
    refine (float64Round_eval _ (-1) 9007199254740992 ?_ ?_ ?_).trans ?_
    · norm_num
    · norm_num
    · refine (roundHalfEven_of_tie _ 9007199254740991 ?_).trans ?_ <;> norm_num
    · norm_num
  have h4 : Int.ceil (1 : ℚ) = 1 := Int.ceil_one
  rw [maxCountFor_eval _ _ _ _ _ _ h1 h2 h3 h4]
  norm_num

/-- C12, as stated, fails: with ranges `{docs: {Min 0, Max m}}`, `m` the float64 nearest
to 1/3 (which is below 1/3), and one "docs" record among three, every record is kept and
the share of "docs" is `1/3 > Max`, yet no violation is reported: the float64 quotient
`1.0 / 3.0` is `m` itself. -/
theorem applyBalance_violations_exact_share :
    thirdRanges ≠ [] ∧
    thirdRanges.lookup "docs" = some { Min := 0, Max := float64Round (1 / 3) } ∧
    float64Round (float64Round (1 / 3)) = float64Round (1 / 3) ∧
    applyBalance ["docs", "code"] oneDocTwoCode thirdRanges = some (oneDocTwoCode, 0, []) ∧
    categoryShare oneDocTwoCode "docs" = 1 / 3 ∧
    categoryShare oneDocTwoCode "docs" > float64Round (1 / 3) := by
  have hshare : categoryShare oneDocTwoCode "docs" = 1 / 3 := by
    unfold categoryShare
    have h1 : (oneDocTwoCode.filter (fun r => decide (r.Category = "docs"))).length = 1 := by
      decide
    have h3 : oneDocTwoCode.length = 3 := rfl
    rw [h1, h3]
    norm_num
  have hviol : checkBalanceViolations oneDocTwoCode thirdRanges = [] := by
    have hfs : float64Share oneDocTwoCode "docs" = float64Round (1 / 3) := by
      unfold float64Share
      have h1 : (oneDocTwoCode.filter (fun r => decide (r.Category = "docs"))).length = 1 := by
        decide
      have h3 : oneDocTwoCode.length = 3 := rfl
      rw [h1, h3, float64Round_natCast 1 (by norm_num), float64Round_natCast 3 (by norm_num)]
      norm_num
    unfold checkBalanceViolations
    rw [if_neg (by simp [thirdRanges]), if_neg (by simp [oneDocTwoCode]),
      checkBalanceViolationsLoop_eq, List.nil_append]
    have he : expectedViolations oneDocTwoCode thirdRanges = [] := by
      unfold expectedViolations
      simp only [thirdRanges, List.filter_cons, List.filter_nil, hfs]
      rw [if_neg (by
        rw [float64Round_third_idem, float64Round_zero, float64Round_third]
        simp
        norm_num)]
      rfl
    rw [he]
    rfl
  have hpass : ∀ k : String → Bool,
      applyBalancePass ["docs", "code"] thirdRanges k
        (groupRecordsByCategory oneDocTwoCode) 3 = (k, 0) := by
    intro k
    have hg : (groupRecordsByCategory oneDocTwoCode "docs").length = 1 := by
      rw [groupRecordsByCategory_eq]
      decide
    have hov : ∀ c, overflowOf thirdRanges (groupRecordsByCategory oneDocTwoCode) 3 c = [] := by
      intro c
      unfold overflowOf
      by_cases hc : c = "docs"
      · subst hc
        simp only [thirdRanges, List.lookup, beq_self_eq_true]
        rw [if_neg (by rw [float64Round_third]; norm_num), if_neg (by rw [hg]; norm_num),
          if_pos (by rw [hg, maxCountFor_third_three]; norm_num)]
      · have hb : (c == "docs") = false := by simpa using hc
        simp only [thirdRanges, List.lookup, hb]
    unfold applyBalancePass
    rw [applyBalancePassLoop_eq_dropOverflow]
    simp [hov, dropOverflow]
  refine ⟨by simp [thirdRanges], rfl, float64Round_third_idem, ?_, hshare, ?_⟩
  · unfold applyBalance
    rw [if_neg (by simp [thirdRanges, oneDocTwoCode])]
    have hfuel : oneDocTwoCode.length + 1 = 3 + 1 := rfl
    rw [hfuel, applyBalanceLoop_succ, filterKeptRecords_markAllKept]
    have h3 : ((oneDocTwoCode.length : Nat) : Int) = 3 := rfl
    rw [h3, hpass]
    simp [filterKeptRecords_markAllKept, hviol]
  · rw [hshare, float64Round_third]
    norm_num

/-! ### Repository normalisation -/

theorem dropWhile_append_singleton (p : Char → Bool) (c : Char) (hc : p c = false) :
    ∀ l : List Char, (l ++ [c]).dropWhile p = l.dropWhile p ++ [c] := by
  intro l
  induction l with
  | nil => simp [List.dropWhile, hc]
  | cons x xs ih =>
    simp only [List.cons_append, List.dropWhile_cons]
    split_ifs
    · exact ih
    · rfl

theorem rdropWhile_cons_of_neg (p : Char → Bool) (c : Char) (cs : List Char)
    (hc : p c = false) : (c :: cs).rdropWhile p = c :: cs.rdropWhile p := by
  unfold List.rdropWhile
  rw [List.reverse_cons, dropWhile_append_singleton p c hc, List.reverse_append]
  rfl

/-- On a path that does not start with `/`, trimming `/` on the left after trimming it on
the right changes nothing. -/
theorem stringsTrimLeft_trimRight_of_not_abs (repo : String)
    (hne : repo ≠ "") (habs : filepathIsAbs repo = false) :
    stringsTrimLeft (stringsTrimRight repo "/") "/" = stringsTrimRight repo "/" := by
  obtain ⟨l⟩ := repo
  cases l with
  | nil => exact absurd rfl hne
  | cons c cs =>
    have hc : c ≠ '/' := by
      intro h
      subst h
      simp [filepathIsAbs, stringsStartsWith, List.isPrefixOf] at habs
    have hp : (fun x : Char => ("/" : String).data.contains x) c = false := by
      simp [hc]
    simp only [stringsTrimLeft, stringsTrimRight]
    rw [rdropWhile_cons_of_neg _ c cs hp]
    simp [List.dropWhile_cons, hc]

/-- C16: on a non-blank repository string without surrounding white space,
`normalizeRepository` succeeds with the result of the spec's case table tried in order:
unchanged for `git@` and `ssh://`; trailing `/` removed and `.git` appended unless
present for `http://` and `https://`; `https://` + trimmed + `.git` for `github.com/`;
`https://github.com/` + trimmed + `.git` for a string that contains `/`, is not absolute
and does not start with `.`; unchanged otherwise. -/
theorem normalizeRepository_follows_table (r : String) (hne : r ≠ "")
    (htrim : stringsTrimSpace r = r) :
    normalizeRepository r = Except.ok (normalizeTable r) := by
  have key : filepathIsAbs r = false →
      stringsTrimLeft (stringsTrimRight r "/") "/" = stringsTrimRight r "/" :=
    stringsTrimLeft_trimRight_of_not_abs r hne
  unfold normalizeRepository normalizeTable
  simp only [htrim, if_neg hne]
  split_ifs <;> first
    | rfl
    | (exfalso; tauto)
    | (have hh : stringsContains r "/" = true ∧ ¬ filepathIsAbs r = true ∧
          ¬ stringsStartsWith r "." = true := by assumption
       rw [key (by simpa using hh.2.1)])

theorem normalizeRepository_follows_table_witness :
    ("github.com/acme/widgets" : String) ≠ "" ∧
    stringsTrimSpace "github.com/acme/widgets" = "github.com/acme/widgets" ∧
    normalizeRepository "github.com/acme/widgets" =
      Except.ok (normalizeTable "github.com/acme/widgets") ∧
    normalizeTable "github.com/acme/widgets" = "https://github.com/acme/widgets.git" ∧
    normalizeRepository "https://example.com/repo.git/" =
      Except.ok "https://example.com/repo.git" ∧
    normalizeRepository "git@host:org/repo.git" = Except.ok "git@host:org/repo.git" :=
  ⟨by decide, by decide,
    normalizeRepository_follows_table "github.com/acme/widgets" (by decide) (by decide),
    by decide, rfl, rfl⟩

/-! ### Cache key -/

theorem hextable_getD_mem (n : Nat) : hextable.getD n '0' ∈ hextable := by
  by_cases h : n < 16
  · interval_cases n <;> decide
  · have : hextable.getD n '0' = '0' := by
      apply List.getD_eq_default
      simp only [hextable]
      exact not_lt.1 h
    rw [this]
    decide

theorem hexValue_hextable (n : Nat) (h : n < 16) : hexValue (hextable.getD n '0') = some n := by
  interval_cases n <;> decide

theorem hexEncodeToString_length (bytes : List (Fin 256)) :
    (hexEncodeToString bytes).length = 2 * bytes.length := by
  unfold hexEncodeToString
  rw [String.length]
  induction bytes with
  | nil => rfl
  | cons v rest ih =>
    simp only [List.flatMap_cons, List.length_append, List.length_cons, List.length_nil, ih]
    omega

theorem hexEncodeToString_mem (bytes : List (Fin 256)) :
    ∀ c ∈ (hexEncodeToString bytes).data, c ∈ hextable := by
  intro c hc
  unfold hexEncodeToString at hc
  obtain ⟨v, _, hv⟩ := List.mem_flatMap.1 hc
  simp only [List.mem_cons, List.mem_singleton, List.not_mem_nil, or_false] at hv
  rcases hv with h | h
  · rw [h]; exact hextable_getD_mem _
  · rw [h]; exact hextable_getD_mem _

theorem decodeHex_hexEncodeToString (bytes : List (Fin 256)) :
    decodeHex (hexEncodeToString bytes).data = some (bytes.map (fun v => v.val)) := by
  unfold hexEncodeToString
  induction bytes with
  | nil => simp [decodeHex]
  | cons v rest ih =>
    have hv := v.isLt
    simp only [List.flatMap_cons, List.cons_append, List.nil_append, List.map_cons]
    simp only at ih
    rw [decodeHex, hexValue_hextable _ (by omega),
      hexValue_hextable _ (Nat.mod_lt _ (by norm_num)), ih]
    simp only [Option.some.injEq, List.cons.injEq, and_true]
    omega

theorem dropWhile_eq_nil_of_all (p : Char → Bool) (l : List Char) (h : ∀ c ∈ l, p c = true) :
    l.dropWhile p = [] := by
  induction l with
  | nil => rfl
  | cons x xs ih =>
    rw [List.dropWhile_cons, if_pos (h x (List.mem_cons_self _ _))]
    exact ih (fun c hc => h c (List.mem_cons_of_mem _ hc))

theorem dropWhile_append_of_all (p : Char → Bool) (pre l : List Char)
    (h : ∀ c ∈ pre, p c = true) : (pre ++ l).dropWhile p = l.dropWhile p := by
  induction pre with
  | nil => rfl
  | cons x xs ih =>
    rw [List.cons_append, List.dropWhile_cons, if_pos (h x (List.mem_cons_self _ _))]
    exact ih (fun c hc => h c (List.mem_cons_of_mem _ hc))

theorem rdropWhile_append_of_all (p : Char → Bool) (l post : List Char)
    (h : ∀ c ∈ post, p c = true) : (l ++ post).rdropWhile p = l.rdropWhile p := by
  unfold List.rdropWhile
  rw [List.reverse_append, dropWhile_append_of_all p _ _ (fun c hc => h c (List.mem_reverse.1 hc))]

theorem trim_append_of_all (p : Char → Bool) (post : List Char)
    (h : ∀ c ∈ post, p c = true) :
    ∀ l : List Char, ((l ++ post).dropWhile p).rdropWhile p = (l.dropWhile p).rdropWhile p := by
  intro l
  induction l with
  | nil =>
    rw [List.nil_append, dropWhile_eq_nil_of_all p post h]
    rfl
  | cons a l ih =>
    by_cases ha : p a = true
    · rw [List.cons_append, List.dropWhile_cons, if_pos ha, List.dropWhile_cons, if_pos ha]
      exact ih
    · rw [List.cons_append, List.dropWhile_cons, if_neg ha, List.dropWhile_cons, if_neg ha,
        ← List.cons_append]
      exact rdropWhile_append_of_all p _ post h

/-- Surrounding white space does not change `strings.TrimSpace`. -/
theorem stringsTrimSpace_surrounded (pre s post : String)
    (hpre : ∀ c ∈ pre.data, unicodeIsSpace c = true)
    (hpost : ∀ c ∈ post.data, unicodeIsSpace c = true) :
    stringsTrimSpace (pre ++ s ++ post) = stringsTrimSpace s := by
  unfold stringsTrimSpace
  simp only [String.data_append]
  rw [trim_append_of_all _ _ hpost, dropWhile_append_of_all _ _ _ hpre]

/-- C17: `cacheKey(remote)` is the lowercase hexadecimal text of the first 8 bytes of
SHA-256 of `lower(trim(remote))`: it has exactly 16 characters, all from `0-9a-f`, it
decodes to those 8 bytes, and remotes with the same `lower(trim(·))`, in particular
remotes that differ in surrounding white space only, get the same key. -/
theorem cacheKey_is_hex_of_digest_head (lib : GoLibrary) (remote : String) :
    (cacheKey lib remote).length = 16 ∧
    (∀ c ∈ (cacheKey lib remote).data, c ∈ "0123456789abcdef".data) ∧
    decodeHex (cacheKey lib remote).data =
      some (((List.ofFn (lib.sum256 (lib.toLower (stringsTrimSpace remote)))).take 8).map
        (fun v => v.val)) ∧
    (∀ other : String,
      lib.toLower (stringsTrimSpace other) = lib.toLower (stringsTrimSpace remote) →
      cacheKey lib other = cacheKey lib remote) ∧
    (∀ pre post : String, (∀ c ∈ pre.data, unicodeIsSpace c = true) →
      (∀ c ∈ post.data, unicodeIsSpace c = true) →
      cacheKey lib (pre ++ remote ++ post) = cacheKey lib remote) := by
  refine ⟨?_, ?_, ?_, ?_, ?_⟩
  · unfold cacheKey
    simp only [hexEncodeToString_length, List.length_take, List.length_ofFn]
    rfl
  · exact hexEncodeToString_mem _
  · exact decodeHex_hexEncodeToString _
  · intro other h
    unfold cacheKey
    simp only [h]
  · intro pre post hpre hpost
    unfold cacheKey
    simp only [stringsTrimSpace_surrounded pre remote post hpre hpost]

theorem cacheKey_is_hex_of_digest_head_witness :
    exampleLibrary.toLower (stringsTrimSpace "  Acme/Widgets ") =
      exampleLibrary.toLower (stringsTrimSpace "acme/widgets") ∧
    cacheKey exampleLibrary "  Acme/Widgets " = cacheKey exampleLibrary "acme/widgets" :=
  ⟨by decide,
    (cacheKey_is_hex_of_digest_head exampleLibrary "acme/widgets").2.2.2.1
      "  Acme/Widgets " (by decide)⟩

/-! ### Equivalent spellings of a GitHub repository -/

theorem prefix_of_append_sep (c : Char) (d : List Char) :
    ∀ a b : List Char, c ∉ a → a <+: b ++ c :: d → a <+: b := by
  intro a
  induction a with
  | nil => intro b _ _; exact List.nil_prefix
  | cons x a ih =>
    intro b hc h
    cases b with
    | nil =>
      rw [List.nil_append, List.cons_prefix_cons] at h
      exact absurd (h.1 ▸ List.mem_cons_self _ _) hc
    | cons y b =>
      rw [List.cons_append, List.cons_prefix_cons] at h
      rw [List.cons_prefix_cons]
      exact ⟨h.1, ih b (fun hm => hc (List.mem_cons_of_mem _ hm)) h.2⟩

theorem prefix_split_first (c : Char) (x y : List Char) :
    ∀ a o : List Char, c ∉ a → c ∉ o → a ++ c :: x <+: o ++ c :: y → a = o ∧ x <+: y := by
  intro a
  induction a with
  | nil =>
    intro o _ ho h
    cases o with
    | nil =>
      rw [List.nil_append, List.nil_append, List.cons_prefix_cons] at h
      exact ⟨rfl, h.2⟩
    | cons z o =>
      rw [List.nil_append, List.cons_append, List.cons_prefix_cons] at h
      exact absurd (h.1 ▸ List.mem_cons_self _ _) ho
  | cons z a ih =>
    intro o ha ho h
    cases o with
    | nil =>
      rw [List.nil_append, List.cons_append, List.cons_prefix_cons] at h
      exact absurd (h.1 ▸ List.mem_cons_self _ _) ha
    | cons w o =>
      rw [List.cons_append, List.cons_append, List.cons_prefix_cons] at h
      obtain ⟨e, hx⟩ := ih o (fun hm => ha (List.mem_cons_of_mem _ hm))
        (fun hm => ho (List.mem_cons_of_mem _ hm)) h.2
      exact ⟨by rw [h.1, e], hx⟩

theorem suffix_of_sep_append (c : Char) (d : List Char) (a b : List Char) (hc : c ∉ a)
    (h : a <:+ d ++ c :: b) : a <:+ b := by
  rw [← List.reverse_prefix] at h ⊢
  rw [List.reverse_append, List.reverse_cons, List.append_assoc, List.singleton_append] at h
  exact prefix_of_append_sep c d.reverse a.reverse b.reverse
    (fun hm => hc (List.mem_reverse.1 hm)) h

theorem hasBlock_singleton (c : Char) (l : List Char) : hasBlock [c] l = true ↔ c ∈ l := by
  induction l with
  | nil => simp [hasBlock]
  | cons x xs ih =>
    simp only [hasBlock, Bool.or_eq_true, ih, List.mem_cons, List.isPrefixOf]
    constructor
    · rintro (h | h)
      · left
        simp only [Bool.and_eq_true, beq_iff_eq] at h
        exact h.1
      · exact Or.inr h
    · rintro (h | h)
      · left; subst h; simp [List.isPrefixOf]
      · exact Or.inr h

theorem dropWhile_of_none (p : Char → Bool) (l : List Char) (h : ∀ c ∈ l, p c = false) :
    l.dropWhile p = l := by
  cases l with
  | nil => rfl
  | cons x xs =>
    rw [List.dropWhile_cons, if_neg (by simp [h x (List.mem_cons_self _ _)])]

theorem rdropWhile_of_none (p : Char → Bool) (l : List Char) (h : ∀ c ∈ l, p c = false) :
    l.rdropWhile p = l := by
  unfold List.rdropWhile
  rw [dropWhile_of_none p _ (fun c hc => h c (List.mem_reverse.1 hc)), List.reverse_reverse]

theorem stringsTrimSpace_of_no_space (s : String)
    (h : ∀ c ∈ s.data, unicodeIsSpace c = false) : stringsTrimSpace s = s := by
  unfold stringsTrimSpace
  rw [dropWhile_of_none _ _ h, rdropWhile_of_none _ _ h]

theorem stringsStartsWith_iff (s p : String) :
    stringsStartsWith s p = true ↔ p.data <+: s.data := by
  unfold stringsStartsWith
  exact List.isPrefixOf_iff_prefix

theorem stringsEndsWith_iff (s p : String) :
    stringsEndsWith s p = true ↔ p.data <:+ s.data := by
  unfold stringsEndsWith
  exact List.isSuffixOf_iff_suffix

theorem stringsTrimRight_slash_keep (x repo : String) (hr : repo ≠ "")
    (hrs : '/' ∉ repo.data) :
    stringsTrimRight (x ++ repo) "/" = x ++ repo ∧
    stringsTrimRight (x ++ repo ++ "/") "/" = x ++ repo := by
  have hne : repo.data ≠ [] := fun h => hr (String.ext h)
  have hlast : (fun c : Char => ['/'].contains c) (repo.data.getLast hne) = false := by
    have : repo.data.getLast hne ≠ '/' := fun h => hrs (h ▸ List.getLast_mem hne)
    simpa using this
  have hsplit : repo.data = repo.data.dropLast ++ [repo.data.getLast hne] :=
    (List.dropLast_append_getLast hne).symm
  have h1 : (x.data ++ repo.data).rdropWhile (fun c : Char => ['/'].contains c) =
      x.data ++ repo.data := by
    rw [hsplit, ← List.append_assoc]
    exact List.rdropWhile_concat_neg _ _ _ (Bool.eq_false_iff.1 hlast)
  constructor
  · apply String.ext
    simp only [stringsTrimRight, String.data_append]
    exact h1
  · apply String.ext
    simp only [stringsTrimRight, String.data_append]
    rw [List.rdropWhile_concat_pos _ _ _ (by simp)]
    exact h1

/-- The bare `owner/repo` shorthand, with or without a trailing `/`. -/
theorem normalizeRepository_shorthand (owner repo post : String)
    (hpost : post = "" ∨ post = "/")
    (ho : owner ≠ "") (hr : repo ≠ "") (hos : '/' ∉ owner.data) (hrs : '/' ∉ repo.data)
    (how : ∀ c ∈ owner.data, unicodeIsSpace c = false)
    (hrw : ∀ c ∈ repo.data, unicodeIsSpace c = false)
    (hdot : stringsStartsWith owner "." = false)
    (hat : stringsStartsWith owner "git@" = false) (hgh : owner ≠ "github.com") :
    normalizeRepository (owner ++ "/" ++ repo ++ post) =
      Except.ok ("https://github.com/" ++ owner ++ "/" ++ repo ++ ".git") := by
  have hone : owner.data ≠ [] := fun h => ho (String.ext h)
  have hrne : repo.data ≠ [] := fun h => hr (String.ext h)
  have hslash : ("/" : String).data = ['/'] := rfl
  -- the shape of the spelling
  obtain ⟨tl, htl, htl2⟩ : ∃ tl : List Char,
      (owner ++ "/" ++ repo ++ post).data = owner.data ++ '/' :: tl ∧
      (tl ≠ [] ∧ ∀ h : tl ≠ [], tl.head h ≠ '/') := by
    refine ⟨repo.data ++ post.data, by simp [String.data_append, hslash], ?_⟩
    obtain ⟨c, cs, hc⟩ := List.exists_cons_of_ne_nil hrne
    rw [hc]
    refine ⟨by simp, fun _ => ?_⟩
    simp only [List.cons_append, List.head_cons]
    intro h
    exact hrs (by rw [hc, h]; exact List.mem_cons_self _ _)
  have hspace : ∀ c ∈ (owner ++ "/" ++ repo ++ post).data, unicodeIsSpace c = false := by
    intro c hc
    simp only [String.data_append, List.mem_append] at hc
    rcases hc with ((hc | hc) | hc) | hc
    · exact how c hc
    · rw [List.mem_singleton] at hc; rw [hc]; decide
    · exact hrw c hc
    · rcases hpost with h | h
      · rw [h] at hc; simp at hc
      · rw [h] at hc; simp only [List.mem_singleton] at hc; rw [hc]; decide
  have htrim := stringsTrimSpace_of_no_space _ hspace
  have hne : owner ++ "/" ++ repo ++ post ≠ "" := by
    intro h
    have := congrArg String.data h
    rw [htl] at this
    simp at this
  -- no earlier case applies
  have nopre : ∀ (a x : List Char), '/' ∉ a → a ≠ owner.data →
      ¬ (a ++ '/' :: x <+: (owner ++ "/" ++ repo ++ post).data) := by
    intro a x ha hao h
    rw [htl] at h
    exact hao (prefix_split_first '/' x tl a owner.data ha hos h).1
  have h1 : stringsStartsWith (owner ++ "/" ++ repo ++ post) "git@" = false := by
    rw [Bool.eq_false_iff, Ne, stringsStartsWith_iff, htl]
    intro h
    have := prefix_of_append_sep '/' tl _ _ (by decide) h
    rw [← stringsStartsWith_iff, hat] at this
    exact absurd this (by simp)
  have dbl : ∀ (a x : List Char), '/' ∉ a →
      ¬ (a ++ '/' :: '/' :: x <+: (owner ++ "/" ++ repo ++ post).data) := by
    intro a x ha h
    rw [htl] at h
    have h2 := (prefix_split_first '/' ('/' :: x) tl a owner.data ha hos h).2
    obtain ⟨c, cs, hc⟩ := List.exists_cons_of_ne_nil htl2.1
    have hh := htl2.2 htl2.1
    simp only [hc, List.head_cons] at hh
    rw [hc, List.cons_prefix_cons] at h2
    exact hh h2.1.symm
  have h2 : stringsStartsWith (owner ++ "/" ++ repo ++ post) "ssh://" = false := by
    rw [Bool.eq_false_iff, Ne, stringsStartsWith_iff]
    exact dbl ['s', 's', 'h', ':'] [] (by decide)
  have h3 : stringsStartsWith (owner ++ "/" ++ repo ++ post) "http://" = false := by
    rw [Bool.eq_false_iff, Ne, stringsStartsWith_iff]
    exact dbl ['h', 't', 't', 'p', ':'] [] (by decide)
  have h4 : stringsStartsWith (owner ++ "/" ++ repo ++ post) "https://" = false := by
    rw [Bool.eq_false_iff, Ne, stringsStartsWith_iff]
    exact dbl ['h', 't', 't', 'p', 's', ':'] [] (by decide)
  have h5 : stringsStartsWith (owner ++ "/" ++ repo ++ post) "github.com/" = false := by
    rw [Bool.eq_false_iff, Ne, stringsStartsWith_iff]
    exact nopre "github.com".data [] (by decide) (fun h => hgh (String.ext h.symm))
  have h6 : stringsContains (owner ++ "/" ++ repo ++ post) "/" = true := by
    unfold stringsContains
    rw [hslash, hasBlock_singleton, htl]
    simp
  have h7 : filepathIsAbs (owner ++ "/" ++ repo ++ post) = false := by
    unfold filepathIsAbs
    rw [Bool.eq_false_iff, Ne, stringsStartsWith_iff, htl, hslash]
    intro h
    obtain ⟨c, cs, hc⟩ := List.exists_cons_of_ne_nil hone
    rw [hc, List.cons_append, List.cons_prefix_cons] at h
    exact hos (by rw [hc, ← h.1]; exact List.mem_cons_self _ _)
  have h8 : stringsStartsWith (owner ++ "/" ++ repo ++ post) "." = false := by
    rw [Bool.eq_false_iff, Ne, stringsStartsWith_iff, htl]
    intro h
    have := prefix_of_append_sep '/' tl _ _ (by decide) h
    rw [← stringsStartsWith_iff, hdot] at this
    exact absurd this (by simp)
  have htr : stringsTrimRight (owner ++ "/" ++ repo ++ post) "/" = owner ++ "/" ++ repo := by
    rcases hpost with h | h
    · rw [h, String.append_empty]
      exact (stringsTrimRight_slash_keep (owner ++ "/") repo hr hrs).1
    · rw [h]
      exact (stringsTrimRight_slash_keep (owner ++ "/") repo hr hrs).2
  unfold normalizeRepository
  simp only [htrim, if_neg hne, h1, h2, h3, h4, h5, h6, h7, h8]
  rw [stringsTrimLeft_trimRight_of_not_abs _ hne h7, htr]
  simp [String.append_assoc]

/-- The `github.com/owner/repo` spelling, with or without a trailing `/`. -/
theorem normalizeRepository_github_host (owner repo post : String)
    (hpost : post = "" ∨ post = "/") (hr : repo ≠ "") (hrs : '/' ∉ repo.data)
    (how : ∀ c ∈ owner.data, unicodeIsSpace c = false)
    (hrw : ∀ c ∈ repo.data, unicodeIsSpace c = false) :
    normalizeRepository ("github.com/" ++ owner ++ "/" ++ repo ++ post) =
      Except.ok ("https://github.com/" ++ owner ++ "/" ++ repo ++ ".git") := by
  have hspace : ∀ c ∈ ("github.com/" ++ owner ++ "/" ++ repo ++ post).data,
      unicodeIsSpace c = false := by
    intro c hc
    simp only [String.data_append, List.mem_append] at hc
    rcases hc with (((hc | hc) | hc) | hc) | hc
    · revert c; decide
    · exact how c hc
    · revert c; decide
    · exact hrw c hc
    · rcases hpost with h | h
      · rw [h] at hc; simp at hc
      · rw [h] at hc; revert c; decide
  have htrim := stringsTrimSpace_of_no_space _ hspace
  have hne : "github.com/" ++ owner ++ "/" ++ repo ++ post ≠ "" := by
    intro h
    have := congrArg String.data h
    simp [String.data_append] at this
  have h1 : stringsStartsWith ("github.com/" ++ owner ++ "/" ++ repo ++ post) "git@" = false := by
    simp [stringsStartsWith, String.data_append, List.isPrefixOf]
  have h2 : stringsStartsWith ("github.com/" ++ owner ++ "/" ++ repo ++ post) "ssh://" = false := by
    simp [stringsStartsWith, String.data_append, List.isPrefixOf]
  have h3 : stringsStartsWith ("github.com/" ++ owner ++ "/" ++ repo ++ post) "http://" = false := by
    simp [stringsStartsWith, String.data_append, List.isPrefixOf]
  have h4 : stringsStartsWith ("github.com/" ++ owner ++ "/" ++ repo ++ post) "https://" =
      false := by
    simp [stringsStartsWith, String.data_append, List.isPrefixOf]
  have h5 : stringsStartsWith ("github.com/" ++ owner ++ "/" ++ repo ++ post) "github.com/" =
      true := by
    rw [stringsStartsWith_iff]
    simp only [String.data_append, List.append_assoc]
    exact List.prefix_append _ _
  have htr : stringsTrimRight ("github.com/" ++ owner ++ "/" ++ repo ++ post) "/" =
      "github.com/" ++ owner ++ "/" ++ repo := by
    rcases hpost with h | h
    · rw [h, String.append_empty]
      exact (stringsTrimRight_slash_keep ("github.com/" ++ owner ++ "/") repo hr hrs).1
    · rw [h]
      exact (stringsTrimRight_slash_keep ("github.com/" ++ owner ++ "/") repo hr hrs).2
  unfold normalizeRepository
  simp only [htrim, if_neg hne, h1, h2, h3, h4, h5, htr]
  simp only [Bool.false_eq_true, or_self, if_false, if_true]
  have e : "https://" ++ ("github.com/" ++ owner ++ "/" ++ repo) ++ ".git" =
      "https://github.com/" ++ owner ++ "/" ++ repo ++ ".git" := by
    apply String.ext
    simp [String.data_append]
  rw [e]

theorem stringsTrimRight_dot_git (y : String) :
    stringsTrimRight (y ++ ".git") "/" = y ++ ".git" := by
  apply String.ext
  simp only [stringsTrimRight, String.data_append]
  have : y.data ++ ['.', 'g', 'i', 't'] = (y.data ++ ['.', 'g', 'i']) ++ ['t'] := by simp
  rw [this]
  exact List.rdropWhile_concat_neg _ _ _ (by decide)

/-- The `https://github.com/owner/repo` spelling, bare, with a trailing `/`, or with
`.git`. -/
theorem normalizeRepository_https_github (owner repo post : String)
    (hpost : post = "" ∨ post = "/" ∨ post = ".git") (hr : repo ≠ "")
    (hrs : '/' ∉ repo.data)
    (how : ∀ c ∈ owner.data, unicodeIsSpace c = false)
    (hrw : ∀ c ∈ repo.data, unicodeIsSpace c = false)
    (hgit : stringsEndsWith repo ".git" = false) :
    normalizeRepository ("https://github.com/" ++ owner ++ "/" ++ repo ++ post) =
      Except.ok ("https://github.com/" ++ owner ++ "/" ++ repo ++ ".git") := by
  have hspace : ∀ c ∈ ("https://github.com/" ++ owner ++ "/" ++ repo ++ post).data,
      unicodeIsSpace c = false := by
    intro c hc
    simp only [String.data_append, List.mem_append] at hc
    rcases hc with (((hc | hc) | hc) | hc) | hc
    · revert c; decide
    · exact how c hc
    · revert c; decide
    · exact hrw c hc
    · rcases hpost with h | h | h
      · rw [h] at hc; simp at hc
      · rw [h] at hc; revert c; decide
      · rw [h] at hc; revert c; decide
  have htrim := stringsTrimSpace_of_no_space _ hspace
  have hne : "https://github.com/" ++ owner ++ "/" ++ repo ++ post ≠ "" := by
    intro h
    have := congrArg String.data h
    simp [String.data_append] at this
  have h1 : stringsStartsWith ("https://github.com/" ++ owner ++ "/" ++ repo ++ post) "git@" =
      false := by
    simp [stringsStartsWith, String.data_append, List.isPrefixOf]
  have h2 : stringsStartsWith ("https://github.com/" ++ owner ++ "/" ++ repo ++ post) "ssh://" =
      false := by
    simp [stringsStartsWith, String.data_append, List.isPrefixOf]
  have h4 : stringsStartsWith ("https://github.com/" ++ owner ++ "/" ++ repo ++ post)
      "https://" = true := by
    rw [stringsStartsWith_iff]
    simp only [String.data_append, List.append_assoc]
    exact ⟨"github.com/".data ++ (owner.data ++ ("/".data ++ (repo.data ++ post.data))), rfl⟩
  have hnosuf : stringsEndsWith ("https://github.com/" ++ owner ++ "/" ++ repo) ".git" =
      false := by
    rw [Bool.eq_false_iff, Ne, stringsEndsWith_iff]
    intro h
    have h2 : (".git" : String).data <:+ repo.data := by
      apply suffix_of_sep_append '/' ("https://github.com/".data ++ owner.data) _ _ (by decide)
      simpa [String.data_append] using h
    rw [← stringsEndsWith_iff, hgit] at h2
    exact absurd h2 (by simp)
  unfold normalizeRepository
  simp only [htrim, if_neg hne, h1, h2, h4]
  simp only [Bool.false_eq_true, or_true, if_false, if_true]
  rcases hpost with h | h | h
  · rw [h, String.append_empty,
      (stringsTrimRight_slash_keep ("https://github.com/" ++ owner ++ "/") repo hr hrs).1,
      hnosuf]
    simp
  · rw [h, (stringsTrimRight_slash_keep ("https://github.com/" ++ owner ++ "/") repo hr hrs).2,
      hnosuf]
    simp
  · rw [h, stringsTrimRight_dot_git]
    have : stringsEndsWith ("https://github.com/" ++ owner ++ "/" ++ repo ++ ".git") ".git" =
        true := by
      rw [stringsEndsWith_iff, String.data_append]
      exact List.suffix_append _ _
    rw [this]
    simp

/-- C18, as stated, fails: the owner `github.com` (non-empty, free of `/` and white space,
not starting with `.`) with the repo `widgets` gives the spelling `github.com/widgets`,
which is read as host and path and normalizes to `https://github.com/widgets.git`; the
owner `git@acme` gives `git@acme/widgets`, which is returned unchanged. -/
theorem normalizeRepository_owner_read_as_host :
    ("github.com" : String) ≠ "" ∧ ("widgets" : String) ≠ "" ∧
    '/' ∉ ("github.com" : String).data ∧ '/' ∉ ("widgets" : String).data ∧
    (∀ c ∈ ("github.com" : String).data, unicodeIsSpace c = false) ∧
    (∀ c ∈ ("widgets" : String).data, unicodeIsSpace c = false) ∧
    stringsStartsWith "github.com" "." = false ∧ stringsEndsWith "widgets" ".git" = false ∧
    ("github.com" : String) ++ "/" ++ "widgets" ∈ githubSpellings "github.com" "widgets" ∧
    normalizeRepository (("github.com" : String) ++ "/" ++ "widgets") =
      Except.ok "https://github.com/widgets.git" ∧
    normalizeRepository (("github.com" : String) ++ "/" ++ "widgets") ≠
      Except.ok ("https://github.com/" ++ "github.com" ++ "/" ++ "widgets" ++ ".git") ∧
    normalizeRepository (("git@acme" : String) ++ "/" ++ "widgets") =
      Except.ok "git@acme/widgets" := by
  refine ⟨by decide, by decide, by decide, by decide, by decide, by decide, by decide,
    by decide, by simp [githubSpellings], rfl, ?_, rfl⟩
  have h : normalizeRepository (("github.com" : String) ++ "/" ++ "widgets") =
      Except.ok "https://github.com/widgets.git" := rfl
  rw [h]
  intro h2
  have := Except.ok.inj h2
  revert this
  decide

/-- C18 (amended): for every owner and repo that are non-empty and free of `/` and white
space, with the owner not starting with `.` or `git@` and different from `github.com`,
and the repo not ending in `.git`, the seven spellings `owner/repo`, `owner/repo/`,
`github.com/owner/repo`, `github.com/owner/repo/`, `https://github.com/owner/repo`,
`https://github.com/owner/repo/` and `https://github.com/owner/repo.git` all normalize to
`https://github.com/owner/repo.git`, and so give the same `cacheKey`. -/
theorem github_spellings_share_cache_entry (lib : GoLibrary) (owner repo : String)
    (ho : owner ≠ "") (hr : repo ≠ "") (hos : '/' ∉ owner.data) (hrs : '/' ∉ repo.data)
    (how : ∀ c ∈ owner.data, unicodeIsSpace c = false)
    (hrw : ∀ c ∈ repo.data, unicodeIsSpace c = false)
    (hdot : stringsStartsWith owner "." = false)
    (hgit : stringsEndsWith repo ".git" = false)
    (hat : stringsStartsWith owner "git@" = false) (hgh : owner ≠ "github.com") :
    (∀ s ∈ githubSpellings owner repo,
      normalizeRepository s =
        Except.ok ("https://github.com/" ++ owner ++ "/" ++ repo ++ ".git")) ∧
    (∀ s1 ∈ githubSpellings owner repo, ∀ s2 ∈ githubSpellings owner repo,
      Except.map (cacheKey lib) (normalizeRepository s1) =
        Except.map (cacheKey lib) (normalizeRepository s2)) := by
  have hall : ∀ s ∈ githubSpellings owner repo,
      normalizeRepository s =
        Except.ok ("https://github.com/" ++ owner ++ "/" ++ repo ++ ".git") := by
    intro s hs
    simp only [githubSpellings, List.mem_cons, List.mem_singleton, List.not_mem_nil,
      or_false] at hs
    rcases hs with h | h | h | h | h | h | h
    · rw [h]
      have := normalizeRepository_shorthand owner repo "" (Or.inl rfl) ho hr hos hrs how hrw
        hdot hat hgh
      rwa [String.append_empty] at this
    · rw [h]
      exact normalizeRepository_shorthand owner repo "/" (Or.inr rfl) ho hr hos hrs how hrw
        hdot hat hgh
    · rw [h]
      have := normalizeRepository_github_host owner repo "" (Or.inl rfl) hr hrs how hrw
      rwa [String.append_empty] at this
    · rw [h]
      exact normalizeRepository_github_host owner repo "/" (Or.inr rfl) hr hrs how hrw
    · rw [h]
      have := normalizeRepository_https_github owner repo "" (Or.inl rfl) hr hrs how hrw hgit
      rwa [String.append_empty] at this
    · rw [h]
      exact normalizeRepository_https_github owner repo "/" (Or.inr (Or.inl rfl)) hr hrs how
        hrw hgit
    · rw [h]
      exact normalizeRepository_https_github owner repo ".git" (Or.inr (Or.inr rfl)) hr hrs
        how hrw hgit
  refine ⟨hall, ?_⟩
  intro s1 h1 s2 h2
  rw [hall s1 h1, hall s2 h2]

theorem github_spellings_share_cache_entry_witness :
    ("acme" : String) ≠ "" ∧ ("widgets" : String) ≠ "" ∧
    '/' ∉ ("acme" : String).data ∧ '/' ∉ ("widgets" : String).data ∧
    (∀ c ∈ ("acme" : String).data, unicodeIsSpace c = false) ∧
    (∀ c ∈ ("widgets" : String).data, unicodeIsSpace c = false) ∧
    stringsStartsWith "acme" "." = false ∧ stringsEndsWith "widgets" ".git" = false ∧
    stringsStartsWith "acme" "git@" = false ∧ ("acme" : String) ≠ "github.com" ∧
    (∀ s ∈ githubSpellings "acme" "widgets",
      normalizeRepository s =
        Except.ok ("https://github.com/" ++ "acme" ++ "/" ++ "widgets" ++ ".git")) ∧
    (∀ s1 ∈ githubSpellings "acme" "widgets", ∀ s2 ∈ githubSpellings "acme" "widgets",
      Except.map (cacheKey exampleLibrary) (normalizeRepository s1) =
        Except.map (cacheKey exampleLibrary) (normalizeRepository s2)) :=
  ⟨by decide, by decide, by decide, by decide, by decide, by decide, by decide, by decide,
    by decide, by decide,
    github_spellings_share_cache_entry exampleLibrary "acme" "widgets" (by decide) (by decide)
      (by decide) (by decide) (by decide) (by decide) (by decide) (by decide) (by decide)
      (by decide)⟩

/-! ### Source resolution: configuration errors and the local override -/

theorem normalizeRepository_ok (repository : String)
    (h : stringsTrimSpace repository ≠ "") :
    ∃ remote, normalizeRepository repository = Except.ok remote := by
  unfold normalizeRepository
  simp only [if_neg h]
  split_ifs <;> exact ⟨_, rfl⟩

theorem validateRemoteSourceInputs_eq_none (src : SourceConfig) (cacheDir : String) :
    validateRemoteSourceInputs src cacheDir = none ↔
      stringsTrimSpace src.Repository ≠ "" ∧ stringsTrimSpace src.CommitSHA ≠ "" ∧
        stringsTrimSpace cacheDir ≠ "" := by
  unfold validateRemoteSourceInputs
  split_ifs with h1 h2 h3 <;> simp [*]

theorem validateRemoteSourceInputs_isConfigError (src : SourceConfig) (cacheDir : String)
    (e : ResolveError) (h : validateRemoteSourceInputs src cacheDir = some e) :
    e.isConfigError = true := by
  unfold validateRemoteSourceInputs at h
  split_ifs at h <;> (cases h; rfl)

theorem ensureRepoCached_not_config (lib : GoLibrary) (env : Env) (src : SourceConfig)
    (remote repoDir : String) (progress : Bool) (t : List Event) (e : ResolveError)
    (h : (ensureRepoCached lib env src remote repoDir progress t).1 = some e) :
    e.isConfigError = false := by
  unfold ensureRepoCached at h
  split at h
  · cases h; rfl
  · dsimp only at h
    split at h
    · cases h; rfl
    · cases h
  · cases h

theorem ensurePinnedCommit_not_config (lib : GoLibrary) (env : Env) (src : SourceConfig)
    (repoDir remote : String) (progress : Bool) (t : List Event) (e : ResolveError)
    (h : (ensurePinnedCommit lib env src repoDir remote progress t).1 = some e) :
    e.isConfigError = false := by
  unfold ensurePinnedCommit at h
  dsimp only at h
  split at h
  · cases h; rfl
  · split at h
    · cases h
    · split at h
      · cases h; rfl
      · cases h

theorem checkoutPinnedCommit_not_config (env : Env) (src : SourceConfig) (repoDir : String)
    (progress : Bool) (t : List Event) (e : ResolveError)
    (h : (checkoutPinnedCommit env src repoDir progress t).1 = some e) :
    e.isConfigError = false := by
  unfold checkoutPinnedCommit at h
  dsimp only at h
  split at h
  · cases h; rfl
  · cases h

theorem validateRepoRoot_not_config (env : Env) (src : SourceConfig)
    (root resolvedRoot : String) (t : List Event) :
    isConfigErrorResult (validateRepoRoot env src root resolvedRoot t).1 = false := by
  unfold validateRepoRoot
  split <;> rfl

theorem validateLocalRoot_not_config (env : Env) (name root : String) (t : List Event) :
    isConfigErrorResult (validateLocalRoot env name root t).1 = false := by
  unfold validateLocalRoot
  split <;> rfl

/-- A remote resolution whose inputs pass validation never ends in a configuration
error. -/
theorem resolveRemoteSource_not_config (lib : GoLibrary) (env : Env) (src : SourceConfig)
    (root cacheDir : String) (progress : Bool) (t : List Event)
    (hv : validateRemoteSourceInputs src cacheDir = none) :
    isConfigErrorResult (resolveRemoteSource lib env src root cacheDir progress t).1 = false := by
  obtain ⟨remote, hremote⟩ :=
    normalizeRepository_ok src.Repository ((validateRemoteSourceInputs_eq_none _ _).1 hv).1
  unfold resolveRemoteSource
  simp only [hv, hremote]
  split
  · rfl
  · split
    · rename_i e he
      exact ensureRepoCached_not_config _ _ _ _ _ _ _ e he
    · split
      · rename_i e he
        exact ensurePinnedCommit_not_config _ _ _ _ _ _ _ e he
      · split
        · rename_i e he
          exact checkoutPinnedCommit_not_config _ _ _ _ _ e he
        · exact validateRepoRoot_not_config _ _ _ _ _

theorem resolveRemoteSource_of_invalid (lib : GoLibrary) (env : Env) (src : SourceConfig)
    (root cacheDir : String) (progress : Bool) (t : List Event) (e : ResolveError)
    (hv : validateRemoteSourceInputs src cacheDir = some e) :
    resolveRemoteSource lib env src root cacheDir progress t = (Except.error e, t) := by
  unfold resolveRemoteSource
  simp only [hv]

/-- C19: `resolveSourceWithRunnerAndProgress` returns a configuration error if and only
if `Root` is blank, or `Root` is not absolute and `Repository`, `CommitSHA` or `cacheDir`
is blank; the checks are made in that order, and a configuration error is returned
before any effect: no git invocation, no file-system access, no progress message. An
absolute `Root` never gives a configuration error. -/
theorem resolve_config_error_iff (lib : GoLibrary) (env : Env) (src : SourceConfig)
    (cacheDir : String) (progress : Bool) (t : List Event) :
    (isConfigErrorResult
        (resolveSourceWithRunnerAndProgress lib env src cacheDir progress t).1 = true ↔
      (stringsTrimSpace src.Root = "" ∨
        (filepathIsAbs (stringsTrimSpace src.Root) = false ∧
          (stringsTrimSpace src.Repository = "" ∨ stringsTrimSpace src.CommitSHA = "" ∨
            stringsTrimSpace cacheDir = "")))) ∧
    (isConfigErrorResult
        (resolveSourceWithRunnerAndProgress lib env src cacheDir progress t).1 = true →
      (resolveSourceWithRunnerAndProgress lib env src cacheDir progress t).2 = t) ∧
    (stringsTrimSpace src.Root = "" →
      (resolveSourceWithRunnerAndProgress lib env src cacheDir progress t).1 =
        Except.error (ResolveError.rootRequired src.Name)) ∧
    (stringsTrimSpace src.Root ≠ "" → filepathIsAbs (stringsTrimSpace src.Root) = false →
      ((stringsTrimSpace src.Repository = "" →
        (resolveSourceWithRunnerAndProgress lib env src cacheDir progress t).1 =
          Except.error (ResolveError.repositoryRequired src.Name)) ∧
      (stringsTrimSpace src.Repository ≠ "" → stringsTrimSpace src.CommitSHA = "" →
        (resolveSourceWithRunnerAndProgress lib env src cacheDir progress t).1 =
          Except.error (ResolveError.commitRequired src.Name)) ∧
      (stringsTrimSpace src.Repository ≠ "" → stringsTrimSpace src.CommitSHA ≠ "" →
        stringsTrimSpace cacheDir = "" →
        (resolveSourceWithRunnerAndProgress lib env src cacheDir progress t).1 =
          Except.error ResolveError.cacheDirRequired))) ∧
    (filepathIsAbs (stringsTrimSpace src.Root) = true →
      isConfigErrorResult
        (resolveSourceWithRunnerAndProgress lib env src cacheDir progress t).1 = false) := by
  by_cases hroot : stringsTrimSpace src.Root = ""
  · have hres : resolveSourceWithRunnerAndProgress lib env src cacheDir progress t =
        (Except.error (ResolveError.rootRequired src.Name), t) := by
      unfold resolveSourceWithRunnerAndProgress
      simp only [hroot, if_true]
    have habs : filepathIsAbs (stringsTrimSpace src.Root) = false := by rw [hroot]; rfl
    rw [hres]
    refine ⟨⟨fun _ => Or.inl hroot, fun _ => rfl⟩, fun _ => rfl, fun _ => rfl,
      fun h => absurd hroot h, fun h => ?_⟩
    rw [habs] at h
    exact absurd h (by simp)
  · by_cases habs : filepathIsAbs (stringsTrimSpace src.Root) = true
    · have hres : resolveSourceWithRunnerAndProgress lib env src cacheDir progress t =
          validateLocalRoot env src.Name (stringsTrimSpace src.Root)
            (reportSourceProgress progress
              ("source " ++ src.Name ++ ": using local override root " ++
                stringsTrimSpace src.Root) t) := by
        unfold resolveSourceWithRunnerAndProgress
        simp only [if_neg hroot, habs, if_true]
      have hnot := validateLocalRoot_not_config env src.Name (stringsTrimSpace src.Root)
        (reportSourceProgress progress
          ("source " ++ src.Name ++ ": using local override root " ++
            stringsTrimSpace src.Root) t)
      rw [hres, hnot]
      refine ⟨⟨fun h => absurd h (by simp), ?_⟩, fun h => absurd h (by simp),
        fun h => absurd h hroot, fun _ h => ?_, fun _ => rfl⟩
      · rintro (h | ⟨h, _⟩)
        · exact absurd h hroot
        · rw [habs] at h; exact absurd h (by simp)
      · rw [habs] at h; exact absurd h (by simp)
    · have habs2 : filepathIsAbs (stringsTrimSpace src.Root) = false := by simpa using habs
      have hres : resolveSourceWithRunnerAndProgress lib env src cacheDir progress t =
          resolveRemoteSource lib env src (stringsTrimSpace src.Root) cacheDir progress t := by
        unfold resolveSourceWithRunnerAndProgress
        simp only [if_neg hroot, habs2, Bool.false_eq_true, if_false]
      rw [hres]
      cases hv : validateRemoteSourceInputs src cacheDir with
      | none =>
        have hok := (validateRemoteSourceInputs_eq_none src cacheDir).1 hv
        have hnot := resolveRemoteSource_not_config lib env src (stringsTrimSpace src.Root)
          cacheDir progress t hv
        rw [hnot]
        refine ⟨⟨fun h => absurd h (by simp), ?_⟩, fun h => absurd h (by simp),
          fun h => absurd h hroot, fun _ _ => ⟨fun h => absurd h hok.1,
            fun _ h => absurd h hok.2.1, fun _ _ h => absurd h hok.2.2⟩,
          fun h => absurd h habs⟩
        rintro (h | ⟨_, h | h | h⟩)
        · exact absurd h hroot
        · exact absurd h hok.1
        · exact absurd h hok.2.1
        · exact absurd h hok.2.2
      | some e =>
        rw [resolveRemoteSource_of_invalid lib env src _ cacheDir progress t e hv]
        have hcfg := validateRemoteSourceInputs_isConfigError src cacheDir e hv
        have hblank : stringsTrimSpace src.Repository = "" ∨
            stringsTrimSpace src.CommitSHA = "" ∨ stringsTrimSpace cacheDir = "" := by
          by_contra hcon
          push_neg at hcon
          rw [(validateRemoteSourceInputs_eq_none src cacheDir).2 hcon] at hv
          cases hv
        unfold validateRemoteSourceInputs at hv
        refine ⟨⟨fun _ => Or.inr ⟨habs2, hblank⟩, fun _ => hcfg⟩, fun _ => rfl,
          fun h => absurd h hroot, fun _ _ => ⟨fun h => ?_, fun h1 h2 => ?_,
            fun h1 h2 h3 => ?_⟩, fun h => absurd h habs⟩
        · rw [if_pos h] at hv; cases hv; rfl
        · rw [if_neg h1, if_pos h2] at hv; cases hv; rfl
        · rw [if_neg h1, if_neg h2, if_pos h3] at hv; cases hv; rfl

theorem resolve_config_error_iff_witness :
    stringsTrimSpace localSource.Root ≠ "" ∧
    filepathIsAbs (stringsTrimSpace localSource.Root) = true ∧
    isConfigErrorResult
      (resolveSourceWithRunnerAndProgress exampleLibrary exampleEnv localSource "" false []).1 =
      false :=
  ⟨by decide, by decide,
    (resolve_config_error_iff exampleLibrary exampleEnv localSource "" false []).2.2.2.2
      (by decide)⟩

/-- C20: when `Root` is an absolute path the source is a local override. The resolver
performs one `os.Stat` of `Root` and, with a progress callback, one progress message: no
git invocation and no `os.MkdirAll`. The result is decided by that stat alone: an error
if `Root` does not exist, an error for any other stat failure, otherwise the cleaned
`Root`. It is the same for every `Repository`, `CommitSHA`, `cacheDir`, library and
runner. -/
theorem resolve_local_override (lib : GoLibrary) (env : Env) (src : SourceConfig)
    (cacheDir : String) (progress : Bool) (t : List Event)
    (habs : filepathIsAbs (stringsTrimSpace src.Root) = true) :
    (resolveSourceWithRunnerAndProgress lib env src cacheDir progress t).2 =
      reportSourceProgress progress
        ("source " ++ src.Name ++ ": using local override root " ++ stringsTrimSpace src.Root)
        t ++ [Event.stat (stringsTrimSpace src.Root)] ∧
    (∃ new, (resolveSourceWithRunnerAndProgress lib env src cacheDir progress t).2 = t ++ new ∧
      ∀ e ∈ new, e = Event.stat (stringsTrimSpace src.Root) ∨ ∃ m, e = Event.progress m) ∧
    (resolveSourceWithRunnerAndProgress lib env src cacheDir progress t).1 =
      (match env.stat (reportSourceProgress progress
          ("source " ++ src.Name ++ ": using local override root " ++
            stringsTrimSpace src.Root) t) (stringsTrimSpace src.Root) with
      | StatResult.notExist =>
        Except.error (ResolveError.localRootNotExist src.Name (stringsTrimSpace src.Root))
      | StatResult.failed err => Except.error (ResolveError.localRootStat src.Name err)
      | StatResult.ok => Except.ok (filepathClean (stringsTrimSpace src.Root))) ∧
    (∀ (lib2 : GoLibrary) (env2 : Env) (src2 : SourceConfig) (cacheDir2 : String),
      src2.Name = src.Name → src2.Root = src.Root → env2.stat = env.stat →
      resolveSourceWithRunnerAndProgress lib2 env2 src2 cacheDir2 progress t =
        resolveSourceWithRunnerAndProgress lib env src cacheDir progress t) := by
  have hroot : stringsTrimSpace src.Root ≠ "" := by
    intro h
    rw [h] at habs
    exact absurd habs (by decide)
  have hres : ∀ (lib2 : GoLibrary) (env2 : Env) (src2 : SourceConfig) (cacheDir2 : String),
      src2.Name = src.Name → src2.Root = src.Root →
      resolveSourceWithRunnerAndProgress lib2 env2 src2 cacheDir2 progress t =
        validateLocalRoot env2 src.Name (stringsTrimSpace src.Root)
          (reportSourceProgress progress
            ("source " ++ src.Name ++ ": using local override root " ++
              stringsTrimSpace src.Root) t) := by
    intro lib2 env2 src2 cacheDir2 hn hr
    unfold resolveSourceWithRunnerAndProgress
    simp only [hn, hr, if_neg hroot, habs, if_true]
  rw [hres lib env src cacheDir rfl rfl]
  refine ⟨?_, ?_, ?_, ?_⟩
  · unfold validateLocalRoot
    split <;> rfl
  · refine ⟨(if progress then [Event.progress ("source " ++ src.Name ++
        ": using local override root " ++ stringsTrimSpace src.Root)] else []) ++
        [Event.stat (stringsTrimSpace src.Root)], ?_, ?_⟩
    · unfold validateLocalRoot reportSourceProgress
      cases progress <;> (split <;> simp)
    · intro e he
      cases progress
      · simp at he
        exact Or.inl he
      · simp at he
        rcases he with h | h
        · exact Or.inr ⟨_, h⟩
        · exact Or.inl h
  · unfold validateLocalRoot
    split <;> simp [*]
  · intro lib2 env2 src2 cacheDir2 hn hr hs
    rw [hres lib2 env2 src2 cacheDir2 hn hr]
    unfold validateLocalRoot
    rw [hs]

theorem resolve_local_override_witness :
    filepathIsAbs (stringsTrimSpace localSource.Root) = true ∧
    (resolveSourceWithRunnerAndProgress exampleLibrary exampleEnv localSource "" true []).2 =
      [Event.progress "source docs: using local override root /srv/docs",
        Event.stat "/srv/docs"] ∧
    (resolveSourceWithRunnerAndProgress exampleLibrary exampleEnv localSource "" true []).1 =
      Except.ok "/srv/docs" := by
  have h := resolve_local_override exampleLibrary exampleEnv localSource "" true []
    (by decide)
  refine ⟨by decide, ?_, ?_⟩
  · rw [h.1]; decide
  · rw [h.2.2.1]; rfl

/-! ### Text statistics -/

theorem countSentencesLoop_mono (runes : List Char) :
    ∀ count : Int, count ≤ countSentencesLoop runes count := by
  induction runes with
  | nil => intro count; exact le_refl _
  | cons r rest ih =>
    intro count
    unfold countSentencesLoop
    split_ifs
    · split
      · have := ih (count + 1); omega
      · split_ifs
        · have := ih (count + 1); omega
        · exact ih count
    · exact ih count

/-- C30 fails on the code, against the documentation of `CountSentences` ("Returns at
least 1 for non-empty text"): the text `" "` is non-empty, and `CountSentences` returns 0
for it by its guard on blank text. -/
theorem CountSentences_blank_is_zero :
    (" " : String) ≠ "" ∧ CountSentences " " = 0 := by
  refine ⟨by decide, ?_⟩
  unfold CountSentences
  rw [if_pos (by decide)]

/-- For every text that is not blank (not empty after `strings.TrimSpace`),
`CountSentences` returns at least 1. -/
theorem CountSentences_pos_of_not_blank (text : String)
    (h : stringsTrimSpace text ≠ "") : 1 ≤ CountSentences text := by
  unfold CountSentences
  rw [if_neg h]
  have := countSentencesLoop_mono text.data 0
  simp only
  split_ifs with h0
  · exact le_refl _
  · omega

theorem CountSentences_pos_of_not_blank_witness :
    stringsTrimSpace "One. Two! Three" ≠ "" ∧ 1 ≤ CountSentences "One. Two! Three" :=
  ⟨by decide, CountSentences_pos_of_not_blank "One. Two! Three" (by decide)⟩

/-! ### Sorted diagnostics -/

theorem diagnosticLess_eq_false_iff (a b : Diagnostic) :
    diagnosticLess b a = false ↔ diagnosticLE a b := by
  unfold diagnosticLess diagnosticLE
  by_cases hf : b.File = a.File
  · by_cases hl : b.Line = a.Line
    · simp only [hf, hl, ne_eq, not_true_eq_false, if_false, decide_eq_false_iff_not, not_lt,
        lt_self_iff_false, true_and, false_or]
    · simp only [hf, hl, ne_eq, not_true_eq_false, if_false, not_false_eq_true, if_true,
        decide_eq_false_iff_not, not_lt, lt_self_iff_false, true_and, false_or]
      constructor
      · intro h
        exact Or.inl (lt_of_le_of_ne h (fun e => hl e.symm))
      · rintro (h | ⟨h, _⟩)
        · exact le_of_lt h
        · exact absurd h.symm hl
  · simp only [hf, ne_eq, not_false_eq_true, if_true, decide_eq_false_iff_not, not_lt]
    constructor
    · intro h
      exact Or.inl (lt_of_le_of_ne h (fun e => hf e.symm))
    · rintro (h | ⟨h, _⟩)
      · exact le_of_lt h
      · exact absurd h.symm hf

theorem diagnosticLE_total (a b : Diagnostic) : diagnosticLE a b ∨ diagnosticLE b a := by
  unfold diagnosticLE
  rcases lt_trichotomy a.File b.File with h | h | h
  · exact Or.inl (Or.inl h)
  · rcases lt_trichotomy a.Line b.Line with h2 | h2 | h2
    · exact Or.inl (Or.inr ⟨h, Or.inl h2⟩)
    · rcases le_total a.Column b.Column with h3 | h3
      · exact Or.inl (Or.inr ⟨h, Or.inr ⟨h2, h3⟩⟩)
      · exact Or.inr (Or.inr ⟨h.symm, Or.inr ⟨h2.symm, h3⟩⟩)
    · exact Or.inr (Or.inr ⟨h.symm, Or.inl h2⟩)
  · exact Or.inr (Or.inl h)

theorem diagnosticLE_trans (a b c : Diagnostic) (h1 : diagnosticLE a b)
    (h2 : diagnosticLE b c) : diagnosticLE a c := by
  unfold diagnosticLE at *
  rcases h1 with h1 | ⟨e1, h1⟩
  · rcases h2 with h2 | ⟨e2, _⟩
    · exact Or.inl (lt_trans h1 h2)
    · exact Or.inl (e2 ▸ h1)
  · rcases h2 with h2 | ⟨e2, h2⟩
    · exact Or.inl (e1 ▸ h2)
    · refine Or.inr ⟨e1.trans e2, ?_⟩
      rcases h1 with h1 | ⟨e3, h1⟩
      · rcases h2 with h2 | ⟨e4, _⟩
        · exact Or.inl (lt_trans h1 h2)
        · exact Or.inl (e4 ▸ h1)
      · rcases h2 with h2 | ⟨e4, h2⟩
        · exact Or.inl (e3 ▸ h2)
        · exact Or.inr ⟨e3.trans e4, le_trans h1 h2⟩

theorem sortDiagnostics_perm (diags : List Diagnostic) : (sortDiagnostics diags).Perm diags :=
  List.perm_insertionSort _ diags

theorem sortDiagnostics_sorted (diags : List Diagnostic) :
    (sortDiagnostics diags).Pairwise diagnosticLE := by
  haveI : IsTotal Diagnostic (fun a b => diagnosticLess b a = false) :=
    ⟨fun a b => by
      rw [diagnosticLess_eq_false_iff, diagnosticLess_eq_false_iff]
      exact diagnosticLE_total a b⟩
  haveI : IsTrans Diagnostic (fun a b => diagnosticLess b a = false) :=
    ⟨fun a b c h1 h2 => by
      rw [diagnosticLess_eq_false_iff] at *
      exact diagnosticLE_trans a b c h1 h2⟩
  have h := List.sorted_insertionSort (fun a b : Diagnostic => diagnosticLess b a = false) diags
  exact List.Pairwise.imp (fun hab => (diagnosticLess_eq_false_iff _ _).1 hab) h

/-- C29: `sortDiagnostics` yields a permutation of its input in which consecutive entries
(indeed any earlier and later entry) are in non-decreasing lexicographic order of
`(File, Line, Column)`; the `Diagnostics` of `Runner.Run` and `Runner.RunSource` are
sorted in this way. -/
theorem sortDiagnostics_sorted_permutation (diags : List Diagnostic) :
    (sortDiagnostics diags).Perm diags ∧
    (sortDiagnostics diags).Chain' diagnosticLE ∧
    (sortDiagnostics diags).Pairwise diagnosticLE ∧
    (∀ (File : Type) (deps : RunnerDeps File) (paths : List String),
      (Run deps paths).Diagnostics.Chain' diagnosticLE) ∧
    (∀ (File : Type) (deps : RunnerDeps File) (path : String) (source : List (Fin 256)),
      (RunSource deps path source).Diagnostics.Chain' diagnosticLE) := by
  refine ⟨sortDiagnostics_perm diags, (sortDiagnostics_sorted diags).chain',
    sortDiagnostics_sorted diags, ?_, ?_⟩
  · intro File deps paths
    exact (sortDiagnostics_sorted _).chain'
  · intro File deps path source
    unfold RunSource
    split
    · exact List.chain'_nil
    · exact (sortDiagnostics_sorted _).chain'

/-! ### Whitespace rules -/

theorem bytesSplit_ne_nil (sep : Fin 256) (s : List (Fin 256)) : bytesSplit sep s ≠ [] := by
  cases s with
  | nil => simp [bytesSplit]
  | cons b bs =>
    unfold bytesSplit
    split_ifs
    · simp
    · split <;> simp

theorem stringsJoin_cons (sep l : List (Fin 256)) (ls : List (List (Fin 256)))
    (h : ls ≠ []) : stringsJoin sep (l :: ls) = l ++ sep ++ stringsJoin sep ls := by
  cases ls with
  | nil => exact absurd rfl h
  | cons l2 ls => rfl

theorem stringsJoin_bytesSplit (sep : Fin 256) (s : List (Fin 256)) :
    stringsJoin [sep] (bytesSplit sep s) = s := by
  induction s with
  | nil => rfl
  | cons b bs ih =>
    unfold bytesSplit
    split_ifs with h
    · rw [stringsJoin_cons _ _ _ (bytesSplit_ne_nil sep bs), ih, h]
      rfl
    · cases hs : bytesSplit sep bs with
      | nil => exact absurd hs (bytesSplit_ne_nil sep bs)
      | cons l ls =>
        rw [hs] at ih
        simp only
        cases ls with
        | nil =>
          simp only [stringsJoin] at ih ⊢
          rw [ih]
        | cons l2 ls =>
          simp only [stringsJoin] at ih ⊢
          rw [← ih]
          simp

theorem bytesSplit_not_mem (sep : Fin 256) (s : List (Fin 256)) :
    ∀ l ∈ bytesSplit sep s, sep ∉ l := by
  induction s with
  | nil => intro l hl; simp [bytesSplit] at hl; rw [hl]; simp
  | cons b bs ih =>
    intro l hl
    unfold bytesSplit at hl
    split_ifs at hl with h
    · rcases List.mem_cons.1 hl with h2 | h2
      · rw [h2]; simp
      · exact ih l h2
    · cases hs : bytesSplit sep bs with
      | nil => exact absurd hs (bytesSplit_ne_nil sep bs)
      | cons l1 ls =>
        rw [hs] at hl ih
        simp only at hl
        rcases List.mem_cons.1 hl with h2 | h2
        · rw [h2]
          intro hm
          rcases List.mem_cons.1 hm with h3 | h3
          · exact h h3.symm
          · exact ih l1 (List.mem_cons_self _ _) h3
        · exact ih l (List.mem_cons_of_mem _ h2)

theorem bytesSplit_stringsJoin (sep : Fin 256) (ls : List (List (Fin 256))) (hne : ls ≠ [])
    (h : ∀ l ∈ ls, sep ∉ l) : bytesSplit sep (stringsJoin [sep] ls) = ls := by
  have hline : ∀ (l : List (Fin 256)), sep ∉ l → ∀ rest : List (Fin 256),
      bytesSplit sep (l ++ sep :: rest) = l :: bytesSplit sep rest := by
    intro l
    induction l with
    | nil => intro _ rest; simp [bytesSplit]
    | cons b bs ihb =>
      intro hb rest
      have hb1 : b ≠ sep := fun e => hb (e ▸ List.mem_cons_self _ _)
      have hb2 : sep ∉ bs := fun hm => hb (List.mem_cons_of_mem _ hm)
      rw [List.cons_append, bytesSplit, if_neg hb1, ihb hb2 rest]
  have hlast : ∀ (l : List (Fin 256)), sep ∉ l → bytesSplit sep l = [l] := by
    intro l
    induction l with
    | nil => intro _; rfl
    | cons b bs ihb =>
      intro hb
      have hb1 : b ≠ sep := fun e => hb (e ▸ List.mem_cons_self _ _)
      have hb2 : sep ∉ bs := fun hm => hb (List.mem_cons_of_mem _ hm)
      rw [bytesSplit, if_neg hb1, ihb hb2]
  induction ls with
  | nil => exact absurd rfl hne
  | cons l rest ih =>
    cases rest with
    | nil => exact hlast l (h l (List.mem_cons_self _ _))
    | cons l2 rest =>
      rw [stringsJoin_cons _ _ _ (List.cons_ne_nil _ _), List.append_assoc,
        List.singleton_append, hline l (h l (List.mem_cons_self _ _)),
        ih (List.cons_ne_nil _ _) (fun x hx => h x (List.mem_cons_of_mem _ hx))]

theorem nohardtabsFixLoop_eq (lines : List (List (Fin 256))) :
    ∀ result, nohardtabsFixLoop lines result =
      result ++ lines.map (fun line => stringsReplaceAllByte line 9 [32, 32, 32, 32]) := by
  induction lines with
  | nil => intro result; simp [nohardtabsFixLoop]
  | cons l rest ih => intro result; simp [nohardtabsFixLoop, ih]

theorem notrailingspacesFixLoop_eq (lines : List (List (Fin 256))) :
    ∀ result, notrailingspacesFixLoop lines result =
      result ++ lines.map (fun line => bytesTrimRight line [32, 9]) := by
  induction lines with
  | nil => intro result; simp [notrailingspacesFixLoop]
  | cons l rest ih => intro result; simp [notrailingspacesFixLoop, ih]

/-- Replacing a byte other than the separator commutes with joining lines. -/
theorem replaceAll_stringsJoin (sep old : Fin 256) (new : List (Fin 256)) (h : sep ≠ old)
    (ls : List (List (Fin 256))) :
    stringsJoin [sep] (ls.map (fun l => stringsReplaceAllByte l old new)) =
      stringsReplaceAllByte (stringsJoin [sep] ls) old new := by
  induction ls with
  | nil => rfl
  | cons l rest ih =>
    cases rest with
    | nil => rfl
    | cons l2 rest =>
      rw [List.map_cons, stringsJoin_cons _ _ _ (by simp),
        stringsJoin_cons _ _ _ (List.cons_ne_nil _ _), ih]
      simp [stringsReplaceAllByte, List.flatMap_append, h]

/-- C27: for a file built by `NewFile`, `nohardtabs` `Fix` returns the source with every
tab byte replaced by four spaces and every other byte, newlines included, unchanged; a
source without tabs is returned as it is, and the result contains no tab. -/
theorem nohardtabsFix_replaces_tabs (path : String) (source : List (Fin 256)) :
    nohardtabsFix (NewFile path source) =
      source.flatMap (fun b => if b = 9 then [32, 32, 32, 32] else [b]) ∧
    (9 ∉ source → nohardtabsFix (NewFile path source) = source) ∧
    9 ∉ nohardtabsFix (NewFile path source) := by
  have hfix : nohardtabsFix (NewFile path source) =
      source.flatMap (fun b => if b = 9 then [32, 32, 32, 32] else [b]) := by
    unfold nohardtabsFix NewFile
    simp only
    rw [nohardtabsFixLoop_eq, List.nil_append, replaceAll_stringsJoin 10 9 _ (by decide),
      stringsJoin_bytesSplit]
    rfl
  refine ⟨hfix, ?_, ?_⟩
  · intro h
    rw [hfix]
    clear hfix
    induction source with
    | nil => rfl
    | cons b bs ih =>
      have hb : b ≠ 9 := fun e => h (e ▸ List.mem_cons_self _ _)
      rw [List.flatMap_cons, if_neg hb, ih (fun hm => h (List.mem_cons_of_mem _ hm))]
      rfl
  · rw [hfix]
    intro hm
    obtain ⟨b, _, hb⟩ := List.mem_flatMap.1 hm
    split_ifs at hb with h9
    · revert hb; decide
    · rw [List.mem_singleton] at hb
      exact h9 hb.symm

theorem bytesTrimRight_append_run (line cutset : List (Fin 256)) :
    ∃ run, line = bytesTrimRight line cutset ++ run ∧ ∀ b ∈ run, b ∈ cutset := by
  refine ⟨(line.reverse.takeWhile (fun b => cutset.contains b)).reverse, ?_, ?_⟩
  · unfold bytesTrimRight List.rdropWhile
    rw [← List.reverse_append, List.takeWhile_append_dropWhile, List.reverse_reverse]
  · intro b hb
    have := List.mem_takeWhile_imp (List.mem_reverse.1 hb)
    simpa using this

theorem bytesTrimRight_last (line cutset : List (Fin 256)) (b : Fin 256)
    (h : (bytesTrimRight line cutset).getLast? = some b) : b ∉ cutset := by
  unfold bytesTrimRight at h
  have hne : List.rdropWhile (fun b => cutset.contains b) line ≠ [] := by
    intro e
    rw [e] at h
    simp at h
  have := List.rdropWhile_last_not (fun b => cutset.contains b) line hne
  rw [List.getLast?_eq_getLast _ hne] at h
  cases h
  simpa using this

theorem notrailingspacesCheckLoop_clean (path : String) (lines : List (List (Fin 256)))
    (h : ∀ line ∈ lines, bytesTrimRight line [32, 9] = line) :
    ∀ (i : Int) (diags : List Diagnostic),
      notrailingspacesCheckLoop path lines i diags = diags := by
  induction lines with
  | nil => intro i diags; rfl
  | cons l rest ih =>
    intro i diags
    unfold notrailingspacesCheckLoop
    simp only [h l (List.mem_cons_self _ _), lt_self_iff_false, if_false]
    exact ih (fun x hx => h x (List.mem_cons_of_mem _ hx)) _ _

theorem notrailingspacesCheckLoop_length (path : String) (lines : List (List (Fin 256))) :
    ∀ (i : Int) (diags : List Diagnostic),
      diags.length ≤ (notrailingspacesCheckLoop path lines i diags).length ∧
      ((notrailingspacesCheckLoop path lines i diags).length = diags.length →
        ∀ line ∈ lines, bytesTrimRight line [32, 9] = line) := by
  induction lines with
  | nil => intro i diags; simp [notrailingspacesCheckLoop]
  | cons l rest ih =>
    intro i diags
    unfold notrailingspacesCheckLoop
    simp only
    split_ifs with hlt
    · have h1 := (ih (i + 1) (diags ++ [⟨path, i + 1,
        ((bytesTrimRight l [32, 9]).length : Int) + 1, "TM006", "no-trailing-spaces",
        "warning", "trailing whitespace"⟩])).1
      simp only [List.length_append, List.length_singleton] at h1
      exact ⟨by omega, fun h => by omega⟩
    · obtain ⟨h1, h2⟩ := ih (i + 1) diags
      refine ⟨h1, fun h line hline => ?_⟩
      rcases List.mem_cons.1 hline with e | e
      · subst e
        have hp : (bytesTrimRight line [32, 9]) <+: line := List.rdropWhile_prefix _ _
        exact hp.eq_of_length_le (by omega) |>.symm ▸ rfl
      · exact h2 h line e

/-- C28: for a file built by `NewFile`, `notrailingspaces` `Fix` returns the lines of the
source, each without its maximal trailing run of spaces and tabs, joined by newlines
again; `Check` on the fixed source reports nothing, and a source on which `Check`
reports nothing is returned as it is. -/
theorem notrailingspacesFix_trims_lines (path : String) (source : List (Fin 256)) :
    notrailingspacesFix (NewFile path source) =
      stringsJoin [10] ((bytesSplit 10 source).map (fun line => bytesTrimRight line [32, 9])) ∧
    (∀ line : List (Fin 256), ∃ run, line = bytesTrimRight line [32, 9] ++ run ∧
      (∀ b ∈ run, b = 32 ∨ b = 9) ∧
      ∀ b, (bytesTrimRight line [32, 9]).getLast? = some b → b ≠ 32 ∧ b ≠ 9) ∧
    notrailingspacesCheck (NewFile path (notrailingspacesFix (NewFile path source))) = [] ∧
    (notrailingspacesCheck (NewFile path source) = [] →
      notrailingspacesFix (NewFile path source) = source) := by
  have hfix : notrailingspacesFix (NewFile path source) =
      stringsJoin [10]
        ((bytesSplit 10 source).map (fun line => bytesTrimRight line [32, 9])) := by
    unfold notrailingspacesFix NewFile
    simp only
    rw [notrailingspacesFixLoop_eq, List.nil_append]
  refine ⟨hfix, ?_, ?_, ?_⟩
  · intro line
    obtain ⟨run, h1, h2⟩ := bytesTrimRight_append_run line [32, 9]
    refine ⟨run, h1, fun b hb => by simpa using h2 b hb, fun b hb => ?_⟩
    have := bytesTrimRight_last line [32, 9] b hb
    simpa using this
  · rw [hfix]
    unfold notrailingspacesCheck NewFile
    simp only
    rw [bytesSplit_stringsJoin 10 _ (by simpa using bytesSplit_ne_nil 10 source)]
    · apply notrailingspacesCheckLoop_clean
      intro line hline
      obtain ⟨l, _, rfl⟩ := List.mem_map.1 hline
      exact List.rdropWhile_idempotent _ _
    · intro line hline
      obtain ⟨l, hl, rfl⟩ := List.mem_map.1 hline
      intro hm
      have hp : (bytesTrimRight l [32, 9]) <+: l := List.rdropWhile_prefix _ _
      exact bytesSplit_not_mem 10 source l hl (hp.subset hm)
  · intro hcheck
    unfold notrailingspacesCheck NewFile at hcheck
    simp only at hcheck
    have hclean := (notrailingspacesCheckLoop_length path (bytesSplit 10 source) 0 []).2
      (by rw [hcheck])
    rw [hfix]
    have : (bytesSplit 10 source).map (fun line => bytesTrimRight line [32, 9]) =
        bytesSplit 10 source := by
      conv_rhs => rw [← List.map_id (bytesSplit 10 source)]
      apply List.map_congr_left
      intro line hline
      exact hclean line hline
    rw [this, stringsJoin_bytesSplit]

theorem notrailingspacesFix_trims_lines_witness :
    notrailingspacesCheck (NewFile "a.md" [97, 32, 98, 10, 99]) = [] ∧
    notrailingspacesFix (NewFile "a.md" [97, 32, 98, 10, 99]) = [97, 32, 98, 10, 99] :=
  ⟨by decide,
    (notrailingspacesFix_trims_lines "a.md" [97, 32, 98, 10, 99]).2.2.2 (by decide)⟩

theorem nohardtabsFix_replaces_tabs_witness :
    (9 : Fin 256) ∉ ([97, 10, 98] : List (Fin 256)) ∧
    nohardtabsFix (NewFile "a.md" [97, 10, 98]) = [97, 10, 98] :=
  ⟨by decide, (nohardtabsFix_replaces_tabs "a.md" [97, 10, 98]).2.1 (by decide)⟩

/-! ### Source resolution: the log of git invocations -/

theorem gitLog_append (env : Env) (a b : List Event) :
    ∀ pre : List Event, gitLog env pre (a ++ b) = gitLog env pre a ++ gitLog env (pre ++ a) b := by
  induction a with
  | nil => intro pre; simp [gitLog]
  | cons e rest ih =>
    intro pre
    cases e with
    | git args => simp [gitLog, ih, List.append_assoc]
    | stat p => simp [gitLog, ih, List.append_assoc]
    | mkdirAll p => simp [gitLog, ih, List.append_assoc]
    | progress m => simp [gitLog, ih, List.append_assoc]

theorem gitLogOf_append (env : Env) (t a : List Event) :
    gitLogOf env (t ++ a) = gitLogOf env t ++ gitLog env t a := by
  unfold gitLogOf
  rw [gitLog_append, List.nil_append]

theorem gitLog_progress_replicate (env : Env) (n : Nat) (m : String) :
    ∀ pre : List Event, gitLog env pre (List.replicate n (Event.progress m)) = [] := by
  induction n with
  | zero => intro pre; rfl
  | succ n ih => intro pre; simp [List.replicate_succ, gitLog, ih]

theorem gitLogOf_stat (env : Env) (t : List Event) (p : String) :
    gitLogOf env (t ++ [Event.stat p]) = gitLogOf env t := by
  rw [gitLogOf_append]; simp [gitLog]

theorem gitLogOf_mkdirAll (env : Env) (t : List Event) (p : String) :
    gitLogOf env (t ++ [Event.mkdirAll p]) = gitLogOf env t := by
  rw [gitLogOf_append]; simp [gitLog]

theorem gitLogOf_reportSourceProgress (env : Env) (progress : Bool) (m : String)
    (t : List Event) : gitLogOf env (reportSourceProgress progress m t) = gitLogOf env t := by
  unfold reportSourceProgress
  split_ifs
  · rw [gitLogOf_append]; simp [gitLog]
  · rfl

/-- One call of `runGitWithHeartbeat` adds one entry to the log: its arguments and the
error it returns. -/
theorem gitLogOf_runGitWithHeartbeat (env : Env) (args : List String) (progress : Bool)
    (startMsg heartbeatMsg : String) (t : List Event) :
    gitLogOf env (runGitWithHeartbeat env args progress startMsg heartbeatMsg t).2 =
      gitLogOf env t ++
        [(args, (runGitWithHeartbeat env args progress startMsg heartbeatMsg t).1.2)] := by
  unfold runGitWithHeartbeat
  simp only
  by_cases hs : progress = true ∧ startMsg ≠ ""
  · simp only [if_pos hs]
    split_ifs
    · rw [gitLogOf_append, gitLogOf_append]; simp [gitLog]
    · rw [List.append_assoc, gitLogOf_append, gitLogOf_append, gitLog_append]
      simp [gitLog, gitLog_progress_replicate]
  · simp only [if_neg hs]
    split_ifs
    · rw [gitLogOf_append]; simp [gitLog]
    · rw [List.append_assoc, gitLogOf_append, gitLog_append]
      simp [gitLog, gitLog_progress_replicate]

/-- What `cachedCommitExists` returns and records. -/
theorem cachedCommitExists_eq (env : Env) (repoDir commitSHA : String) (t : List Event) :
    cachedCommitExists env repoDir commitSHA t =
      (((env.git t (probeArgs repoDir commitSHA)).err.isNone, none),
        t ++ [Event.git (probeArgs repoDir commitSHA)]) := by
  unfold cachedCommitExists probeArgs
  simp only
  split
  · rename_i h; rw [h]; rfl
  · rename_i e h
    rw [h]
    split_ifs <;> rfl

theorem gitLogOf_cachedCommitExists (env : Env) (repoDir commitSHA : String)
    (t : List Event) :
    gitLogOf env (cachedCommitExists env repoDir commitSHA t).2 =
      gitLogOf env t ++
        [(probeArgs repoDir commitSHA, (env.git t (probeArgs repoDir commitSHA)).err)] := by
  rw [cachedCommitExists_eq, gitLogOf_append]
  simp [gitLog]

/-- The three ways `ensureRepoCached` can go, with what each adds to the log. -/
theorem ensureRepoCached_cases (lib : GoLibrary) (env : Env) (src : SourceConfig)
    (remote repoDir : String) (progress : Bool) (t : List Event) :
    (∃ e, env.stat t (filepathJoin [repoDir, ".git"]) = StatResult.failed e ∧
      (ensureRepoCached lib env src remote repoDir progress t).1 =
        some (ResolveError.statCachedRepo src.Name e) ∧
      gitLogOf env (ensureRepoCached lib env src remote repoDir progress t).2 =
        gitLogOf env t) ∨
    (env.stat t (filepathJoin [repoDir, ".git"]) = StatResult.notExist ∧
      ∃ e, (ensureRepoCached lib env src remote repoDir progress t).1 =
          some (ResolveError.clone src.Name (classifyGitError lib e remote src.CommitSHA)) ∧
        gitLogOf env (ensureRepoCached lib env src remote repoDir progress t).2 =
          gitLogOf env t ++ [(cloneArgs remote repoDir, some e)]) ∨
    (env.stat t (filepathJoin [repoDir, ".git"]) = StatResult.notExist ∧
      (ensureRepoCached lib env src remote repoDir progress t).1 = none ∧
      gitLogOf env (ensureRepoCached lib env src remote repoDir progress t).2 =
        gitLogOf env t ++ [(cloneArgs remote repoDir, none)]) ∨
    (env.stat t (filepathJoin [repoDir, ".git"]) = StatResult.ok ∧
      (ensureRepoCached lib env src remote repoDir progress t).1 = none ∧
      gitLogOf env (ensureRepoCached lib env src remote repoDir progress t).2 =
        gitLogOf env t) := by
  unfold ensureRepoCached
  split
  · rename_i e h
    exact Or.inl ⟨e, h, rfl, gitLogOf_stat env t _⟩
  · rename_i h
    have hlog := gitLogOf_runGitWithHeartbeat env ["clone", "--no-checkout", remote, repoDir]
      progress ("source " ++ src.Name ++ ": cache miss, cloning repository")
      ("source " ++ src.Name ++ ": still cloning repository")
      (t ++ [Event.stat (filepathJoin [repoDir, ".git"])])
    rw [gitLogOf_stat] at hlog
    simp only
    split
    · rename_i e he
      rw [he] at hlog
      exact Or.inr (Or.inl ⟨h, e, rfl, hlog⟩)
    · rename_i he
      rw [he] at hlog
      exact Or.inr (Or.inr (Or.inl ⟨h, rfl, hlog⟩))
  · rename_i h
    refine Or.inr (Or.inr (Or.inr ⟨h, rfl, ?_⟩))
    rw [gitLogOf_reportSourceProgress, gitLogOf_stat]

/-- The three ways `ensurePinnedCommit` can go: the probe is always made; when it returns
an error the fetch follows. The "check cached commit" error never occurs. -/
theorem ensurePinnedCommit_cases (lib : GoLibrary) (env : Env) (src : SourceConfig)
    (repoDir remote : String) (progress : Bool) (t : List Event) :
    ((env.git t (probeArgs repoDir src.CommitSHA)).err = none ∧
      (ensurePinnedCommit lib env src repoDir remote progress t).1 = none ∧
      gitLogOf env (ensurePinnedCommit lib env src repoDir remote progress t).2 =
        gitLogOf env t ++ [(probeArgs repoDir src.CommitSHA, none)]) ∨
    (∃ p e, (env.git t (probeArgs repoDir src.CommitSHA)).err = some p ∧
      (ensurePinnedCommit lib env src repoDir remote progress t).1 =
        some (ResolveError.fetch src.Name src.CommitSHA
          (classifyGitError lib e remote src.CommitSHA)) ∧
      gitLogOf env (ensurePinnedCommit lib env src repoDir remote progress t).2 =
        gitLogOf env t ++ [(probeArgs repoDir src.CommitSHA, some p),
          (fetchArgs repoDir src.CommitSHA, some e)]) ∨
    (∃ p, (env.git t (probeArgs repoDir src.CommitSHA)).err = some p ∧
      (ensurePinnedCommit lib env src repoDir remote progress t).1 = none ∧
      gitLogOf env (ensurePinnedCommit lib env src repoDir remote progress t).2 =
        gitLogOf env t ++ [(probeArgs repoDir src.CommitSHA, some p),
          (fetchArgs repoDir src.CommitSHA, none)]) := by
  unfold ensurePinnedCommit
  simp only [cachedCommitExists_eq]
  cases hp : (env.git t (probeArgs repoDir src.CommitSHA)).err with
  | none =>
    left
    refine ⟨rfl, ?_, ?_⟩
    · simp
    · simp only [Option.isNone_none, if_true]
      rw [gitLogOf_reportSourceProgress, gitLogOf_append]
      simp [gitLog, hp]
  | some p =>
    right
    have hlog := gitLogOf_runGitWithHeartbeat env
      ["-C", repoDir, "fetch", "--depth", "1", "origin", src.CommitSHA] progress
      ("source " ++ src.Name ++ ": fetching pinned commit " ++ shortCommit src.CommitSHA)
      ("source " ++ src.Name ++ ": still fetching pinned commit " ++
        shortCommit src.CommitSHA)
      (t ++ [Event.git (probeArgs repoDir src.CommitSHA)])
    rw [gitLogOf_append] at hlog
    simp only [gitLog, hp, List.append_assoc, List.singleton_append] at hlog
    simp only [Option.isNone_some, Bool.false_eq_true, if_false]
    split
    · rename_i e he
      rw [he] at hlog
      exact Or.inl ⟨p, e, rfl, rfl, hlog⟩
    · rename_i he
      rw [he] at hlog
      exact Or.inr ⟨p, rfl, rfl, hlog⟩

/-- The two ways `checkoutPinnedCommit` can go. -/
theorem checkoutPinnedCommit_cases (env : Env) (src : SourceConfig) (repoDir : String)
    (progress : Bool) (t : List Event) :
    (∃ e, (checkoutPinnedCommit env src repoDir progress t).1 =
        some (ResolveError.checkout src.Name src.CommitSHA e) ∧
      gitLogOf env (checkoutPinnedCommit env src repoDir progress t).2 =
        gitLogOf env t ++ [(checkoutArgs repoDir src.CommitSHA, some e)]) ∨
    ((checkoutPinnedCommit env src repoDir progress t).1 = none ∧
      gitLogOf env (checkoutPinnedCommit env src repoDir progress t).2 =
        gitLogOf env t ++ [(checkoutArgs repoDir src.CommitSHA, none)]) := by
  have hlog := gitLogOf_runGitWithHeartbeat env
    ["-C", repoDir, "checkout", "--detach", "--force", src.CommitSHA] progress
    ("source " ++ src.Name ++ ": checking out commit " ++ shortCommit src.CommitSHA)
    ("source " ++ src.Name ++ ": still checking out commit " ++ shortCommit src.CommitSHA) t
  unfold checkoutPinnedCommit
  simp only
  split
  · rename_i e he
    rw [he] at hlog
    exact Or.inl ⟨e, rfl, hlog⟩
  · rename_i he
    rw [he] at hlog
    exact Or.inr ⟨rfl, hlog⟩

/-! ### Source resolution: classification of git errors -/

/-- C22: `classifyGitError` looks only at the lower-cased text of the error and tries its
rows in order. Text containing "repository not found" or "could not read from remote
repository" gives the repository-not-found error naming `remote`; otherwise text
containing "couldn't find remote ref" or "not our ref" gives the commit-not-found error
naming `commitSHA`; otherwise text containing "failed to connect", "timed out" or "could
not resolve host" gives the network error naming `remote`; otherwise the result is the
error itself. -/
theorem classifyGitError_rows (lib : GoLibrary) (err remote commitSHA : String) :
    ((stringsContains (lib.toLower err) "repository not found" ∨
        stringsContains (lib.toLower err) "could not read from remote repository") →
      classifyGitError lib err remote commitSHA = GitError.repositoryNotFound remote) ∧
    (¬ (stringsContains (lib.toLower err) "repository not found" ∨
        stringsContains (lib.toLower err) "could not read from remote repository") →
      (stringsContains (lib.toLower err) "couldn't find remote ref" ∨
        stringsContains (lib.toLower err) "not our ref") →
      classifyGitError lib err remote commitSHA = GitError.commitNotFound commitSHA) ∧
    (¬ (stringsContains (lib.toLower err) "repository not found" ∨
        stringsContains (lib.toLower err) "could not read from remote repository") →
      ¬ (stringsContains (lib.toLower err) "couldn't find remote ref" ∨
        stringsContains (lib.toLower err) "not our ref") →
      (stringsContains (lib.toLower err) "failed to connect" ∨
        stringsContains (lib.toLower err) "timed out" ∨
        stringsContains (lib.toLower err) "could not resolve host") →
      classifyGitError lib err remote commitSHA = GitError.network remote) ∧
    (¬ (stringsContains (lib.toLower err) "repository not found" ∨
        stringsContains (lib.toLower err) "could not read from remote repository") →
      ¬ (stringsContains (lib.toLower err) "couldn't find remote ref" ∨
        stringsContains (lib.toLower err) "not our ref") →
      ¬ (stringsContains (lib.toLower err) "failed to connect" ∨
        stringsContains (lib.toLower err) "timed out" ∨
        stringsContains (lib.toLower err) "could not resolve host") →
      classifyGitError lib err remote commitSHA = GitError.original err) := by
  refine ⟨fun h1 => ?_, fun h1 h2 => ?_, fun h1 h2 h3 => ?_, fun h1 h2 h3 => ?_⟩
  · unfold classifyGitError
    simp only
    rw [if_pos h1]
  · unfold classifyGitError
    simp only
    rw [if_neg h1, if_pos h2]
  · unfold classifyGitError
    simp only
    rw [if_neg h1, if_neg h2, if_pos h3]
  · unfold classifyGitError
    simp only
    rw [if_neg h1, if_neg h2, if_neg h3]

/-- Instance of C22: an error whose text matches the first row in upper case and the
third row as well is classified by the first row; an error matching only the second row
in mixed case is a commit-not-found error; a text matching no row is returned as it
is. -/
theorem classifyGitError_rows_witness :
    classifyGitError exampleLibrary "FATAL: Repository Not Found (timed out)"
        "https://example.com/r.git" "0123abcd" =
      GitError.repositoryNotFound "https://example.com/r.git" ∧
    classifyGitError exampleLibrary "fatal: Couldn't find remote ref 0123abcd"
        "https://example.com/r.git" "0123abcd" = GitError.commitNotFound "0123abcd" ∧
    classifyGitError exampleLibrary "ssh: Could not resolve host: example.com"
        "https://example.com/r.git" "0123abcd" =
      GitError.network "https://example.com/r.git" ∧
    classifyGitError exampleLibrary "fatal: out of memory"
        "https://example.com/r.git" "0123abcd" = GitError.original "fatal: out of memory" :=
  ⟨(classifyGitError_rows exampleLibrary "FATAL: Repository Not Found (timed out)"
      "https://example.com/r.git" "0123abcd").1 (by decide),
    (classifyGitError_rows exampleLibrary "fatal: Couldn't find remote ref 0123abcd"
      "https://example.com/r.git" "0123abcd").2.1 (by decide) (by decide),
    (classifyGitError_rows exampleLibrary "ssh: Could not resolve host: example.com"
      "https://example.com/r.git" "0123abcd").2.2.1 (by decide) (by decide) (by decide),
    (classifyGitError_rows exampleLibrary "fatal: out of memory"
      "https://example.com/r.git" "0123abcd").2.2.2 (by decide) (by decide) (by decide)⟩

/-! ### Source resolution: the commit-existence probe -/

/-- C23: the commit-existence probe is never fatal. `cachedCommitExists` returns
`(true, no error)` exactly when the `cat-file` invocation returns no error and
`(false, no error)` for every probe error whatever its text; so `ensurePinnedCommit`
never returns the "check cached commit" error, and when the probe returns an error the
next and only further git invocation of `ensurePinnedCommit` is the fetch. -/
theorem cachedCommitExists_never_fatal (lib : GoLibrary) (env : Env) (src : SourceConfig)
    (repoDir remote : String) (progress : Bool) (t : List Event) :
    ((cachedCommitExists env repoDir src.CommitSHA t).1 = (true, none) ↔
      (env.git t (probeArgs repoDir src.CommitSHA)).err = none) ∧
    (∀ p, (env.git t (probeArgs repoDir src.CommitSHA)).err = some p →
      (cachedCommitExists env repoDir src.CommitSHA t).1 = (false, none)) ∧
    (∀ e, (ensurePinnedCommit lib env src repoDir remote progress t).1 ≠
      some (ResolveError.checkCachedCommit src.Name e)) ∧
    (∀ p, (env.git t (probeArgs repoDir src.CommitSHA)).err = some p →
      ∃ k, gitLogOf env (ensurePinnedCommit lib env src repoDir remote progress t).2 =
        gitLogOf env t ++ [(probeArgs repoDir src.CommitSHA, some p),
          (fetchArgs repoDir src.CommitSHA, k)]) := by
  refine ⟨?_, ?_, ?_, ?_⟩
  · rw [cachedCommitExists_eq]
    cases (env.git t (probeArgs repoDir src.CommitSHA)).err <;> simp
  · intro p hp
    rw [cachedCommitExists_eq, hp]
    rfl
  · intro e he
    rcases ensurePinnedCommit_cases lib env src repoDir remote progress t with
      ⟨_, h, _⟩ | ⟨_, _, _, h, _⟩ | ⟨_, _, h, _⟩ <;> rw [h] at he <;> cases he
  · intro p hp
    rcases ensurePinnedCommit_cases lib env src repoDir remote progress t with
      ⟨h, _, _⟩ | ⟨p', e, h, _, hlog⟩ | ⟨p', h, _, hlog⟩
    · rw [h] at hp
      cases hp
    · rw [h] at hp
      cases hp
      exact ⟨some e, hlog⟩
    · rw [h] at hp
      cases hp
      exact ⟨none, hlog⟩

/-- Instance of C23: in a world whose git fails every call with a text that names no
unknown object, the probe reports the commit as absent without an error and
`ensurePinnedCommit` goes on to the fetch. -/
theorem cachedCommitExists_never_fatal_witness :
    (cachedCommitExists failingGitEnv "/c/k" "0123abcd" []).1 = (false, none) ∧
    ∃ k, gitLogOf failingGitEnv (ensurePinnedCommit exampleLibrary failingGitEnv
        remoteSource "/c/k" "https://example.com/r.git" true []).2 =
      gitLogOf failingGitEnv [] ++ [(probeArgs "/c/k" "0123abcd", some "disk I/O error"),
        (fetchArgs "/c/k" "0123abcd", k)] :=
  ⟨(cachedCommitExists_never_fatal exampleLibrary failingGitEnv remoteSource "/c/k"
      "https://example.com/r.git" true []).2.1 "disk I/O error" rfl,
    (cachedCommitExists_never_fatal exampleLibrary failingGitEnv remoteSource "/c/k"
      "https://example.com/r.git" true []).2.2.2 "disk I/O error" rfl⟩

/-! ### Source resolution: the shape of the log of a remote resolution -/

/-- A remote resolution that stops before the cache lookup (an invalid input, a repository
that cannot be normalised, a cache directory that cannot be created) returns an error and
invokes git not at all. -/
theorem resolveRemoteSource_early (lib : GoLibrary) (env : Env) (src : SourceConfig)
    (root cacheDir : String) (progress : Bool) (t : List Event)
    (h : validateRemoteSourceInputs src cacheDir ≠ none ∨
      (∃ e, normalizeRepository src.Repository = Except.error e) ∨
      env.mkdirAll t cacheDir ≠ none) :
    (∃ e, (resolveRemoteSource lib env src root cacheDir progress t).1 = Except.error e) ∧
    gitLogOf env (resolveRemoteSource lib env src root cacheDir progress t).2 =
      gitLogOf env t := by
  unfold resolveRemoteSource
  split
  · exact ⟨⟨_, rfl⟩, rfl⟩
  · rename_i hv
    split
    · exact ⟨⟨_, rfl⟩, rfl⟩
    · rename_i remote hr
      split
      · exact ⟨⟨_, rfl⟩, gitLogOf_mkdirAll env t cacheDir⟩
      · rename_i hm
        rcases h with h | ⟨e, h⟩ | h
        · exact absurd hv h
        · rw [hr] at h
          cases h
        · exact absurd hm h

/-- The ways a remote resolution can go once its inputs are valid and the cache directory
exists, with the log of git invocations of each: the stat of the cached repository fails
(no invocation); the clone fails; the fetch fails; the checkout fails; or the checkout
succeeds and the result is that of `validateRepoRoot`. -/
theorem resolveRemoteSource_cases (lib : GoLibrary) (env : Env) (src : SourceConfig)
    (root cacheDir : String) (progress : Bool) (t : List Event)
    (remote repoDir : String) (t1 : List Event)
    (hvalid : validateRemoteSourceInputs src cacheDir = none)
    (hrepo : normalizeRepository src.Repository = Except.ok remote)
    (hmk : env.mkdirAll t cacheDir = none)
    (hdir : repoDir = filepathJoin [cacheDir, cacheKey lib remote])
    (ht1 : t1 = reportSourceProgress progress
      ("source " ++ src.Name ++ ": resolving repository in cache " ++ repoDir)
      (t ++ [Event.mkdirAll cacheDir])) :
    (∃ e, env.stat t1 (filepathJoin [repoDir, ".git"]) = StatResult.failed e ∧
      (resolveRemoteSource lib env src root cacheDir progress t).1 =
        Except.error (ResolveError.statCachedRepo src.Name e) ∧
      gitLogOf env (resolveRemoteSource lib env src root cacheDir progress t).2 =
        gitLogOf env t) ∨
    (env.stat t1 (filepathJoin [repoDir, ".git"]) = StatResult.notExist ∧
      ∃ e, (resolveRemoteSource lib env src root cacheDir progress t).1 =
          Except.error (ResolveError.clone src.Name
            (classifyGitError lib e remote src.CommitSHA)) ∧
        gitLogOf env (resolveRemoteSource lib env src root cacheDir progress t).2 =
          gitLogOf env t ++ [(cloneArgs remote repoDir, some e)]) ∨
    (∃ c, ((env.stat t1 (filepathJoin [repoDir, ".git"]) = StatResult.notExist ∧
          c = [(cloneArgs remote repoDir, none)]) ∨
        (env.stat t1 (filepathJoin [repoDir, ".git"]) = StatResult.ok ∧ c = [])) ∧
      ((∃ p e, (resolveRemoteSource lib env src root cacheDir progress t).1 =
            Except.error (ResolveError.fetch src.Name src.CommitSHA
              (classifyGitError lib e remote src.CommitSHA)) ∧
          gitLogOf env (resolveRemoteSource lib env src root cacheDir progress t).2 =
            gitLogOf env t ++ (c ++ [(probeArgs repoDir src.CommitSHA, some p),
              (fetchArgs repoDir src.CommitSHA, some e)])) ∨
        (∃ p f, ((p = none ∧ f = []) ∨
            (p ≠ none ∧ f = [(fetchArgs repoDir src.CommitSHA, none)])) ∧
          ((∃ e, (resolveRemoteSource lib env src root cacheDir progress t).1 =
                Except.error (ResolveError.checkout src.Name src.CommitSHA e) ∧
              gitLogOf env (resolveRemoteSource lib env src root cacheDir progress t).2 =
                gitLogOf env t ++ (c ++ (probeArgs repoDir src.CommitSHA, p) :: f ++
                  [(checkoutArgs repoDir src.CommitSHA, some e)])) ∨
            (∃ tv, resolveRemoteSource lib env src root cacheDir progress t =
                validateRepoRoot env src root
                  (filepathJoin [repoDir, filepathFromSlash root]) tv ∧
              gitLogOf env tv =
                gitLogOf env t ++ (c ++ (probeArgs repoDir src.CommitSHA, p) :: f ++
                  [(checkoutArgs repoDir src.CommitSHA, none)])))))) := by
  have hbase : gitLogOf env t1 = gitLogOf env t := by
    rw [ht1, gitLogOf_reportSourceProgress, gitLogOf_mkdirAll]
  unfold resolveRemoteSource
  rw [hvalid]
  simp only
  rw [hrepo]
  simp only
  rw [hmk]
  simp only
  rw [← hdir, ← ht1]
  -- the cache lookup
  rcases ensureRepoCached_cases lib env src remote repoDir progress t1 with
    ⟨e, hs, hr, hl⟩ | ⟨hs, e, hr, hl⟩ | hrest
  · left
    rw [hr]
    exact ⟨e, hs, rfl, by rw [hl, hbase]⟩
  · right; left
    rw [hr]
    exact ⟨hs, e, rfl, by rw [hl, hbase]⟩
  · have key : ∃ c, ((env.stat t1 (filepathJoin [repoDir, ".git"]) = StatResult.notExist ∧
          c = [(cloneArgs remote repoDir, none)]) ∨
        (env.stat t1 (filepathJoin [repoDir, ".git"]) = StatResult.ok ∧ c = [])) ∧
        (ensureRepoCached lib env src remote repoDir progress t1).1 = none ∧
        gitLogOf env (ensureRepoCached lib env src remote repoDir progress t1).2 =
          gitLogOf env t ++ c := by
      rcases hrest with ⟨hs, hr, hl⟩ | ⟨hs, hr, hl⟩
      · exact ⟨_, Or.inl ⟨hs, rfl⟩, hr, by rw [hl, hbase]⟩
      · exact ⟨[], Or.inr ⟨hs, rfl⟩, hr, by rw [hl, hbase, List.append_nil]⟩
    obtain ⟨c, hc, hr, hl⟩ := key
    right; right
    rw [hr]
    simp only
    refine ⟨c, hc, ?_⟩
    generalize (ensureRepoCached lib env src remote repoDir progress t1).2 = t2 at hl ⊢
    rcases ensurePinnedCommit_cases lib env src repoDir remote progress t2 with
      ⟨hp, hr2, hl2⟩ | ⟨p, e, hp, hr2, hl2⟩ | ⟨p, hp, hr2, hl2⟩
    · right
      rw [hr2]
      simp only
      refine ⟨none, [], Or.inl ⟨rfl, rfl⟩, ?_⟩
      rw [hl] at hl2
      generalize (ensurePinnedCommit lib env src repoDir remote progress t2).2 = t3 at hl2 ⊢
      rcases checkoutPinnedCommit_cases env src repoDir progress t3 with
        ⟨e, hr3, hl3⟩ | ⟨hr3, hl3⟩
      · left
        rw [hr3]
        exact ⟨e, rfl, by rw [hl3, hl2]; simp⟩
      · right
        rw [hr3]
        exact ⟨_, rfl, by rw [gitLogOf_reportSourceProgress, hl3, hl2]; simp⟩
    · left
      rw [hr2]
      exact ⟨p, e, rfl, by rw [hl2, hl]; simp⟩
    · right
      rw [hr2]
      simp only
      refine ⟨some p, _, Or.inr ⟨by simp, rfl⟩, ?_⟩
      rw [hl] at hl2
      generalize (ensurePinnedCommit lib env src repoDir remote progress t2).2 = t3 at hl2 ⊢
      rcases checkoutPinnedCommit_cases env src repoDir progress t3 with
        ⟨e, hr3, hl3⟩ | ⟨hr3, hl3⟩
      · left
        rw [hr3]
        exact ⟨e, rfl, by rw [hl3, hl2]; simp⟩
      · right
        rw [hr3]
        exact ⟨_, rfl, by rw [gitLogOf_reportSourceProgress, hl3, hl2]; simp⟩

/-! ### Source resolution: the sequence of git invocations -/

/-- When the log of `trace` is the log of `t` followed by `new`, the invocations since `t`
are `new`. -/
theorem gitLogSince_of_append (env : Env) (t trace : List Event)
    (new : List (List String × Option String))
    (h : gitLogOf env trace = gitLogOf env t ++ new) : gitLogSince env t trace = new := by
  unfold gitLogSince
  rw [h, List.drop_left]

/-- The stat of `validateRepoRoot` adds no git invocation. -/
theorem gitLogOf_validateRepoRoot (env : Env) (src : SourceConfig)
    (root resolvedRoot : String) (t : List Event) :
    gitLogOf env (validateRepoRoot env src root resolvedRoot t).2 = gitLogOf env t := by
  unfold validateRepoRoot
  split <;> exact gitLogOf_stat env t resolvedRoot

/-- C21 as stated fails: in a world where the stat of the cached repository fails with an
error other than "does not exist", the resolution of a valid remote source invokes git
not at all, so that no git invocation fails, and yet the probe and the checkout of the
stated sequence are missing. -/
theorem resolveRemoteSource_stat_failure_no_git :
    validateRemoteSourceInputs remoteSource "/tmp/cache" = none ∧
    gitLogSince statFailEnv []
      (resolveRemoteSource exampleLibrary statFailEnv remoteSource "sub/dir" "/tmp/cache"
        false []).2 = [] ∧
    (∀ entry ∈ gitLogSince statFailEnv []
      (resolveRemoteSource exampleLibrary statFailEnv remoteSource "sub/dir" "/tmp/cache"
        false []).2, entry.2 = none) ∧
    ¬ ∃ p, gitLogSince statFailEnv []
      (resolveRemoteSource exampleLibrary statFailEnv remoteSource "sub/dir" "/tmp/cache"
        false []).2 =
      (if statFailEnv.stat [Event.mkdirAll "/tmp/cache"]
            (filepathJoin ["/tmp/cache/0000000000000000", ".git"]) = StatResult.notExist
        then [(cloneArgs "https://github.com/acme/widgets.git" "/tmp/cache/0000000000000000",
          none)] else []) ++
      (probeArgs "/tmp/cache/0000000000000000" "0123abcd", p) ::
      (if p = none then []
        else [(fetchArgs "/tmp/cache/0000000000000000" "0123abcd", none)]) ++
      [(checkoutArgs "/tmp/cache/0000000000000000" "0123abcd", none)] := by
  have h : gitLogSince statFailEnv []
      (resolveRemoteSource exampleLibrary statFailEnv remoteSource "sub/dir" "/tmp/cache"
        false []).2 = [] := by decide
  refine ⟨by decide, h, ?_, ?_⟩
  · rw [h]
    intro entry he
    cases he
  · rw [h]
    rintro ⟨p, hp⟩
    have hlen := congrArg List.length hp
    simp at hlen
    omega

/-- C21, amended: for every remote resolution that reaches the cache lookup (valid inputs,
a repository that normalises to `remote`, a cache directory that can be created, a stat
of `repoDir/.git` that succeeds or reports that it does not exist) and in which every git
invocation succeeds or only the probe fails, the invocations are exactly: the clone if
and only if `repoDir/.git` did not exist; then the probe; then the fetch if and only if
the probe returned an error; then the checkout. -/
theorem resolveRemoteSource_git_sequence (lib : GoLibrary) (env : Env) (src : SourceConfig)
    (root cacheDir : String) (progress : Bool) (t : List Event)
    (remote repoDir : String) (t1 : List Event)
    (hvalid : validateRemoteSourceInputs src cacheDir = none)
    (hrepo : normalizeRepository src.Repository = Except.ok remote)
    (hmk : env.mkdirAll t cacheDir = none)
    (hdir : repoDir = filepathJoin [cacheDir, cacheKey lib remote])
    (ht1 : t1 = reportSourceProgress progress
      ("source " ++ src.Name ++ ": resolving repository in cache " ++ repoDir)
      (t ++ [Event.mkdirAll cacheDir]))
    (hstat : ∀ e, env.stat t1 (filepathJoin [repoDir, ".git"]) ≠ StatResult.failed e)
    (hgit : ∀ entry ∈ gitLogSince env t
        (resolveRemoteSource lib env src root cacheDir progress t).2,
      entry.2 ≠ none → entry.1 = probeArgs repoDir src.CommitSHA) :
    ∃ p, gitLogSince env t (resolveRemoteSource lib env src root cacheDir progress t).2 =
      (if env.stat t1 (filepathJoin [repoDir, ".git"]) = StatResult.notExist
        then [(cloneArgs remote repoDir, none)] else []) ++
      (probeArgs repoDir src.CommitSHA, p) ::
      (if p = none then [] else [(fetchArgs repoDir src.CommitSHA, none)]) ++
      [(checkoutArgs repoDir src.CommitSHA, none)] := by
  rcases resolveRemoteSource_cases lib env src root cacheDir progress t remote repoDir t1
      hvalid hrepo hmk hdir ht1 with
    ⟨e, hs, _, _⟩ | ⟨_, e, _, hl⟩ | ⟨c, hc, hrest⟩
  · exact absurd hs (hstat e)
  · have hnew := gitLogSince_of_append env t _ _ hl
    rw [hnew] at hgit
    have := hgit (cloneArgs remote repoDir, some e) (by simp) (by simp)
    simp [cloneArgs, probeArgs] at this
  · have hcif : (if env.stat t1 (filepathJoin [repoDir, ".git"]) = StatResult.notExist
        then [(cloneArgs remote repoDir, (none : Option String))] else []) = c := by
      rcases hc with ⟨hs, hc⟩ | ⟨hs, hc⟩
      · rw [hs, hc]
        rfl
      · rw [hs, hc]
        rfl
    rw [hcif]
    rcases hrest with ⟨p, e, _, hl⟩ | ⟨p, f, hf, hlast⟩
    · have hnew := gitLogSince_of_append env t _ _ hl
      rw [hnew] at hgit
      have := hgit (fetchArgs repoDir src.CommitSHA, some e) (by simp) (by simp)
      simp [fetchArgs, probeArgs] at this
    · have hfif : (if p = none then []
          else [(fetchArgs repoDir src.CommitSHA, (none : Option String))]) = f := by
        rcases hf with ⟨hp, hf⟩ | ⟨hp, hf⟩
        · rw [hf, if_pos hp]
        · rw [hf, if_neg hp]
      rcases hlast with ⟨e, _, hl⟩ | ⟨tv, hR, hl⟩
      · have hnew := gitLogSince_of_append env t _ _ hl
        rw [hnew] at hgit
        have := hgit (checkoutArgs repoDir src.CommitSHA, some e) (by simp) (by simp)
        simp [checkoutArgs, probeArgs] at this
      · refine ⟨p, ?_⟩
        rw [hfif]
        apply gitLogSince_of_append
        rw [hR, gitLogOf_validateRepoRoot, hl]

/-- Instance of C21: with an empty cache and a failing probe, the resolution of a valid
remote source invokes the clone, the probe, the fetch and the checkout, in this order. -/
theorem resolveRemoteSource_git_sequence_witness :
    ∃ p, gitLogSince coldCacheEnv []
      (resolveRemoteSource exampleLibrary coldCacheEnv remoteSource "sub/dir" "/tmp/cache"
        false []).2 =
      (if coldCacheEnv.stat [Event.mkdirAll "/tmp/cache"]
            (filepathJoin ["/tmp/cache/0000000000000000", ".git"]) = StatResult.notExist
        then [(cloneArgs "https://github.com/acme/widgets.git" "/tmp/cache/0000000000000000",
          none)] else []) ++
      (probeArgs "/tmp/cache/0000000000000000" remoteSource.CommitSHA, p) ::
      (if p = none then []
        else [(fetchArgs "/tmp/cache/0000000000000000" remoteSource.CommitSHA, none)]) ++
      [(checkoutArgs "/tmp/cache/0000000000000000" remoteSource.CommitSHA, none)] :=
  resolveRemoteSource_git_sequence exampleLibrary coldCacheEnv remoteSource "sub/dir"
    "/tmp/cache" false [] "https://github.com/acme/widgets.git"
    "/tmp/cache/0000000000000000" [Event.mkdirAll "/tmp/cache"]
    (by decide) (by rfl) (by rfl) (by decide) (by rfl)
    (fun e h => by
      rw [show coldCacheEnv.stat [Event.mkdirAll "/tmp/cache"]
        (filepathJoin ["/tmp/cache/0000000000000000", ".git"]) = StatResult.notExist
        from by decide] at h
      cases h)
    (by decide)

/-! ### Source resolution: no retries, fail-fast -/

/-- Every remote resolution adds to the log one of a few shapes of invocations: none; a
failed clone; an optional successful clone, then the probe, then either a failed fetch
or an optional successful fetch and the checkout. Only the last shape with a successful
checkout can come with a result that is not an error. -/
theorem resolveRemoteSource_log_shape (lib : GoLibrary) (env : Env) (src : SourceConfig)
    (root cacheDir : String) (progress : Bool) (t : List Event) :
    ∃ remote repoDir,
      (gitLogSince env t (resolveRemoteSource lib env src root cacheDir progress t).2 = [] ∧
        ∃ e, (resolveRemoteSource lib env src root cacheDir progress t).1 =
          Except.error e) ∨
      (∃ e', gitLogSince env t (resolveRemoteSource lib env src root cacheDir progress t).2 =
          [(cloneArgs remote repoDir, some e')] ∧
        ∃ e, (resolveRemoteSource lib env src root cacheDir progress t).1 =
          Except.error e) ∨
      (∃ c, (c = [] ∨ c = [(cloneArgs remote repoDir, none)]) ∧
        ((∃ p e',
            gitLogSince env t (resolveRemoteSource lib env src root cacheDir progress t).2 =
              c ++ [(probeArgs repoDir src.CommitSHA, some p),
                (fetchArgs repoDir src.CommitSHA, some e')] ∧
            ∃ e, (resolveRemoteSource lib env src root cacheDir progress t).1 =
              Except.error e) ∨
          (∃ p f, (f = [] ∨ f = [(fetchArgs repoDir src.CommitSHA, none)]) ∧
            ((∃ e',
                gitLogSince env t
                    (resolveRemoteSource lib env src root cacheDir progress t).2 =
                  c ++ (probeArgs repoDir src.CommitSHA, p) :: f ++
                    [(checkoutArgs repoDir src.CommitSHA, some e')] ∧
                ∃ e, (resolveRemoteSource lib env src root cacheDir progress t).1 =
                  Except.error e) ∨
              gitLogSince env t (resolveRemoteSource lib env src root cacheDir progress t).2 =
                c ++ (probeArgs repoDir src.CommitSHA, p) :: f ++
                  [(checkoutArgs repoDir src.CommitSHA, none)])))) := by
  by_cases hvalid : validateRemoteSourceInputs src cacheDir = none
  swap
  · have h := resolveRemoteSource_early lib env src root cacheDir progress t (Or.inl hvalid)
    exact ⟨"", "", Or.inl ⟨gitLogSince_of_append env t _ [] (by rw [h.2, List.append_nil]),
      h.1⟩⟩
  cases hrepo : normalizeRepository src.Repository with
  | error e0 =>
    have h := resolveRemoteSource_early lib env src root cacheDir progress t
      (Or.inr (Or.inl ⟨e0, hrepo⟩))
    exact ⟨"", "", Or.inl ⟨gitLogSince_of_append env t _ [] (by rw [h.2, List.append_nil]),
      h.1⟩⟩
  | ok remote =>
    by_cases hmk : env.mkdirAll t cacheDir = none
    swap
    · have h := resolveRemoteSource_early lib env src root cacheDir progress t
        (Or.inr (Or.inr hmk))
      exact ⟨"", "", Or.inl ⟨gitLogSince_of_append env t _ [] (by rw [h.2, List.append_nil]),
        h.1⟩⟩
    refine ⟨remote, filepathJoin [cacheDir, cacheKey lib remote], ?_⟩
    rcases resolveRemoteSource_cases lib env src root cacheDir progress t remote _ _
        hvalid hrepo hmk rfl rfl with
      ⟨e, _, hr, hl⟩ | ⟨_, e, hr, hl⟩ | ⟨c, hc, hrest⟩
    · exact Or.inl ⟨gitLogSince_of_append env t _ [] (by rw [hl, List.append_nil]),
        ⟨_, hr⟩⟩
    · exact Or.inr (Or.inl ⟨e, gitLogSince_of_append env t _ _ hl, ⟨_, hr⟩⟩)
    · refine Or.inr (Or.inr ⟨c, ?_, ?_⟩)
      · rcases hc with ⟨_, hc⟩ | ⟨_, hc⟩
        · exact Or.inr hc
        · exact Or.inl hc
      · rcases hrest with ⟨p, e, hr, hl⟩ | ⟨p, f, hf, hlast⟩
        · exact Or.inl ⟨p, e, gitLogSince_of_append env t _ _ hl, ⟨_, hr⟩⟩
        · refine Or.inr ⟨p, f, ?_, ?_⟩
          · rcases hf with ⟨_, hf⟩ | ⟨_, hf⟩
            · exact Or.inl hf
            · exact Or.inr hf
          · rcases hlast with ⟨e, hr, hl⟩ | ⟨tv, hR, hl⟩
            · exact Or.inl ⟨e, gitLogSince_of_append env t _ _ hl, ⟨_, hr⟩⟩
            · right
              apply gitLogSince_of_append
              rw [hR, gitLogOf_validateRepoRoot, hl]

/-- C24: no retries and fail-fast. In every remote resolution each of the subcommands
clone, fetch and checkout is invoked at most once, and when an invocation of one of them
returns an error, it is the last git invocation of the resolution and the resolver
returns an error. -/
theorem resolveRemoteSource_no_retry_fail_fast (lib : GoLibrary) (env : Env)
    (src : SourceConfig) (root cacheDir : String) (progress : Bool) (t : List Event) :
    List.countP (fun entry => gitSubcommand entry.1 = some "clone")
      (gitLogSince env t (resolveRemoteSource lib env src root cacheDir progress t).2) ≤ 1 ∧
    List.countP (fun entry => gitSubcommand entry.1 = some "fetch")
      (gitLogSince env t (resolveRemoteSource lib env src root cacheDir progress t).2) ≤ 1 ∧
    List.countP (fun entry => gitSubcommand entry.1 = some "checkout")
      (gitLogSince env t (resolveRemoteSource lib env src root cacheDir progress t).2) ≤ 1 ∧
    ∀ i args err,
      (gitLogSince env t (resolveRemoteSource lib env src root cacheDir progress t).2)[i]? =
        some (args, some err) →
      gitSubcommand args ∈ [some "clone", some "fetch", some "checkout"] →
      (gitLogSince env t
        (resolveRemoteSource lib env src root cacheDir progress t).2).length = i + 1 ∧
      ∃ e, (resolveRemoteSource lib env src root cacheDir progress t).1 = Except.error e := by
  have hcl : ∀ a b, gitSubcommand (cloneArgs a b) = some "clone" := fun a b => by
    simp [gitSubcommand, cloneArgs]
  have hpr : ∀ a b, gitSubcommand (probeArgs a b) = some "cat-file" := fun a b => by
    simp [gitSubcommand, probeArgs]
  have hfe : ∀ a b, gitSubcommand (fetchArgs a b) = some "fetch" := fun a b => by
    simp [gitSubcommand, fetchArgs]
  have hch : ∀ a b, gitSubcommand (checkoutArgs a b) = some "checkout" := fun a b => by
    simp [gitSubcommand, checkoutArgs]
  obtain ⟨remote, repoDir, hshape⟩ :=
    resolveRemoteSource_log_shape lib env src root cacheDir progress t
  rcases hshape with ⟨hl, herr⟩ | ⟨e', hl, herr⟩ | ⟨c, hc, hrest⟩
  · rw [hl]
    simp
  · rw [hl]
    refine ⟨by simp [List.countP_cons, hcl], by simp [List.countP_cons, hcl],
      by simp [List.countP_cons, hcl], ?_⟩
    intro i args err hi _
    rcases i with _ | i
    · exact ⟨rfl, herr⟩
    · simp at hi
  · rcases hrest with ⟨p, e', hl, herr⟩ | ⟨p, f, hf, ⟨e', hl, herr⟩ | hl⟩
    · rw [hl]
      refine ⟨?_, ?_, ?_, ?_⟩
      · rcases hc with rfl | rfl <;> simp [List.countP_cons, hcl, hpr, hfe]
      · rcases hc with rfl | rfl <;> simp [List.countP_cons, hcl, hpr, hfe]
      · rcases hc with rfl | rfl <;> simp [List.countP_cons, hcl, hpr, hfe]
      · intro i args err hi hsub
        rcases hc with rfl | rfl
        · rcases i with _ | _ | i
          · simp at hi
            obtain ⟨rfl, -⟩ := hi
            simp [hpr] at hsub
          · exact ⟨rfl, herr⟩
          · simp at hi
        · rcases i with _ | _ | _ | i
          · simp at hi
          · simp at hi
            obtain ⟨rfl, -⟩ := hi
            simp [hpr] at hsub
          · exact ⟨rfl, herr⟩
          · simp at hi
    · rw [hl]
      refine ⟨?_, ?_, ?_, ?_⟩
      · rcases hc with rfl | rfl <;> rcases hf with rfl | rfl <;>
          simp [List.countP_cons, hcl, hpr, hfe, hch]
      · rcases hc with rfl | rfl <;> rcases hf with rfl | rfl <;>
          simp [List.countP_cons, hcl, hpr, hfe, hch]
      · rcases hc with rfl | rfl <;> rcases hf with rfl | rfl <;>
          simp [List.countP_cons, hcl, hpr, hfe, hch]
      · intro i args err hi hsub
        rcases hc with rfl | rfl <;> rcases hf with rfl | rfl <;>
          rcases i with _ | _ | _ | _ | i <;> simp at hi <;>
          first
          | exact ⟨rfl, herr⟩
          | (obtain ⟨rfl, -⟩ := hi
             simp [hpr] at hsub)
    · rw [hl]
      refine ⟨?_, ?_, ?_, ?_⟩
      · rcases hc with rfl | rfl <;> rcases hf with rfl | rfl <;>
          simp [List.countP_cons, hcl, hpr, hfe, hch]
      · rcases hc with rfl | rfl <;> rcases hf with rfl | rfl <;>
          simp [List.countP_cons, hcl, hpr, hfe, hch]
      · rcases hc with rfl | rfl <;> rcases hf with rfl | rfl <;>
          simp [List.countP_cons, hcl, hpr, hfe, hch]
      · intro i args err hi hsub
        rcases hc with rfl | rfl <;> rcases hf with rfl | rfl <;>
          rcases i with _ | _ | _ | _ | i <;> simp at hi <;>
          (obtain ⟨rfl, -⟩ := hi
           simp [hpr] at hsub)

/-- Instance of C24: with an empty cache and a clone that fails, the clone is the only
git invocation and the resolver returns an error. -/
theorem resolveRemoteSource_no_retry_fail_fast_witness :
    (gitLogSince cloneFailEnv []
      (resolveRemoteSource exampleLibrary cloneFailEnv remoteSource "sub/dir" "/tmp/cache"
        false []).2).length = 0 + 1 ∧
    ∃ e, (resolveRemoteSource exampleLibrary cloneFailEnv remoteSource "sub/dir"
      "/tmp/cache" false []).1 = Except.error e :=
  (resolveRemoteSource_no_retry_fail_fast exampleLibrary cloneFailEnv remoteSource
    "sub/dir" "/tmp/cache" false []).2.2.2 0
    (cloneArgs "https://github.com/acme/widgets.git" "/tmp/cache/0000000000000000")
    "fatal: repository not found" (by decide) (by decide)

/-! ### Lexical path cleaning: joining in two steps -/

theorem splitSlash_ne_nil (cs : List Char) : splitSlash cs ≠ [] := by
  induction cs with
  | nil => simp [splitSlash]
  | cons c cs ih =>
    unfold splitSlash
    split_ifs
    · simp
    · split <;> simp

/-- Splitting at a separator: the elements of `x/y` are those of `x` followed by those of
`y`. -/
theorem splitSlash_append_sep (x y : List Char) :
    splitSlash (x ++ '/' :: y) = splitSlash x ++ splitSlash y := by
  induction x with
  | nil => simp [splitSlash]
  | cons c cs ih =>
    rw [List.cons_append, splitSlash.eq_2, splitSlash.eq_2 c cs]
    split_ifs with hc
    · rw [ih]
      rfl
    · rw [ih]
      cases hs : splitSlash cs with
      | nil => exact absurd hs (splitSlash_ne_nil cs)
      | cons e es => rfl

theorem splitSlash_no_sep (cs : List Char) : ∀ e ∈ splitSlash cs, '/' ∉ e := by
  induction cs with
  | nil => simp [splitSlash]
  | cons c cs ih =>
    unfold splitSlash
    split_ifs with hc
    · intro e he
      rcases List.mem_cons.1 he with rfl | he
      · simp
      · exact ih e he
    · cases hs : splitSlash cs with
      | nil => exact absurd hs (splitSlash_ne_nil cs)
      | cons e0 es =>
        rw [hs] at ih
        intro e he
        rcases List.mem_cons.1 he with rfl | he
        · intro hmem
          rcases List.mem_cons.1 hmem with h | h
          · exact hc h.symm
          · exact ih e0 (List.mem_cons_self _ _) h
        · exact ih e (List.mem_cons_of_mem _ he)

theorem splitSlash_of_no_sep (e : List Char) (h : '/' ∉ e) : splitSlash e = [e] := by
  induction e with
  | nil => rfl
  | cons c cs ih =>
    have hc : c ≠ '/' := fun hc => h (by simp [hc])
    have hcs : '/' ∉ cs := fun hm => h (List.mem_cons_of_mem _ hm)
    unfold splitSlash
    rw [if_neg hc, ih hcs]

theorem intercalate_cons_cons (sep a b : List Char) (l : List (List Char)) :
    List.intercalate sep (a :: b :: l) = a ++ sep ++ List.intercalate sep (b :: l) := by
  simp [List.intercalate, List.intersperse]

/-- Splitting undoes joining with the separator, for a non-empty list of elements that
are free of the separator. -/
theorem splitSlash_intercalate (out : List (List Char)) (hne : out ≠ [])
    (h : ∀ e ∈ out, '/' ∉ e) : splitSlash (List.intercalate ['/'] out) = out := by
  induction out with
  | nil => exact absurd rfl hne
  | cons a l ih =>
    cases l with
    | nil =>
      have : List.intercalate ['/'] [a] = a := by simp [List.intercalate, List.intersperse]
      rw [this]
      exact splitSlash_of_no_sep a (h a (List.mem_cons_self _ _))
    | cons b l =>
      rw [intercalate_cons_cons, List.append_assoc, List.singleton_append,
        splitSlash_append_sep, ih (by simp) (fun e he => h e (List.mem_cons_of_mem _ he)),
        splitSlash_of_no_sep a (h a (List.mem_cons_self _ _))]
      rfl

/-- The element loop of `filepath.Clean` over two lists of elements in a row. -/
theorem cleanElements_append (rooted : Bool) (a b out : List (List Char)) :
    cleanElements rooted (a ++ b) out = cleanElements rooted b (cleanElements rooted a out) := by
  induction a generalizing out with
  | nil => rfl
  | cons e rest ih =>
    rw [List.cons_append, cleanElements.eq_2, cleanElements.eq_2]
    split_ifs <;> exact ih _

/-- The elements written by the loop of `filepath.Clean` are clean: the loop run over
them again writes them again, and none is empty, `.` or has a separator. -/
theorem cleanElements_clean (rooted : Bool) (elems out : List (List Char))
    (hsep : ∀ e ∈ elems, '/' ∉ e)
    (hout : cleanElements rooted out [] = out ∧ ∀ e ∈ out, e ≠ [] ∧ e ≠ ['.'] ∧ '/' ∉ e) :
    cleanElements rooted (cleanElements rooted elems out) [] = cleanElements rooted elems out ∧
    ∀ e ∈ cleanElements rooted elems out, e ≠ [] ∧ e ≠ ['.'] ∧ '/' ∉ e := by
  induction elems generalizing out with
  | nil => exact hout
  | cons e rest ih =>
    have hrest : ∀ e ∈ rest, '/' ∉ e := fun x hx => hsep x (List.mem_cons_of_mem _ hx)
    have he : '/' ∉ e := hsep e (List.mem_cons_self _ _)
    rw [cleanElements.eq_2]
    split_ifs with h1 h2 h3 h4
    · exact ih out hrest hout
    · -- `..` removes the last element
      apply ih _ hrest
      obtain ⟨hne, hlast⟩ := h3
      obtain ⟨dl, l, rfl⟩ : ∃ dl l, out = dl ++ [l] :=
        ⟨out.dropLast, out.getLast hne, (List.dropLast_append_getLast hne).symm⟩
      rw [List.dropLast_concat]
      have hl := hout.2 l (by simp)
      have hl2 : l ≠ ['.', '.'] := by
        intro h
        apply hlast
        rw [h]
        simp
      refine ⟨?_, fun x hx => hout.2 x (by simp [hx])⟩
      have h0 := hout.1
      rw [cleanElements_append] at h0
      have h5 : cleanElements rooted [l] (cleanElements rooted dl []) =
          cleanElements rooted dl [] ++ [l] := by
        rw [cleanElements.eq_2]
        rw [if_neg (by simp [hl.1, hl.2.1]), if_neg hl2]
        rfl
      rw [h5] at h0
      exact List.append_cancel_right h0
    · exact ih out hrest hout
    · -- `..` is kept on an unrooted path
      apply ih _ hrest
      refine ⟨?_, ?_⟩
      · rw [cleanElements_append, hout.1]
        rw [cleanElements.eq_2]
        rw [if_neg h1, if_pos h2, if_neg h3, if_neg h4]
        rfl
      · intro x hx
        rcases List.mem_append.1 hx with hx | hx
        · exact hout.2 x hx
        · rw [List.mem_singleton] at hx
          subst hx
          rw [h2]
          refine ⟨by simp, by simp, by simp⟩
    · -- an ordinary element
      apply ih _ hrest
      refine ⟨?_, ?_⟩
      · rw [cleanElements_append, hout.1]
        rw [cleanElements.eq_2]
        rw [if_neg h1, if_neg h2]
        rfl
      · intro x hx
        rcases List.mem_append.1 hx with hx | hx
        · exact hout.2 x hx
        · rw [List.mem_singleton] at hx
          subst hx
          exact ⟨fun h => h1 (Or.inl h), fun h => h1 (Or.inr h), he⟩

theorem intercalate_cons_eq_append (sep a : List Char) (l : List (List Char)) :
    ∃ tail, List.intercalate sep (a :: l) = a ++ tail := by
  cases l with
  | nil => exact ⟨[], by simp [List.intercalate, List.intersperse]⟩
  | cons b l => exact ⟨sep ++ List.intercalate sep (b :: l), by
      rw [intercalate_cons_cons, List.append_assoc]⟩

/-- The loop of `filepath.Clean`, run over the elements of its own joined output, writes
that output again. -/
theorem cleanElements_splitSlash_intercalate (rooted : Bool) (out : List (List Char))
    (hout : cleanElements rooted out [] = out ∧ ∀ e ∈ out, e ≠ [] ∧ e ≠ ['.'] ∧ '/' ∉ e) :
    cleanElements rooted (splitSlash (List.intercalate ['/'] out)) [] = out := by
  cases out with
  | nil => rfl
  | cons a l =>
    rw [splitSlash_intercalate _ (by simp) (fun e he => (hout.2 e he).2.2)]
    exact hout.1

/-- The function `filepath.Clean` written out. -/
theorem filepathClean_eq (path : String) :
    filepathClean path =
      if stringsStartsWith path "/" = true then
        String.mk ('/' :: List.intercalate ['/']
          (cleanElements (stringsStartsWith path "/") (splitSlash path.data) []))
      else if List.intercalate ['/']
          (cleanElements (stringsStartsWith path "/") (splitSlash path.data) []) = [] then "."
      else String.mk (List.intercalate ['/']
        (cleanElements (stringsStartsWith path "/") (splitSlash path.data) [])) := rfl

/-- The output of `filepath.Clean` read again: it is rooted when the input is, also when
more elements follow it, and the loop over its elements writes the same elements. -/
theorem filepathClean_reclean (x : List Char) :
    stringsStartsWith (filepathClean (String.mk x)) "/" =
      stringsStartsWith (String.mk x) "/" ∧
    (∀ y, stringsStartsWith
        (String.mk ((filepathClean (String.mk x)).data ++ '/' :: y)) "/" =
      stringsStartsWith (String.mk x) "/") ∧
    cleanElements (stringsStartsWith (String.mk x) "/")
        (splitSlash (filepathClean (String.mk x)).data) [] =
      cleanElements (stringsStartsWith (String.mk x) "/") (splitSlash x) [] := by
  have hO := cleanElements_clean (stringsStartsWith (String.mk x) "/") (splitSlash x) []
    (splitSlash_no_sep x) ⟨rfl, by simp⟩
  rw [filepathClean_eq (String.mk x)]
  generalize cleanElements (stringsStartsWith (String.mk x) "/") (splitSlash x) [] = out
    at hO ⊢
  cases hr : stringsStartsWith (String.mk x) "/" with
  | true =>
    rw [hr] at hO
    simp only [if_true]
    refine ⟨by simp [stringsStartsWith, List.isPrefixOf],
      fun y => by simp [stringsStartsWith, List.isPrefixOf], ?_⟩
    rw [splitSlash.eq_2, if_pos rfl, cleanElements.eq_2, if_pos (Or.inl rfl)]
    exact cleanElements_splitSlash_intercalate true out hO
  | false =>
    rw [hr] at hO
    simp only [Bool.false_eq_true, if_false]
    cases out with
    | nil =>
      have h0 : List.intercalate ['/'] ([] : List (List Char)) = [] := rfl
      rw [h0, if_pos rfl]
      exact ⟨by decide, fun y => by simp [stringsStartsWith, List.isPrefixOf], rfl⟩
    | cons a l =>
      obtain ⟨tail, htail⟩ := intercalate_cons_eq_append ['/'] a l
      have ha := hO.2 a (List.mem_cons_self _ _)
      obtain ⟨c, cs, rfl⟩ : ∃ c cs, a = c :: cs := by
        cases a with
        | nil => exact absurd rfl ha.1
        | cons c cs => exact ⟨c, cs, rfl⟩
      have hc : c ≠ '/' := fun h => ha.2.2 (by simp [h])
      have hne : List.intercalate ['/'] ((c :: cs) :: l) ≠ [] := by
        rw [htail]
        simp
      rw [if_neg hne]
      refine ⟨?_, fun y => ?_, cleanElements_splitSlash_intercalate false _ hO⟩
      · rw [htail]
        simp [stringsStartsWith, List.isPrefixOf, Ne.symm hc]
      · rw [htail]
        simp [stringsStartsWith, List.isPrefixOf, Ne.symm hc]

/-- Cleaning is idempotent. -/
theorem filepathClean_idem (p : String) : filepathClean (filepathClean p) = filepathClean p := by
  obtain ⟨h1, -, h3⟩ := filepathClean_reclean p.data
  rw [filepathClean_eq (filepathClean p)]
  simp only [h1, h3]
  rfl

/-- Cleaning `x/y` after cleaning `x` is cleaning `x/y`, for a non-empty `x`. -/
theorem filepathClean_clean_append (x y : List Char) (hx : x ≠ []) :
    filepathClean (String.mk ((filepathClean (String.mk x)).data ++ '/' :: y)) =
      filepathClean (String.mk (x ++ '/' :: y)) := by
  have hR : stringsStartsWith (String.mk (x ++ '/' :: y)) "/" =
      stringsStartsWith (String.mk x) "/" := by
    cases x with
    | nil => exact absurd rfl hx
    | cons c cs => simp [stringsStartsWith, List.isPrefixOf]
  obtain ⟨-, h2, h3⟩ := filepathClean_reclean x
  rw [filepathClean_eq (String.mk (_ ++ '/' :: y)), filepathClean_eq (String.mk (x ++ '/' :: y))]
  simp only [hR, h2 y, splitSlash_append_sep, cleanElements_append, h3]

/-- Joining in two steps: `Join(Join(a, b), c)` is `Join(a, b, c)` when `a` is not
empty. -/
theorem filepathJoin_assoc (a b c : String) (ha : a ≠ "") :
    filepathJoin [filepathJoin [a, b], c] = filepathJoin [a, b, c] := by
  have hdata : a.data ≠ [] := fun h => ha (String.ext h)
  have h2 : filepathJoin [a, b] = filepathClean (String.mk (a.data ++ '/' :: b.data)) := by
    simp [filepathJoin, List.dropWhile, ha, List.intercalate, List.intersperse]
  have h3 : filepathJoin [a, b, c] =
      filepathClean (String.mk ((a.data ++ '/' :: b.data) ++ '/' :: c.data)) := by
    simp [filepathJoin, List.dropWhile, ha, List.intercalate, List.intersperse]
  have hne : filepathClean (String.mk (a.data ++ '/' :: b.data)) ≠ "" := by
    rw [filepathClean_eq]
    split_ifs
    · intro h0
      have := congrArg String.data h0
      simp at this
    · decide
    · rename_i h
      intro h0
      apply h
      have := congrArg String.data h0
      simpa using this
  rw [h3, h2, ← filepathClean_clean_append (a.data ++ '/' :: b.data) c.data (by simp)]
  simp [filepathJoin, List.dropWhile, hne, List.intercalate, List.intersperse]

/-! ### Source resolution: the returned path -/

/-- The loop of `filepath.Clean` appends elements that are not empty, `.` or `..`. -/
theorem cleanElements_normal (rooted : Bool) (elems out : List (List Char))
    (h : ∀ e ∈ elems, e ≠ [] ∧ e ≠ ['.'] ∧ e ≠ ['.', '.']) :
    cleanElements rooted elems out = out ++ elems := by
  induction elems generalizing out with
  | nil => simp [cleanElements]
  | cons e rest ih =>
    have he := h e (List.mem_cons_self _ _)
    rw [cleanElements.eq_2, if_neg (by simp [he.1, he.2.1]), if_neg he.2.2,
      ih _ (fun x hx => h x (List.mem_cons_of_mem _ hx))]
    simp

theorem intercalate_append (sep : List Char) (a b : List (List Char)) (ha : a ≠ [])
    (hb : b ≠ []) :
    List.intercalate sep (a ++ b) = List.intercalate sep a ++ sep ++ List.intercalate sep b := by
  induction a with
  | nil => exact absurd rfl ha
  | cons x l ih =>
    cases l with
    | nil =>
      cases b with
      | nil => exact absurd rfl hb
      | cons y m =>
        have : List.intercalate sep [x] = x := by simp [List.intercalate, List.intersperse]
        rw [this]
        exact intercalate_cons_cons sep x y m
    | cons y m =>
      rw [List.cons_append, List.cons_append, intercalate_cons_cons, ← List.cons_append,
        ih (by simp), intercalate_cons_cons]
      simp only [List.append_assoc]

/-- Cleaning a clean path other than `/` and `.` followed by elements that are not empty,
`.` or `..` changes nothing. -/
theorem filepathClean_append_elements (cd : String) (elems : List (List Char))
    (hcd : filepathClean cd = cd) (hroot : cd ≠ "/") (hdot : cd ≠ ".") (hne : elems ≠ [])
    (h : ∀ e ∈ elems, e ≠ [] ∧ e ≠ ['.'] ∧ e ≠ ['.', '.'] ∧ '/' ∉ e) :
    filepathClean (String.mk (cd.data ++ '/' :: List.intercalate ['/'] elems)) =
      String.mk (cd.data ++ '/' :: List.intercalate ['/'] elems) := by
  have hR : stringsStartsWith (String.mk (cd.data ++ '/' :: List.intercalate ['/'] elems)) "/" =
      stringsStartsWith cd "/" := by
    have hcdne : cd ≠ "" := by
      rintro rfl
      revert hcd
      decide
    cases hx : cd.data with
    | nil => exact absurd (String.ext hx) hcdne
    | cons c cs => simp [stringsStartsWith, List.isPrefixOf, hx]
  have hsplit : splitSlash (List.intercalate ['/'] elems) = elems :=
    splitSlash_intercalate elems hne (fun e he => (h e he).2.2.2)
  have hnorm : ∀ e ∈ elems, e ≠ [] ∧ e ≠ ['.'] ∧ e ≠ ['.', '.'] :=
    fun e he => ⟨(h e he).1, (h e he).2.1, (h e he).2.2.1⟩
  rw [filepathClean_eq (String.mk _)]
  simp only [hR, splitSlash_append_sep, cleanElements_append, hsplit,
    cleanElements_normal _ elems _ hnorm]
  rw [filepathClean_eq cd] at hcd
  generalize cleanElements (stringsStartsWith cd "/") (splitSlash cd.data) [] = out at hcd ⊢
  obtain ⟨e0, erest, rfl⟩ : ∃ e0 erest, elems = e0 :: erest := by
    cases elems with
    | nil => exact absurd rfl hne
    | cons e0 erest => exact ⟨e0, erest, rfl⟩
  cases hr : stringsStartsWith cd "/" with
  | true =>
    rw [hr] at hcd
    simp only [if_true] at hcd ⊢
    cases out with
    | nil => exact absurd hcd.symm hroot
    | cons a l =>
      rw [intercalate_append _ _ _ (by simp) (by simp), ← hcd]
      simp
  | false =>
    rw [hr] at hcd
    simp only [Bool.false_eq_true, if_false] at hcd ⊢
    cases out with
    | nil => exact absurd hcd.symm hdot
    | cons a l =>
      have hne2 : List.intercalate ['/'] (a :: l) ≠ [] := by
        intro h0
        rw [h0] at hcd
        exact hdot hcd.symm
      rw [if_neg hne2] at hcd
      rw [intercalate_append _ _ _ (by simp) (by simp), ← hcd]
      simp

/-- A remote resolution either returns an error without a successful checkout in its log,
or its inputs are valid and its result is that of `validateRepoRoot` on the root joined
to the directory of the cached repository. -/
theorem resolveRemoteSource_outcome (lib : GoLibrary) (env : Env) (src : SourceConfig)
    (root cacheDir : String) (progress : Bool) (t : List Event) :
    ((∃ e, (resolveRemoteSource lib env src root cacheDir progress t).1 = Except.error e) ∧
      ∀ repoDir, (checkoutArgs repoDir src.CommitSHA, none) ∉
        gitLogSince env t (resolveRemoteSource lib env src root cacheDir progress t).2) ∨
    (∃ remote tv, normalizeRepository src.Repository = Except.ok remote ∧ cacheDir ≠ "" ∧
      resolveRemoteSource lib env src root cacheDir progress t =
        validateRepoRoot env src root
          (filepathJoin [filepathJoin [cacheDir, cacheKey lib remote], filepathFromSlash root])
          tv) := by
  have hearly : ∀ h, ((∃ e, (resolveRemoteSource lib env src root cacheDir progress t).1 =
        Except.error e) ∧
      ∀ repoDir, (checkoutArgs repoDir src.CommitSHA, none) ∉
        gitLogSince env t (resolveRemoteSource lib env src root cacheDir progress t).2) :=
    fun h => by
      have h' := resolveRemoteSource_early lib env src root cacheDir progress t h
      refine ⟨h'.1, fun repoDir => ?_⟩
      rw [gitLogSince_of_append env t _ [] (by rw [h'.2, List.append_nil])]
      simp
  by_cases hvalid : validateRemoteSourceInputs src cacheDir = none
  swap
  · exact Or.inl (hearly (Or.inl hvalid))
  cases hrepo : normalizeRepository src.Repository with
  | error e0 => exact Or.inl (hearly (Or.inr (Or.inl ⟨e0, hrepo⟩)))
  | ok remote =>
    by_cases hmk : env.mkdirAll t cacheDir = none
    swap
    · exact Or.inl (hearly (Or.inr (Or.inr hmk)))
    have hcd : cacheDir ≠ "" := by
      rintro rfl
      have := ((validateRemoteSourceInputs_eq_none src "").1 hvalid).2.2
      exact this (by decide)
    rcases resolveRemoteSource_cases lib env src root cacheDir progress t remote _ _
        hvalid hrepo hmk rfl rfl with
      ⟨e, _, hr, hl⟩ | ⟨_, e, hr, hl⟩ | ⟨c, hc, hrest⟩
    · refine Or.inl ⟨⟨_, hr⟩, fun repoDir => ?_⟩
      rw [gitLogSince_of_append env t _ [] (by rw [hl, List.append_nil])]
      simp
    · refine Or.inl ⟨⟨_, hr⟩, fun repoDir => ?_⟩
      rw [gitLogSince_of_append env t _ _ hl]
      simp
    · have hcmem : ∀ repoDir, (checkoutArgs repoDir src.CommitSHA, (none : Option String)) ∉ c := by
        intro repoDir
        rcases hc with ⟨_, rfl⟩ | ⟨_, rfl⟩ <;> simp [checkoutArgs, cloneArgs]
      rcases hrest with ⟨p, e, hr, hl⟩ | ⟨p, f, hf, ⟨e, hr, hl⟩ | ⟨tv, hR, _⟩⟩
      · refine Or.inl ⟨⟨_, hr⟩, fun repoDir => ?_⟩
        rw [gitLogSince_of_append env t _ _ hl]
        have hcm := hcmem repoDir
        simp only [checkoutArgs] at hcm
        simp [hcm, checkoutArgs, probeArgs, fetchArgs]
      · refine Or.inl ⟨⟨_, hr⟩, fun repoDir => ?_⟩
        rw [gitLogSince_of_append env t _ _ hl]
        have hcm := hcmem repoDir
        simp only [checkoutArgs] at hcm
        rcases hf with ⟨_, rfl⟩ | ⟨_, rfl⟩ <;>
          simp [hcm, checkoutArgs, probeArgs, fetchArgs]
      · exact Or.inr ⟨remote, tv, rfl, hcd, hR⟩

/-- A join whose first element is not empty is clean. -/
theorem filepathClean_filepathJoin (a : String) (l : List String) (ha : a ≠ "") :
    filepathClean (filepathJoin (a :: l)) = filepathJoin (a :: l) := by
  have h : filepathJoin (a :: l) = filepathClean (String.mk
      (List.intercalate ['/'] ((a :: l).map (fun e => e.data)))) := by
    simp [filepathJoin, List.dropWhile, ha]
  rw [h, filepathClean_idem]

/-- C25: a successful remote resolution returns
`Clean(Join(cacheDir, cacheKey(remote), FromSlash(root)))`, where `remote` is the
normalised repository and `root` the trimmed `Root`. For the root `sub/dir` and the
repository `acme/widgets`, and a clean cache directory other than `/` and `.`, this is
`cacheDir/<16 hex digits>/sub/dir`. When the checkout has succeeded, the resolver stats
that path, and if the stat reports that it does not exist the result is the
root-not-found error naming the root and the commit. -/
theorem resolveSource_remote_path (lib : GoLibrary) (env : Env) (src : SourceConfig)
    (cacheDir : String) (progress : Bool) (t : List Event)
    (hrem : filepathIsAbs (stringsTrimSpace src.Root) = false) :
    (∀ path,
      (resolveSourceWithRunnerAndProgress lib env src cacheDir progress t).1 =
        Except.ok path →
      ∃ remote, normalizeRepository src.Repository = Except.ok remote ∧
        path = filepathClean (filepathJoin [cacheDir, cacheKey lib remote,
          filepathFromSlash (stringsTrimSpace src.Root)])) ∧
    (filepathClean cacheDir = cacheDir → cacheDir ≠ "/" → cacheDir ≠ "." →
      normalizeRepository "acme/widgets" = Except.ok "https://github.com/acme/widgets.git" ∧
      (cacheKey lib "https://github.com/acme/widgets.git").length = 16 ∧
      (∀ c ∈ (cacheKey lib "https://github.com/acme/widgets.git").data, c ∈ hextable) ∧
      filepathClean (filepathJoin [cacheDir, cacheKey lib "https://github.com/acme/widgets.git",
          filepathFromSlash (stringsTrimSpace "sub/dir")]) =
        cacheDir ++ "/" ++ cacheKey lib "https://github.com/acme/widgets.git" ++ "/sub/dir") ∧
    (∀ remote, normalizeRepository src.Repository = Except.ok remote →
      (checkoutArgs (filepathJoin [cacheDir, cacheKey lib remote]) src.CommitSHA, none) ∈
        gitLogSince env t
          (resolveSourceWithRunnerAndProgress lib env src cacheDir progress t).2 →
      ∃ tv, (resolveSourceWithRunnerAndProgress lib env src cacheDir progress t).2 =
          tv ++ [Event.stat (filepathClean (filepathJoin [cacheDir, cacheKey lib remote,
            filepathFromSlash (stringsTrimSpace src.Root)]))] ∧
        (env.stat tv (filepathClean (filepathJoin [cacheDir, cacheKey lib remote,
            filepathFromSlash (stringsTrimSpace src.Root)])) = StatResult.notExist →
          (resolveSourceWithRunnerAndProgress lib env src cacheDir progress t).1 =
            Except.error (ResolveError.rootNotFoundInCommit src.Name
              (stringsTrimSpace src.Root) src.CommitSHA))) := by
  have hR : stringsTrimSpace src.Root ≠ "" →
      resolveSourceWithRunnerAndProgress lib env src cacheDir progress t =
        resolveRemoteSource lib env src (stringsTrimSpace src.Root) cacheDir progress t := by
    intro hroot
    unfold resolveSourceWithRunnerAndProgress
    simp only
    rw [if_neg hroot, if_neg (by simp [hrem])]
  refine ⟨?_, ?_, ?_⟩
  · intro path hok
    by_cases hroot : stringsTrimSpace src.Root = ""
    · unfold resolveSourceWithRunnerAndProgress at hok
      simp only at hok
      rw [if_pos hroot] at hok
      cases hok
    · rw [hR hroot] at hok
      rcases resolveRemoteSource_outcome lib env src (stringsTrimSpace src.Root) cacheDir
          progress t with ⟨⟨e, he⟩, _⟩ | ⟨remote, tv, hrepo, hcd, hval⟩
      · rw [he] at hok
        cases hok
      · refine ⟨remote, hrepo, ?_⟩
        rw [hval, filepathJoin_assoc _ _ _ hcd] at hok
        unfold validateRepoRoot at hok
        split at hok
        · cases hok
        · cases hok
        · injection hok with hok
          exact hok.symm
  · intro hclean hnr hnd
    have hcd : cacheDir ≠ "" := by
      rintro rfl
      revert hclean
      decide
    have hlen : (cacheKey lib "https://github.com/acme/widgets.git").length = 16 := by
      unfold cacheKey
      simp only [hexEncodeToString_length, List.length_take, List.length_ofFn]
      rfl
    have hmem : ∀ c ∈ (cacheKey lib "https://github.com/acme/widgets.git").data,
        c ∈ hextable := hexEncodeToString_mem _
    refine ⟨rfl, hlen, hmem, ?_⟩
    rw [filepathClean_filepathJoin _ _ hcd]
    have hlen2 : (cacheKey lib "https://github.com/acme/widgets.git").data.length = 16 := hlen
    have hj : filepathJoin [cacheDir, cacheKey lib "https://github.com/acme/widgets.git",
        filepathFromSlash (stringsTrimSpace "sub/dir")] =
        filepathClean (String.mk (cacheDir.data ++ '/' :: List.intercalate ['/']
          [(cacheKey lib "https://github.com/acme/widgets.git").data, ['s', 'u', 'b'],
            ['d', 'i', 'r']])) := by
      have : filepathFromSlash (stringsTrimSpace "sub/dir") = "sub/dir" := by decide
      rw [this]
      simp [filepathJoin, List.dropWhile, hcd, List.intercalate, List.intersperse]
    rw [hj, filepathClean_append_elements cacheDir _ hclean hnr hnd (by simp)]
    · apply String.ext
      simp [List.intercalate, List.intersperse, String.data_append]
    · intro e he
      simp only [List.mem_cons, List.mem_singleton, List.not_mem_nil, or_false] at he
      rcases he with rfl | rfl | rfl
      · refine ⟨?_, ?_, ?_, ?_⟩
        · intro h0
          rw [h0] at hlen2
          simp at hlen2
        · intro h0
          rw [h0] at hlen2
          simp at hlen2
        · intro h0
          rw [h0] at hlen2
          simp at hlen2
        · intro h0
          have := hmem _ h0
          revert this
          decide
      · decide
      · decide
  · intro remote hrepo hmem
    by_cases hroot : stringsTrimSpace src.Root = ""
    · exfalso
      unfold resolveSourceWithRunnerAndProgress at hmem
      simp only at hmem
      rw [if_pos hroot] at hmem
      rw [gitLogSince_of_append env t t [] (by rw [List.append_nil])] at hmem
      cases hmem
    · rw [hR hroot] at hmem ⊢
      rcases resolveRemoteSource_outcome lib env src (stringsTrimSpace src.Root) cacheDir
          progress t with ⟨_, hno⟩ | ⟨remote2, tv, hrepo2, hcd, hval⟩
      · exact absurd hmem (hno _)
      · rw [hrepo] at hrepo2
        injection hrepo2 with hrepo2
        subst hrepo2
        rw [hval, filepathClean_filepathJoin _ _ hcd, filepathJoin_assoc _ _ _ hcd]
        refine ⟨tv, ?_, ?_⟩
        · unfold validateRepoRoot
          split <;> rfl
        · intro hs
          unfold validateRepoRoot
          rw [hs]

/-- Instance of C25: with an empty cache in a world where the root exists, the source
`acme/widgets` with root `sub/dir` resolves to a path of the stated form under the cache
directory `/tmp/cache`; in a world where no path exists the same resolution ends in the
root-not-found error. -/
theorem resolveSource_remote_path_witness :
    (∃ remote, normalizeRepository remoteSource.Repository = Except.ok remote ∧
      "/tmp/cache/0000000000000000/sub/dir" =
        filepathClean (filepathJoin ["/tmp/cache", cacheKey exampleLibrary remote,
          filepathFromSlash (stringsTrimSpace remoteSource.Root)])) ∧
    (resolveSourceWithRunnerAndProgress exampleLibrary missingRootEnv remoteSource
      "/tmp/cache" false []).1 =
      Except.error (ResolveError.rootNotFoundInCommit "docs" "sub/dir" "0123abcd") :=
  ⟨(resolveSource_remote_path exampleLibrary coldCacheEnv remoteSource "/tmp/cache" false []
      (by decide)).1 "/tmp/cache/0000000000000000/sub/dir" (by rfl),
    match (resolveSource_remote_path exampleLibrary missingRootEnv remoteSource "/tmp/cache"
      false [] (by decide)).2.2 "https://github.com/acme/widgets.git" (by rfl)
      (by decide) with
    | ⟨_, _, h⟩ => h rfl⟩

/-! ### Near-duplicate filtering: the greedy first-seen selection -/

theorem dropNearDuplicatesLoop_append (t : ℚ) (a b : List collectedRecord) :
    ∀ (out : List collectedRecord) (d : Int),
      dropNearDuplicatesLoop t (a ++ b) out d =
        dropNearDuplicatesLoop t b (dropNearDuplicatesLoop t a out d).1
          (dropNearDuplicatesLoop t a out d).2 := by
  induction a with
  | nil => intro out d; rfl
  | cons c rest ih =>
    intro out d
    rw [List.cons_append, dropNearDuplicatesLoop.eq_2, dropNearDuplicatesLoop.eq_2]
    split_ifs
    · exact ih _ _
    · exact ih _ _

/-- One more candidate at the end of the input: it is appended to the records kept so far
unless it is a near duplicate of one of them. -/
theorem dropNearDuplicates_snoc (records : List collectedRecord) (c : collectedRecord)
    (t : ℚ) :
    (dropNearDuplicates (records ++ [c]) t).1 =
      if nearDuplicateOfAny c (dropNearDuplicates records t).1 t then
        (dropNearDuplicates records t).1
      else (dropNearDuplicates records t).1 ++ [c] := by
  unfold dropNearDuplicates
  rw [dropNearDuplicatesLoop_append, dropNearDuplicatesLoop.eq_2]
  split_ifs <;> rfl

theorem mem_selectFlagged (records : List collectedRecord) (flags : List Bool)
    (k : collectedRecord) :
    k ∈ selectFlagged records flags ↔
      ∃ j : Nat, records[j]? = some k ∧ flags[j]? = some true := by
  unfold selectFlagged
  constructor
  · intro h
    obtain ⟨p, hp, rfl⟩ := List.mem_map.1 h
    obtain ⟨hz, hf⟩ := List.mem_filter.1 hp
    obtain ⟨j, hj⟩ := List.mem_iff_getElem?.1 hz
    obtain ⟨h1, h2⟩ := List.getElem?_zip_eq_some.1 hj
    exact ⟨j, h1, by rw [h2]; simpa using hf⟩
  · rintro ⟨j, h1, h2⟩
    refine List.mem_map.2 ⟨(k, true), List.mem_filter.2 ⟨?_, rfl⟩, rfl⟩
    exact List.mem_iff_getElem?.2 ⟨j, List.getElem?_zip_eq_some.2 ⟨h1, h2⟩⟩

theorem selectFlagged_snoc (records : List collectedRecord) (flags : List Bool)
    (c : collectedRecord) (b : Bool) (hlen : flags.length = records.length) :
    selectFlagged (records ++ [c]) (flags ++ [b]) =
      selectFlagged records flags ++ (if b then [c] else []) := by
  unfold selectFlagged
  rw [List.zip_append hlen.symm, List.filter_append, List.map_append]
  cases b <;> simp

/-- The loop of `dropNearDuplicates` makes a justified selection. -/
theorem dropNearDuplicates_selection (records : List collectedRecord) (threshold : ℚ) :
    ∃ flags, justifiedSelection threshold records flags ∧
      (dropNearDuplicates records threshold).1 = selectFlagged records flags := by
  induction records using List.reverseRecOn with
  | nil => exact ⟨[], ⟨rfl, by simp, by simp⟩, rfl⟩
  | append_singleton l a ih =>
    obtain ⟨flags, ⟨hlen, h1, h2⟩, hkept⟩ := ih
    have hget : ∀ i : Nat, i < l.length → (l ++ [a])[i]? = l[i]? := fun i hi =>
      List.getElem?_append_left hi
    have hgetf : ∀ (b : Bool) (i : Nat), i < l.length → (flags ++ [b])[i]? = flags[i]? :=
      fun b i hi => List.getElem?_append_left (by omega)
    have hlast : (l ++ [a])[l.length]? = some a := by simp
    have hlastf : ∀ b : Bool, (flags ++ [b])[l.length]? = some b := fun b => by
      rw [← hlen]; simp
    have hbound : ∀ (i : Nat) (c : collectedRecord), (l ++ [a])[i]? = some c → i < l.length ∨ (i = l.length ∧ c = a) := by
      intro i c hc
      rcases Nat.lt_trichotomy i l.length with h | h | h
      · exact Or.inl h
      · subst h
        rw [hlast] at hc
        exact Or.inr ⟨rfl, (Option.some.inj hc).symm⟩
      · rw [List.getElem?_eq_none (by simp; omega)] at hc
        cases hc
    refine ⟨flags ++ [!nearDuplicateOfAny a (dropNearDuplicates l threshold).1 threshold],
      ⟨by simp [hlen], ?_, ?_⟩, ?_⟩
    · intro i c hc hf
      rcases hbound i c hc with hi | ⟨rfl, rfl⟩
      · rw [hget i hi] at hc
        rw [hgetf _ i hi] at hf
        obtain ⟨j, k, hj, hk, hfj, hjac⟩ := h1 i c hc hf
        exact ⟨j, k, hj, by rw [hget j (by omega)]; exact hk,
          by rw [hgetf _ j (by omega)]; exact hfj, hjac⟩
      · rw [hlastf] at hf
        have hnd : nearDuplicateOfAny c (dropNearDuplicates l threshold).1 threshold = true := by
          simpa using Option.some.inj hf
        obtain ⟨k, hk, hjac⟩ := (nearDuplicateOfAny_eq_true_iff c threshold _).1 hnd
        rw [hkept] at hk
        obtain ⟨j, hj1, hj2⟩ := (mem_selectFlagged l flags k).1 hk
        have hjlt : j < l.length := by
          by_contra hge
          rw [List.getElem?_eq_none (by omega)] at hj1
          cases hj1
        exact ⟨j, k, hjlt, by rw [hget j hjlt]; exact hj1,
          by rw [hgetf _ j hjlt]; exact hj2, hjac⟩
    · intro i c hc hf j k hj hk hfj
      rcases hbound i c hc with hi | ⟨rfl, rfl⟩
      · rw [hget i hi] at hc
        rw [hgetf _ i hi] at hf
        rw [hget j (by omega)] at hk
        rw [hgetf _ j (by omega)] at hfj
        exact h2 i c hc hf j k hj hk hfj
      · rw [hlastf] at hf
        have hnd : nearDuplicateOfAny c (dropNearDuplicates l threshold).1 threshold = false := by
          simpa using Option.some.inj hf
        rw [hget j hj] at hk
        rw [hgetf _ j hj] at hfj
        have hmem : k ∈ (dropNearDuplicates l threshold).1 := by
          rw [hkept]
          exact (mem_selectFlagged l flags k).2 ⟨j, hk, hfj⟩
        exact (nearDuplicateOfAny_eq_false_iff c threshold _).1 hnd k hmem
    · rw [dropNearDuplicates_snoc, selectFlagged_snoc _ _ _ _ hlen, hkept]
      cases nearDuplicateOfAny a (selectFlagged l flags) threshold <;> simp

/-- A justified selection is determined by the records and the threshold. -/
theorem justifiedSelection_unique (threshold : ℚ) (records : List collectedRecord)
    (flags flags2 : List Bool) (h : justifiedSelection threshold records flags)
    (h2 : justifiedSelection threshold records flags2) : flags2 = flags := by
  obtain ⟨hlen, hd, hk⟩ := h
  obtain ⟨hlen2, hd2, hk2⟩ := h2
  have key : ∀ i : Nat, flags2[i]? = flags[i]? := by
    intro i
    induction i using Nat.strong_induction_on with
    | _ i ih =>
      by_cases hi : i < records.length
      · obtain ⟨c, hc⟩ : ∃ c, records[i]? = some c :=
          ⟨records[i], List.getElem?_eq_getElem hi⟩
        obtain ⟨b, hb⟩ : ∃ b, flags[i]? = some b :=
          ⟨flags[i], List.getElem?_eq_getElem (by omega)⟩
        obtain ⟨b2, hb2⟩ : ∃ b, flags2[i]? = some b :=
          ⟨flags2[i], List.getElem?_eq_getElem (by omega)⟩
        rw [hb, hb2]
        cases b <;> cases b2
        · rfl
        · exfalso
          obtain ⟨j, k, hj, hkj, hfj, hjac⟩ := hd i c hc hb
          have := hk2 i c hc hb2 j k hj hkj (by rw [ih j hj]; exact hfj)
          exact absurd hjac (not_le.2 this)
        · exfalso
          obtain ⟨j, k, hj, hkj, hfj, hjac⟩ := hd2 i c hc hb2
          have := hk i c hc hb j k hj hkj (by rw [← ih j hj]; exact hfj)
          exact absurd hjac (not_le.2 this)
        · rfl
      · rw [List.getElem?_eq_none (by omega), List.getElem?_eq_none (by omega)]
  exact List.ext_getElem? key

/-- C34, as stated, fails: with the threshold the float64 nearest to 0.1 (which is above
1/10) and two records whose token sets share one token of ten, the second record is
dropped although its Jaccard similarity with the only earlier record, 1/10, is below the
threshold: the float64 quotient `1.0 / 10.0` is the threshold itself. -/
theorem dropNearDuplicates_drops_below_threshold :
    float64Round (float64Round (1 / 10)) = float64Round (1 / 10) ∧
    dropNearDuplicates
      [tokenRecord "a" {"c", "x1", "x2", "x3", "x4"},
        tokenRecord "b" {"c", "y1", "y2", "y3", "y4", "y5"}]
      (float64Round (1 / 10)) = ([tokenRecord "a" {"c", "x1", "x2", "x3", "x4"}], 1) ∧
    jaccard (tokenRecord "b" {"c", "y1", "y2", "y3", "y4", "y5"}).tokenSet
      (tokenRecord "a" {"c", "x1", "x2", "x3", "x4"}).tokenSet = 1 / 10 ∧
    jaccard (tokenRecord "b" {"c", "y1", "y2", "y3", "y4", "y5"}).tokenSet
      (tokenRecord "a" {"c", "x1", "x2", "x3", "x4"}).tokenSet < float64Round (1 / 10) := by
  have htenth : float64Round (1 / 10) = 3602879701896397 / 36028797018963968 := by
    refine (float64Round_eval _ (-4) 7205759403792794 ?_ ?_ ?_).trans ?_
    · norm_num
    · norm_num
    · exact roundHalfEven_of_near _ _ (by norm_num) (by norm_num) (by norm_num)
    · norm_num
  have hidem : float64Round (float64Round (1 / 10)) = float64Round (1 / 10) := by
    rw [htenth]
    refine (float64Round_eval _ (-4) 7205759403792794 ?_ ?_ ?_).trans ?_
    · norm_num
    · norm_num
    · exact roundHalfEven_of_near _ _ (by norm_num) (by norm_num) (by norm_num)
    · norm_num
  have hjac : jaccard (tokenRecord "b" {"c", "y1", "y2", "y3", "y4", "y5"}).tokenSet
      (tokenRecord "a" {"c", "x1", "x2", "x3", "x4"}).tokenSet = 1 / 10 := by
    rw [jaccard_eq]
    have h1 : (({"c", "y1", "y2", "y3", "y4", "y5"} : Finset String) ∩
        {"c", "x1", "x2", "x3", "x4"}).card = 1 := by decide
    have h2 : (({"c", "y1", "y2", "y3", "y4", "y5"} : Finset String) ∪
        {"c", "x1", "x2", "x3", "x4"}).card = 10 := by decide
    have h3 : ¬ (({"c", "y1", "y2", "y3", "y4", "y5"} : Finset String) = ∅ ∨
        ({"c", "x1", "x2", "x3", "x4"} : Finset String) = ∅) := by decide
    simp only [tokenRecord]
    rw [if_neg h3, h1, h2]
    norm_num
  refine ⟨hidem, ?_, hjac, ?_⟩
  · rw [dropNearDuplicates_pair, hjac, hidem, if_pos (le_refl _)]
  · rw [hjac, htenth]
    norm_num

/-- C34 (amended): `dropNearDuplicates` drops a record only with justification. The kept
records are the input records at the positions of a selection in which every position
that is not kept has a kept earlier position whose Jaccard similarity with it, taken as
the float64 quotient that `jaccard` returns, is at least the threshold, and every kept
position is below the threshold against the kept earlier positions; there is only one
such selection (the greedy first-seen one). -/
theorem dropNearDuplicates_drops_with_justification (records : List collectedRecord)
    (threshold : ℚ) :
    ∃ flags, justifiedSelection threshold records flags ∧
      (dropNearDuplicates records threshold).1 = selectFlagged records flags ∧
      ∀ flags2, justifiedSelection threshold records flags2 → flags2 = flags := by
  obtain ⟨flags, hsel, hkept⟩ := dropNearDuplicates_selection records threshold
  exact ⟨flags, hsel, hkept,
    fun flags2 h2 => justifiedSelection_unique threshold records flags flags2 hsel h2⟩

/-- Instance of the amended C34: three records, the third with the tokens of the first. -/
theorem dropNearDuplicates_drops_with_justification_witness :
    ∃ flags, justifiedSelection (1 / 2)
        [tokenRecord "a" {"x", "y"}, tokenRecord "b" {"z"}, tokenRecord "c" {"x", "y"}]
        flags ∧
      (dropNearDuplicates
        [tokenRecord "a" {"x", "y"}, tokenRecord "b" {"z"}, tokenRecord "c" {"x", "y"}]
        (1 / 2)).1 =
        selectFlagged
          [tokenRecord "a" {"x", "y"}, tokenRecord "b" {"z"}, tokenRecord "c" {"x", "y"}]
          flags ∧
      ∀ flags2, justifiedSelection (1 / 2)
        [tokenRecord "a" {"x", "y"}, tokenRecord "b" {"z"}, tokenRecord "c" {"x", "y"}]
        flags2 → flags2 = flags :=
  dropNearDuplicates_drops_with_justification
    [tokenRecord "a" {"x", "y"}, tokenRecord "b" {"z"}, tokenRecord "c" {"x", "y"}] (1 / 2)

/-! ### Category balance: what one pass does to the kept flags -/

/-- The flags after a pass: an identifier stays kept unless it is the identifier of an
overflow record of some visited category. -/
theorem applyBalancePass_fst (allCategories : List Category) (ranges : Ranges)
    (k : String → Bool) (groups : Category → List collectedRecord) (total : Int)
    (id : String) :
    (applyBalancePass allCategories ranges k groups total).1 id =
      (k id && !decide (id ∈ (allCategories.flatMap (overflowOf ranges groups total)).map
        (fun r => r.RecordID))) := by
  unfold applyBalancePass
  rw [applyBalancePassLoop_eq_dropOverflow, dropOverflow_fst]

/-- A pass never re-keeps a dropped identifier. -/
theorem applyBalancePass_mono (allCategories : List Category) (ranges : Ranges)
    (k : String → Bool) (groups : Category → List collectedRecord) (total : Int)
    (id : String) (h : (applyBalancePass allCategories ranges k groups total).1 id = true) :
    k id = true := by
  rw [applyBalancePass_fst] at h
  simp only [Bool.and_eq_true] at h
  exact h.1

/-- A pass that counts a drop marks an identifier of a kept input record as dropped. -/
theorem applyBalancePass_drops_kept (allCategories : List Category)
    (records : List collectedRecord) (ranges : Ranges) (k : String → Bool) (total : Int)
    (h : (applyBalancePass allCategories ranges k
      (groupRecordsByCategory (filterKeptRecords records k)) total).2 ≠ 0) :
    ∃ r ∈ records, k r.RecordID = true ∧
      (applyBalancePass allCategories ranges k
        (groupRecordsByCategory (filterKeptRecords records k)) total).1 r.RecordID = false := by
  have hlt := (applyBalancePass_shrinks allCategories records ranges k total).2 h
  generalize (applyBalancePass allCategories ranges k
    (groupRecordsByCategory (filterKeptRecords records k)) total).1 = k2 at hlt ⊢
  rw [filterKeptRecords_eq_filter, filterKeptRecords_eq_filter,
    ← List.countP_eq_length_filter, ← List.countP_eq_length_filter] at hlt
  by_contra hno
  push_neg at hno
  have hle : List.countP (fun r => k r.RecordID) records ≤
      List.countP (fun r => k2 r.RecordID) records := by
    apply List.countP_mono_left
    intro r hmem hr
    have := hno r hmem hr
    simpa using this
  omega

/-- More passes of fuel than the loop needs do not change its result. -/
theorem applyBalanceLoop_fuel_mono (allCategories : List Category)
    (records : List collectedRecord) (ranges : Ranges) :
    ∀ (fuel : Nat) (k : String → Bool) (d : Int) (st : (String → Bool) × Int),
      applyBalanceLoop allCategories records ranges fuel k d = some st →
      ∀ extra, applyBalanceLoop allCategories records ranges (fuel + extra) k d = some st := by
  intro fuel
  induction fuel with
  | zero => intro k d st h; simp [applyBalanceLoop] at h
  | succ fuel ih =>
    intro k d st h extra
    have he : fuel + 1 + extra = (fuel + extra) + 1 := by omega
    rw [he, applyBalanceLoop_succ]
    rw [applyBalanceLoop_succ] at h
    split_ifs at h ⊢ with h1 h2
    · exact h
    · exact h
    · exact ih _ _ _ h extra

/-- C32: `applyBalance` terminates for every input. Its pass loop, started from the flags
that keep every record, exits within `len(records) + 1` passes (and allowing more passes
gives the same result), so `applyBalance` returns; the reason is that a pass never
re-keeps a dropped `RecordID`, and a pass that is not the last one (it counts a drop)
marks the `RecordID` of a kept input record as dropped. -/
theorem applyBalance_terminates (allCategories : List Category)
    (records : List collectedRecord) (ranges : Ranges) :
    (∃ st, applyBalanceLoop allCategories records ranges (records.length + 1)
        (markAllKept records (fun _ => false)) 0 = some st ∧
      ∀ extra, applyBalanceLoop allCategories records ranges (records.length + 1 + extra)
        (markAllKept records (fun _ => false)) 0 = some st) ∧
    (∃ res, applyBalance allCategories records ranges = some res) ∧
    (∀ (k : String → Bool) (total : Int),
      (∀ id, (applyBalancePass allCategories ranges k
          (groupRecordsByCategory (filterKeptRecords records k)) total).1 id = true →
        k id = true) ∧
      ((applyBalancePass allCategories ranges k
          (groupRecordsByCategory (filterKeptRecords records k)) total).2 ≠ 0 →
        ∃ r ∈ records, k r.RecordID = true ∧
          (applyBalancePass allCategories ranges k
            (groupRecordsByCategory (filterKeptRecords records k)) total).1 r.RecordID =
            false)) := by
  obtain ⟨st, hst⟩ := applyBalanceLoop_returns allCategories records ranges
    (records.length + 1) (markAllKept records (fun _ => false)) 0
    (by rw [filterKeptRecords_markAllKept]; omega)
  refine ⟨⟨st, hst, applyBalanceLoop_fuel_mono allCategories records ranges _ _ _ _ hst⟩,
    applyBalance_returns allCategories records ranges, fun k total => ⟨?_, ?_⟩⟩
  · intro id h
    exact applyBalancePass_mono allCategories ranges k _ total id h
  · intro h
    exact applyBalancePass_drops_kept allCategories records ranges k total h

/-! ### Category balance: four records of one category against the cap one half -/

theorem maxCountFor_half_two : maxCountFor (1 / 2) 2 = 1 := by
  have h := maxCountFor_eq_max (1 / 2) ((2 : ℕ) : Int)
  rw [float64Round_half, float64Round_intCast_small 2 (by norm_num)] at h
  have e : (1 / 2 : ℚ) * ((2 : ℕ) : ℚ) = ((1 : ℕ) : ℚ) := by norm_num
  rw [e, float64Round_natCast 1 (by norm_num)] at h
  simpa using h

theorem maxCountFor_half_one : maxCountFor (1 / 2) 1 = 1 := by
  have h := maxCountFor_eq_max (1 / 2) ((1 : ℕ) : Int)
  rw [float64Round_half, float64Round_intCast_small 1 (by norm_num)] at h
  have e : float64Round ((1 / 2 : ℚ) * ((1 : ℕ) : ℚ)) = 1 / 2 := by
    have e2 : (1 / 2 : ℚ) * ((1 : ℕ) : ℚ) = 1 / 2 := by norm_num
    rw [e2, float64Round_half]
  rw [e] at h
  have hc : Int.ceil (1 / 2 : ℚ) = 1 := by
    rw [Int.ceil_eq_iff]; norm_num
  rw [hc] at h
  simpa using h

theorem sortByRecordID_of_sorted (xs : List collectedRecord)
    (h : xs.Pairwise (fun a b => a.RecordID ≤ b.RecordID)) : sortByRecordID xs = xs :=
  List.Sorted.insertionSort_eq h

theorem fourDocs_sorted : fourDocs.Pairwise (fun a b => a.RecordID ≤ b.RecordID) := by
  simp only [fourDocs, plainRecord, List.pairwise_cons, List.mem_cons, List.mem_singleton,
    forall_eq_or_imp, forall_eq, List.not_mem_nil, IsEmpty.forall_iff, implies_true,
    List.Pairwise.nil, and_true, ← not_lt, String.lt_iff_toList_lt]
  decide

/-- The overflow of a pass over the one category "docs" with the cap one half. -/
theorem docs_pass_overflow (groups : Category → List collectedRecord) (total : Int) :
    ["docs"].flatMap (overflowOf balanceRanges groups total) =
      if ((groups "docs").length : Int) ≤ maxCountFor (1 / 2) total then []
      else (sortByRecordID (groups "docs")).drop (maxCountFor (1 / 2) total).toNat := by
  simp [overflowOf_balanceRanges]

/-- The three passes over `fourDocs`: the first drops `r3` and `r4`, the second drops
`r2`, the third drops nothing. -/
theorem fourDocs_passes :
    ["docs"].flatMap (overflowOf balanceRanges
        (groupRecordsByCategory fourDocs) 4) =
      [plainRecord "r3" "docs" false, plainRecord "r4" "docs" false] ∧
    ["docs"].flatMap (overflowOf balanceRanges
        (groupRecordsByCategory [plainRecord "r1" "docs" false, plainRecord "r2" "docs" false])
        2) = [plainRecord "r2" "docs" false] ∧
    ["docs"].flatMap (overflowOf balanceRanges
        (groupRecordsByCategory [plainRecord "r1" "docs" false]) 1) = [] := by
  have hs4 : sortByRecordID fourDocs = fourDocs := sortByRecordID_of_sorted _ fourDocs_sorted
  have hs2 : sortByRecordID [plainRecord "r1" "docs" false, plainRecord "r2" "docs" false] =
      [plainRecord "r1" "docs" false, plainRecord "r2" "docs" false] :=
    sortByRecordID_of_sorted _ (List.Pairwise.sublist (by simp [fourDocs]) fourDocs_sorted)
  have hg4 : groupRecordsByCategory fourDocs "docs" = fourDocs := by
    rw [groupRecordsByCategory_eq]; rfl
  have hg2 : groupRecordsByCategory
      [plainRecord "r1" "docs" false, plainRecord "r2" "docs" false] "docs" =
      [plainRecord "r1" "docs" false, plainRecord "r2" "docs" false] := by
    rw [groupRecordsByCategory_eq]; rfl
  have hg1 : groupRecordsByCategory [plainRecord "r1" "docs" false] "docs" =
      [plainRecord "r1" "docs" false] := by
    rw [groupRecordsByCategory_eq]; rfl
  refine ⟨?_, ?_, ?_⟩
  · rw [docs_pass_overflow, hg4, hs4, maxCountFor_half_four]
    simp [fourDocs]
  · rw [docs_pass_overflow, hg2, hs2, maxCountFor_half_two]
    simp
  · rw [docs_pass_overflow, hg1, maxCountFor_half_one]
    simp

/-- The records kept after a pass: the records kept before it, without the ones whose
identifier is the identifier of an overflow record. -/
theorem filterKeptRecords_applyBalancePass (allCategories : List Category)
    (records : List collectedRecord) (ranges : Ranges) (k : String → Bool)
    (groups : Category → List collectedRecord) (total : Int) :
    filterKeptRecords records (applyBalancePass allCategories ranges k groups total).1 =
      (filterKeptRecords records k).filter (fun r =>
        !decide (r.RecordID ∈ (allCategories.flatMap (overflowOf ranges groups total)).map
          (fun o => o.RecordID))) := by
  rw [filterKeptRecords_eq_filter, filterKeptRecords_eq_filter, List.filter_filter]
  apply List.filter_congr
  intro r _
  rw [applyBalancePass_fst, Bool.and_comm]

/-- The passes of `applyBalance` over `fourDocs`, from any flags that keep the stated
records: the count of each pass and the records kept after it. -/
theorem fourDocs_pass_results (k : String → Bool) :
    (filterKeptRecords fourDocs k = fourDocs →
      (applyBalancePass ["docs"] balanceRanges k
        (groupRecordsByCategory (filterKeptRecords fourDocs k)) 4).2 = 2 ∧
      filterKeptRecords fourDocs (applyBalancePass ["docs"] balanceRanges k
        (groupRecordsByCategory (filterKeptRecords fourDocs k)) 4).1 =
        [plainRecord "r1" "docs" false, plainRecord "r2" "docs" false]) ∧
    (filterKeptRecords fourDocs k =
        [plainRecord "r1" "docs" false, plainRecord "r2" "docs" false] →
      (applyBalancePass ["docs"] balanceRanges k
        (groupRecordsByCategory (filterKeptRecords fourDocs k)) 2).2 = 1 ∧
      filterKeptRecords fourDocs (applyBalancePass ["docs"] balanceRanges k
        (groupRecordsByCategory (filterKeptRecords fourDocs k)) 2).1 =
        [plainRecord "r1" "docs" false]) ∧
    (filterKeptRecords fourDocs k = [plainRecord "r1" "docs" false] →
      (applyBalancePass ["docs"] balanceRanges k
        (groupRecordsByCategory (filterKeptRecords fourDocs k)) 1).2 = 0 ∧
      filterKeptRecords fourDocs (applyBalancePass ["docs"] balanceRanges k
        (groupRecordsByCategory (filterKeptRecords fourDocs k)) 1).1 =
        [plainRecord "r1" "docs" false]) := by
  have hnd : (fourDocs.map (fun r => r.RecordID)).Nodup := by decide
  obtain ⟨h4, h2, h1⟩ := fourDocs_passes
  refine ⟨fun hk => ?_, fun hk => ?_, fun hk => ?_⟩
  · have hcount := applyBalancePass_count ["docs"] fourDocs balanceRanges k 4 hnd
    have hf := filterKeptRecords_applyBalancePass ["docs"] fourDocs balanceRanges k
      (groupRecordsByCategory (filterKeptRecords fourDocs k)) 4
    rw [hk] at hcount hf ⊢
    rw [h4] at hf
    have hf2 : filterKeptRecords fourDocs (applyBalancePass ["docs"] balanceRanges k
        (groupRecordsByCategory fourDocs) 4).1 =
        [plainRecord "r1" "docs" false, plainRecord "r2" "docs" false] := by
      rw [hf]; decide
    rw [hf2] at hcount
    refine ⟨?_, hf2⟩
    have hl : fourDocs.length = 4 := rfl
    rw [hl] at hcount
    simp only [List.length_cons, List.length_nil] at hcount
    push_cast at hcount
    omega
  · have hcount := applyBalancePass_count ["docs"] fourDocs balanceRanges k 2 hnd
    have hf := filterKeptRecords_applyBalancePass ["docs"] fourDocs balanceRanges k
      (groupRecordsByCategory (filterKeptRecords fourDocs k)) 2
    rw [hk] at hcount hf ⊢
    rw [h2] at hf
    have hf2 : filterKeptRecords fourDocs (applyBalancePass ["docs"] balanceRanges k
        (groupRecordsByCategory
          [plainRecord "r1" "docs" false, plainRecord "r2" "docs" false]) 2).1 =
        [plainRecord "r1" "docs" false] := by
      rw [hf]; decide
    rw [hf2] at hcount
    refine ⟨?_, hf2⟩
    simp only [List.length_cons, List.length_nil] at hcount
    push_cast at hcount
    omega
  · have hcount := applyBalancePass_count ["docs"] fourDocs balanceRanges k 1 hnd
    have hf := filterKeptRecords_applyBalancePass ["docs"] fourDocs balanceRanges k
      (groupRecordsByCategory (filterKeptRecords fourDocs k)) 1
    rw [hk] at hcount hf ⊢
    rw [h1] at hf
    have hf2 : filterKeptRecords fourDocs (applyBalancePass ["docs"] balanceRanges k
        (groupRecordsByCategory [plainRecord "r1" "docs" false]) 1).1 =
        [plainRecord "r1" "docs" false] := by
      rw [hf]; decide
    rw [hf2] at hcount
    refine ⟨?_, hf2⟩
    simp only [List.length_cons, List.length_nil] at hcount
    push_cast at hcount
    omega

/-- C35: a single sweep is not enough. On four records of the one category "docs" with
the cap one half, the first pass of `applyBalance` drops two records; the two records
kept after it still exceed `max(1, ceil(Max * total))` for the reduced total 2, and the
second pass drops one more record; `applyBalance` returns a single kept record and the
count 3. -/
theorem applyBalance_needs_second_pass :
    ∃ p1 p2 : (String → Bool) × Int,
      p1 = applyBalancePass ["docs"] balanceRanges (markAllKept fourDocs (fun _ => false))
        (groupRecordsByCategory
          (filterKeptRecords fourDocs (markAllKept fourDocs (fun _ => false)))) 4 ∧
      p2 = applyBalancePass ["docs"] balanceRanges p1.1
        (groupRecordsByCategory (filterKeptRecords fourDocs p1.1))
        ((filterKeptRecords fourDocs p1.1).length : Int) ∧
      p1.2 = 2 ∧
      filterKeptRecords fourDocs p1.1 =
        [plainRecord "r1" "docs" false, plainRecord "r2" "docs" false] ∧
      max 1 (Int.ceil ((1 / 2 : ℚ) * (((filterKeptRecords fourDocs p1.1).length : Int) : ℚ))) <
        countCategory (filterKeptRecords fourDocs p1.1) "docs" ∧
      p2.2 = 1 ∧
      filterKeptRecords fourDocs p2.1 = [plainRecord "r1" "docs" false] ∧
      applyBalance ["docs"] fourDocs balanceRanges =
        some ([plainRecord "r1" "docs" false], 3,
          checkBalanceViolations [plainRecord "r1" "docs" false] balanceRanges) := by
  have hk0 : filterKeptRecords fourDocs (markAllKept fourDocs (fun _ => false)) = fourDocs :=
    filterKeptRecords_markAllKept fourDocs
  obtain ⟨h1a, h1b⟩ := (fourDocs_pass_results (markAllKept fourDocs (fun _ => false))).1 hk0
  generalize hp1 : applyBalancePass ["docs"] balanceRanges
    (markAllKept fourDocs (fun _ => false))
    (groupRecordsByCategory
      (filterKeptRecords fourDocs (markAllKept fourDocs (fun _ => false)))) 4 = p1
    at h1a h1b
  obtain ⟨h2a, h2b⟩ := (fourDocs_pass_results p1.1).2.1 h1b
  have hlen1 : ((filterKeptRecords fourDocs p1.1).length : Int) = 2 := by rw [h1b]; rfl
  generalize hp2 : applyBalancePass ["docs"] balanceRanges p1.1
    (groupRecordsByCategory (filterKeptRecords fourDocs p1.1)) 2 = p2 at h2a h2b
  obtain ⟨h3a, h3b⟩ := (fourDocs_pass_results p2.1).2.2 h2b
  have hlen2 : ((filterKeptRecords fourDocs p2.1).length : Int) = 1 := by rw [h2b]; rfl
  refine ⟨p1, p2, rfl, by rw [hlen1, hp2], h1a, h1b, ?_, h2a, h2b, ?_⟩
  · rw [hlen1, h1b]
    have hceil : Int.ceil ((1 / 2 : ℚ) * ((2 : Int) : ℚ)) = 1 := by
      rw [Int.ceil_eq_iff]; norm_num
    rw [hceil]
    decide
  · unfold applyBalance
    rw [if_neg (by decide)]
    have hfuel : fourDocs.length + 1 = 4 + 1 := rfl
    rw [hfuel, applyBalanceLoop_succ, hk0]
    have h4 : ((fourDocs.length : Nat) : Int) = 4 := rfl
    rw [h4]
    rw [hk0] at hp1
    rw [hp1, h1a, if_neg (by decide), if_neg (by decide), applyBalanceLoop_succ, hlen1, hp2,
      h2a, if_neg (by decide), if_neg (by decide), applyBalanceLoop_succ, hlen2, h3a,
      if_neg (by decide), if_pos rfl]
    simp only [h3b]
    rfl

/-- Instance of C32: on four "docs" records with the cap one half, the first pass counts
a drop, and it marks a kept record as dropped. -/
theorem applyBalance_terminates_witness :
    ∃ r ∈ fourDocs, markAllKept fourDocs (fun _ => false) r.RecordID = true ∧
      (applyBalancePass ["docs"] balanceRanges (markAllKept fourDocs (fun _ => false))
        (groupRecordsByCategory
          (filterKeptRecords fourDocs (markAllKept fourDocs (fun _ => false))))
        4).1 r.RecordID = false :=
  ((applyBalance_terminates ["docs"] fourDocs balanceRanges).2.2
    (markAllKept fourDocs (fun _ => false)) 4).2 (by
      rw [((fourDocs_pass_results (markAllKept fourDocs (fun _ => false))).1
        (filterKeptRecords_markAllKept fourDocs)).1]
      decide)

/-! ### Category balance: which records a pass sacrifices -/

theorem eq_of_mem_of_RecordID_eq (records : List collectedRecord)
    (hnd : (records.map (fun r => r.RecordID)).Nodup) (a b : collectedRecord)
    (ha : a ∈ records) (hb : b ∈ records) (h : a.RecordID = b.RecordID) : a = b :=
  List.inj_on_of_nodup_map hnd ha hb h

theorem mem_group_iff (records : List collectedRecord) (k : String → Bool) (c : Category)
    (x : collectedRecord) :
    x ∈ groupRecordsByCategory (filterKeptRecords records k) c ↔
      x ∈ records ∧ k x.RecordID = true ∧ x.Category = c := by
  rw [groupRecordsByCategory_eq, filterKeptRecords_eq_filter]
  simp only [List.mem_filter, decide_eq_true_eq]
  tauto

theorem group_ids_nodup (records : List collectedRecord) (k : String → Bool) (c : Category)
    (hnd : (records.map (fun r => r.RecordID)).Nodup) :
    ((groupRecordsByCategory (filterKeptRecords records k) c).map
      (fun r => r.RecordID)).Nodup := by
  rw [groupRecordsByCategory_eq, filterKeptRecords_eq_filter]
  exact List.Nodup.sublist
    (List.Sublist.map _ ((List.filter_sublist _).trans (List.filter_sublist _))) hnd

/-- A non-empty overflow is the sorted group from position `maxCount` on, and `maxCount`
is at least 1. -/
theorem overflowOf_eq_drop (ranges : Ranges) (groups : Category → List collectedRecord)
    (total : Int) (c : Category) (o : collectedRecord)
    (ho : o ∈ overflowOf ranges groups total c) :
    ∃ m : Nat, 1 ≤ m ∧
      overflowOf ranges groups total c = (sortByRecordID (groups c)).drop m := by
  unfold overflowOf at ho ⊢
  split at ho
  · simp at ho
  · rename_i rng hl
    split_ifs at ho with h1 h2 h3
    · simp at ho
    · simp at ho
    · simp at ho
    · refine ⟨(maxCountFor rng.Max total).toNat, ?_, ?_⟩
      · have := maxCountFor_pos rng.Max total
        omega
      · rw [if_neg h1, if_neg h2, if_neg h3]

/-- In a list in strictly ascending identifier order, the members from position `m` on are
the members with at least `m` members of smaller identifier. -/
theorem mem_drop_of_strict (L : List collectedRecord)
    (hs : (L.map (fun r => r.RecordID)).Pairwise (fun a b => a < b)) (m : Nat)
    (x : collectedRecord) :
    x ∈ L.drop m ↔
      x ∈ L ∧ m ≤ (L.filter (fun y => decide (y.RecordID < x.RecordID))).length := by
  have hnd : L.Nodup := by
    have : (L.map (fun r => r.RecordID)).Nodup :=
      List.Pairwise.imp (fun h => ne_of_lt h) hs
    exact List.Nodup.of_map _ this
  have htake := mem_take_of_strict L hs m x
  constructor
  · intro hx
    have hmem : x ∈ L := List.mem_of_mem_drop hx
    refine ⟨hmem, ?_⟩
    by_contra hlt
    have hxt : x ∈ L.take m := htake.2 ⟨hmem, by omega⟩
    exact List.disjoint_take_drop hnd (le_refl m) hxt hx
  · rintro ⟨hmem, hle⟩
    have hnt : x ∉ L.take m := fun h => by
      have := (htake.1 h).2
      omega
    have : x ∈ L.take m ++ L.drop m := by rw [List.take_append_drop]; exact hmem
    rcases List.mem_append.1 this with h | h
    · exact absurd h hnt
    · exact h

/-- An overflow record of a pass is a kept input record of the visited category, and the
overflow of that category is its sorted group from some position `m ≥ 1` on. -/
theorem mem_pass_overflow (allCategories : List Category) (records : List collectedRecord)
    (ranges : Ranges) (k : String → Bool) (total : Int) (o : collectedRecord)
    (ho : o ∈ allCategories.flatMap (overflowOf ranges
      (groupRecordsByCategory (filterKeptRecords records k)) total)) :
    o ∈ records ∧ k o.RecordID = true ∧ o.Category ∈ allCategories ∧
    ∃ m : Nat, 1 ≤ m ∧
      overflowOf ranges (groupRecordsByCategory (filterKeptRecords records k)) total
          o.Category =
        (sortByRecordID
          (groupRecordsByCategory (filterKeptRecords records k) o.Category)).drop m ∧
      o ∈ (sortByRecordID
          (groupRecordsByCategory (filterKeptRecords records k) o.Category)).drop m := by
  obtain ⟨c, hc, hoc⟩ := List.mem_flatMap.1 ho
  have hg := overflowOf_subset _ _ _ _ _ hoc
  obtain ⟨hrec, hk, hcat⟩ := (mem_group_iff records k c o).1 hg
  subst hcat
  obtain ⟨m, hm, heq⟩ := overflowOf_eq_drop _ _ _ _ _ hoc
  exact ⟨hrec, hk, hc, m, hm, heq, heq ▸ hoc⟩

/-- A pass keeps a record of every category that has a kept record: the kept record with
the smallest identifier of the category is never in the overflow. -/
theorem applyBalancePass_keeps_category (allCategories : List Category)
    (records : List collectedRecord) (ranges : Ranges) (k : String → Bool) (total : Int)
    (hnd : (records.map (fun r => r.RecordID)).Nodup) (c : Category)
    (h : ∃ r ∈ records, r.Category = c ∧ k r.RecordID = true) :
    ∃ r ∈ records, r.Category = c ∧
      (applyBalancePass allCategories ranges k
        (groupRecordsByCategory (filterKeptRecords records k)) total).1 r.RecordID = true := by
  obtain ⟨r, hr, hrc, hrk⟩ := h
  have hrg : r ∈ groupRecordsByCategory (filterKeptRecords records k) c :=
    (mem_group_iff records k c r).2 ⟨hr, hrk, hrc⟩
  have hstrict := sortByRecordID_strict _ (group_ids_nodup records k c hnd)
  have hperm := sortByRecordID_perm (groupRecordsByCategory (filterKeptRecords records k) c)
  cases hL : sortByRecordID (groupRecordsByCategory (filterKeptRecords records k) c) with
  | nil =>
    have := hperm.symm.subset hrg
    rw [hL] at this
    cases this
  | cons a tl =>
    have ha : a ∈ groupRecordsByCategory (filterKeptRecords records k) c :=
      hperm.subset (by rw [hL]; exact List.mem_cons_self _ _)
    obtain ⟨harec, hak, hac⟩ := (mem_group_iff records k c a).1 ha
    refine ⟨a, harec, hac, ?_⟩
    rw [applyBalancePass_fst, hak, Bool.true_and]
    simp only [Bool.not_eq_true', decide_eq_false_iff_not]
    intro hin
    obtain ⟨o, ho, hid⟩ := List.mem_map.1 hin
    obtain ⟨horec, _, _, m, hm, _, hdrop⟩ :=
      mem_pass_overflow allCategories records ranges k total o ho
    have hoa : o = a := eq_of_mem_of_RecordID_eq records hnd o a horec harec hid
    subst hoa
    rw [hac, hL] at hdrop
    have hnodup : (o :: tl).Nodup := by
      rw [hL] at hstrict
      exact List.Nodup.of_map _ (List.Pairwise.imp (fun h => ne_of_lt h) hstrict)
    obtain ⟨m2, rfl⟩ : ∃ m2, m = m2 + 1 := ⟨m - 1, by omega⟩
    rw [List.drop_succ_cons] at hdrop
    exact (List.nodup_cons.1 hnodup).1 (List.mem_of_mem_drop hdrop)

/-- A pass sacrifices the highest identifiers of a category: if the kept flags are closed
under going down in identifier within a category before a pass, they are after it. -/
theorem applyBalancePass_downward (allCategories : List Category)
    (records : List collectedRecord) (ranges : Ranges) (k : String → Bool) (total : Int)
    (hnd : (records.map (fun r => r.RecordID)).Nodup)
    (hI : ∀ a ∈ records, ∀ b ∈ records, a.Category = b.Category →
      a.RecordID < b.RecordID → k b.RecordID = true → k a.RecordID = true) :
    ∀ a ∈ records, ∀ b ∈ records, a.Category = b.Category →
      a.RecordID < b.RecordID →
      (applyBalancePass allCategories ranges k
        (groupRecordsByCategory (filterKeptRecords records k)) total).1 b.RecordID = true →
      (applyBalancePass allCategories ranges k
        (groupRecordsByCategory (filterKeptRecords records k)) total).1 a.RecordID = true := by
  intro a ha b hb hcat hlt hkb
  rw [applyBalancePass_fst] at hkb ⊢
  simp only [Bool.and_eq_true, Bool.not_eq_true', decide_eq_false_iff_not] at hkb ⊢
  obtain ⟨hbk, hbno⟩ := hkb
  have hak := hI a ha b hb hcat hlt hbk
  refine ⟨hak, ?_⟩
  intro hin
  apply hbno
  obtain ⟨o, ho, hid⟩ := List.mem_map.1 hin
  obtain ⟨horec, _, hc, m, _, heq, hdrop⟩ :=
    mem_pass_overflow allCategories records ranges k total o ho
  have hoa : o = a := eq_of_mem_of_RecordID_eq records hnd o a horec ha hid
  subst hoa
  have hstrict := sortByRecordID_strict _ (group_ids_nodup records k o.Category hnd)
  have hbg : b ∈ sortByRecordID
      (groupRecordsByCategory (filterKeptRecords records k) o.Category) :=
    (sortByRecordID_perm _).symm.subset
      ((mem_group_iff records k o.Category b).2 ⟨hb, hbk, hcat.symm⟩)
  have hmo := ((mem_drop_of_strict _ hstrict m o).1 hdrop).2
  have hbdrop : b ∈ (sortByRecordID
      (groupRecordsByCategory (filterKeptRecords records k) o.Category)).drop m := by
    refine (mem_drop_of_strict _ hstrict m b).2 ⟨hbg, le_trans hmo ?_⟩
    rw [← List.countP_eq_length_filter, ← List.countP_eq_length_filter]
    apply List.countP_mono_left
    intro y _ hy
    simp only [decide_eq_true_eq] at hy ⊢
    exact lt_trans hy hlt
  refine List.mem_map.2 ⟨b, List.mem_flatMap.2 ⟨o.Category, hc, ?_⟩, rfl⟩
  rw [heq]
  exact hbdrop

/-! ### Category balance: invariants of the pass loop -/

/-- A property of the kept flags that every pass preserves holds when the loop exits. -/
theorem applyBalanceLoop_invariant (P : (String → Bool) → Prop)
    (allCategories : List Category) (records : List collectedRecord) (ranges : Ranges)
    (hstep : ∀ (k : String → Bool) (total : Int), P k →
      P (applyBalancePass allCategories ranges k
        (groupRecordsByCategory (filterKeptRecords records k)) total).1) :
    ∀ (fuel : Nat) (k : String → Bool) (d : Int) (st : (String → Bool) × Int),
      applyBalanceLoop allCategories records ranges fuel k d = some st → P k → P st.1 := by
  intro fuel
  induction fuel with
  | zero => intro k d st h; simp [applyBalanceLoop] at h
  | succ fuel ih =>
    intro k d st h hk
    rw [applyBalanceLoop_succ] at h
    split_ifs at h with h1 h2
    · cases h
      exact hk
    · cases h
      exact hstep k _ hk
    · exact ih _ _ _ h (hstep k _ hk)

/-- The kept list of `applyBalance` is the input filtered by flags that satisfy every
property which holds of the initial flags and is preserved by a pass. -/
theorem applyBalance_invariant (P : (String → Bool) → Prop)
    (allCategories : List Category) (records : List collectedRecord) (ranges : Ranges)
    (h0 : P (markAllKept records (fun _ => false)))
    (hstep : ∀ (k : String → Bool) (total : Int), P k →
      P (applyBalancePass allCategories ranges k
        (groupRecordsByCategory (filterKeptRecords records k)) total).1)
    (res : List collectedRecord × Int × List String)
    (hres : applyBalance allCategories records ranges = some res) :
    ∃ k, P k ∧ res.1 = filterKeptRecords records k ∧
      res.2.2 = if ranges.length = 0 ∨ records.length = 0 then []
        else checkBalanceViolations res.1 ranges := by
  unfold applyBalance at hres
  split_ifs at hres with ht
  · cases hres
    exact ⟨_, h0, (filterKeptRecords_markAllKept records).symm, by rw [if_pos ht]⟩
  · split at hres
    · cases hres
    · rename_i st hst
      cases hres
      refine ⟨st.1, applyBalanceLoop_invariant P allCategories records ranges hstep _ _ _ _
        hst h0, rfl, ?_⟩
      rw [if_neg ht]

/-- In a list in strictly ascending identifier order, the members satisfying a property
that is closed under going down in identifier are the first `n` members, for some `n`. -/
theorem downward_closed_is_take (p : collectedRecord → Prop) (L : List collectedRecord)
    (hs : (L.map (fun r => r.RecordID)).Pairwise (fun a b => a < b))
    (hp : ∀ a ∈ L, ∀ b ∈ L, a.RecordID < b.RecordID → p b → p a) :
    ∃ n, ∀ x, (x ∈ L ∧ p x) ↔ x ∈ L.take n := by
  induction L with
  | nil => exact ⟨0, fun x => by simp⟩
  | cons y tl ih =>
    rw [List.map_cons, List.pairwise_cons] at hs
    obtain ⟨n, hn⟩ := ih hs.2 (fun a ha b hb => hp a (List.mem_cons_of_mem _ ha) b
      (List.mem_cons_of_mem _ hb))
    by_cases hy : p y
    · refine ⟨n + 1, fun x => ?_⟩
      rw [List.take_succ_cons, List.mem_cons, List.mem_cons, ← hn x]
      constructor
      · rintro ⟨h | h, hx⟩
        · exact Or.inl h
        · exact Or.inr ⟨h, hx⟩
      · rintro (h | ⟨h, hx⟩)
        · exact ⟨Or.inl h, h ▸ hy⟩
        · exact ⟨Or.inr h, hx⟩
    · refine ⟨0, fun x => ?_⟩
      simp only [List.take_zero, List.not_mem_nil, iff_false, not_and]
      intro hx hpx
      rcases List.mem_cons.1 hx with h | h
      · exact hy (h ▸ hpx)
      · exact hy (hp y (List.mem_cons_self _ _) x hx
          (hs.1 _ (List.mem_map.2 ⟨x, h, rfl⟩)) hpx)

/-- C33: `applyBalance` always sacrifices the highest identifiers of a category. For an
input with pairwise distinct `RecordID` values, `applyBalance` returns, and for every two
input records `a`, `b` of the same category with `a.RecordID < b.RecordID`, if `b` is in
the returned kept list then `a` is too; the kept records of each category are the first
`n` records of that category in ascending `RecordID` order, for some `n`. -/
theorem applyBalance_sacrifices_highest_ids (allCategories : List Category)
    (records : List collectedRecord) (ranges : Ranges)
    (hnd : (records.map (fun r => r.RecordID)).Nodup) :
    ∃ res, applyBalance allCategories records ranges = some res ∧
      (∀ a ∈ records, ∀ b ∈ records, a.Category = b.Category →
        a.RecordID < b.RecordID → b ∈ res.1 → a ∈ res.1) ∧
      (∀ c : Category, ∃ n, ∀ x, (x ∈ res.1 ∧ x.Category = c) ↔
        x ∈ (sortByRecordID (records.filter (fun r => decide (r.Category = c)))).take n) := by
  obtain ⟨res, hres⟩ := applyBalance_returns allCategories records ranges
  obtain ⟨k, hI, hkept, _⟩ := applyBalance_invariant
    (fun k => ∀ a ∈ records, ∀ b ∈ records, a.Category = b.Category →
      a.RecordID < b.RecordID → k b.RecordID = true → k a.RecordID = true)
    allCategories records ranges
    (by
      intro a ha b _ _ _ _
      rw [markAllKept_apply, if_pos (List.mem_map.2 ⟨a, ha, rfl⟩)])
    (fun k total hk => applyBalancePass_downward allCategories records ranges k total hnd hk)
    res hres
  have hmem : ∀ x, x ∈ res.1 ↔ x ∈ records ∧ k x.RecordID = true := by
    intro x
    rw [hkept, filterKeptRecords_eq_filter, List.mem_filter]
  refine ⟨res, hres, ?_, ?_⟩
  · intro a ha b hb hcat hlt hbk
    exact (hmem a).2 ⟨ha, hI a ha b hb hcat hlt ((hmem b).1 hbk).2⟩
  · intro c
    have hstrict := sortByRecordID_strict
      (records.filter (fun r => decide (r.Category = c)))
      (List.Nodup.sublist (List.Sublist.map _ (List.filter_sublist _)) hnd)
    have hL : ∀ x, x ∈ sortByRecordID (records.filter (fun r => decide (r.Category = c))) ↔
        x ∈ records ∧ x.Category = c := by
      intro x
      rw [(sortByRecordID_perm _).mem_iff, List.mem_filter]
      simp
    obtain ⟨n, hn⟩ := downward_closed_is_take (fun x => k x.RecordID = true) _ hstrict
      (by
        intro a ha b hb hlt hbk
        obtain ⟨ha1, ha2⟩ := (hL a).1 ha
        obtain ⟨hb1, hb2⟩ := (hL b).1 hb
        exact hI a ha1 b hb1 (ha2.trans hb2.symm) hlt hbk)
    refine ⟨n, fun x => ?_⟩
    rw [← hn x, hL x, hmem x]
    tauto

/-- Instance of C33: the four "docs" records with the cap one half. -/
theorem applyBalance_sacrifices_highest_ids_witness :
    (fourDocs.map (fun r => r.RecordID)).Nodup ∧
    ∃ res, applyBalance ["docs"] fourDocs balanceRanges = some res ∧
      (∀ a ∈ fourDocs, ∀ b ∈ fourDocs, a.Category = b.Category →
        a.RecordID < b.RecordID → b ∈ res.1 → a ∈ res.1) ∧
      (∀ c : Category, ∃ n, ∀ x, (x ∈ res.1 ∧ x.Category = c) ↔
        x ∈ (sortByRecordID (fourDocs.filter (fun r => decide (r.Category = c)))).take n) :=
  ⟨by decide, applyBalance_sacrifices_highest_ids ["docs"] fourDocs balanceRanges (by decide)⟩

/-! ### Category balance: no category is emptied -/

theorem checkBalanceViolationsLoop_last (records : List collectedRecord) :
    ∀ (entries : List (Category × BalanceRange)) (acc : List String),
      ∀ v ∈ checkBalanceViolationsLoop records entries acc,
        v ∈ acc ∨ v.data.getLast? = some ']' := by
  intro entries
  induction entries with
  | nil => intro acc v hv; exact Or.inl hv
  | cons e rest ih =>
    intro acc v hv
    obtain ⟨category, rng⟩ := e
    rw [checkBalanceViolationsLoop.eq_2] at hv
    split_ifs at hv
    · rcases ih _ v hv with h | h
      · rcases List.mem_append.1 h with h | h
        · exact Or.inl h
        · right
          rw [List.mem_singleton] at h
          rw [h, String.data_append]
          exact List.getLast?_concat _
      · exact Or.inr h
    · exact ih _ v hv

/-- C36: for non-empty records with pairwise distinct `RecordID` values and every ranges,
`applyBalance` returns a non-empty kept list in which every category of the input still
has a record. The flags of the pass loop keep a record of every input category from the
start and after every pass, so that the filtered list is never empty (the `total == 0`
exit is not taken), and the returned violations are not the "no records remain" report. -/
theorem applyBalance_keeps_every_category (allCategories : List Category)
    (records : List collectedRecord) (ranges : Ranges) (hne : records ≠ [])
    (hnd : (records.map (fun r => r.RecordID)).Nodup) :
    (∃ res, applyBalance allCategories records ranges = some res ∧ res.1 ≠ [] ∧
      (∀ r ∈ records, ∃ x ∈ res.1, x.Category = r.Category) ∧
      "no records remain after balancing for configured balance ranges" ∉ res.2.2) ∧
    (∀ r ∈ records, ∃ x ∈ records, x.Category = r.Category ∧
      markAllKept records (fun _ => false) x.RecordID = true) ∧
    (∀ (k : String → Bool) (total : Int),
      (∀ r ∈ records, ∃ x ∈ records, x.Category = r.Category ∧ k x.RecordID = true) →
      filterKeptRecords records k ≠ [] ∧
      ∀ r ∈ records, ∃ x ∈ records, x.Category = r.Category ∧
        (applyBalancePass allCategories ranges k
          (groupRecordsByCategory (filterKeptRecords records k)) total).1 x.RecordID =
          true) := by
  have h0 : ∀ r ∈ records, ∃ x ∈ records, x.Category = r.Category ∧
      markAllKept records (fun _ => false) x.RecordID = true := by
    intro r hr
    exact ⟨r, hr, rfl, by rw [markAllKept_apply, if_pos (List.mem_map.2 ⟨r, hr, rfl⟩)]⟩
  have hstep : ∀ (k : String → Bool) (total : Int),
      (∀ r ∈ records, ∃ x ∈ records, x.Category = r.Category ∧ k x.RecordID = true) →
      ∀ r ∈ records, ∃ x ∈ records, x.Category = r.Category ∧
        (applyBalancePass allCategories ranges k
          (groupRecordsByCategory (filterKeptRecords records k)) total).1 x.RecordID =
          true := by
    intro k total hk r hr
    exact applyBalancePass_keeps_category allCategories records ranges k total hnd
      r.Category (hk r hr)
  have hnonempty : ∀ k : String → Bool,
      (∀ r ∈ records, ∃ x ∈ records, x.Category = r.Category ∧ k x.RecordID = true) →
      filterKeptRecords records k ≠ [] := by
    intro k hk
    obtain ⟨r, hr⟩ := List.exists_mem_of_ne_nil records hne
    obtain ⟨x, hx, _, hkx⟩ := hk r hr
    apply List.ne_nil_of_mem (a := x)
    rw [filterKeptRecords_eq_filter, List.mem_filter]
    exact ⟨hx, hkx⟩
  refine ⟨?_, h0, fun k total hk => ⟨hnonempty k hk, hstep k total hk⟩⟩
  obtain ⟨res, hres⟩ := applyBalance_returns allCategories records ranges
  obtain ⟨k, hk, hkept, hviol⟩ := applyBalance_invariant
    (fun k => ∀ r ∈ records, ∃ x ∈ records, x.Category = r.Category ∧ k x.RecordID = true)
    allCategories records ranges h0 hstep res hres
  have hres1 : res.1 ≠ [] := by rw [hkept]; exact hnonempty k hk
  refine ⟨res, hres, hres1, ?_, ?_⟩
  · intro r hr
    obtain ⟨x, hx, hcat, hkx⟩ := hk r hr
    refine ⟨x, ?_, hcat⟩
    rw [hkept, filterKeptRecords_eq_filter, List.mem_filter]
    exact ⟨hx, hkx⟩
  · rw [hviol]
    split_ifs with ht
    · simp
    · unfold checkBalanceViolations
      rw [if_neg (fun h => ht (Or.inl h)),
        if_neg (fun h => hres1 (List.length_eq_zero.1 h))]
      intro hmem
      have hmem2 := (List.perm_insertionSort _ _).subset hmem
      rcases checkBalanceViolationsLoop_last res.1 ranges [] _ hmem2 with h | h
      · cases h
      · revert h
        decide

/-- Instance of C36: the four "docs" records with the cap one half. -/
theorem applyBalance_keeps_every_category_witness :
    fourDocs ≠ [] ∧ (fourDocs.map (fun r => r.RecordID)).Nodup ∧
    ∃ res, applyBalance ["docs"] fourDocs balanceRanges = some res ∧ res.1 ≠ [] ∧
      (∀ r ∈ fourDocs, ∃ x ∈ res.1, x.Category = r.Category) ∧
      "no records remain after balancing for configured balance ranges" ∉ res.2.2 :=
  ⟨by decide, by decide,
    (applyBalance_keeps_every_category ["docs"] fourDocs balanceRanges (by decide)
      (by decide)).1⟩

/-! ### Repository normalisation: an input that already ends in `.git` -/

/-- C38 fails on the code: the `github.com/` case and the shorthand case append `.git`
without looking for the suffix, as only the `http://` / `https://` case does. For the
owner `acme` and the repository `widgets`, `github.com/acme/widgets.git` and
`acme/widgets.git` normalise to `https://github.com/acme/widgets.git.git`, while
`https://github.com/acme/widgets.git` normalises to itself. -/
theorem normalizeRepository_doubles_git_suffix :
    normalizeRepository "github.com/acme/widgets.git" =
      Except.ok "https://github.com/acme/widgets.git.git" ∧
    normalizeRepository "acme/widgets.git" =
      Except.ok "https://github.com/acme/widgets.git.git" ∧
    normalizeRepository "https://github.com/acme/widgets.git" =
      Except.ok "https://github.com/acme/widgets.git" ∧
    normalizeRepository "github.com/acme/widgets.git" ≠
      normalizeRepository "https://github.com/acme/widgets.git" ∧
    normalizeRepository "acme/widgets.git" ≠
      normalizeRepository "https://github.com/acme/widgets.git" := by
  have h1 : normalizeRepository "github.com/acme/widgets.git" =
      Except.ok "https://github.com/acme/widgets.git.git" := by rfl
  have h2 : normalizeRepository "acme/widgets.git" =
      Except.ok "https://github.com/acme/widgets.git.git" := by rfl
  have h3 : normalizeRepository "https://github.com/acme/widgets.git" =
      Except.ok "https://github.com/acme/widgets.git" := by rfl
  refine ⟨h1, h2, h3, ?_, ?_⟩
  · rw [h1, h3]
    intro h
    injection h with h
    revert h
    decide
  · rw [h2, h3]
    intro h
    injection h with h
    revert h
    decide

/-! ### Repository normalisation: idempotence -/

theorem dropWhile_head_neg (p : Char → Bool) :
    ∀ (l : List Char) (c : Char) (cs : List Char), l.dropWhile p = c :: cs → p c = false := by
  intro l
  induction l with
  | nil => intro c cs h; simp at h
  | cons x xs ih =>
    intro c cs h
    by_cases hx : p x = true
    · rw [List.dropWhile_cons_of_pos hx] at h
      exact ih c cs h
    · rw [List.dropWhile_cons_of_neg hx] at h
      injection h with h1 _
      rw [← h1]
      simpa using hx

/-- Trimming twice is trimming once. -/
theorem trim_idem (p : Char → Bool) (l : List Char) :
    (((l.dropWhile p).rdropWhile p).dropWhile p).rdropWhile p =
      (l.dropWhile p).rdropWhile p := by
  have h1 : ((l.dropWhile p).rdropWhile p).dropWhile p = (l.dropWhile p).rdropWhile p := by
    cases hd : l.dropWhile p with
    | nil => rfl
    | cons c cs =>
      have hc := dropWhile_head_neg p l c cs hd
      rw [rdropWhile_cons_of_neg p c cs hc, List.dropWhile_cons_of_neg (by simp [hc])]
  rw [h1, List.rdropWhile_idempotent]

theorem stringsTrimSpace_idem (s : String) :
    stringsTrimSpace (stringsTrimSpace s) = stringsTrimSpace s := by
  unfold stringsTrimSpace
  simp only [trim_idem]

/-- The result depends on the trimmed input only. -/
theorem normalizeRepository_trim (r : String) :
    normalizeRepository (stringsTrimSpace r) = normalizeRepository r := by
  unfold normalizeRepository
  simp only [stringsTrimSpace_idem]

theorem rdropWhile_append_of_not_all (p : Char → Bool) (a : List Char) :
    ∀ x : List Char, (∃ c ∈ x, p c = false) →
      (a ++ x).rdropWhile p = a ++ x.rdropWhile p := by
  intro x
  induction x using List.reverseRecOn with
  | nil => rintro ⟨c, hc, _⟩; cases hc
  | append_singleton xs e ih =>
    rintro ⟨c, hc, hpc⟩
    by_cases he : p e = true
    · rw [← List.append_assoc, List.rdropWhile_concat_pos _ _ _ he,
        List.rdropWhile_concat_pos _ _ _ he]
      apply ih
      rcases List.mem_append.1 hc with h | h
      · exact ⟨c, h, hpc⟩
      · rw [List.mem_singleton] at h
        rw [h] at hpc
        rw [hpc] at he
        cases he
    · rw [← List.append_assoc, List.rdropWhile_concat_neg _ _ _ he,
        List.rdropWhile_concat_neg _ _ _ he, List.append_assoc]

/-- A string that starts with `h` and ends in `.git` is its own trimmed form. -/
theorem stringsTrimSpace_h_git (y : String) (rest : List Char)
    (h : (y ++ ".git").data = 'h' :: rest) :
    stringsTrimSpace (y ++ ".git") = y ++ ".git" := by
  apply String.ext
  unfold stringsTrimSpace
  simp only
  rw [h, List.dropWhile_cons_of_neg (by decide), ← h, String.data_append]
  have : y.data ++ ".git".data = (y.data ++ ['.', 'g', 'i']) ++ ['t'] := by simp
  rw [this]
  exact List.rdropWhile_concat_neg _ _ _ (by decide)

/-- A remote that starts with `http://` or `https://` and ends in `.git` normalises to
itself. -/
theorem normalizeRepository_http_git (y : String)
    (h : stringsStartsWith (y ++ ".git") "http://" = true ∨
      stringsStartsWith (y ++ ".git") "https://" = true) :
    normalizeRepository (y ++ ".git") = Except.ok (y ++ ".git") := by
  obtain ⟨rest, hrest⟩ : ∃ rest, (y ++ ".git").data = 'h' :: rest := by
    rcases h with h | h
    · obtain ⟨t, ht⟩ := (stringsStartsWith_iff _ _).1 h
      exact ⟨_, ht.symm⟩
    · obtain ⟨t, ht⟩ := (stringsStartsWith_iff _ _).1 h
      exact ⟨_, ht.symm⟩
  have hne : y ++ ".git" ≠ "" := by
    intro h0
    rw [h0] at hrest
    cases hrest
  rw [normalizeRepository_follows_table _ hne (stringsTrimSpace_h_git y rest hrest)]
  have hgit : stringsStartsWith (y ++ ".git") "git@" = false := by
    simp [stringsStartsWith, hrest, List.isPrefixOf]
  have hssh : stringsStartsWith (y ++ ".git") "ssh://" = false := by
    simp [stringsStartsWith, hrest, List.isPrefixOf]
  have hend : stringsEndsWith (y ++ ".git") ".git" = true :=
    (stringsEndsWith_iff _ _).2 ⟨y.data, by rw [String.data_append]⟩
  unfold normalizeTable
  rw [if_neg (by simp [hgit, hssh]), if_pos h, stringsTrimRight_dot_git, if_pos hend]

/-- Trimming the trailing slashes of a string that starts with `http://` or `https://`
keeps that start, unless nothing but slashes follows it. -/
theorem stringsTrimRight_http (repo P : String) (hP : P = "http://" ∨ P = "https://")
    (h : stringsStartsWith repo P = true) :
    stringsStartsWith (stringsTrimRight repo "/") P = true ∨
      stringsTrimRight repo "/" = "http:" ∨ stringsTrimRight repo "/" = "https:" := by
  obtain ⟨x, hx⟩ := (stringsStartsWith_iff _ _).1 h
  by_cases hall : ∀ c ∈ x, (fun c => "/".data.contains c) c = true
  · right
    have ht : stringsTrimRight repo "/" = stringsTrimRight P "/" := by
      apply String.ext
      unfold stringsTrimRight
      simp only
      rw [← hx, rdropWhile_append_of_all _ _ _ hall]
    rw [ht]
    rcases hP with rfl | rfl
    · exact Or.inl (by decide)
    · exact Or.inr (by decide)
  · left
    push_neg at hall
    obtain ⟨c, hc, hpc⟩ := hall
    rw [stringsStartsWith_iff]
    unfold stringsTrimRight
    simp only
    rw [← hx, rdropWhile_append_of_not_all _ _ _ ⟨c, hc, by simpa using hpc⟩]
    exact List.prefix_append _ _

/-- C37: `normalizeRepository` is idempotent. When it succeeds on `r` with the remote
`out`, it succeeds on `out` with the same remote, so that normalising a stored remote
again leaves its cache key as it is. -/
theorem normalizeRepository_idempotent (lib : GoLibrary) (r out : String)
    (h : normalizeRepository r = Except.ok out) :
    normalizeRepository out = Except.ok out ∧
    ∀ out2, normalizeRepository out = Except.ok out2 →
      cacheKey lib out2 = cacheKey lib out := by
  have key : normalizeRepository out = Except.ok out := by
    have hne : stringsTrimSpace r ≠ "" := by
      intro h0
      unfold normalizeRepository at h
      simp only [h0, if_true] at h
      cases h
    rw [← normalizeRepository_trim,
      normalizeRepository_follows_table _ hne (stringsTrimSpace_idem r)] at h
    injection h with h
    have htrim := stringsTrimSpace_idem r
    generalize stringsTrimSpace r = repo at h hne htrim
    have hfix : out = repo → normalizeTable repo = repo →
        normalizeRepository out = Except.ok out := by
      intro ho hr
      rw [ho, normalizeRepository_follows_table _ hne htrim, hr]
    have hstart : ∀ y : String,
        stringsStartsWith ("https://" ++ y ++ ".git") "https://" = true := by
      intro y
      rw [stringsStartsWith_iff]
      simp only [String.data_append, List.append_assoc]
      exact List.prefix_append _ _
    unfold normalizeTable at h
    split_ifs at h with hA hB hB1 hC hD
    · exact hfix h.symm (by unfold normalizeTable; rw [if_pos hA])
    · -- `http(s)://`, the trimmed string ends in `.git`
      subst h
      obtain ⟨y, hy⟩ := (stringsEndsWith_iff _ _).1 hB1
      have hyy : stringsTrimRight repo "/" = String.mk y ++ ".git" := by
        apply String.ext
        rw [String.data_append]
        exact hy.symm
      have hcases : stringsStartsWith (stringsTrimRight repo "/") "http://" = true ∨
          stringsStartsWith (stringsTrimRight repo "/") "https://" = true := by
        rcases hB with hB | hB
        · rcases stringsTrimRight_http repo "http://" (Or.inl rfl) hB with h1 | h1 | h1
          · exact Or.inl h1
          · rw [h1] at hB1
            exact absurd hB1 (by decide)
          · rw [h1] at hB1
            exact absurd hB1 (by decide)
        · rcases stringsTrimRight_http repo "https://" (Or.inr rfl) hB with h1 | h1 | h1
          · exact Or.inr h1
          · rw [h1] at hB1
            exact absurd hB1 (by decide)
          · rw [h1] at hB1
            exact absurd hB1 (by decide)
      rw [hyy] at hcases ⊢
      exact normalizeRepository_http_git _ hcases
    · -- `http(s)://`, `.git` is appended
      subst h
      have hext : ∀ P : String, stringsStartsWith (stringsTrimRight repo "/") P = true →
          stringsStartsWith (stringsTrimRight repo "/" ++ ".git") P = true := by
        intro P hP
        rw [stringsStartsWith_iff] at hP ⊢
        rw [String.data_append]
        exact hP.trans (List.prefix_append _ _)
      rcases hB with hB | hB
      · rcases stringsTrimRight_http repo "http://" (Or.inl rfl) hB with h1 | h1 | h1
        · exact normalizeRepository_http_git _ (Or.inl (hext _ h1))
        · rw [h1]; rfl
        · rw [h1]; rfl
      · rcases stringsTrimRight_http repo "https://" (Or.inr rfl) hB with h1 | h1 | h1
        · exact normalizeRepository_http_git _ (Or.inr (hext _ h1))
        · rw [h1]; rfl
        · rw [h1]; rfl
    · subst h
      exact normalizeRepository_http_git _ (Or.inr (hstart _))
    · subst h
      have : "https://github.com/" ++ stringsTrimRight repo "/" ++ ".git" =
          "https://" ++ ("github.com/" ++ stringsTrimRight repo "/") ++ ".git" := by
        apply String.ext
        simp [String.data_append]
      rw [this]
      exact normalizeRepository_http_git _ (Or.inr (hstart _))
    · exact hfix h.symm (by
        unfold normalizeTable
        rw [if_neg hA, if_neg hB, if_neg hC, if_neg hD])
  exact ⟨key, fun out2 h2 => by rw [key] at h2; injection h2 with h2; rw [h2]⟩

/-- Instance of C37: the shorthand `acme/widgets` and the remote it normalises to. -/
theorem normalizeRepository_idempotent_witness :
    normalizeRepository "acme/widgets" = Except.ok "https://github.com/acme/widgets.git" ∧
    normalizeRepository "https://github.com/acme/widgets.git" =
      Except.ok "https://github.com/acme/widgets.git" :=
  ⟨rfl, (normalizeRepository_idempotent exampleLibrary "acme/widgets"
    "https://github.com/acme/widgets.git" rfl).1⟩

/-! ### Source resolution: where the returned path lies -/

/-- On an unrooted path, a `..` at the head of the written elements stays there. -/
theorem cleanElements_dotdot_head (elems : List (List Char)) :
    ∀ t : List (List Char),
      ['.', '.'] ∈ cleanElements false elems (['.', '.'] :: t) := by
  induction elems with
  | nil => intro t; simp [cleanElements]
  | cons e rest ih =>
    intro t
    rw [cleanElements.eq_2]
    split_ifs with h1 h2 h3 h4
    · exact ih t
    · obtain ⟨_, hlast⟩ := h3
      cases t with
      | nil => simp at hlast
      | cons x xs =>
        have : (['.', '.'] :: x :: xs).dropLast = ['.', '.'] :: (x :: xs).dropLast := rfl
        rw [this]
        exact ih _
    · cases h4
    · exact ih _
    · exact ih _

/-- When cleaning `elems` on its own never climbs above its start, cleaning `elems` after
other elements leaves those elements as they are. -/
theorem cleanElements_after (rooted : Bool) (elems : List (List Char)) :
    ∀ (s out0 : List (List Char)), ['.', '.'] ∉ s →
      ['.', '.'] ∉ cleanElements false elems s →
      cleanElements rooted elems (out0 ++ s) = out0 ++ cleanElements false elems s := by
  induction elems with
  | nil => intro s out0 _ _; rfl
  | cons e rest ih =>
    intro s out0 hs hres
    rw [cleanElements.eq_2] at hres ⊢
    rw [cleanElements.eq_2]
    by_cases h1 : e = [] ∨ e = ['.']
    · rw [if_pos h1] at hres ⊢
      rw [if_pos h1]
      exact ih s out0 hs hres
    · rw [if_neg h1] at hres ⊢
      rw [if_neg h1]
      by_cases h2 : e = ['.', '.']
      · rw [if_pos h2] at hres ⊢
        rw [if_pos h2]
        cases hsn : s with
        | nil =>
          exfalso
          rw [hsn] at hres
          rw [if_neg (by simp), if_neg (by simp), h2] at hres
          exact hres (cleanElements_dotdot_head rest [])
        | cons x xs =>
          have hne : s ≠ [] := by rw [hsn]; simp
          have hlast : s.getLast? ≠ some ['.', '.'] := by
            intro hl
            exact hs (List.mem_of_getLast?_eq_some hl)
          have hlast2 : (out0 ++ s).getLast? ≠ some ['.', '.'] := by
            rw [List.getLast?_append_of_ne_nil _ hne]
            exact hlast
          rw [← hsn]
          rw [if_pos ⟨hne, hlast⟩] at hres
          rw [if_pos ⟨by simp [hne], hlast2⟩, if_pos ⟨hne, hlast⟩,
            List.dropLast_append_of_ne_nil _ hne]
          rw [hsn] at hres
          exact ih _ out0 (fun h => hs (List.mem_of_mem_dropLast h))
            (by rw [hsn]; exact hres)
      · rw [if_neg h2] at hres ⊢
        rw [if_neg h2, List.append_assoc]
        exact ih (s ++ [e]) out0 (by
          intro h
          rcases List.mem_append.1 h with h | h
          · exact hs h
          · rw [List.mem_singleton] at h
            exact h2 h.symm) hres

theorem filepathJoin_pair (a b : String) (ha : a ≠ "") :
    filepathJoin [a, b] = filepathClean (String.mk (a.data ++ '/' :: b.data)) := by
  simp [filepathJoin, List.dropWhile, ha, List.intercalate, List.intersperse]

theorem filepathClean_ne_empty (p : String) : filepathClean p ≠ "" := by
  rw [filepathClean_eq]
  split_ifs
  · intro h0
    have := congrArg String.data h0
    simp at this
  · decide
  · rename_i h
    intro h0
    apply h
    have := congrArg String.data h0
    simpa using this

theorem stringsStartsWith_append_slash (x y : List Char) (hx : x ≠ []) :
    stringsStartsWith (String.mk (x ++ '/' :: y)) "/" = stringsStartsWith (String.mk x) "/" := by
  cases x with
  | nil => exact absurd rfl hx
  | cons c cs => simp [stringsStartsWith, List.isPrefixOf]

/-- A cache key is an ordinary path element: not empty, not `.` or `..`, and free of the
separator. -/
theorem cacheKey_normal (lib : GoLibrary) (remote : String) :
    (cacheKey lib remote).data ≠ [] ∧ (cacheKey lib remote).data ≠ ['.'] ∧
    (cacheKey lib remote).data ≠ ['.', '.'] ∧ '/' ∉ (cacheKey lib remote).data := by
  have hlen : (cacheKey lib remote).data.length = 16 := by
    have : (cacheKey lib remote).length = 16 := by
      unfold cacheKey
      simp only [hexEncodeToString_length, List.length_take, List.length_ofFn]
      rfl
    exact this
  have hmem : ∀ c ∈ (cacheKey lib remote).data, c ∈ hextable := hexEncodeToString_mem _
  refine ⟨?_, ?_, ?_, ?_⟩
  · intro h0
    rw [h0] at hlen
    simp at hlen
  · intro h0
    rw [h0] at hlen
    simp at hlen
  · intro h0
    rw [h0] at hlen
    simp at hlen
  · intro h0
    have := hmem _ h0
    revert this
    decide

/-- Cleaning `X/root`, where the elements of `X` do not clean away and `root` on its own
never climbs above its start, gives the cleaned `X` or the cleaned `X` followed by the
cleaned elements of `root`. -/
theorem filepathClean_descendant (X root : List Char) (hX : X ≠ [])
    (hO : cleanElements (stringsStartsWith (String.mk X) "/") (splitSlash X) [] ≠ [])
    (hdd : ['.', '.'] ∉ cleanElements false (splitSlash root) []) :
    filepathClean (String.mk ((filepathClean (String.mk X)).data ++ '/' :: root)) =
      if cleanElements false (splitSlash root) [] = [] then filepathClean (String.mk X)
      else filepathClean (String.mk X) ++ "/" ++
        String.mk (List.intercalate ['/'] (cleanElements false (splitSlash root) [])) := by
  have hclean := cleanElements_clean (stringsStartsWith (String.mk X) "/") (splitSlash X) []
    (splitSlash_no_sep X) ⟨rfl, by simp⟩
  have hafter := cleanElements_after (stringsStartsWith (String.mk X) "/") (splitSlash root)
    [] (cleanElements (stringsStartsWith (String.mk X) "/") (splitSlash X) []) (by simp) hdd
  rw [List.append_nil] at hafter
  rw [filepathClean_clean_append X root hX, filepathClean_eq (String.mk (X ++ '/' :: root)),
    filepathClean_eq (String.mk X)]
  simp only [stringsStartsWith_append_slash X root hX, splitSlash_append_sep,
    cleanElements_append, hafter]
  generalize cleanElements (stringsStartsWith (String.mk X) "/") (splitSlash X) [] = O
    at hO hclean
  generalize cleanElements false (splitSlash root) [] = rel
  obtain ⟨a, l, rfl⟩ : ∃ a l, O = a :: l := by
    cases O with
    | nil => exact absurd rfl hO
    | cons a l => exact ⟨a, l, rfl⟩
  have hne : List.intercalate ['/'] (a :: l) ≠ [] := by
    obtain ⟨tail, htail⟩ := intercalate_cons_eq_append ['/'] a l
    rw [htail]
    have := (hclean.2 a (List.mem_cons_self _ _)).1
    simp [this]
  by_cases hrel : rel = []
  · subst hrel
    simp only [List.append_nil, if_true]
  · rw [if_neg hrel, intercalate_append _ _ _ (by simp) hrel]
    have hne2 : List.intercalate ['/'] (a :: l) ++ ['/'] ++ List.intercalate ['/'] rel ≠ [] := by
      simp [hne]
    cases stringsStartsWith (String.mk X) "/" with
    | true =>
      simp only [if_true]
      apply String.ext
      simp [String.data_append]
    | false =>
      simp only [Bool.false_eq_true, if_false, if_neg hne, if_neg hne2]
      apply String.ext
      simp [String.data_append]

/-- C39 as stated fails: nothing in the resolver looks at the `..` elements of `Root`. In
a world where every path exists, the source with the relative root `../escape` resolves
to `/tmp/cache/escape`, which is neither the directory of the cached repository
`/tmp/cache/0000000000000000` nor below it. -/
theorem resolveSource_root_escapes_repoDir :
    filepathIsAbs (stringsTrimSpace escapeSource.Root) = false ∧
    normalizeRepository escapeSource.Repository =
      Except.ok "https://github.com/acme/widgets.git" ∧
    filepathJoin ["/tmp/cache", cacheKey exampleLibrary "https://github.com/acme/widgets.git"] =
      "/tmp/cache/0000000000000000" ∧
    (resolveSourceWithRunnerAndProgress exampleLibrary exampleEnv escapeSource "/tmp/cache"
      false []).1 = Except.ok "/tmp/cache/escape" ∧
    ("/tmp/cache/escape" : String) ≠ "/tmp/cache/0000000000000000" ∧
    stringsStartsWith "/tmp/cache/escape" ("/tmp/cache/0000000000000000" ++ "/") = false := by
  refine ⟨by decide, by rfl, by decide, by rfl, by decide, by decide⟩

/-- C39, amended: for every source with a relative root whose cleaned form has no `..`
element, a successful remote resolution returns the directory of the cached repository
`repoDir = Join(cacheDir, cacheKey)` or a path below it, `repoDir/e1/.../en` with
elements that are not empty, `.` or `..`. -/
theorem resolveSource_stays_below_repoDir (lib : GoLibrary) (env : Env) (src : SourceConfig)
    (cacheDir : String) (progress : Bool) (t : List Event) (path : String)
    (hrem : filepathIsAbs (stringsTrimSpace src.Root) = false)
    (hdd : ['.', '.'] ∉ cleanElements false (splitSlash (stringsTrimSpace src.Root).data) [])
    (hok : (resolveSourceWithRunnerAndProgress lib env src cacheDir progress t).1 =
      Except.ok path) :
    ∃ remote, normalizeRepository src.Repository = Except.ok remote ∧
      (path = filepathJoin [cacheDir, cacheKey lib remote] ∨
        ∃ rel : List (List Char), rel ≠ [] ∧
          (∀ e ∈ rel, e ≠ [] ∧ e ≠ ['.'] ∧ e ≠ ['.', '.'] ∧ '/' ∉ e) ∧
          path = filepathJoin [cacheDir, cacheKey lib remote] ++ "/" ++
            String.mk (List.intercalate ['/'] rel)) := by
  have hroot : stringsTrimSpace src.Root ≠ "" := by
    intro h0
    unfold resolveSourceWithRunnerAndProgress at hok
    simp only at hok
    rw [if_pos h0] at hok
    cases hok
  have hR : resolveSourceWithRunnerAndProgress lib env src cacheDir progress t =
      resolveRemoteSource lib env src (stringsTrimSpace src.Root) cacheDir progress t := by
    unfold resolveSourceWithRunnerAndProgress
    simp only
    rw [if_neg hroot, if_neg (by simp [hrem])]
  rw [hR] at hok
  rcases resolveRemoteSource_outcome lib env src (stringsTrimSpace src.Root) cacheDir
      progress t with ⟨⟨e, he⟩, _⟩ | ⟨remote, tv, hrepo, hcd, hval⟩
  · rw [he] at hok
    cases hok
  refine ⟨remote, hrepo, ?_⟩
  have hpath : path = filepathClean (filepathJoin [filepathJoin [cacheDir, cacheKey lib remote],
      filepathFromSlash (stringsTrimSpace src.Root)]) := by
    rw [hval] at hok
    unfold validateRepoRoot at hok
    split at hok
    · cases hok
    · cases hok
    · injection hok with hok
      exact hok.symm
  have hkey := cacheKey_normal lib remote
  have hcdd : cacheDir.data ≠ [] := fun h => hcd (String.ext h)
  have hX : cacheDir.data ++ '/' :: (cacheKey lib remote).data ≠ [] := by simp
  have hO : cleanElements
      (stringsStartsWith (String.mk (cacheDir.data ++ '/' :: (cacheKey lib remote).data)) "/")
      (splitSlash (cacheDir.data ++ '/' :: (cacheKey lib remote).data)) [] ≠ [] := by
    rw [splitSlash_append_sep, cleanElements_append,
      splitSlash_of_no_sep _ hkey.2.2.2,
      cleanElements_normal _ [(cacheKey lib remote).data] _ (by
        intro e he
        rw [List.mem_singleton] at he
        rw [he]
        exact ⟨hkey.1, hkey.2.1, hkey.2.2.1⟩)]
    simp
  have hrelclean := cleanElements_clean false
    (splitSlash (stringsTrimSpace src.Root).data) []
    (splitSlash_no_sep _) ⟨rfl, by simp⟩
  rw [filepathJoin_pair _ _ (by rw [filepathJoin_pair _ _ hcd]; exact filepathClean_ne_empty _),
    filepathClean_idem, filepathJoin_pair _ _ hcd] at hpath
  unfold filepathFromSlash at hpath
  rw [filepathClean_descendant _ _ hX hO hdd] at hpath
  rw [filepathJoin_pair _ _ hcd]
  split_ifs at hpath with hrel
  · exact Or.inl hpath
  · refine Or.inr ⟨_, hrel, ?_, hpath⟩
    intro e he
    have h := hrelclean.2 e he
    exact ⟨h.1, h.2.1, fun h2 => hdd (h2 ▸ he), h.2.2⟩

/-- Instance of C39: the source with the root `sub/dir` resolves to a path two elements
below the directory of the cached repository. -/
theorem resolveSource_stays_below_repoDir_witness :
    ∃ remote, normalizeRepository remoteSource.Repository = Except.ok remote ∧
      ("/tmp/cache/0000000000000000/sub/dir" =
          filepathJoin ["/tmp/cache", cacheKey exampleLibrary remote] ∨
        ∃ rel : List (List Char), rel ≠ [] ∧
          (∀ e ∈ rel, e ≠ [] ∧ e ≠ ['.'] ∧ e ≠ ['.', '.'] ∧ '/' ∉ e) ∧
          "/tmp/cache/0000000000000000/sub/dir" =
            filepathJoin ["/tmp/cache", cacheKey exampleLibrary remote] ++ "/" ++
              String.mk (List.intercalate ['/'] rel)) :=
  resolveSource_stays_below_repoDir exampleLibrary exampleEnv remoteSource "/tmp/cache"
    false [] "/tmp/cache/0000000000000000/sub/dir" (by decide) (by decide) (by rfl)

/-! ### Table rows: escaped pipes -/

/-- C31 fails on the code: an escaped pipe is not taken as a cell separator, but it is
written to the cell with its backslash doubled, since the raw string literal that
`splitRow` writes holds two backslashes. For the row of the test
`TestSplitRow_PreservesEscapedPipes` the first cell has two backslashes before the pipe,
where the test expects the cell as written in the input. -/
theorem splitRow_doubles_backslash :
    splitRow "| a \\| b | c |" = ["a \\\\| b", "c"] ∧
    splitRow "| a \\| b | c |" ≠ ["a \\| b", "c"] := by
  have h : splitRow "| a \\| b | c |" = ["a \\\\| b", "c"] := by rfl
  refine ⟨h, ?_⟩
  rw [h]
  decide

/-! ### Paragraph conciseness: the threshold that is enforced -/

/-- What `Check` enforces after a setting `max-verbosity: v` with `0 ≤ v ≤ 100`: the
setting is accepted, and a paragraph that is not a table and has enough words is flagged
exactly when its verbosity exceeds `v`, or exceeds the default 30 when `v` is 0. -/
theorem applyMaxVerbosity_enforced (others : Rule → String → SettingValue → Except String Rule)
    (r : Rule) (v : ℚ) (h0 : 0 ≤ v) (h100 : v ≤ 100) (words : Int) (verbosity : ℚ)
    (hw : r.minWords ≤ words) :
    Rule.ApplySettings others r [("max-verbosity", SettingValue.float64 v)] =
      Except.ok { r with MaxVerbosity := v } ∧
    (Rule.checkParagraph { r with MaxVerbosity := v } false words verbosity = true ↔
      (if v = 0 then defaultMaxVerbosity else v) < verbosity) := by
  constructor
  · simp only [Rule.ApplySettings, if_true, Rule.applyMaxVerbosity, toFloat]
    rw [if_neg (by push_neg; exact ⟨h0, h100⟩)]
  · have hmw : ({ r with MaxVerbosity := v } : Rule).minWords = r.minWords := rfl
    unfold Rule.checkParagraph
    rw [hmw, if_neg (by simp), if_neg (not_lt.2 hw)]
    unfold Rule.maxVerbosity
    simp only
    split_ifs with h1 h2 h2
    · simp [not_lt.2 h2]
    · simp [lt_of_not_le h2]
    · simp [not_lt.2 h2]
    · simp [lt_of_not_le h2]

/-- C40 fails on the code at `v = 0`: the setting `max-verbosity: 0` is accepted and
stored, and `Rule.maxVerbosity` then reads the stored 0 as "not set" and enforces the
default 30. A paragraph of 50 words with verbosity 10 is not flagged although 10 is
greater than 0. -/
theorem maxVerbosity_zero_enforces_default :
    Rule.ApplySettings (fun r _ _ => Except.ok r) defaultRule
        [("max-verbosity", SettingValue.float64 0)] =
      Except.ok { defaultRule with MaxVerbosity := 0 } ∧
    ({ defaultRule with MaxVerbosity := 0 } : Rule).maxVerbosity = 30 ∧
    ({ defaultRule with MaxVerbosity := 0 } : Rule).minWords ≤ 50 ∧
    (0 : ℚ) < 10 ∧
    Rule.checkParagraph { defaultRule with MaxVerbosity := 0 } false 50 10 = false := by
  have hmax : ({ defaultRule with MaxVerbosity := 0 } : Rule).maxVerbosity = 30 := by
    simp [Rule.maxVerbosity, defaultMaxVerbosity]
  have hmin : ({ defaultRule with MaxVerbosity := 0 } : Rule).minWords = 20 := by
    simp [Rule.minWords, defaultRule, defaultMinWords]
  refine ⟨?_, hmax, by rw [hmin]; norm_num, by norm_num, ?_⟩
  · exact (applyMaxVerbosity_enforced _ defaultRule 0 le_rfl (by norm_num) 50 10
      (by simp [Rule.minWords, defaultRule, defaultMinWords])).1
  · unfold Rule.checkParagraph
    rw [hmax, hmin]
    norm_num

end Corpus
